import Mathlib

/-!
Weighted perfect matching library: verification development.

Shallow embedding of the solver (`PerfectMatchingFinder.cpp`), the two graph
classes, the converter and the facade, followed by the theorems about them.

Conventions of the embedding.
* A `std::vector` indexed by clique id is a total function on `Nat`; the
  sentinel `(unsigned int)(-1)` and the `NULL` edge pointer are `none`.
* An `Edge*` is the pair of the position of the edge in `_edges` and the edge
  stored there; pointer comparison is comparison of positions.
* `int` arithmetic is computed in `Int`; a result outside the 32-bit range is
  signed overflow, reported as `Outcome.overflow`; a `NULL` dereference or an
  out-of-range index is reported as `Outcome.fault`. Both are undefined
  behaviour in the source.
* `WPMASSERT` expands to nothing unless `_DEBUG` is defined; the embedding is of
  that default build.
* Unbounded loops take a fuel argument; `Outcome.running` means the fuel ran
  out before the loop ended.
-/

namespace wpm

/-! ## Machine integers -/

/-- Value of `std::numeric_limits<int>::min()`. -/
def INT_MIN : Int := -2147483648

/-- Value of `std::numeric_limits<int>::max()`. -/
def INT_MAX : Int := 2147483647

/-- Value of `(unsigned int)(-1)`. -/
def UINT_MAX : Nat := 4294967295

/-- Whether an integer is representable as a 32-bit `int`. -/
def inIntRange (x : Int) : Bool := decide (INT_MIN ≤ x) && decide (x ≤ INT_MAX)

/-- Result of a call: a returned value, a signed overflow, a null or
out-of-range access, or still running when the fuel ran out. -/
inductive Outcome (α : Type) where
  | done : α → Outcome α
  | overflow : Outcome α
  | fault : Outcome α
  | running : Outcome α
  deriving DecidableEq

/-- Assignment `v[i] = x` on a vector seen as a function. -/
def upd {α : Type} (f : Nat → α) (i : Nat) (x : α) : Nat → α :=
  fun j => if j = i then x else f j

/-! ## BipartiteMatchingGraph -/

/-- Edge of the bipartite graph: `score`, and the clique ids of `v_source->parent`
and `v_target->parent`. -/
structure BMEdge where
  score : Int
  v_source : Nat
  v_target : Nat
  deriving DecidableEq

/-- Pointer to an edge of `_edges`: its position and the edge stored there. -/
abbrev EdgeRef := Nat × BMEdge

/-- The graph: `_cliques` (clique `k` has `cid = k`) and `_edges`. -/
structure BipartiteMatchingGraph where
  ncliques : Nat
  edges : List BMEdge
  deriving DecidableEq

namespace BipartiteMatchingGraph

/-- Graph made by `startNewGraph(ncliques)`. -/
def startNewGraph (ncliques : Nat) : BipartiteMatchingGraph := ⟨ncliques, []⟩

/-- Function `addDirectedEdge` (and `_addEdge`): appends the edge. -/
def addDirectedEdge (g : BipartiteMatchingGraph) (cid_source cid_target : Nat) (score : Int) :
    BipartiteMatchingGraph :=
  { g with edges := g.edges ++ [⟨score, cid_source, cid_target⟩] }

/-- Function `getNumberCliques`. -/
def getNumberCliques (g : BipartiteMatchingGraph) : Nat := g.ncliques

/-- Incidence list `_cliques[cid].v_source.edges`: the edges leaving the source
half of clique `cid`, in insertion order. -/
def sourceEdges (g : BipartiteMatchingGraph) (cid : Nat) : List EdgeRef :=
  g.edges.enum.filter (fun e => decide (e.2.v_source = cid))

/-- Incidence list `_cliques[cid].v_target.edges`. -/
def targetEdges (g : BipartiteMatchingGraph) (cid : Nat) : List EdgeRef :=
  g.edges.enum.filter (fun e => decide (e.2.v_target = cid))

end BipartiteMatchingGraph

/-! ## PerfectMatchingFinder: Matching -/

/-- Class `impl::Matching`. -/
structure Matching where
  source_matches : Nat → Option Nat
  source_edges : Nat → Option EdgeRef
  target_matches : Nat → Option Nat
  target_edges : Nat → Option EdgeRef
  edges : List EdgeRef

namespace Matching

/-- Constructor: the empty matching. -/
def empty : Matching :=
  ⟨fun _ => none, fun _ => none, fun _ => none, fun _ => none, []⟩

/-- Function `getNumberEdges`. -/
def getNumberEdges (m : Matching) : Nat := m.edges.length

/-- Function `isSource`. -/
def isSource (m : Matching) (source_cid : Nat) : Bool := (m.source_matches source_cid).isSome

/-- Function `isTarget`. -/
def isTarget (m : Matching) (target_cid : Nat) : Bool := (m.target_matches target_cid).isSome

/-- Function `getEdgeFromTarget`. -/
def getEdgeFromTarget (m : Matching) (target_cid : Nat) : Option EdgeRef := m.target_edges target_cid

/-- Function `addEdge`. -/
def addEdge (m : Matching) (edge : EdgeRef) : Matching :=
  let s := edge.2.v_source
  let t := edge.2.v_target
  { edges := m.edges ++ [edge]
    source_matches := upd m.source_matches s (some t)
    target_matches := upd m.target_matches t (some s)
    source_edges := upd m.source_edges s (some edge)
    target_edges := upd m.target_edges t (some edge) }

/-- Pointer comparison `p == edge` where `p` may be `NULL`. -/
def samePtr (p : Option EdgeRef) (edge : EdgeRef) : Bool :=
  match p with
  | some q => decide (q.1 = edge.1)
  | none => false

/-- Function `removeEdge` on a non-null pointer. -/
def removeEdge (m : Matching) (edge : EdgeRef) : Matching :=
  if m.edges.any (fun q => decide (q.1 = edge.1)) then
    let s := edge.2.v_source
    let t := edge.2.v_target
    let hitS := samePtr (m.source_edges s) edge
    let hitT := samePtr (m.target_edges t) edge
    { edges := m.edges.eraseP (fun q => decide (q.1 = edge.1))
      source_matches := if hitS then upd m.source_matches s none else m.source_matches
      source_edges := if hitS then upd m.source_edges s none else m.source_edges
      target_matches := if hitT then upd m.target_matches t none else m.target_matches
      target_edges := if hitT then upd m.target_edges t none else m.target_edges }
  else m

/-- Function `removeEdge` on a possibly null pointer: `NULL` is never found in
`_edges`, so the call returns at once. -/
def removeEdgePtr (m : Matching) (edge : Option EdgeRef) : Matching :=
  match edge with
  | some e => m.removeEdge e
  | none => m

end Matching

/-! ## PerfectMatchingFinder: AlternatingTree -/

/-- Class `impl::AlternatingTree`. -/
structure AlternatingTree where
  set_S : Nat → Bool
  set_T : Nat → Bool
  source_prev : Nat → Option Nat
  target_prev : Nat → Option Nat
  source_prev_edge : Nat → Option EdgeRef
  target_prev_edge : Nat → Option EdgeRef
  root_exposed_source_vertex : Nat
  end_exposed_target_vertex : Option Nat

namespace AlternatingTree

/-- Constructor. -/
def init (cid_root_exposed_source_vertex : Nat) : AlternatingTree :=
  { set_S := upd (fun _ => false) cid_root_exposed_source_vertex true
    set_T := fun _ => false
    source_prev := fun _ => none
    target_prev := fun _ => none
    source_prev_edge := fun _ => none
    target_prev_edge := fun _ => none
    root_exposed_source_vertex := cid_root_exposed_source_vertex
    end_exposed_target_vertex := none }

/-- Function `addTwoEdges`. -/
def addTwoEdges (a : AlternatingTree) (cid_s1 : Option Nat) (cid_t cid_s2 : Nat)
    (edge_s1_t : Option EdgeRef) (edge_t_s2 : EdgeRef) : AlternatingTree :=
  { a with
    set_T := upd a.set_T cid_t true
    set_S := upd a.set_S cid_s2 true
    source_prev := upd a.source_prev cid_s2 (some cid_t)
    source_prev_edge := upd a.source_prev_edge cid_s2 (some edge_t_s2)
    target_prev := upd a.target_prev cid_t cid_s1
    target_prev_edge := upd a.target_prev_edge cid_t edge_s1_t }

/-- Function `addSingleEdge`. -/
def addSingleEdge (a : AlternatingTree) (cid_s1 : Option Nat) (cid_t : Nat)
    (edge_s1_t : Option EdgeRef) : AlternatingTree :=
  { a with
    set_T := upd a.set_T cid_t true
    target_prev := upd a.target_prev cid_t cid_s1
    target_prev_edge := upd a.target_prev_edge cid_t edge_s1_t }

/-- Function `setEndExposedTargetVertex`. -/
def setEndExposedTargetVertex (a : AlternatingTree) (cid_s1 : Option Nat) (cid_t : Nat)
    (edge_s1_t : Option EdgeRef) : AlternatingTree :=
  { a with
    end_exposed_target_vertex := some cid_t
    target_prev := upd a.target_prev cid_t cid_s1
    target_prev_edge := upd a.target_prev_edge cid_t edge_s1_t }

/-- Function `isAugmentingPathFound`. -/
def isAugmentingPathFound (a : AlternatingTree) : Bool := a.end_exposed_target_vertex.isSome

/-- Function `isInS`. -/
def isInS (a : AlternatingTree) (source_cid : Nat) : Bool := a.set_S source_cid

/-- Function `isInT`. -/
def isInT (a : AlternatingTree) (target_cid : Nat) : Bool := a.set_T target_cid

/-- The `do ... while` loop of `applyAugmentingPath`, started at `crt_target_cid`:
collects `edges_to_be_added` and `edges_to_be_removed`. The tree always writes
`_target_prev` and `_target_prev_edge` of a target together; reading them for a
target that has none indexes `_source_prev` out of range, a fault. -/
def collectPath (a : AlternatingTree) :
    Nat → Nat → List EdgeRef → List (Option EdgeRef) →
      Outcome (List EdgeRef × List (Option EdgeRef))
  | 0, _, _, _ => Outcome.running
  | fuel + 1, crt_target_cid, added, removed =>
    match a.target_prev_edge crt_target_cid, a.target_prev crt_target_cid with
    | some edge_s_t1, some matched_source_cid =>
      match a.source_prev matched_source_cid with
      | some next_target_cid =>
        collectPath a fuel next_target_cid (added ++ [edge_s_t1])
          (removed ++ [a.source_prev_edge matched_source_cid])
      | none => Outcome.done (added ++ [edge_s_t1], removed)
    | _, _ => Outcome.fault

/-- Function `applyAugmentingPath`. -/
def applyAugmentingPath (a : AlternatingTree) (fuel : Nat) (matching : Matching) :
    Outcome Matching :=
  match a.end_exposed_target_vertex with
  | none => Outcome.fault
  | some end_cid =>
    match collectPath a fuel end_cid [] [] with
    | Outcome.done r =>
      Outcome.done (r.1.foldl Matching.addEdge (r.2.foldl Matching.removeEdgePtr matching))
    | Outcome.overflow => Outcome.overflow
    | Outcome.fault => Outcome.fault
    | Outcome.running => Outcome.running

end AlternatingTree

/-! ## PerfectMatchingFinder: VertexLabeling -/

/-- Class `impl::VertexLabeling`: the arrays `_ls` and `_lt`. -/
structure VertexLabeling where
  ls : Nat → Int
  lt : Nat → Int

namespace VertexLabeling

/-- Function `_getVertexMaxEdgeScore`. -/
def getVertexMaxEdgeScore (edges : List EdgeRef) : Int :=
  edges.foldl (fun max_score e => if e.2.score > max_score then e.2.score else max_score) INT_MIN

/-- Function `_setToTriviallyFeasibleVertexLabeling`. -/
def setToTriviallyFeasibleVertexLabeling (g : BipartiteMatchingGraph) : VertexLabeling :=
  (List.range g.ncliques).foldl
    (fun l cid =>
      { ls := upd l.ls cid (getVertexMaxEdgeScore (g.sourceEdges cid)), lt := upd l.lt cid 0 })
    ⟨fun _ => 0, fun _ => 0⟩

/-- Function `update`: the labels after the two loops, and whether one of the
subtractions or additions overflowed. -/
def update (l : VertexLabeling) (ncliques : Nat) (delta : Int) (a : AlternatingTree) :
    VertexLabeling × Bool :=
  let r1 := (List.range ncliques).foldl
    (fun (acc : (Nat → Int) × Bool) source_cid =>
      if a.isInS source_cid then
        (upd acc.1 source_cid (acc.1 source_cid - delta),
          acc.2 || !inIntRange (acc.1 source_cid - delta))
      else acc)
    (l.ls, false)
  let r2 := (List.range ncliques).foldl
    (fun (acc : (Nat → Int) × Bool) target_cid =>
      if a.isInT target_cid then
        (upd acc.1 target_cid (acc.1 target_cid + delta),
          acc.2 || !inIntRange (acc.1 target_cid + delta))
      else acc)
    (l.lt, false)
  (⟨r1.1, r2.1⟩, r1.2 || r2.2)

/-- The value `l(s) + l(t) - w` computed for an edge from `source_cid`. -/
def slackOf (l : VertexLabeling) (source_cid : Nat) (e : EdgeRef) : Int :=
  l.ls source_cid + l.lt e.2.v_target - e.2.score

/-- Whether computing `l(s) + l(t) - w` overflows. -/
def slackOverflows (l : VertexLabeling) (source_cid : Nat) (e : EdgeRef) : Bool :=
  !inIntRange (l.ls source_cid + l.lt e.2.v_target) ||
    !inIntRange (l.ls source_cid + l.lt e.2.v_target - e.2.score)

end VertexLabeling

/-! ## PerfectMatchingFinder: SlackArray -/

/-- Class `impl::SlackArray`. -/
structure SlackArray where
  min_slack : Nat → Int
  source_cid : Nat → Option Nat
  edge_cid : Nat → Option EdgeRef

namespace SlackArray

/-- Constructor: the loop over the edges of the root. -/
def init (root_cid : Nat) (rootEdges : List EdgeRef) (l : VertexLabeling) : SlackArray × Bool :=
  rootEdges.foldl
    (fun (acc : SlackArray × Bool) e =>
      ({ min_slack := upd acc.1.min_slack e.2.v_target (l.slackOf root_cid e)
         source_cid := upd acc.1.source_cid e.2.v_target (some root_cid)
         edge_cid := upd acc.1.edge_cid e.2.v_target (some e) },
        acc.2 || l.slackOverflows root_cid e))
    (⟨fun _ => INT_MAX, fun _ => none, fun _ => none⟩, false)

/-- Whether target `target_cid` takes part in `simplifyMinCostSlack`. -/
def isCandidate (sa : SlackArray) (a : AlternatingTree) (target_cid : Nat) : Bool :=
  (sa.source_cid target_cid).isSome && !a.isInT target_cid

/-- First loop of `simplifyMinCostSlack`: the value of `delta`. -/
def minCostSlack (sa : SlackArray) (a : AlternatingTree) (ncliques : Nat) : Int :=
  (List.range ncliques).foldl
    (fun delta target_cid =>
      if sa.isCandidate a target_cid then min delta (sa.min_slack target_cid) else delta)
    INT_MAX

/-- Function `simplifyMinCostSlack`: `delta`, the updated array, and whether a
subtraction overflowed. -/
def simplifyMinCostSlack (sa : SlackArray) (a : AlternatingTree) (ncliques : Nat) :
    Int × SlackArray × Bool :=
  let delta := sa.minCostSlack a ncliques
  let r := (List.range ncliques).foldl
    (fun (acc : (Nat → Int) × Bool) target_cid =>
      if sa.isCandidate a target_cid then
        (upd acc.1 target_cid (acc.1 target_cid - delta),
          acc.2 || !inIntRange (acc.1 target_cid - delta))
      else acc)
    (sa.min_slack, false)
  (delta, { sa with min_slack := r.1 }, r.2)

/-- Function `updateWithNewSourceVertex`. -/
def updateWithNewSourceVertex (sa : SlackArray) (added_cid : Nat) (addedEdges : List EdgeRef)
    (l : VertexLabeling) : SlackArray × Bool :=
  addedEdges.foldl
    (fun (acc : SlackArray × Bool) e =>
      if l.slackOf added_cid e < acc.1.min_slack e.2.v_target then
        ({ min_slack := upd acc.1.min_slack e.2.v_target (l.slackOf added_cid e)
           source_cid := upd acc.1.source_cid e.2.v_target (some added_cid)
           edge_cid := upd acc.1.edge_cid e.2.v_target (some e) },
          acc.2 || l.slackOverflows added_cid e)
      else (acc.1, acc.2 || l.slackOverflows added_cid e))
    (sa, false)

end SlackArray

/-! ## PerfectMatchingFinder: the search -/

/-- The mutable locals of `augmentMatching` during the search, with two flags:
`overflow` when an `int` computation left the 32-bit range, `fault` when a null
edge pointer was dereferenced. -/
structure Search where
  queue : List Nat
  atree : AlternatingTree
  slack : SlackArray
  overflow : Bool
  fault : Bool

/-- Function `findExposedSourceVertex`; `order` is the result of
`getCliquesInRandomOrder`. -/
def findExposedSourceVertex (order : List Nat) (matching : Matching) : Option Nat :=
  order.find? (fun cid => matching.isSource cid == false)

/-- The `for` loop over the edges of `source_cid` in
`findAugmentingPathAroundCandidatesSourceVertices`. -/
def scanSourceEdges (g : BipartiteMatchingGraph) (matching : Matching) (l : VertexLabeling)
    (source_cid : Nat) : List EdgeRef → Search → Search
  | [], st => st
  | e :: rest, st =>
    let target_cid := e.2.v_target
    let st1 := { st with overflow := st.overflow || l.slackOverflows source_cid e }
    if !st1.atree.isInT target_cid && l.slackOf source_cid e == 0 then
      if !matching.isTarget target_cid then
        { st1 with
          atree := st1.atree.setEndExposedTargetVertex (some source_cid) target_cid (some e) }
      else
        match matching.getEdgeFromTarget target_cid with
        | none => { st1 with fault := true }
        | some edge_t_s2 =>
          let matched_cid := edge_t_s2.2.v_source
          let r := st1.slack.updateWithNewSourceVertex matched_cid (g.sourceEdges matched_cid) l
          scanSourceEdges g matching l source_cid rest
            { queue := st1.queue ++ [matched_cid]
              atree := st1.atree.addTwoEdges (some source_cid) target_cid matched_cid (some e)
                edge_t_s2
              slack := r.1
              overflow := st1.overflow || r.2
              fault := st1.fault }
    else scanSourceEdges g matching l source_cid rest st1

/-- Function `findAugmentingPathAroundCandidatesSourceVertices`: the `while`
loop; `none` when the fuel ran out. A faulted search stops. -/
def findAugmentingPathAroundCandidatesSourceVertices (g : BipartiteMatchingGraph)
    (matching : Matching) (l : VertexLabeling) : Nat → Search → Option Search
  | 0, st =>
    if st.fault || st.atree.isAugmentingPathFound then some st
    else match st.queue with
      | [] => some st
      | _ :: _ => none
  | fuel + 1, st =>
    if st.fault || st.atree.isAugmentingPathFound then some st
    else match st.queue with
      | [] => some st
      | source_cid :: rest =>
        findAugmentingPathAroundCandidatesSourceVertices g matching l fuel
          (scanSourceEdges g matching l source_cid (g.sourceEdges source_cid)
            { st with queue := rest })

/-- Function `findAugmentingPathFromNewReachableTargetVertices`: the loop over
the target halves still to visit. A faulted search stops. -/
def findAugmentingPathFromNewReachableTargetVertices (g : BipartiteMatchingGraph)
    (matching : Matching) (l : VertexLabeling) : List Nat → Search → Search
  | [], st => st
  | cid :: rest, st =>
    if st.fault || st.atree.isAugmentingPathFound then st
    else if !st.atree.isInT cid && st.slack.min_slack cid == 0 then
      let min_slack_vertex_cid := st.slack.source_cid cid
      let edge_s1_t := st.slack.edge_cid cid
      if !matching.isTarget cid then
        { st with atree := st.atree.setEndExposedTargetVertex min_slack_vertex_cid cid edge_s1_t }
      else
        match matching.getEdgeFromTarget cid with
        | none => { st with fault := true }
        | some edge_t_s2 =>
          let matched_cid := edge_t_s2.2.v_source
          if !st.atree.isInS matched_cid then
            let r := st.slack.updateWithNewSourceVertex matched_cid (g.sourceEdges matched_cid) l
            findAugmentingPathFromNewReachableTargetVertices g matching l rest
              { queue := st.queue ++ [matched_cid]
                atree := st.atree.addTwoEdges min_slack_vertex_cid cid matched_cid edge_s1_t
                  edge_t_s2
                slack := r.1
                overflow := st.overflow || r.2
                fault := st.fault }
          else
            findAugmentingPathFromNewReachableTargetVertices g matching l rest
              { st with atree := st.atree.addSingleEdge min_slack_vertex_cid cid edge_s1_t }
    else findAugmentingPathFromNewReachableTargetVertices g matching l rest st

/-- What a search that stopped reports: a fault, an overflow, or nothing. -/
def Search.check {α : Type} (st : Search) (k : Outcome α) : Outcome α :=
  if st.fault then Outcome.fault
  else if st.overflow then Outcome.overflow
  else k

/-- The `while(!atree.isAugmentingPathFound())` loop of `augmentMatching`:
returns the tree holding the augmenting path and the labeling, or no tree when
`updateLabelingAndSlack` returned false. -/
def searchLoop (g : BipartiteMatchingGraph) (matching : Matching) :
    Nat → VertexLabeling → Search → Outcome (Option AlternatingTree × VertexLabeling)
  | 0, _, _ => Outcome.running
  | fuel + 1, l, st =>
    st.check
      (if st.atree.isAugmentingPathFound then Outcome.done (some st.atree, l)
      else
        match findAugmentingPathAroundCandidatesSourceVertices g matching l fuel st with
        | none => Outcome.running
        | some st1 =>
          st1.check
            (if st1.atree.isAugmentingPathFound then Outcome.done (some st1.atree, l)
            else
              let r := st1.slack.simplifyMinCostSlack st1.atree g.ncliques
              if r.2.2 then Outcome.overflow
              else if r.1 == 0 then Outcome.done (none, l)
              else
                let lu := l.update g.ncliques r.1 st1.atree
                if lu.2 then Outcome.overflow
                else
                  let st2 := findAugmentingPathFromNewReachableTargetVertices g matching lu.1
                    (List.range g.ncliques)
                    { queue := st1.queue, atree := st1.atree, slack := r.2.1,
                      overflow := st1.overflow, fault := st1.fault }
                  st2.check
                    (if st2.atree.isAugmentingPathFound then Outcome.done (some st2.atree, lu.1)
                    else searchLoop g matching fuel lu.1 st2)))

/-- Function `augmentMatching`: `(true, matching, labeling)` after an
augmentation, `(false, ..)` when it returns false. -/
def augmentMatching (g : BipartiteMatchingGraph) (order : List Nat) (fuel : Nat)
    (matching : Matching) (l : VertexLabeling) : Outcome (Bool × Matching × VertexLabeling) :=
  if matching.getNumberEdges = g.ncliques then Outcome.done (false, matching, l)
  else
    match findExposedSourceVertex order matching with
    | none => Outcome.fault
    | some root_cid =>
      let sl := SlackArray.init root_cid (g.sourceEdges root_cid) l
      match searchLoop g matching fuel l
          { queue := [root_cid], atree := AlternatingTree.init root_cid, slack := sl.1,
            overflow := sl.2, fault := false } with
      | Outcome.running => Outcome.running
      | Outcome.overflow => Outcome.overflow
      | Outcome.fault => Outcome.fault
      | Outcome.done (none, l1) => Outcome.done (false, matching, l1)
      | Outcome.done (some atree, l1) =>
        match atree.applyAugmentingPath fuel matching with
        | Outcome.running => Outcome.running
        | Outcome.overflow => Outcome.overflow
        | Outcome.fault => Outcome.fault
        | Outcome.done m1 => Outcome.done (true, m1, l1)

/-- The `for` loop of `findPerfectMatching`, with `k` rounds left and `i` rounds
done: no matching when a round returned false, otherwise the final matching. -/
def augmentRounds (g : BipartiteMatchingGraph) (orders : Nat → List Nat) (fuel : Nat) :
    Nat → Nat → Matching → VertexLabeling → Outcome (Option Matching)
  | 0, _, matching, _ => Outcome.done (some matching)
  | k + 1, i, matching, l =>
    match augmentMatching g (orders i) fuel matching l with
    | Outcome.running => Outcome.running
    | Outcome.overflow => Outcome.overflow
    | Outcome.fault => Outcome.fault
    | Outcome.done (false, _, _) => Outcome.done none
    | Outcome.done (true, m1, l1) => augmentRounds g orders fuel k (i + 1) m1 l1

/-- Function `impl::findPerfectMatching`; `orders i` is the random clique order
drawn in round `i`. Returns the edges of the matching, or nothing when it
returns false. -/
def findPerfectMatching (g : BipartiteMatchingGraph) (orders : Nat → List Nat) (fuel : Nat) :
    Outcome (Option (List EdgeRef)) :=
  match augmentRounds g orders fuel g.ncliques 0 Matching.empty
      (VertexLabeling.setToTriviallyFeasibleVertexLabeling g) with
  | Outcome.running => Outcome.running
  | Outcome.overflow => Outcome.overflow
  | Outcome.fault => Outcome.fault
  | Outcome.done none => Outcome.done none
  | Outcome.done (some m) => Outcome.done (some m.edges)

/-- Function `PerfectMatchingFinder::findRandomPerfectMatching`: the matching
when it returns true, nothing when it returns false. -/
def findRandomPerfectMatching (g : BipartiteMatchingGraph) (orders : Nat → List Nat) (fuel : Nat) :
    Outcome (Option (List EdgeRef)) :=
  match findPerfectMatching g orders fuel with
  | Outcome.done (some tmp_matching) =>
    if tmp_matching.length < g.ncliques then Outcome.done none
    else Outcome.done (some tmp_matching)
  | Outcome.done none => Outcome.done none
  | Outcome.overflow => Outcome.overflow
  | Outcome.fault => Outcome.fault
  | Outcome.running => Outcome.running

/-! ## NonMatchingGraph -/

/-- Edge of the constraint graph: ids of the vertices `v_source` and `v_target`
point to, and the cost (`UINT_MAX` for a forbidden pair). -/
structure NMEdge where
  v_source : Nat
  v_target : Nat
  cost : Nat
  deriving DecidableEq

/-- Vertex of the constraint graph. -/
structure NMVertex where
  id : Nat
  constraints : List NMEdge
  deriving DecidableEq

/-- The constraint graph: the vector `_vertices`. -/
structure NonMatchingGraph where
  vertices : List NMVertex
  deriving DecidableEq

namespace NonMatchingGraph

/-- Function `getNumberVertices`. -/
def getNumberVertices (g : NonMatchingGraph) : Nat := g.vertices.length

/-- Function `startNewGraph`. -/
def startNewGraph (nvertices : Nat) : NonMatchingGraph :=
  ⟨(List.range nvertices).map (fun id => ⟨id, []⟩)⟩

/-- Function `addDirectedEdge`: appends the edge to `_vertices[id_source].constraints`.
The source indexes `_vertices` without a check (the assertion is compiled out);
here an `id_source` out of range leaves the graph unchanged. -/
def addDirectedEdge (g : NonMatchingGraph) (id_source id_target cost : Nat) : NonMatchingGraph :=
  ⟨g.vertices.modify (fun v => { v with constraints := v.constraints ++ [⟨id_source, id_target, cost⟩] })
    id_source⟩

/-- Function `addUndirectedEdge`. -/
def addUndirectedEdge (g : NonMatchingGraph) (id1 id2 cost : Nat) : NonMatchingGraph :=
  (g.addDirectedEdge id1 id2 cost).addDirectedEdge id2 id1 cost

/-- First loop of `updateConstraints` on one vertex: erases the edges of cost
at most 1 and decrements the other finite costs. -/
def decrementCosts : List NMEdge → List NMEdge
  | [] => []
  | e :: rest =>
    if e.cost ≤ 1 then decrementCosts rest
    else if e.cost ≠ UINT_MAX then { e with cost := e.cost - 1 } :: decrementCosts rest
    else e :: decrementCosts rest

/-- Second loop of `updateConstraints`: position of the first edge whose target
has id `matched_id`, if there is one. -/
def findConstraint (matched_id : Nat) : List NMEdge → Option Nat
  | [] => none
  | e :: rest =>
    if e.v_target = matched_id then some 0
    else (findConstraint matched_id rest).map (· + 1)

/-- Last loop of `updateConstraints`: erases the edges of cost at most
`cost_threshold`. -/
def eraseCheapConstraints (cost_threshold : Nat) : List NMEdge → List NMEdge
  | [] => []
  | e :: rest =>
    if e.cost ≤ cost_threshold then eraseCheapConstraints cost_threshold rest
    else e :: eraseCheapConstraints cost_threshold rest

/-- Body of the loop of `updateConstraints` for the vertex stored at position `pos`.
The source reads `matching[it_v->id]` without a check; here a missing entry
reads as 0. -/
def updateVertexConstraints (g : NonMatchingGraph) (matching : List Nat)
    (avoid_deterministic_matching : Bool) (pos : Nat) : NonMatchingGraph :=
  match g.vertices.get? pos with
  | none => g
  | some v =>
    let nvertices := g.vertices.length
    let high_cost := nvertices
    let decremented := decrementCosts v.constraints
    let g1 : NonMatchingGraph := ⟨g.vertices.set pos { v with constraints := decremented }⟩
    let matched_id := matching.getD v.id 0
    let g2 : NonMatchingGraph :=
      match findConstraint matched_id decremented with
      | some k =>
        ⟨g1.vertices.set pos
          { v with constraints := decremented.modify (fun e => { e with cost := high_cost }) k }⟩
      | none => g1.addDirectedEdge v.id matched_id high_cost
    match g2.vertices.get? pos with
    | none => g2
    | some v2 =>
      if avoid_deterministic_matching && decide (v2.constraints.length = (nvertices + UINT_MAX) % (UINT_MAX + 1)) then
        let cost_threshold := ((high_cost * 2) % (UINT_MAX + 1)) / 3
        ⟨g2.vertices.set pos
          { v2 with constraints := eraseCheapConstraints cost_threshold v2.constraints }⟩
      else g2

/-- Function `updateConstraints`: the loop over the vertices. -/
def updateConstraints (g : NonMatchingGraph) (matching : List Nat)
    (avoid_deterministic_matching : Bool) : NonMatchingGraph :=
  (List.range g.vertices.length).foldl
    (fun acc pos => updateVertexConstraints acc matching avoid_deterministic_matching pos) g

/-- Function `_checkGraphValidity` (default build: the checks on the ids). -/
def checkGraphValidity (g : NonMatchingGraph) : Bool :=
  let n := g.vertices.length
  let firstLoop := (g.vertices.enum).foldl
    (fun (acc : Option (Nat → Bool)) p =>
      match acc with
      | none => none
      | some flags =>
        if p.1 ≠ p.2.id then none
        else if flags p.2.id then none
        else some (upd flags p.2.id true))
    (some (fun _ => false))
  match firstLoop with
  | none => false
  | some flags => (List.range n).all (fun i => flags i)

end NonMatchingGraph

/-! ## Text streams -/

/-- An input stream: the characters not read yet and whether `good()` holds. -/
structure IStream where
  buf : List Char
  good : Bool

namespace IStream

/-- Function `is.read(c, k)`: the characters stored at the start of `c` and the
stream afterwards. A stream that is not good stores nothing; a stream with
fewer than `k` characters stores what it has and stops being good. -/
def read (is : IStream) (k : Nat) : List Char × IStream :=
  if is.good then
    if k ≤ is.buf.length then (is.buf.take k, { is with buf := is.buf.drop k })
    else (is.buf, ⟨[], false⟩)
  else ([], is)

/-- Value of a run of decimal digits. -/
def digitsValue (ds : List Char) : Nat :=
  ds.foldl (fun acc d => 10 * acc + (d.toNat - 48)) 0

/-- Extraction `is >> std::noskipws >> x` for an `unsigned int x`, on a good
stream: an optional sign, then decimal digits. No digit: `x = 0` and the stream
fails. A magnitude above `UINT_MAX`: `x = UINT_MAX` and the stream fails. A
minus sign negates modulo `2^32`. Reaching the end of the text sets `eofbit`. -/
def extractUnsigned (is : IStream) : Nat × IStream :=
  let afterSign : Bool × List Char :=
    match is.buf with
    | '+' :: r => (false, r)
    | '-' :: r => (true, r)
    | r => (false, r)
  let ds := afterSign.2.takeWhile Char.isDigit
  let rest := afterSign.2.dropWhile Char.isDigit
  if ds.isEmpty then (0, ⟨rest, false⟩)
  else if digitsValue ds > UINT_MAX then (UINT_MAX, ⟨rest, false⟩)
  else
    ((if afterSign.1 then (UINT_MAX + 1 - digitsValue ds) % (UINT_MAX + 1) else digitsValue ds),
      ⟨rest, !rest.isEmpty⟩)

end IStream

/-- Result of a deserialisation: the value and the stream after it when the
function returned true, `reject` when it returned false, `undefined` when it
compared a character of the local buffer that was never written. -/
inductive Parsed (α : Type) where
  | accept : α → IStream → Parsed α
  | reject : Parsed α
  | undefined : Parsed α

/-- The local buffer `char c[k]` after `is.read` stored `stored` at its start. -/
def storeChars (c : List (Option Char)) (stored : List Char) : List (Option Char) :=
  stored.map some ++ c.drop stored.length

namespace NonMatchingGraph

/-- The `while(true)` loop of `Vertex::deserialize`, entered with the last
character stored in `c[0]`; `fuel` bounds the number of constraints read.
Returns the pairs (target, cost) read, in order. -/
def deserializeConstraints (nvertices : Nat) :
    Nat → Char → IStream → List (Nat × Nat) → Parsed (List (Nat × Nat))
  | 0, _, _, _ => Parsed.reject
  | fuel + 1, c0, is, acc =>
    let r := is.read 1
    let c0 := (r.1.head?).getD c0
    if c0 = '\n' then Parsed.accept acc r.2
    else if c0 ≠ ' ' then Parsed.reject
    else
      let first := r.2.extractUnsigned
      if first.1 ≥ nvertices then Parsed.reject
      else
        let r2 := first.2.read 1
        let c0 := (r2.1.head?).getD c0
        if c0 ≠ '(' then Parsed.reject
        else
          let second := r2.2.extractUnsigned
          let r3 := second.2.read 1
          let c0 := (r3.1.head?).getD c0
          if c0 ≠ ')' then Parsed.reject
          else deserializeConstraints nvertices fuel c0 r3.2 (acc ++ [(first.1, second.1)])

/-- Function `Vertex::deserialize`. -/
def deserializeVertex (g : NonMatchingGraph) (is : IStream) : Parsed NonMatchingGraph :=
  let r := is.read 2
  match storeChars [none, none] r.1 with
  | [some c0, some c1] =>
    if c0 ≠ 'v' ∨ c1 ≠ ' ' then Parsed.reject
    else
      let id := r.2.extractUnsigned
      if id.1 ≥ g.vertices.length then Parsed.reject
      else
        match deserializeConstraints g.vertices.length (id.2.buf.length + 1) c0 id.2 [] with
        | Parsed.accept tmp_constraints is1 =>
          Parsed.accept
            ⟨g.vertices.modify
              (fun v => { v with constraints := tmp_constraints.map (fun p => ⟨id.1, p.1, p.2⟩) })
              id.1⟩ is1
        | Parsed.reject => Parsed.reject
        | Parsed.undefined => Parsed.undefined
  | [some c0, none] => if c0 ≠ 'v' then Parsed.reject else Parsed.undefined
  | _ => Parsed.undefined

/-- The `for` loop of `deserialize` over the `nvertices` vertex lines. -/
def deserializeVertices : Nat → NonMatchingGraph → IStream → Parsed NonMatchingGraph
  | 0, g, is => Parsed.accept g is
  | n + 1, g, is =>
    match deserializeVertex g is with
    | Parsed.accept g1 is1 => deserializeVertices n g1 is1
    | Parsed.reject => Parsed.reject
    | Parsed.undefined => Parsed.undefined

/-- Function `deserialize`. -/
def deserialize (is : IStream) : Parsed NonMatchingGraph :=
  let r := is.read 3
  match storeChars [none, none, none] r.1 with
  | [some c0, some c1, some c2] =>
    if c0 ≠ 'n' ∨ c1 ≠ 'v' ∨ c2 ≠ ' ' then Parsed.reject
    else
      let nvertices := r.2.extractUnsigned
      let r1 := nvertices.2.read 1
      let c0 := (r1.1.head?).getD c0
      if c0 ≠ '\n' then Parsed.reject
      else
        match deserializeVertices nvertices.1 (startNewGraph nvertices.1) r1.2 with
        | Parsed.accept g is1 =>
          if g.checkGraphValidity then Parsed.accept g is1 else Parsed.reject
        | Parsed.reject => Parsed.reject
        | Parsed.undefined => Parsed.undefined
  | [some c0, some c1, none] =>
    if c0 ≠ 'n' ∨ c1 ≠ 'v' then Parsed.reject else Parsed.undefined
  | [some c0, none, none] => if c0 ≠ 'n' then Parsed.reject else Parsed.undefined
  | _ => Parsed.undefined

/-- Function `Vertex::serialize`. -/
def serializeVertex (v : NMVertex) : String :=
  "v " ++ Nat.repr v.id ++
    String.join (v.constraints.map
      (fun e => " " ++ Nat.repr e.v_target ++ "(" ++ Nat.repr e.cost ++ ")")) ++ "\n"

/-- Function `serialize`. -/
def serialize (g : NonMatchingGraph) : String :=
  "nv " ++ Nat.repr g.vertices.length ++ "\n" ++ String.join (g.vertices.map serializeVertex)

end NonMatchingGraph

/-! ## MatchingGraphConverter -/

/-- Conversion of an `unsigned int` to `int` (two's complement). -/
def toInt32 (x : Nat) : Int :=
  if x % (UINT_MAX + 1) < 2147483648 then ((x % (UINT_MAX + 1) : Nat) : Int)
  else ((x % (UINT_MAX + 1) : Nat) : Int) - 4294967296

/-- Function `impl::convertNMCostToBMScore`; the negation wraps. -/
def convertNMCostToBMScore (nmcost : Nat) : Int :=
  if nmcost = UINT_MAX then INT_MIN
  else if toInt32 nmcost = INT_MIN then INT_MIN
  else -(toInt32 nmcost)

/-- Function `impl::convertBMScoreToNMCost`. -/
def convertBMScoreToNMCost (bmscore : Int) : Nat :=
  if bmscore = INT_MIN then UINT_MAX
  else ((-bmscore) % 4294967296).toNat

/-- The vector `score_matching_candidates` of `toBipartiteMatchingGraph` for one
vertex, after the loop over its constraints. -/
def scoreMatchingCandidates (v : NMVertex) : Nat → Int :=
  v.constraints.foldl
    (fun scores e => upd scores e.v_target (convertNMCostToBMScore e.cost))
    (upd (fun _ => 0) v.id INT_MIN)

/-- Function `MatchingGraphConverter::toBipartiteMatchingGraph`. -/
def toBipartiteMatchingGraph (nmgraph : NonMatchingGraph) : BipartiteMatchingGraph :=
  let ncliques := nmgraph.getNumberVertices
  nmgraph.vertices.foldl
    (fun bmgraph v =>
      (List.range ncliques).foldl
        (fun bmg cid =>
          if scoreMatchingCandidates v cid ≠ INT_MIN then
            bmg.addDirectedEdge v.id cid (scoreMatchingCandidates v cid)
          else bmg)
        bmgraph)
    (BipartiteMatchingGraph.startNewGraph ncliques)

/-- Function `MatchingGraphConverter::toGenericMatching`. The source writes
`generic_perfect_matching[source_id]` without a check; here a `source_id` out of
range writes nothing. -/
def toGenericMatching (bmg_perfect_matching : List EdgeRef) : List Nat :=
  bmg_perfect_matching.foldl
    (fun generic e => generic.set e.2.v_source e.2.v_target)
    (List.replicate bmg_perfect_matching.length 0)

/-! ## The facade -/

/-- Function `impl::checkPerfectMatchingValidity`: the first loop, over the
entries of `matching` from position `id_source` on. -/
def checkMatchingEntries (matching : List Nat) :
    List Nat → Nat → (Nat → Bool) → (Nat → Bool) → Option ((Nat → Bool) × (Nat → Bool))
  | [], _, first, second => some (first, second)
  | id_target :: rest, id_source, first, second =>
    if first id_source then none
    else if second id_target then none
    else checkMatchingEntries matching rest (id_source + 1)
      (upd first id_source true) (upd second id_target true)

/-- Function `impl::checkPerfectMatchingValidity`. -/
def checkPerfectMatchingValidity (ncliques : Nat) (matching : List Nat) : Bool :=
  match checkMatchingEntries matching matching 0 (fun _ => false) (fun _ => false) with
  | none => false
  | some flags => (List.range ncliques).all (fun id => flags.1 id && flags.2 id)

/-- Enum `ResultCode`. -/
inductive ResultCode where
  | ResCode_Success
  | ResCode_InvalidGraph
  | ResCode_MatchingFailure
  | ResCode_InvalidMatching
  | ResCode_KnownException
  | ResCode_UnknownException
  deriving DecidableEq

/-- Function `findBestPerfectMatching`: the result code, the vector `matching`
and `updated_graph_str`. -/
def findBestPerfectMatching (graph_str : String) (orders : Nat → List Nat) (fuel : Nat) :
    Outcome (ResultCode × List Nat × String) :=
  match NonMatchingGraph.deserialize ⟨graph_str.toList, true⟩ with
  | Parsed.undefined => Outcome.fault
  | Parsed.reject => Outcome.done (ResultCode.ResCode_InvalidGraph, [], "")
  | Parsed.accept nmg _ =>
    let bmg := toBipartiteMatchingGraph nmg
    match findRandomPerfectMatching bmg orders fuel with
    | Outcome.running => Outcome.running
    | Outcome.overflow => Outcome.overflow
    | Outcome.fault => Outcome.fault
    | Outcome.done none => Outcome.done (ResultCode.ResCode_MatchingFailure, [], "")
    | Outcome.done (some bmg_matching) =>
      let matching := toGenericMatching bmg_matching
      if !checkPerfectMatchingValidity bmg.getNumberCliques matching then
        Outcome.done (ResultCode.ResCode_InvalidMatching, matching, "")
      else
        Outcome.done (ResultCode.ResCode_Success, matching,
          (nmg.updateConstraints matching true).serialize)

end wpm

namespace wpm

/-! ## Evolution rule: the wording of the specification -/

/-- Step 1 of the evolution rule as the specification words it: every edge of
cost at most 1 is removed, every other finite cost is decremented by 1, infinite
costs and the order are kept. -/
def decaySpec (L : List NMEdge) : List NMEdge :=
  (L.filter (fun e => decide (1 < e.cost))).map
    (fun e => if e.cost = UINT_MAX then e else { e with cost := e.cost - 1 })

/-- The first edge whose target is `target` has its cost set to `N`. -/
def resetFirstSpec (target N : Nat) : List NMEdge → List NMEdge
  | [] => []
  | e :: rest =>
    if e.v_target = target then { e with cost := N } :: rest
    else e :: resetFirstSpec target N rest

/-- Steps 1 and 2 of the evolution rule for vertex `i` matched to `target`, as
the specification words them: decay, then reset of the first edge to `target`
or, when there is none, the edge `(i -> target, N)` appended at the end. -/
def evolveSpec (N i target : Nat) (L : List NMEdge) : List NMEdge :=
  if (decaySpec L).any (fun e => decide (e.v_target = target)) then
    resetFirstSpec target N (decaySpec L)
  else decaySpec L ++ [⟨i, target, N⟩]

/-- Step 3 of the evolution rule as the specification words it: when the list has
exactly `N - 1` edges, every edge of cost at most `⌊2N/3⌋` is removed. -/
def avoidDeterministicSpec (N : Nat) (L2 : List NMEdge) : List NMEdge :=
  if L2.length = N - 1 then L2.filter (fun e => decide (2 * N / 3 < e.cost)) else L2

/-- What the body of the loop of `updateConstraints` does to the vertex it
visits, read off `updateVertexConstraints`. -/
def vertexEvolve (nvertices : Nat) (matching : List Nat) (avoid_deterministic_matching : Bool)
    (v : NMVertex) : NMVertex :=
  let decremented := NonMatchingGraph.decrementCosts v.constraints
  let matched_id := matching.getD v.id 0
  let L2 :=
    match NonMatchingGraph.findConstraint matched_id decremented with
    | some k => decremented.modify (fun e => { e with cost := nvertices }) k
    | none => decremented ++ [⟨v.id, matched_id, nvertices⟩]
  { v with
    constraints :=
      if avoid_deterministic_matching &&
          decide (L2.length = (nvertices + UINT_MAX) % (UINT_MAX + 1)) then
        NonMatchingGraph.eraseCheapConstraints (((nvertices * 2) % (UINT_MAX + 1)) / 3) L2
      else L2 }

/-- Data-model invariant "vertex indices equal their position": the vertex
stored at position `i` has `id = i`. -/
def NonMatchingGraph.IdsArePositions (g : NonMatchingGraph) : Prop :=
  ∀ p ∈ g.vertices.enum, p.2.id = p.1

instance (g : NonMatchingGraph) : Decidable g.IdsArePositions := by
  unfold NonMatchingGraph.IdsArePositions
  infer_instance

/-! ## Invariants of the solver -/

/-- Every edge of the graph joins two cliques of the graph. -/
def BipartiteMatchingGraph.WellFormed (g : BipartiteMatchingGraph) : Prop :=
  ∀ e ∈ g.edges, e.v_source < g.ncliques ∧ e.v_target < g.ncliques

instance (g : BipartiteMatchingGraph) : Decidable g.WellFormed := by
  unfold BipartiteMatchingGraph.WellFormed
  infer_instance

/-- At most one edge per ordered clique pair. -/
def BipartiteMatchingGraph.SimpleEdges (g : BipartiteMatchingGraph) : Prop :=
  ∀ e1 ∈ g.edges.enum, ∀ e2 ∈ g.edges.enum,
    e1.2.v_source = e2.2.v_source → e1.2.v_target = e2.2.v_target → e1 = e2

instance (g : BipartiteMatchingGraph) : Decidable g.SimpleEdges := by
  unfold BipartiteMatchingGraph.SimpleEdges
  infer_instance

/-- The arrays of `impl::Matching` describe one set of edges of the graph in
which no source half and no target half occurs twice. -/
structure MatchingInv (g : BipartiteMatchingGraph) (m : Matching) : Prop where
  src_edge : ∀ s e, m.source_edges s = some e →
    e ∈ g.edges.enum ∧ e.2.v_source = s ∧ m.target_edges e.2.v_target = some e
  tgt_edge : ∀ t e, m.target_edges t = some e →
    e ∈ g.edges.enum ∧ e.2.v_target = t ∧ m.source_edges e.2.v_source = some e
  src_match : ∀ s, m.source_matches s = (m.source_edges s).map (fun e => e.2.v_target)
  tgt_match : ∀ t, m.target_matches t = (m.target_edges t).map (fun e => e.2.v_source)
  edges_iff : ∀ e, e ∈ m.edges ↔ m.source_edges e.2.v_source = some e
  edges_nodup : m.edges.Nodup

/-- The alternating tree is rooted at an exposed source, its targets are
matched to sources of the tree, and the back-pointers lead towards the root:
`rank` decreases along them. -/
structure TreeInv (g : BipartiteMatchingGraph) (m : Matching) (a : AlternatingTree)
    (rank : Nat → Nat) : Prop where
  root_S : a.set_S a.root_exposed_source_vertex = true
  root_exposed : m.source_edges a.root_exposed_source_vertex = none
  root_prev : a.source_prev a.root_exposed_source_vertex = none
  T_inv : ∀ t, a.set_T t = true →
    ∃ s e e2, a.target_prev t = some s ∧ a.target_prev_edge t = some e ∧ a.set_S s = true ∧
      e ∈ g.edges.enum ∧ e.2.v_source = s ∧ e.2.v_target = t ∧
      m.target_edges t = some e2 ∧ a.set_S e2.2.v_source = true ∧
      rank s < rank e2.2.v_source
  S_inv : ∀ s, a.set_S s = true → s ≠ a.root_exposed_source_vertex →
    ∃ e2, m.source_edges s = some e2 ∧ a.source_prev s = some e2.2.v_target ∧
      a.source_prev_edge s = some e2 ∧ a.set_T e2.2.v_target = true

/-- The witnesses of the slack array are edges of the graph leaving sources of
`S`, and a target without witness has slack `INT_MAX`. -/
structure SlackRefs (g : BipartiteMatchingGraph) (S : Nat → Bool) (sa : SlackArray) : Prop where
  some_src : ∀ t s, sa.source_cid t = some s →
    S s = true ∧
      ∃ e, sa.edge_cid t = some e ∧ e ∈ g.edges.enum ∧ e.2.v_source = s ∧ e.2.v_target = t
  none_src : ∀ t, sa.source_cid t = none → sa.min_slack t = INT_MAX

/-- Structural invariant of the search: the tree invariant, the queue and the
slack witnesses lie in `S`, a target without witness has slack `INT_MAX`, no
fault occurred, and a recorded path end is an exposed target reached from `S`. -/
structure SearchInv (g : BipartiteMatchingGraph) (m : Matching) (st : Search)
    (rank : Nat → Nat) : Prop where
  tree : TreeInv g m st.atree rank
  queue_S : ∀ s ∈ st.queue, st.atree.set_S s = true
  slack : SlackRefs g st.atree.set_S st.slack
  no_fault : st.fault = false
  path_end : ∀ t, st.atree.end_exposed_target_vertex = some t →
    m.target_edges t = none ∧
      ∃ s e, st.atree.target_prev t = some s ∧ st.atree.target_prev_edge t = some e ∧
        st.atree.set_S s = true ∧ e ∈ g.edges.enum ∧ e.2.v_source = s ∧ e.2.v_target = t
  end_not_T : ∀ t, st.atree.end_exposed_target_vertex = some t → st.atree.set_T t = false

/-- Every entry of the slack array that has a witness holds the slack of its
witness edge. -/
def SlackVals (l : VertexLabeling) (sa : SlackArray) : Prop :=
  ∀ t s e, sa.source_cid t = some s → sa.edge_cid t = some e →
    sa.min_slack t = l.ls s + l.lt t - e.2.score

/-- Between two rounds: the labeling is feasible, every edge of the matching is
tight, no target label is negative, and no source label exceeds its initial
value. -/
structure LabelOK (g : BipartiteMatchingGraph) (m : Matching) (l : VertexLabeling) : Prop where
  feasible : ∀ e ∈ g.edges.enum, e.2.score ≤ l.ls e.2.v_source + l.lt e.2.v_target
  matched_tight : ∀ s e, m.source_edges s = some e →
    l.ls e.2.v_source + l.lt e.2.v_target = e.2.score
  lt_nonneg : ∀ t, 0 ≤ l.lt t
  ls_le : ∀ s, l.ls s ≤ (VertexLabeling.setToTriviallyFeasibleVertexLabeling g).ls s

/-- Invariant of the search on the labels: feasible labeling, tight matching,
tight tree edges, a slack array whose entries hold the slack of their witness
edges, a witness for every target of an edge of the root, and for every edge
from `S` to a target outside `T` either a slack entry that is at most the slack
of the edge, or a slack so large that the label of a target of `T` would leave
the `int` range before the edge gets tight (the case of an edge of slack
`INT_MAX`, which `updateWithNewSourceVertex` does not record). -/
structure LabelInv (g : BipartiteMatchingGraph) (m : Matching) (l : VertexLabeling)
    (st : Search) : Prop where
  ok : LabelOK g m l
  tree_tight : ∀ t e,
    (st.atree.set_T t = true ∨ st.atree.end_exposed_target_vertex = some t) →
    st.atree.target_prev_edge t = some e → l.ls e.2.v_source + l.lt e.2.v_target = e.2.score
  slack_witness : SlackVals l st.slack
  root_rec : ∀ e ∈ g.edges.enum, e.2.v_source = st.atree.root_exposed_source_vertex →
    st.slack.source_cid e.2.v_target ≠ none
  slack_min : ∀ e ∈ g.edges.enum, st.atree.set_S e.2.v_source = true →
    st.atree.set_T e.2.v_target = false →
    st.slack.min_slack e.2.v_target ≤ l.ls e.2.v_source + l.lt e.2.v_target - e.2.score ∨
      ∃ x, x < g.ncliques ∧ st.atree.set_T x = true ∧
        INT_MAX ≤ l.ls e.2.v_source + l.lt e.2.v_target - e.2.score + l.lt x

/-- Every score of the graph fits an `int`. -/
def BipartiteMatchingGraph.ScoresInRange (g : BipartiteMatchingGraph) : Prop :=
  ∀ e ∈ g.edges, inIntRange e.score = true

instance (g : BipartiteMatchingGraph) : Decidable g.ScoresInRange := by
  unfold BipartiteMatchingGraph.ScoresInRange
  infer_instance

/-- Number of cliques below `n` whose target half is in `T`. -/
def countT (a : AlternatingTree) (n : Nat) : Nat := (List.range n).countP a.set_T

/-- While no path end is recorded, a target outside `T` whose slack witness
leaves a source that is no longer queued has a slack different from zero, for
the targets and witness edges selected by `sel`. -/
def SlackNonzero (st : Search) (sel : Nat → EdgeRef → Prop) : Prop :=
  st.atree.end_exposed_target_vertex = none →
    ∀ t s e, st.atree.set_T t = false → st.slack.source_cid t = some s →
      st.slack.edge_cid t = some e → s ∉ st.queue → sel t e → st.slack.min_slack t ≠ 0

/-- How a search state `st` relates to an earlier state `st0` of the same
round: same root, `T` has grown, and the queue has grown by at most as many
sources as `T` has grown by targets. -/
structure Grows (n : Nat) (st0 st : Search) : Prop where
  root_eq : st.atree.root_exposed_source_vertex = st0.atree.root_exposed_source_vertex
  T_mono : ∀ t, st0.atree.set_T t = true → st.atree.set_T t = true
  count_le : countT st0.atree n ≤ countT st.atree n
  queue_le : st.queue.length + countT st0.atree n ≤ st0.queue.length + countT st.atree n

/-- Bound on the work left in a round: `INT_MAX` for every target outside `T`,
plus the room left below the label of the root. Every repetition of the search
loop lowers it by at least `INT_MAX`. -/
def potential (g : BipartiteMatchingGraph) (st : Search) (l : VertexLabeling) : Int :=
  ((g.ncliques - countT st.atree g.ncliques : Nat) : Int) * INT_MAX +
    (l.ls st.atree.root_exposed_source_vertex - INT_MIN)

/-- A perfect matching of the graph: edges of the graph in which every clique is
once a source and once a target. -/
structure IsPerfectMatching (g : BipartiteMatchingGraph) (P : List EdgeRef) : Prop where
  edges_mem : ∀ e ∈ P, e ∈ g.edges.enum
  sources : (P.map (fun e => e.2.v_source)).Perm (List.range g.ncliques)
  targets : (P.map (fun e => e.2.v_target)).Perm (List.range g.ncliques)

/-- The augmenting path read by `applyAugmentingPath` from target `t` back to
the root: the edges to add and the matched edges to remove. -/
inductive AugPath (a : AlternatingTree) : Nat → List EdgeRef → List (Option EdgeRef) → Prop where
  | last (t : Nat) (e : EdgeRef) (s : Nat) :
      a.target_prev_edge t = some e → a.target_prev t = some s → a.source_prev s = none →
      AugPath a t [e] []
  | step (t : Nat) (e : EdgeRef) (s t2 : Nat) (A : List EdgeRef) (R : List (Option EdgeRef)) :
      a.target_prev_edge t = some e → a.target_prev t = some s → a.source_prev s = some t2 →
      AugPath a t2 A R → AugPath a t (e :: A) (a.source_prev_edge s :: R)

/-! ## Example graphs -/

/-- A constraint graph on 3 vertices with a forbidden pair, an expiring edge and
two decaying edges. -/
def evolveExample : NonMatchingGraph :=
  ⟨[⟨0, [⟨0, 1, UINT_MAX⟩, ⟨0, 2, 1⟩]⟩, ⟨1, [⟨1, 0, 3⟩, ⟨1, 2, 2⟩]⟩, ⟨2, []⟩]⟩

/-- The complete graph on 3 cliques with all scores 0, in the edge order the
converter produces. -/
def completeGraph3 : BipartiteMatchingGraph :=
  ⟨3, [⟨0, 0, 1⟩, ⟨0, 0, 2⟩, ⟨0, 1, 0⟩, ⟨0, 1, 2⟩, ⟨0, 2, 0⟩, ⟨0, 2, 1⟩]⟩

/-- One clique and no edge: the graph of the text `nv 1`, `v 0`. -/
def oneCliqueGraph : BipartiteMatchingGraph := ⟨1, []⟩

/-- Three cliques where the sources 0 and 2 both reach target 1 only: every
source half has an edge, and there is no perfect matching. -/
def contendedGraph3 : BipartiteMatchingGraph :=
  ⟨3, [⟨0, 0, 1⟩, ⟨0, 2, 1⟩, ⟨0, 1, 0⟩]⟩

/-- Two cliques, the edge `0 -> 1` with the forbidden score and `1 -> 0` with
score 0. -/
def forbiddenEdgeGraph : BipartiteMatchingGraph :=
  ⟨2, [⟨INT_MIN, 0, 1⟩, ⟨0, 1, 0⟩]⟩

/-- Graph of the test `FindHighestWeightMatch`. -/
def highestWeightGraph : BipartiteMatchingGraph :=
  ⟨3, [⟨-5, 0, 1⟩, ⟨-20, 0, 2⟩, ⟨0, 1, 0⟩, ⟨-5, 1, 2⟩, ⟨-5, 2, 0⟩, ⟨0, 2, 1⟩]⟩

/-- Three cliques with the perfect matching `0 -> 1`, `1 -> 2`, `2 -> 0`. When
source 0 joins the tree of root 1, its edge `0 -> 1` has slack `INT_MAX`, the
value the slack array holds for a target without witness. -/
def unrecordedSlackGraph : BipartiteMatchingGraph :=
  ⟨3, [⟨0, 0, 2⟩, ⟨-2147483647, 0, 1⟩, ⟨0, 1, 2⟩, ⟨0, 2, 0⟩]⟩

/-- Three vertices, the pair `0 -> 1` forbidden. -/
def forbiddenPairExample : NonMatchingGraph :=
  ⟨[⟨0, [⟨0, 1, UINT_MAX⟩]⟩, ⟨1, []⟩, ⟨2, []⟩]⟩

/-- The six orders in which the three source halves can be picked as roots:
with the clique order `p` in every round, round `i` picks `p[i]`. -/
def rootOrders3 : List (List Nat) :=
  [[0, 1, 2], [0, 2, 1], [1, 0, 2], [1, 2, 0], [2, 0, 1], [2, 1, 0]]

/-- The assignment `source -> target` returned by the solver when every round
uses the clique order `p`, if it returns one. -/
def returnedAssignment (g : BipartiteMatchingGraph) (p : List Nat) (fuel : Nat) :
    Option (List Nat) :=
  match findRandomPerfectMatching g (fun _ => p) fuel with
  | Outcome.done (some m) => some (toGenericMatching m)
  | _ => none

/-- Total score of a list of edges. -/
def totalScore (m : List EdgeRef) : Int := (m.map (fun e => e.2.score)).sum

/-! ## The constraint graph: data model and text -/

/-- Every stored cost fits an `unsigned int`. -/
def NonMatchingGraph.CostsFit (g : NonMatchingGraph) : Prop :=
  ∀ v ∈ g.vertices, ∀ e ∈ v.constraints, e.cost ≤ UINT_MAX

instance (g : NonMatchingGraph) : Decidable g.CostsFit := by
  unfold NonMatchingGraph.CostsFit
  infer_instance

/-- The matching uses no infinite-cost pair: no vertex stores an edge of
infinite cost to the vertex it is matched with. -/
def NonMatchingGraph.AvoidsForbidden (g : NonMatchingGraph) (matching : List Nat) : Prop :=
  ∀ v ∈ g.vertices, ∀ e ∈ v.constraints, e.v_target = matching.getD v.id 0 → e.cost ≠ UINT_MAX

instance (g : NonMatchingGraph) (matching : List Nat) : Decidable (g.AvoidsForbidden matching) := by
  unfold NonMatchingGraph.AvoidsForbidden
  infer_instance

/-- The edges of infinite cost of a list, in order. -/
def infiniteEdges (L : List NMEdge) : List NMEdge :=
  L.filter (fun e => decide (e.cost = UINT_MAX))

/-- Three vertices and one edge of cost 10. -/
def largeCostExample : NonMatchingGraph :=
  ⟨[⟨0, [⟨0, 1, 10⟩]⟩, ⟨1, []⟩, ⟨2, []⟩]⟩

/-- The characters `Vertex::serialize` writes for one constraint. -/
def encodeConstraint (e : NMEdge) : List Char :=
  ' ' :: ((Nat.repr e.v_target).toList ++ '(' :: ((Nat.repr e.cost).toList ++ [')']))

/-- The characters `Vertex::serialize` writes for one vertex. -/
def encodeVertex (v : NMVertex) : List Char :=
  'v' :: ' ' :: ((Nat.repr v.id).toList ++ ((v.constraints.map encodeConstraint).flatten ++ ['\n']))

/-- What `Vertex::deserialize` stores for the line written for `v`: the
constraints of `v`, with the vertex named by the line as source. -/
def storeLine (g : NonMatchingGraph) (v : NMVertex) : NonMatchingGraph :=
  ⟨g.vertices.modify
    (fun w => { w with constraints := v.constraints.map (fun e => ⟨v.id, e.v_target, e.cost⟩) })
    v.id⟩

/-- What the graph holds when it is built with the functions of the class:
every vertex is stored at the position of its id, every edge is stored by its
source, every target is a vertex of the graph and every cost is an
`unsigned int`. -/
structure NonMatchingGraph.Stored (g : NonMatchingGraph) : Prop where
  ids : g.IdsArePositions
  sources : ∀ v ∈ g.vertices, ∀ e ∈ v.constraints, e.v_source = v.id
  targets : ∀ v ∈ g.vertices, ∀ e ∈ v.constraints, e.v_target < g.vertices.length
  costs : g.CostsFit

/-- A graph built with `startNewGraph`, `addDirectedEdge` and
`addUndirectedEdge`, with ids below `N` and `unsigned int` costs. -/
inductive NonMatchingGraph.Built (N : Nat) : NonMatchingGraph → Prop where
  | start : NonMatchingGraph.Built N (NonMatchingGraph.startNewGraph N)
  | directed (g : NonMatchingGraph) (id_source id_target cost : Nat) :
      NonMatchingGraph.Built N g → id_source < N → id_target < N → cost ≤ UINT_MAX →
      NonMatchingGraph.Built N (g.addDirectedEdge id_source id_target cost)
  | undirected (g : NonMatchingGraph) (id1 id2 cost : Nat) :
      NonMatchingGraph.Built N g → id1 < N → id2 < N → cost ≤ UINT_MAX →
      NonMatchingGraph.Built N (g.addUndirectedEdge id1 id2 cost)

/-- The graph of the test `DirectCreation`-style construction used as an
example: three vertices, an undirected edge and a forbidden directed edge. -/
def builtExample : NonMatchingGraph :=
  ((NonMatchingGraph.startNewGraph 3).addUndirectedEdge 0 1 2).addDirectedEdge 2 0 UINT_MAX

/-! ## Bounded scores: the labels stay in range -/

/-- Sum of the labels of the `n` cliques. -/
def labelSum (n : Nat) (l : VertexLabeling) : Int :=
  ((List.range n).map l.ls).sum + ((List.range n).map l.lt).sum

/-- Number of cliques below `n` whose source half is in `S`. -/
def countS (a : AlternatingTree) (n : Nat) : Nat := (List.range n).countP a.set_S

/-- Every score lies between `-C` and 0. -/
def BipartiteMatchingGraph.ScoresWithin (g : BipartiteMatchingGraph) (C : Int) : Prop :=
  ∀ e ∈ g.edges, -C ≤ e.score ∧ e.score ≤ 0

instance (g : BipartiteMatchingGraph) (C : Int) : Decidable (g.ScoresWithin C) := by
  unfold BipartiteMatchingGraph.ScoresWithin
  infer_instance

/-- No label has moved further from its initial value than the sum of all
labels has dropped since the start. -/
structure LabelBound (g : BipartiteMatchingGraph) (l : VertexLabeling) : Prop where
  drop_ls : ∀ s, s < g.ncliques →
    (VertexLabeling.setToTriviallyFeasibleVertexLabeling g).ls s - l.ls s ≤
      labelSum g.ncliques (VertexLabeling.setToTriviallyFeasibleVertexLabeling g) -
        labelSum g.ncliques l
  drop_lt : ∀ t, t < g.ncliques →
    l.lt t ≤ labelSum g.ncliques (VertexLabeling.setToTriviallyFeasibleVertexLabeling g) -
      labelSum g.ncliques l

/-- The labels are so small that the slack of an edge is computed without
overflow and a shift by a slack keeps them in range: source labels in
`[-(N+1) C, 0]`, target labels in `[0, N C]`. -/
structure LabelRange (g : BipartiteMatchingGraph) (C : Int) (l : VertexLabeling) : Prop where
  ls_ge : ∀ s, s < g.ncliques → -((g.ncliques : Int) + 1) * C ≤ l.ls s
  ls_le : ∀ s, s < g.ncliques → l.ls s ≤ 0
  lt_ge : ∀ t, t < g.ncliques → 0 ≤ l.lt t
  lt_le : ∀ t, t < g.ncliques → l.lt t ≤ (g.ncliques : Int) * C

/-! ## Successive solves -/

/-- Data-model invariant "no duplicate (source, target) outgoing edges per
vertex": no vertex stores two edges to the same target. -/
def NonMatchingGraph.DistinctTargets (g : NonMatchingGraph) : Prop :=
  ∀ v ∈ g.vertices, (v.constraints.map (fun e => e.v_target)).Nodup

instance (g : NonMatchingGraph) : Decidable g.DistinctTargets := by
  unfold NonMatchingGraph.DistinctTargets
  infer_instance

/-- Every finite cost stored in the graph is at most `B`. -/
def NonMatchingGraph.FiniteCostsWithin (g : NonMatchingGraph) (B : Nat) : Prop :=
  ∀ v ∈ g.vertices, ∀ e ∈ v.constraints, e.cost ≠ UINT_MAX → e.cost ≤ B

instance (g : NonMatchingGraph) (B : Nat) : Decidable (g.FiniteCostsWithin B) := by
  unfold NonMatchingGraph.FiniteCostsWithin
  infer_instance

/-- The graphs reached from `G` by iterations of the loop of the test
`FindSuccessiveMatch`: convert, solve with some root picks, and when the solver
returned true, evolve the graph with the matching found. -/
inductive SolveEvolve (G : NonMatchingGraph) : NonMatchingGraph → Prop where
  | start : SolveEvolve G G
  | step (G1 : NonMatchingGraph) (orders : Nat → List Nat) (fuel : Nat) (E : List EdgeRef) :
      SolveEvolve G G1 →
      findRandomPerfectMatching (toBipartiteMatchingGraph G1) orders fuel =
        Outcome.done (some E) →
      SolveEvolve G (G1.updateConstraints (toGenericMatching E) true)

/-- Four vertices, four forbidden pairs and three finite costs below `2^31`,
two of them `2^31 - 1`. -/
def successiveSolveExample : NonMatchingGraph :=
  ⟨[⟨0, [⟨0, 1, UINT_MAX⟩, ⟨0, 3, 2147483647⟩]⟩, ⟨1, [⟨1, 2, UINT_MAX⟩]⟩,
    ⟨2, [⟨2, 0, 2147483647⟩, ⟨2, 1, UINT_MAX⟩]⟩, ⟨3, [⟨3, 0, 1⟩, ⟨3, 2, UINT_MAX⟩]⟩]⟩

/-- The graph of the test `FindSuccessiveMatch`. -/
def successiveMatchGraph : NonMatchingGraph :=
  ⟨[⟨0, [⟨0, 2, UINT_MAX⟩, ⟨0, 4, UINT_MAX⟩]⟩, ⟨1, [⟨1, 3, UINT_MAX⟩]⟩,
    ⟨2, [⟨2, 0, UINT_MAX⟩]⟩, ⟨3, [⟨3, 1, UINT_MAX⟩]⟩, ⟨4, [⟨4, 0, UINT_MAX⟩]⟩]⟩

/-! ## BipartiteMatchingGraph: text -/

namespace IStream

/-- Extraction `is >> std::noskipws >> s` for an `int s`: an optional sign, then
decimal digits. No digit: `s = 0` and the stream fails. A value outside the
`int` range: `s` is the nearest bound and the stream fails. Reaching the end of
the text sets `eofbit`. -/
def extractInt (is : IStream) : Int × IStream :=
  let afterSign : Bool × List Char :=
    match is.buf with
    | '+' :: r => (false, r)
    | '-' :: r => (true, r)
    | r => (false, r)
  let ds := afterSign.2.takeWhile Char.isDigit
  let rest := afterSign.2.dropWhile Char.isDigit
  if ds.isEmpty then (0, ⟨rest, false⟩)
  else if afterSign.1 then
    if digitsValue ds > 2147483648 then (INT_MIN, ⟨rest, false⟩)
    else (-(digitsValue ds : Int), ⟨rest, !rest.isEmpty⟩)
  else
    if digitsValue ds > 2147483647 then (INT_MAX, ⟨rest, false⟩)
    else ((digitsValue ds : Int), ⟨rest, !rest.isEmpty⟩)

end IStream

namespace BipartiteMatchingGraph

/-- Function `Edge::deserialize`: the edge read, when the line is accepted. -/
def deserializeEdge (ncliques : Nat) (is : IStream) : Parsed BMEdge :=
  let r := is.read 2
  match storeChars [none, none] r.1 with
  | [some c0, some c1] =>
    if c0 ≠ 'e' ∨ c1 ≠ ' ' then Parsed.reject
    else
      let cid_source := r.2.extractUnsigned
      let r1 := cid_source.2.read 1
      let c0 := (r1.1.head?).getD c0
      if c0 ≠ ' ' then Parsed.reject
      else
        let cid_target := r1.2.extractUnsigned
        let r2 := cid_target.2.read 1
        let c0 := (r2.1.head?).getD c0
        if c0 ≠ ' ' then Parsed.reject
        else
          let s := r2.2.extractInt
          let r3 := s.2.read 1
          let c0 := (r3.1.head?).getD c0
          if c0 ≠ '\n' then Parsed.reject
          else if cid_source.1 ≥ ncliques then Parsed.reject
          else if cid_target.1 ≥ ncliques then Parsed.reject
          else Parsed.accept ⟨s.1, cid_source.1, cid_target.1⟩ r3.2
  | [some c0, none] => if c0 ≠ 'e' then Parsed.reject else Parsed.undefined
  | _ => Parsed.undefined

/-- The `for` loop of `deserialize` over the `nedges` edge lines; `_addEdge`
appends the edge read. -/
def deserializeEdges (ncliques : Nat) : Nat → List BMEdge → IStream → Parsed (List BMEdge)
  | 0, acc, is => Parsed.accept acc is
  | n + 1, acc, is =>
    match deserializeEdge ncliques is with
    | Parsed.accept e is1 => deserializeEdges ncliques n (acc ++ [e]) is1
    | Parsed.reject => Parsed.reject
    | Parsed.undefined => Parsed.undefined

/-- Function `deserialize`. The buffer `c` of the header is reused for the second
line and keeps what the first line stored. -/
def deserialize (is : IStream) : Parsed BipartiteMatchingGraph :=
  let r := is.read 3
  match storeChars [none, none, none] r.1 with
  | [some c0, some c1, some c2] =>
    if c0 ≠ 'n' ∨ c1 ≠ 'c' ∨ c2 ≠ ' ' then Parsed.reject
    else
      let ncliques := r.2.extractUnsigned
      let r1 := ncliques.2.read 1
      let c0 := (r1.1.head?).getD c0
      if c0 ≠ '\n' then Parsed.reject
      else
        let r2 := r1.2.read 3
        match storeChars [some c0, some c1, some c2] r2.1 with
        | [some d0, some d1, some d2] =>
          if d0 ≠ 'n' ∨ d1 ≠ 'e' ∨ d2 ≠ ' ' then Parsed.reject
          else
            let nedges := r2.2.extractUnsigned
            let r3 := nedges.2.read 1
            let d0 := (r3.1.head?).getD d0
            if d0 ≠ '\n' then Parsed.reject
            else
              match deserializeEdges ncliques.1 nedges.1 [] r3.2 with
              | Parsed.accept es is1 => Parsed.accept ⟨ncliques.1, es⟩ is1
              | Parsed.reject => Parsed.reject
              | Parsed.undefined => Parsed.undefined
        | _ => Parsed.undefined
  | [some c0, some c1, none] =>
    if c0 ≠ 'n' ∨ c1 ≠ 'c' then Parsed.reject else Parsed.undefined
  | [some c0, none, none] => if c0 ≠ 'n' then Parsed.reject else Parsed.undefined
  | _ => Parsed.undefined

/-- Function `Edge::serialize`. -/
def serializeEdge (e : BMEdge) : String :=
  "e " ++ Nat.repr e.v_source ++ " " ++ Nat.repr e.v_target ++ " " ++ Int.repr e.score ++ "\n"

/-- Function `serialize`. -/
def serialize (g : BipartiteMatchingGraph) : String :=
  "nc " ++ Nat.repr g.ncliques ++ "\n" ++ "ne " ++ Nat.repr g.edges.length ++ "\n" ++
    String.join (g.edges.map serializeEdge)

end BipartiteMatchingGraph

/-! ## MatchingGraphConverter: back to the constraint graph -/

/-- The vector `costs` of `impl::bmVertexEdgesToNMEdges` after its first loop,
for the source half (`is_source_vertex`) or the target half of clique `cid`. -/
def matchedCosts (bmgraph : BipartiteMatchingGraph) (cid : Nat) (is_source_vertex : Bool) :
    Nat → Nat :=
  (if is_source_vertex then bmgraph.sourceEdges cid else bmgraph.targetEdges cid).foldl
    (fun costs e =>
      upd costs (if is_source_vertex then e.2.v_target else e.2.v_source)
        (convertBMScoreToNMCost e.2.score))
    (fun _ => UINT_MAX)

/-- Function `impl::bmVertexEdgesToNMEdges` for the source half
(`is_source_vertex`) or the target half of clique `cid`. -/
def bmVertexEdgesToNMEdges (bmgraph : BipartiteMatchingGraph) (cid : Nat)
    (is_source_vertex : Bool) (nmgraph : NonMatchingGraph) : NonMatchingGraph :=
  (List.range nmgraph.getNumberVertices).foldl
    (fun g id =>
      if id = cid ∨ matchedCosts bmgraph cid is_source_vertex id = 0 then g
      else if id < cid then g
      else if is_source_vertex then
        g.addDirectedEdge cid id (matchedCosts bmgraph cid is_source_vertex id)
      else g.addDirectedEdge id cid (matchedCosts bmgraph cid is_source_vertex id))
    nmgraph

/-- Function `MatchingGraphConverter::toNonMatchingGraph`. -/
def toNonMatchingGraph (bmgraph : BipartiteMatchingGraph) : NonMatchingGraph :=
  (List.range bmgraph.getNumberCliques).foldl
    (fun g cid =>
      bmVertexEdgesToNMEdges bmgraph cid false (bmVertexEdgesToNMEdges bmgraph cid true g))
    (NonMatchingGraph.startNewGraph bmgraph.getNumberCliques)

/-- The edges `impl::bmVertexEdgesToNMEdges` passes to `addDirectedEdge`, in the
order of the calls, on a constraint graph of `nvertices` vertices. -/
def nmEdgeCalls (bmgraph : BipartiteMatchingGraph) (cid : Nat) (is_source_vertex : Bool)
    (nvertices : Nat) : List NMEdge :=
  ((List.range nvertices).filter
      (fun id =>
        !decide (id = cid ∨ matchedCosts bmgraph cid is_source_vertex id = 0) &&
          !decide (id < cid))).map
    (fun id =>
      if is_source_vertex then ⟨cid, id, matchedCosts bmgraph cid is_source_vertex id⟩
      else ⟨id, cid, matchedCosts bmgraph cid is_source_vertex id⟩)

/-- The cost `toNonMatchingGraph` gives the ordered pair `i -> t`: the entry of
`costs` read in the pass over the target half of `t` when `t < i`, and in the
pass over the source half of `i` otherwise. -/
def pairCost (bmgraph : BipartiteMatchingGraph) (i t : Nat) : Nat :=
  if t < i then matchedCosts bmgraph t false i else matchedCosts bmgraph i true t

/-- Two cliques with the positive scores 1 and 5. -/
def positiveScoreGraph : BipartiteMatchingGraph := ⟨2, [⟨1, 0, 1⟩, ⟨5, 1, 0⟩]⟩

/-- The assignment graph of the tests `DirectCreation` and `BM2NMConversion`. -/
def conversionTestGraph : BipartiteMatchingGraph :=
  ⟨5, [⟨0, 0, 1⟩, ⟨-1, 0, 3⟩, ⟨0, 1, 0⟩, ⟨-1, 1, 2⟩, ⟨0, 1, 4⟩, ⟨0, 2, 1⟩, ⟨0, 2, 3⟩,
    ⟨-1, 2, 4⟩, ⟨-1, 3, 0⟩, ⟨0, 3, 2⟩, ⟨0, 3, 4⟩, ⟨-1, 4, 1⟩, ⟨0, 4, 2⟩, ⟨0, 4, 3⟩]⟩

/-! ## Example graphs of the conversion tests -/

/-- The constraint graph of the tests `Deserialization` and `NM2BMConversion`. -/
def roundTripGraph : NonMatchingGraph :=
  ⟨[⟨0, [⟨0, 4, UINT_MAX⟩, ⟨0, 2, UINT_MAX⟩, ⟨0, 3, 1⟩]⟩,
    ⟨1, [⟨1, 3, UINT_MAX⟩, ⟨1, 2, 1⟩]⟩,
    ⟨2, [⟨2, 0, UINT_MAX⟩, ⟨2, 4, 1⟩]⟩,
    ⟨3, [⟨3, 1, UINT_MAX⟩, ⟨3, 0, 1⟩]⟩,
    ⟨4, [⟨4, 0, UINT_MAX⟩, ⟨4, 1, 1⟩]⟩]⟩

/-! ## Assignment graphs built edge by edge -/

/-- The graph made by `startNewGraph(N)` followed by one call of
`addDirectedEdge` per edge of `es`, in the order of the list. -/
def buildGraph (N : Nat) (es : List BMEdge) : BipartiteMatchingGraph :=
  es.foldl (fun g e => g.addDirectedEdge e.v_source e.v_target e.score)
    (BipartiteMatchingGraph.startNewGraph N)

/-- The characters `Edge::serialize` writes for one edge. -/
def encodeEdge (e : BMEdge) : List Char :=
  'e' :: ' ' :: ((Nat.repr e.v_source).toList ++ ' ' :: ((Nat.repr e.v_target).toList ++
    ' ' :: ((Int.repr e.score).toList ++ ['\n'])))

/-- The edge `0 -> 1` of score 0, added `2^32` times. -/
def manyEdges : List BMEdge := List.replicate 4294967296 ⟨0, 0, 1⟩

/-- Two edges between two cliques, of scores -7 and 0. -/
def smallBuildEdges : List BMEdge := [⟨-7, 0, 1⟩, ⟨0, 1, 0⟩]

/-! ## Parallel edges -/

/-- The graph of the text `nc 3`, `ne 5`, `e 0 1 10`, `e 0 2 8`, `e 0 2 5`,
`e 2 1 0`, `e 1 0 0`: two edges from clique 0 to clique 2, of scores 8 and 5. -/
def parallelEdgesGraph : BipartiteMatchingGraph :=
  ⟨3, [⟨10, 0, 1⟩, ⟨8, 0, 2⟩, ⟨5, 0, 2⟩, ⟨0, 2, 1⟩, ⟨0, 1, 0⟩]⟩

/-- The total score of the matching returned by the solver when every round
uses the clique order `p`, if it returns one. -/
def returnedScore (g : BipartiteMatchingGraph) (p : List Nat) (fuel : Nat) : Option Int :=
  match findRandomPerfectMatching g (fun _ => p) fuel with
  | Outcome.done (some m) => some (totalScore m)
  | _ => none

/-! ## Memory horizon -/

/-- The costs of the edges of `L` whose target is `j`, in the order of `L`. -/
def costsTo (j : Nat) (L : List NMEdge) : List Nat :=
  (L.filter (fun e => decide (e.v_target = j))).map (fun e => e.cost)

/-- The graph after one call `updateConstraints(M, false)` for every matching of
`Ms`, in the order of the list. -/
def evolveMany (G : NonMatchingGraph) (Ms : List (List Nat)) : NonMatchingGraph :=
  Ms.foldl (fun g M => g.updateConstraints M false) G

/-- The matching of `n` vertices that maps `i` to `i + k` modulo `n`. -/
def shiftMatching (n k : Nat) : List Nat := (List.range n).map (fun i => (i + k) % n)

/-! ## The states a run of the solver goes through -/

/-- The locals of `augmentMatching` when it enters its `while` loop: the queue
holds the root, the tree is the root alone, the slack array is the one built
by the constructor of `SlackArray`. -/
def initialSearch (g : BipartiteMatchingGraph) (root_cid : Nat) (l : VertexLabeling) : Search :=
  { queue := [root_cid], atree := AlternatingTree.init root_cid
    slack := (SlackArray.init root_cid (g.sourceEdges root_cid) l).1
    overflow := (SlackArray.init root_cid (g.sourceEdges root_cid) l).2, fault := false }

/-- The matching and the labeling before a round of the `for` loop of
`findPerfectMatching`: the empty matching with the trivially feasible labeling,
and what a round that returned true left. -/
inductive RoundStart (g : BipartiteMatchingGraph) : Matching → VertexLabeling → Prop where
  | first : RoundStart g Matching.empty (VertexLabeling.setToTriviallyFeasibleVertexLabeling g)
  | next (order : List Nat) (fuel : Nat) (m : Matching) (l : VertexLabeling) (m1 : Matching)
      (l1 : VertexLabeling) :
      RoundStart g m l → augmentMatching g order fuel m l = Outcome.done (true, m1, l1) →
      RoundStart g m1 l1

/-- Two places in the `while` loop of `augmentMatching`: the head of the loop,
and the call of `updateLabelingAndSlack`. -/
inductive SearchPhase where
  | loopHead
  | updateCall
  deriving DecidableEq

/-- The labeling and the locals of `augmentMatching` at the head of its `while`
loop and at the calls of `updateLabelingAndSlack`, in a round on the matching
`m`, as long as no `int` computation overflowed: the loop is entered with the
root found by `findExposedSourceVertex`; from the head of the loop, a first
phase that found no path leads to the call of `updateLabelingAndSlack`; that
call, when `delta` is not 0, and the second phase lead back to the head. -/
inductive Reached (g : BipartiteMatchingGraph) (m : Matching) :
    SearchPhase → VertexLabeling → Search → Prop where
  | enter (l : VertexLabeling) (order : List Nat) (root : Nat) :
      RoundStart g m l → m.getNumberEdges ≠ g.ncliques → (∀ c ∈ order, c < g.ncliques) →
      findExposedSourceVertex order m = some root →
      Reached g m SearchPhase.loopHead l (initialSearch g root l)
  | search (l : VertexLabeling) (st : Search) (fuel : Nat) (st1 : Search) :
      Reached g m SearchPhase.loopHead l st →
      st.fault = false → st.overflow = false → st.atree.isAugmentingPathFound = false →
      findAugmentingPathAroundCandidatesSourceVertices g m l fuel st = some st1 →
      st1.fault = false → st1.overflow = false → st1.atree.isAugmentingPathFound = false →
      Reached g m SearchPhase.updateCall l st1
  | update (l : VertexLabeling) (st1 : Search) :
      Reached g m SearchPhase.updateCall l st1 →
      (st1.slack.simplifyMinCostSlack st1.atree g.ncliques).2.2 = false →
      (st1.slack.simplifyMinCostSlack st1.atree g.ncliques).1 ≠ 0 →
      (l.update g.ncliques (st1.slack.simplifyMinCostSlack st1.atree g.ncliques).1
        st1.atree).2 = false →
      Reached g m SearchPhase.loopHead
        (l.update g.ncliques (st1.slack.simplifyMinCostSlack st1.atree g.ncliques).1
          st1.atree).1
        (findAugmentingPathFromNewReachableTargetVertices g m
          (l.update g.ncliques (st1.slack.simplifyMinCostSlack st1.atree g.ncliques).1
            st1.atree).1
          (List.range g.ncliques)
          { queue := st1.queue, atree := st1.atree
            slack := (st1.slack.simplifyMinCostSlack st1.atree g.ncliques).2.1
            overflow := st1.overflow, fault := st1.fault })

/-- The matching and the labeling after one more round with the clique order
`order`, when that round returns true. -/
def afterRound (g : BipartiteMatchingGraph) (order : List Nat) (fuel : Nat)
    (p : Matching × VertexLabeling) : Matching × VertexLabeling :=
  match augmentMatching g order fuel p.1 p.2 with
  | Outcome.done (true, m1, l1) => (m1, l1)
  | _ => p

/-- The search state after the first phase, when it returns. -/
def afterFirstPhase (g : BipartiteMatchingGraph) (m : Matching) (l : VertexLabeling)
    (fuel : Nat) (st : Search) : Search :=
  (findAugmentingPathAroundCandidatesSourceVertices g m l fuel st).getD st

/-- The matching and the labeling on the graph of the test
`FindHighestWeightMatch` after two rounds with the clique order `[0, 1, 2]`. -/
def twoRounds : Matching × VertexLabeling :=
  afterRound highestWeightGraph [0, 1, 2] 10
    (afterRound highestWeightGraph [0, 1, 2] 10
      (Matching.empty, VertexLabeling.setToTriviallyFeasibleVertexLabeling highestWeightGraph))

/-- The locals of the third round on that graph, with root 2, when
`updateLabelingAndSlack` is called. -/
def thirdRoundUpdate : Search :=
  afterFirstPhase highestWeightGraph twoRounds.1 twoRounds.2 10
    (initialSearch highestWeightGraph 2 twoRounds.2)

/-- The tree and the labeling with which the `while` loop of `augmentMatching`
ends, when it ends with an augmenting path. -/
def foundTree (g : BipartiteMatchingGraph) (m : Matching) (fuel : Nat) (l : VertexLabeling)
    (st : Search) : AlternatingTree × VertexLabeling :=
  match searchLoop g m fuel l st with
  | Outcome.done (some a, l1) => (a, l1)
  | _ => (st.atree, l)

/-! ## A slack entry that is not recorded -/

/-- Every entry of the slack array without a witness source has no witness
edge either. -/
def SlackPaired (sa : SlackArray) : Prop :=
  ∀ t, sa.source_cid t = none → sa.edge_cid t = none

/-- The labeling that `updateLabelingAndSlack` leaves when it is called with the
locals `st1`. -/
def updatedLabeling (g : BipartiteMatchingGraph) (l : VertexLabeling) (st1 : Search) :
    VertexLabeling :=
  (l.update g.ncliques (st1.slack.simplifyMinCostSlack st1.atree g.ncliques).1 st1.atree).1

/-- The locals at the next head of the loop, after `updateLabelingAndSlack` and
`findAugmentingPathFromNewReachableTargetVertices`. -/
def afterSecondPhase (g : BipartiteMatchingGraph) (m : Matching) (l : VertexLabeling)
    (st1 : Search) : Search :=
  findAugmentingPathFromNewReachableTargetVertices g m (updatedLabeling g l st1)
    (List.range g.ncliques)
    { queue := st1.queue, atree := st1.atree,
      slack := (st1.slack.simplifyMinCostSlack st1.atree g.ncliques).2.1,
      overflow := st1.overflow, fault := st1.fault }

/-- Three cliques; the edge from clique 0 to clique 2 has score `-INT_MAX`, so
that its slack under the initial labeling is `INT_MAX`. -/
def staleSlackGraph : BipartiteMatchingGraph :=
  ⟨3, [⟨0, 0, 1⟩, ⟨-2147483647, 0, 2⟩, ⟨0, 1, 0⟩, ⟨0, 2, 1⟩, ⟨-5, 2, 0⟩]⟩

/-- The matching and the labeling on `staleSlackGraph` after two rounds with the
clique order `[0, 1, 2]`. -/
def staleRounds : Matching × VertexLabeling :=
  afterRound staleSlackGraph [0, 1, 2] 10
    (afterRound staleSlackGraph [0, 1, 2] 10
      (Matching.empty, VertexLabeling.setToTriviallyFeasibleVertexLabeling staleSlackGraph))

/-- The locals of the third round on `staleSlackGraph`, with root 2, at the
first call of `updateLabelingAndSlack`. -/
def staleFirstUpdate : Search :=
  afterFirstPhase staleSlackGraph staleRounds.1 staleRounds.2 10
    (initialSearch staleSlackGraph 2 staleRounds.2)

/-- The labeling of that round after the first call of
`updateLabelingAndSlack`. -/
def staleLabeling : VertexLabeling :=
  updatedLabeling staleSlackGraph staleRounds.2 staleFirstUpdate

/-- The locals of that round at the second call of `updateLabelingAndSlack`. -/
def staleSecondUpdate : Search :=
  afterFirstPhase staleSlackGraph staleRounds.1 staleLabeling 10
    (afterSecondPhase staleSlackGraph staleRounds.1 staleRounds.2 staleFirstUpdate)

end wpm

namespace wpm

/-! ## Evolution rule: the code against the specification -/

theorem decrementCosts_eq_decaySpec (L : List NMEdge) :
    NonMatchingGraph.decrementCosts L = decaySpec L := by
  induction L with
  | nil => rfl
  | cons e rest ih =>
    unfold NonMatchingGraph.decrementCosts
    by_cases h1 : e.cost ≤ 1
    · have h2 : ¬ 1 < e.cost := by omega
      rw [if_pos h1, ih]
      simp [h2, decaySpec]
    · have h2 : 1 < e.cost := by omega
      rw [if_neg h1, ih]
      by_cases h3 : e.cost = UINT_MAX
      · rw [if_neg (not_not.2 h3)]
        simp only [decaySpec, List.filter_cons, h2, decide_True, if_true, List.map_cons]
        rw [if_pos h3]
      · rw [if_pos h3]
        simp only [decaySpec, List.filter_cons, h2, decide_True, if_true, List.map_cons]
        rw [if_neg h3]

theorem findConstraint_none_iff (target : Nat) (L : List NMEdge) :
    NonMatchingGraph.findConstraint target L = none ↔
      L.any (fun e => decide (e.v_target = target)) = false := by
  induction L with
  | nil => simp [NonMatchingGraph.findConstraint]
  | cons e rest ih =>
    unfold NonMatchingGraph.findConstraint
    by_cases h : e.v_target = target
    · simp [h]
    · simp [h, ih]

theorem modify_findConstraint (target N : Nat) (L : List NMEdge) (k : Nat)
    (h : NonMatchingGraph.findConstraint target L = some k) :
    L.modify (fun e => { e with cost := N }) k = resetFirstSpec target N L := by
  induction L generalizing k with
  | nil => simp [NonMatchingGraph.findConstraint] at h
  | cons e rest ih =>
    unfold NonMatchingGraph.findConstraint at h
    by_cases ht : e.v_target = target
    · simp [ht] at h
      subst h
      simp [resetFirstSpec, ht]
    · simp [ht] at h
      obtain ⟨j, hj, rfl⟩ := h
      simp [resetFirstSpec, ht, ih j hj]

theorem vertexEvolve_false (N : Nat) (matching : List Nat) (v : NMVertex) :
    vertexEvolve N matching false v =
      { v with constraints := evolveSpec N v.id (matching.getD v.id 0) v.constraints } := by
  unfold vertexEvolve evolveSpec
  simp only [Bool.false_and, decrementCosts_eq_decaySpec]
  cases hf : NonMatchingGraph.findConstraint (matching.getD v.id 0) (decaySpec v.constraints) with
  | none =>
    have := (findConstraint_none_iff _ _).1 hf
    simp only [this, Bool.false_eq_true, if_false]
  | some k =>
    have hne : (decaySpec v.constraints).any (fun e => decide (e.v_target = matching.getD v.id 0))
        = true := by
      cases hb : (decaySpec v.constraints).any (fun e => decide (e.v_target = matching.getD v.id 0))
      · rw [(findConstraint_none_iff _ _).2 hb] at hf; cases hf
      · rfl
    simp only [hne, if_true, modify_findConstraint _ _ _ _ hf, Bool.false_eq_true, if_false]

theorem eraseCheapConstraints_eq_filter (threshold : Nat) (L : List NMEdge) :
    NonMatchingGraph.eraseCheapConstraints threshold L =
      L.filter (fun e => decide (threshold < e.cost)) := by
  induction L with
  | nil => rfl
  | cons e rest ih =>
    unfold NonMatchingGraph.eraseCheapConstraints
    by_cases h : e.cost ≤ threshold
    · have h2 : ¬ threshold < e.cost := by omega
      simp [h, h2, ih]
    · have h2 : threshold < e.cost := by omega
      simp [h, h2, ih]

theorem vertexEvolve_id (N : Nat) (matching : List Nat) (avoid : Bool) (v : NMVertex) :
    (vertexEvolve N matching avoid v).id = v.id := rfl

/-- The body of the loop rewrites the visited vertex and nothing else. -/
theorem updateVertexConstraints_eq (g : NonMatchingGraph) (matching : List Nat) (avoid : Bool)
    (pos : Nat) (v : NMVertex) (hv : g.vertices[pos]? = some v) (hid : v.id = pos) :
    NonMatchingGraph.updateVertexConstraints g matching avoid pos =
      ⟨g.vertices.set pos (vertexEvolve g.vertices.length matching avoid v)⟩ := by
  subst hid
  have hpos : v.id < g.vertices.length := by
    rcases List.getElem?_eq_some_iff.1 hv with ⟨h, _⟩
    exact h
  unfold NonMatchingGraph.updateVertexConstraints vertexEvolve
  simp only [List.get?_eq_getElem?, hv]
  cases hf : NonMatchingGraph.findConstraint (matching.getD v.id 0)
      (NonMatchingGraph.decrementCosts v.constraints) with
  | some k =>
    simp only [List.set_set, List.getElem?_set_self hpos]
    split <;> simp
  | none =>
    simp only [NonMatchingGraph.addDirectedEdge]
    have hmod : (g.vertices.set v.id
          { id := v.id, constraints := NonMatchingGraph.decrementCosts v.constraints }).modify
          (fun w => { w with constraints :=
            w.constraints ++ [⟨v.id, matching.getD v.id 0, g.vertices.length⟩] })
          v.id =
        g.vertices.set v.id { id := v.id, constraints :=
          NonMatchingGraph.decrementCosts v.constraints ++
            [⟨v.id, matching.getD v.id 0, g.vertices.length⟩] } := by
      simp [List.modify_eq_set_get?, hpos]
    rw [hmod]
    simp only [List.getElem?_set_self hpos, List.set_set]
    split <;> simp

theorem foldl_updateVertexConstraints (matching : List Nat) (avoid : Bool) (l : List NMVertex)
    (hid : ∀ (i : Nat) (v : NMVertex), l[i]? = some v → v.id = i) (n : Nat) (hn : n ≤ l.length) :
    ((List.range n).foldl
        (fun acc pos => NonMatchingGraph.updateVertexConstraints acc matching avoid pos) ⟨l⟩).vertices =
      (l.take n).map (vertexEvolve l.length matching avoid) ++ l.drop n := by
  induction n with
  | zero => simp
  | succ n ih =>
    have hn1 : n < l.length := by omega
    rw [List.range_succ, List.foldl_append]
    simp only [List.foldl_cons, List.foldl_nil]
    have ih1 := ih (by omega)
    set g1 := (List.range n).foldl
        (fun acc pos => NonMatchingGraph.updateVertexConstraints acc matching avoid pos) ⟨l⟩ with hg1
    have hmin : n ⊓ l.length = n := Nat.min_eq_left (by omega)
    have hlen : g1.vertices.length = l.length := by
      rw [ih1]; simp <;> omega
    have hget : g1.vertices[n]? = some l[n] := by
      rw [ih1, List.getElem?_append_right (by simp)]
      simp [List.getElem?_drop, Nat.min_eq_left (Nat.le_of_lt hn1)]
    have hidn : (l[n]).id = n := hid n _ (List.getElem?_eq_getElem hn1)
    rw [updateVertexConstraints_eq g1 matching avoid n _ hget hidn, hlen, ih1]
    simp only
    apply List.ext_getElem?
    intro i
    rw [List.getElem?_set]
    by_cases hi : n = i
    · subst hi
      have h1 : n < ((l.take n).map (vertexEvolve l.length matching avoid) ++ l.drop n).length := by
        simp [hmin]; omega
      have h2 : n < ((l.take (n + 1)).map (vertexEvolve l.length matching avoid)).length := by
        simp; omega
      rw [if_pos h1, List.getElem?_append_left h2]
      simp [List.getElem?_take, List.getElem?_eq_getElem hn1]
    · simp only [hi, if_false]
      by_cases hlt : i < n
      · rw [List.getElem?_append_left (by simp; omega), List.getElem?_append_left (by simp; omega)]
        simp [List.getElem?_take, hlt, Nat.lt_succ_of_lt hlt]
      · have hgt : n + 1 ≤ i := by omega
        rw [List.getElem?_append_right (by simp; omega), List.getElem?_append_right (by simp; omega)]
        simp only [List.length_map, List.length_take, List.getElem?_drop]
        congr 1
        omega

/-- The whole of `updateConstraints`, vertex by vertex. -/
theorem updateConstraints_eq_map (g : NonMatchingGraph) (matching : List Nat) (avoid : Bool)
    (hid : ∀ (i : Nat) (v : NMVertex), g.vertices[i]? = some v → v.id = i) :
    (g.updateConstraints matching avoid).vertices =
      g.vertices.map (vertexEvolve g.vertices.length matching avoid) := by
  unfold NonMatchingGraph.updateConstraints
  have := foldl_updateVertexConstraints matching avoid g.vertices hid g.vertices.length (le_refl _)
  simpa using this

theorem idsArePositions_getElem? (g : NonMatchingGraph) (h : g.IdsArePositions) :
    ∀ (i : Nat) (v : NMVertex), g.vertices[i]? = some v → v.id = i := by
  intro i v hv
  exact h (i, v) (List.mk_mem_enum_iff_getElem?.2 hv)

theorem unsigned_pred (N : Nat) (h1 : 1 ≤ N) (h2 : N ≤ UINT_MAX) :
    (N + UINT_MAX) % (UINT_MAX + 1) = N - 1 := by
  unfold UINT_MAX at *
  omega

theorem unsigned_threshold (N : Nat) (h : 2 * N ≤ UINT_MAX) :
    ((N * 2) % (UINT_MAX + 1)) / 3 = 2 * N / 3 := by
  unfold UINT_MAX at *
  omega

theorem vertexEvolve_true (N : Nat) (matching : List Nat) (v : NMVertex) (h1 : 1 ≤ N)
    (h2 : 2 * N ≤ UINT_MAX) :
    vertexEvolve N matching true v =
      { vertexEvolve N matching false v with
        constraints := avoidDeterministicSpec N (vertexEvolve N matching false v).constraints } := by
  have h3 : N ≤ UINT_MAX := by omega
  unfold vertexEvolve avoidDeterministicSpec
  simp only [Bool.true_and, Bool.false_and, Bool.false_eq_true, if_false, unsigned_pred N h1 h3,
    unsigned_threshold N h2, eraseCheapConstraints_eq_filter, decide_eq_true_eq]

end wpm

namespace wpm

/-! ## Claims on the evolution rule -/

/-- C9. Evolution, decay and reset: with `avoid_deterministic = false`,
`updateConstraints` replaces the edge list of every vertex `i` by the list the
specification describes: edges of cost at most 1 removed, the other finite costs
decremented, infinite costs and the order kept, then the first edge to
`matching[i]` set to cost `N`, or the edge `(i -> matching[i], N)` appended when
there is none. -/
theorem updateConstraints_decay_reset (g : NonMatchingGraph) (matching : List Nat)
    (hid : g.IdsArePositions)
    (_hlen : matching.length = g.vertices.length)
    (_hlt : ∀ x ∈ matching, x < g.vertices.length) :
    (g.updateConstraints matching false).vertices =
      g.vertices.map (fun v =>
        { v with constraints :=
            evolveSpec g.vertices.length v.id (matching.getD v.id 0) v.constraints }) := by
  rw [updateConstraints_eq_map g matching false (idsArePositions_getElem? g hid)]
  apply List.map_congr_left
  intro v _
  exact vertexEvolve_false _ _ v

/-- Witness of C9 on a graph with a forbidden pair, an expiring edge and two
decaying edges. -/
theorem updateConstraints_decay_reset_witness :
    evolveExample.IdsArePositions ∧
    [2, 0, 1].length = evolveExample.vertices.length ∧
    (∀ x ∈ [2, 0, 1], x < evolveExample.vertices.length) ∧
    (evolveExample.updateConstraints [2, 0, 1] false).vertices =
      evolveExample.vertices.map (fun v =>
        { v with constraints :=
            evolveSpec evolveExample.vertices.length v.id ([2, 0, 1].getD v.id 0) v.constraints }) :=
  ⟨by decide, by decide, by decide,
    updateConstraints_decay_reset evolveExample [2, 0, 1] (by decide) (by decide) (by decide)⟩

end wpm

namespace wpm

/-! ## Concrete runs of the solver -/

/-- C4 (failing inputs). On the graph with one clique and no edge, and on the
graph where two sources compete for one target, `findRandomPerfectMatching`
never returns false, whatever the fuel: `delta` is `INT_MAX` (no candidate
target), the assertion on it is compiled out, and the label update overflows. -/
theorem findRandomPerfectMatching_never_false :
    (∀ fuel, findRandomPerfectMatching oneCliqueGraph (fun _ => [0]) fuel ≠ Outcome.done none) ∧
    (∀ fuel, findRandomPerfectMatching contendedGraph3 (fun _ => [0, 1, 2]) fuel ≠
      Outcome.done none) := by
  constructor
  · intro fuel
    match fuel with
    | 0 => decide
    | 1 => decide
    | 2 => decide
    | n + 3 =>
      have h : findRandomPerfectMatching oneCliqueGraph (fun _ => [0]) (n + 3) =
          Outcome.overflow := by rfl
      rw [h]
      decide
  · intro fuel
    match fuel with
    | 0 => decide
    | 1 => decide
    | 2 => decide
    | 3 => decide
    | n + 4 =>
      have h : findRandomPerfectMatching contendedGraph3 (fun _ => [0, 1, 2]) (n + 4) =
          Outcome.overflow := by rfl
      rw [h]
      decide

/-- C5 (failing input). On the well-formed text of one vertex without
constraint the facade returns no result code at all, whatever the fuel: the
solver overflows instead of reporting the failure. -/
theorem findBestPerfectMatching_one_vertex :
    ∀ fuel r, findBestPerfectMatching "nv 1\nv 0\n" (fun _ => [0]) fuel ≠ Outcome.done r := by
  intro fuel r
  match fuel with
  | 0 =>
    have h : findBestPerfectMatching "nv 1\nv 0\n" (fun _ => [0]) 0 = Outcome.running := by rfl
    rw [h]
    exact fun h => Outcome.noConfusion h
  | 1 =>
    have h : findBestPerfectMatching "nv 1\nv 0\n" (fun _ => [0]) 1 = Outcome.running := by rfl
    rw [h]
    exact fun h => Outcome.noConfusion h
  | 2 =>
    have h : findBestPerfectMatching "nv 1\nv 0\n" (fun _ => [0]) 2 = Outcome.overflow := by rfl
    rw [h]
    exact fun h => Outcome.noConfusion h
  | n + 3 =>
    have h : findBestPerfectMatching "nv 1\nv 0\n" (fun _ => [0]) (n + 3) =
        Outcome.overflow := by rfl
    rw [h]
    exact fun h => Outcome.noConfusion h

/-- C8 (counterexample). On two cliques with the edge `0 -> 1` of score `S_MIN`
and the edge `1 -> 0` of score 0, the solver returns true and the returned
matching contains the edge of score `S_MIN`. -/
theorem forbidden_edge_selected :
    findRandomPerfectMatching forbiddenEdgeGraph (fun _ => [0, 1]) 10 =
      Outcome.done (some [(0, ⟨INT_MIN, 0, 1⟩), (1, ⟨0, 1, 0⟩)]) ∧
    ∃ e ∈ [((0 : Nat), (⟨INT_MIN, 0, 1⟩ : BMEdge)), (1, ⟨0, 1, 0⟩)], e.2.score = INT_MIN := by
  refine ⟨by rfl, ?_⟩
  exact ⟨(0, ⟨INT_MIN, 0, 1⟩), by simp, rfl⟩

end wpm

namespace wpm

/-! ## Basic facts on vectors and edge pointers -/

theorem upd_same {α : Type} (f : Nat → α) (i : Nat) (x : α) : upd f i x i = x := by
  simp [upd]

theorem upd_other {α : Type} (f : Nat → α) {i j : Nat} (x : α) (h : j ≠ i) :
    upd f i x j = f j := by
  simp [upd, h]

theorem upd_apply {α : Type} (f : Nat → α) (i j : Nat) (x : α) :
    upd f i x j = if j = i then x else f j := rfl

theorem edgeRef_eq_of_idx {g : BipartiteMatchingGraph} {e1 e2 : EdgeRef}
    (h1 : e1 ∈ g.edges.enum) (h2 : e2 ∈ g.edges.enum) (h : e1.1 = e2.1) : e1 = e2 := by
  obtain ⟨i, x⟩ := e1
  obtain ⟨j, y⟩ := e2
  simp only at h
  subst h
  have hx := List.mk_mem_enum_iff_getElem?.1 h1
  have hy := List.mk_mem_enum_iff_getElem?.1 h2
  rw [hx] at hy
  cases hy
  rfl

theorem mem_sourceEdges {g : BipartiteMatchingGraph} {c : Nat} {e : EdgeRef} :
    e ∈ g.sourceEdges c ↔ e ∈ g.edges.enum ∧ e.2.v_source = c := by
  simp [BipartiteMatchingGraph.sourceEdges, List.mem_filter]

theorem wellFormed_of_mem {g : BipartiteMatchingGraph} (hg : g.WellFormed) {e : EdgeRef}
    (he : e ∈ g.edges.enum) : e.2.v_source < g.ncliques ∧ e.2.v_target < g.ncliques := by
  obtain ⟨i, x⟩ := e
  have hx := List.mk_mem_enum_iff_getElem?.1 he
  exact hg x (List.getElem?_mem hx)

/-! ## The matching invariant -/

theorem matchingInv_empty (g : BipartiteMatchingGraph) : MatchingInv g Matching.empty where
  src_edge := by intro s e h; simp [Matching.empty] at h
  tgt_edge := by intro t e h; simp [Matching.empty] at h
  src_match := by intro s; simp [Matching.empty]
  tgt_match := by intro t; simp [Matching.empty]
  edges_iff := by intro e; simp [Matching.empty]
  edges_nodup := by simp [Matching.empty]

theorem MatchingInv.isTarget_iff {g : BipartiteMatchingGraph} {m : Matching}
    (h : MatchingInv g m) (t : Nat) : m.isTarget t = true ↔ ∃ e, m.target_edges t = some e := by
  unfold Matching.isTarget
  rw [h.tgt_match t]
  cases m.target_edges t <;> simp

theorem MatchingInv.isSource_iff {g : BipartiteMatchingGraph} {m : Matching}
    (h : MatchingInv g m) (s : Nat) : m.isSource s = true ↔ ∃ e, m.source_edges s = some e := by
  unfold Matching.isSource
  rw [h.src_match s]
  cases m.source_edges s <;> simp

theorem MatchingInv.addEdge {g : BipartiteMatchingGraph} {m : Matching}
    (h : MatchingInv g m) (e : EdgeRef) (he : e ∈ g.edges.enum)
    (hs : m.source_edges e.2.v_source = none) (ht : m.target_edges e.2.v_target = none) :
    MatchingInv g (m.addEdge e) where
  src_edge := by
    intro s e1 h1
    simp only [Matching.addEdge, upd_apply] at h1 ⊢
    by_cases hse : s = e.2.v_source
    · simp only [hse, if_true, Option.some.injEq] at h1
      subst h1
      simp [he, hse]
    · simp only [hse, if_false] at h1
      obtain ⟨h2, h3, h4⟩ := h.src_edge s e1 h1
      refine ⟨h2, h3, ?_⟩
      have : e1.2.v_target ≠ e.2.v_target := by
        intro hc
        rw [hc, ht] at h4
        cases h4
      simp [this, h4]
  tgt_edge := by
    intro t e1 h1
    simp only [Matching.addEdge, upd_apply] at h1 ⊢
    by_cases hte : t = e.2.v_target
    · simp only [hte, if_true, Option.some.injEq] at h1
      subst h1
      simp [he, hte]
    · simp only [hte, if_false] at h1
      obtain ⟨h2, h3, h4⟩ := h.tgt_edge t e1 h1
      refine ⟨h2, h3, ?_⟩
      have : e1.2.v_source ≠ e.2.v_source := by
        intro hc
        rw [hc, hs] at h4
        cases h4
      simp [this, h4]
  src_match := by
    intro s
    simp only [Matching.addEdge, upd_apply]
    by_cases hse : s = e.2.v_source
    · simp [hse]
    · simp [hse, h.src_match s]
  tgt_match := by
    intro t
    simp only [Matching.addEdge, upd_apply]
    by_cases hte : t = e.2.v_target
    · simp [hte]
    · simp [hte, h.tgt_match t]
  edges_iff := by
    intro e1
    simp only [Matching.addEdge, upd_apply, List.mem_append, List.mem_singleton]
    by_cases hse : e1.2.v_source = e.2.v_source
    · simp only [hse, if_true, Option.some.injEq]
      constructor
      · rintro (h1 | h1)
        · have := (h.edges_iff e1).1 h1
          rw [hse, hs] at this
          cases this
        · exact h1.symm
      · intro h1
        exact Or.inr h1.symm
    · simp only [hse, if_false]
      constructor
      · rintro (h1 | h1)
        · exact (h.edges_iff e1).1 h1
        · subst h1
          exact absurd rfl hse
      · intro h1
        exact Or.inl ((h.edges_iff e1).2 h1)
  edges_nodup := by
    simp only [Matching.addEdge]
    rw [List.nodup_append]
    refine ⟨h.edges_nodup, List.nodup_singleton e, ?_⟩
    intro x hx hx2
    simp only [List.mem_singleton] at hx2
    subst hx2
    have := (h.edges_iff x).1 hx
    rw [hs] at this
    cases this

theorem addEdge_length (m : Matching) (e : EdgeRef) :
    (m.addEdge e).edges.length = m.edges.length + 1 := by
  simp [Matching.addEdge]

theorem eraseP_idx_eq_erase {g : BipartiteMatchingGraph} (e : EdgeRef) (he : e ∈ g.edges.enum) :
    ∀ (l : List EdgeRef), (∀ q ∈ l, q ∈ g.edges.enum) →
      l.eraseP (fun q => decide (q.1 = e.1)) = l.erase e := by
  intro l
  induction l with
  | nil => intro _; rfl
  | cons a rest ih =>
    intro hl
    have ha : a ∈ g.edges.enum := hl a (List.mem_cons_self _ _)
    have hrest : ∀ q ∈ rest, q ∈ g.edges.enum := fun q hq => hl q (List.mem_cons_of_mem _ hq)
    by_cases hae : a = e
    · subst hae
      simp
    · have hidx : ¬ a.1 = e.1 := fun hc => hae (edgeRef_eq_of_idx ha he hc)
      rw [List.eraseP_cons_of_neg (by simpa using hidx), List.erase_cons_tail (by simpa using hae),
        ih hrest]

theorem MatchingInv.mem_edges {g : BipartiteMatchingGraph} {m : Matching}
    (h : MatchingInv g m) {e : EdgeRef} (he : e ∈ m.edges) : e ∈ g.edges.enum :=
  (h.src_edge _ _ ((h.edges_iff e).1 he)).1

/-- Removing an edge of the matching clears its two ends and nothing else. -/
theorem MatchingInv.removeEdge_eq {g : BipartiteMatchingGraph} {m : Matching}
    (h : MatchingInv g m) (e : EdgeRef) (he : m.source_edges e.2.v_source = some e) :
    m.removeEdge e =
      { edges := m.edges.erase e
        source_matches := upd m.source_matches e.2.v_source none
        source_edges := upd m.source_edges e.2.v_source none
        target_matches := upd m.target_matches e.2.v_target none
        target_edges := upd m.target_edges e.2.v_target none } := by
  have hmem : e ∈ m.edges := (h.edges_iff e).2 he
  have hg : e ∈ g.edges.enum := h.mem_edges hmem
  have ht : m.target_edges e.2.v_target = some e := (h.src_edge _ _ he).2.2
  have hany : m.edges.any (fun q => decide (q.1 = e.1)) = true := by
    rw [List.any_eq_true]
    exact ⟨e, hmem, by simp⟩
  unfold Matching.removeEdge
  rw [if_pos hany]
  simp only [he, ht, Matching.samePtr, decide_True, if_true]
  rw [eraseP_idx_eq_erase e hg m.edges (fun q hq => h.mem_edges hq)]

theorem MatchingInv.removeEdge {g : BipartiteMatchingGraph} {m : Matching}
    (h : MatchingInv g m) (e : EdgeRef) (he : m.source_edges e.2.v_source = some e) :
    MatchingInv g (m.removeEdge e) := by
  have ht : m.target_edges e.2.v_target = some e := (h.src_edge _ _ he).2.2
  rw [h.removeEdge_eq e he]
  exact
  { src_edge := by
      intro s e1 h1
      simp only [upd_apply] at h1 ⊢
      by_cases hse : s = e.2.v_source
      · simp [hse] at h1
      · simp only [hse, if_false] at h1
        obtain ⟨h2, h3, h4⟩ := h.src_edge s e1 h1
        refine ⟨h2, h3, ?_⟩
        have : e1.2.v_target ≠ e.2.v_target := by
          intro hc
          rw [hc, ht] at h4
          cases h4
          exact hse h3.symm
        simp [this, h4]
    tgt_edge := by
      intro t e1 h1
      simp only [upd_apply] at h1 ⊢
      by_cases hte : t = e.2.v_target
      · simp [hte] at h1
      · simp only [hte, if_false] at h1
        obtain ⟨h2, h3, h4⟩ := h.tgt_edge t e1 h1
        refine ⟨h2, h3, ?_⟩
        have : e1.2.v_source ≠ e.2.v_source := by
          intro hc
          rw [hc, he] at h4
          cases h4
          exact hte h3.symm
        simp [this, h4]
    src_match := by
      intro s
      simp only [upd_apply]
      by_cases hse : s = e.2.v_source
      · simp [hse]
      · simp [hse, h.src_match s]
    tgt_match := by
      intro t
      simp only [upd_apply]
      by_cases hte : t = e.2.v_target
      · simp [hte]
      · simp [hte, h.tgt_match t]
    edges_iff := by
      intro e1
      simp only [upd_apply]
      rw [h.edges_nodup.mem_erase_iff]
      by_cases hse : e1.2.v_source = e.2.v_source
      · simp only [hse, if_true]
        constructor
        · rintro ⟨h1, h2⟩
          have := (h.edges_iff e1).1 h2
          rw [hse, he] at this
          cases this
          exact absurd rfl h1
        · intro h1
          cases h1
      · simp only [hse, if_false]
        constructor
        · rintro ⟨_, h2⟩
          exact (h.edges_iff e1).1 h2
        · intro h1
          refine ⟨?_, (h.edges_iff e1).2 h1⟩
          intro hc
          subst hc
          exact hse rfl
    edges_nodup := h.edges_nodup.erase e }

theorem MatchingInv.removeEdge_length {g : BipartiteMatchingGraph} {m : Matching}
    (h : MatchingInv g m) (e : EdgeRef) (he : m.source_edges e.2.v_source = some e) :
    (m.removeEdge e).edges.length + 1 = m.edges.length := by
  have hmem : e ∈ m.edges := (h.edges_iff e).2 he
  rw [h.removeEdge_eq e he]
  simp only
  rw [List.length_erase_of_mem hmem]
  have : 0 < m.edges.length := List.length_pos_of_mem hmem
  omega

end wpm

namespace wpm

/-! ## Applying an augmenting path -/

/-- Removing matched edges one after the other: the invariant is kept, the ends
of the removed edges become exposed, nothing else becomes matched. -/
theorem foldl_removeEdgePtr {g : BipartiteMatchingGraph} :
    ∀ (R : List (Option EdgeRef)) (m : Matching), MatchingInv g m →
      (∀ r ∈ R, ∃ e2, r = some e2 ∧ m.source_edges e2.2.v_source = some e2) → R.Nodup →
      MatchingInv g (R.foldl Matching.removeEdgePtr m) ∧
      (R.foldl Matching.removeEdgePtr m).edges.length + R.length = m.edges.length ∧
      (∀ s, m.source_edges s = none ∨ m.source_edges s ∈ R →
        (R.foldl Matching.removeEdgePtr m).source_edges s = none) ∧
      (∀ t, m.target_edges t = none ∨ m.target_edges t ∈ R →
        (R.foldl Matching.removeEdgePtr m).target_edges t = none) ∧
      (∀ e ∈ (R.foldl Matching.removeEdgePtr m).edges, e ∈ m.edges) := by
  intro R
  induction R with
  | nil =>
    intro m hm _ _
    refine ⟨hm, by simp, ?_, ?_, by simp⟩
    · intro s hs
      simpa using hs
    · intro t ht
      simpa using ht
  | cons r rest ih =>
    intro m hm hR hnd
    obtain ⟨e2, rfl, he2⟩ := hR r (List.mem_cons_self _ _)
    have hnd2 := List.nodup_cons.1 hnd
    have ht2 : m.target_edges e2.2.v_target = some e2 := (hm.src_edge _ _ he2).2.2
    have hm1 : MatchingInv g (m.removeEdge e2) := hm.removeEdge e2 he2
    have heq := hm.removeEdge_eq e2 he2
    have hsrc1 : ∀ s, (m.removeEdge e2).source_edges s =
        if s = e2.2.v_source then none else m.source_edges s := by
      intro s; rw [heq]; rfl
    have htgt1 : ∀ t, (m.removeEdge e2).target_edges t =
        if t = e2.2.v_target then none else m.target_edges t := by
      intro t; rw [heq]; rfl
    have hR1 : ∀ r ∈ rest, ∃ e3, r = some e3 ∧
        (m.removeEdge e2).source_edges e3.2.v_source = some e3 := by
      intro r hr
      obtain ⟨e3, rfl, he3⟩ := hR r (List.mem_cons_of_mem _ hr)
      refine ⟨e3, rfl, ?_⟩
      rw [hsrc1]
      have hne : e3.2.v_source ≠ e2.2.v_source := by
        intro hc
        rw [hc, he2] at he3
        cases he3
        exact hnd2.1 hr
      simp [hne, he3]
    obtain ⟨i1, i2, i3, i4, i5⟩ := ih (m.removeEdge e2) hm1 hR1 hnd2.2
    simp only [List.foldl_cons, Matching.removeEdgePtr]
    refine ⟨i1, ?_, ?_, ?_, ?_⟩
    · have := hm.removeEdge_length e2 he2
      simp only [List.length_cons]
      omega
    · intro s hs
      apply i3
      rw [hsrc1]
      by_cases hse : s = e2.2.v_source
      · simp [hse]
      · simp only [hse, if_false]
        rcases hs with hs | hs
        · exact Or.inl hs
        · rcases List.mem_cons.1 hs with hs | hs
          · rw [← he2] at hs
            have h3 := hm.src_edge s e2 (by rw [hs, he2])
            exact absurd h3.2.1.symm hse
          · exact Or.inr hs
    · intro t ht
      apply i4
      rw [htgt1]
      by_cases hte : t = e2.2.v_target
      · simp [hte]
      · simp only [hte, if_false]
        rcases ht with ht | ht
        · exact Or.inl ht
        · rcases List.mem_cons.1 ht with ht | ht
          · have h3 := hm.tgt_edge t e2 ht
            exact absurd h3.2.1.symm hte
          · exact Or.inr ht
    · intro e he
      have := i5 e he
      rw [heq] at this
      exact List.mem_of_mem_erase this

/-- Adding edges whose ends are exposed and pairwise distinct. -/
theorem foldl_addEdge {g : BipartiteMatchingGraph} :
    ∀ (A : List EdgeRef) (m : Matching), MatchingInv g m →
      (∀ e ∈ A, e ∈ g.edges.enum ∧ m.source_edges e.2.v_source = none ∧
        m.target_edges e.2.v_target = none) →
      A.Pairwise (fun e e2 => e.2.v_source ≠ e2.2.v_source ∧ e.2.v_target ≠ e2.2.v_target) →
      MatchingInv g (A.foldl Matching.addEdge m) ∧
      (A.foldl Matching.addEdge m).edges.length = m.edges.length + A.length ∧
      (∀ e ∈ (A.foldl Matching.addEdge m).edges, e ∈ m.edges ∨ e ∈ A) := by
  intro A
  induction A with
  | nil =>
    intro m hm _ _
    exact ⟨hm, by simp, by simp⟩
  | cons a rest ih =>
    intro m hm hA hp
    obtain ⟨ha1, ha2, ha3⟩ := hA a (List.mem_cons_self _ _)
    have hp2 := List.pairwise_cons.1 hp
    have hm1 : MatchingInv g (m.addEdge a) := hm.addEdge a ha1 ha2 ha3
    have hA1 : ∀ e ∈ rest, e ∈ g.edges.enum ∧ (m.addEdge a).source_edges e.2.v_source = none ∧
        (m.addEdge a).target_edges e.2.v_target = none := by
      intro e he
      obtain ⟨h1, h2, h3⟩ := hA e (List.mem_cons_of_mem _ he)
      have hne := hp2.1 e he
      refine ⟨h1, ?_, ?_⟩
      · simp only [Matching.addEdge, upd_apply]
        simp [Ne.symm hne.1, h2]
      · simp only [Matching.addEdge, upd_apply]
        simp [Ne.symm hne.2, h3]
    obtain ⟨i1, i2, i3⟩ := ih (m.addEdge a) hm1 hA1 hp2.2
    simp only [List.foldl_cons]
    refine ⟨i1, ?_, ?_⟩
    · rw [i2, addEdge_length]
      simp only [List.length_cons]
      omega
    · intro e he
      rcases i3 e he with h | h
      · simp only [Matching.addEdge, List.mem_append, List.mem_singleton] at h
        rcases h with h | h
        · exact Or.inl h
        · exact Or.inr (by simp [h])
      · exact Or.inr (List.mem_cons_of_mem _ h)

/-- The loop of `applyAugmentingPath` reads an augmenting path. -/
theorem collectPath_augPath (a : AlternatingTree) :
    ∀ (fuel t : Nat) (accA : List EdgeRef) (accR : List (Option EdgeRef))
      (A : List EdgeRef) (R : List (Option EdgeRef)),
      a.collectPath fuel t accA accR = Outcome.done (A, R) →
      ∃ A2 R2, A = accA ++ A2 ∧ R = accR ++ R2 ∧ AugPath a t A2 R2 := by
  intro fuel
  induction fuel with
  | zero =>
    intro t accA accR A R h
    simp [AlternatingTree.collectPath] at h
  | succ n ih =>
    intro t accA accR A R h
    unfold AlternatingTree.collectPath at h
    cases he : a.target_prev_edge t with
    | none => simp [he] at h
    | some e =>
      cases hs : a.target_prev t with
      | none => simp [he, hs] at h
      | some s =>
        simp only [he, hs] at h
        cases hp : a.source_prev s with
        | none =>
          simp only [hp, Outcome.done.injEq, Prod.mk.injEq] at h
          exact ⟨[e], [], h.1.symm, by simp [h.2], AugPath.last t e s he hs hp⟩
        | some t2 =>
          simp only [hp] at h
          obtain ⟨A2, R2, h1, h2, h3⟩ := ih t2 _ _ A R h
          refine ⟨e :: A2, a.source_prev_edge s :: R2, ?_, ?_, AugPath.step t e s t2 A2 R2 he hs hp h3⟩
          · simp [h1]
          · simp [h2]

end wpm

namespace wpm

/-- What the tree invariant says about an augmenting path read from target `t`
whose previous source is `s`. -/
theorem augPath_spec {g : BipartiteMatchingGraph} {m : Matching} {a : AlternatingTree}
    {rank : Nat → Nat} (hm : MatchingInv g m) (ht : TreeInv g m a rank) :
    ∀ (t : Nat) (A : List EdgeRef) (R : List (Option EdgeRef)), AugPath a t A R →
      ∀ (s : Nat) (e : EdgeRef), a.target_prev t = some s → a.target_prev_edge t = some e →
        a.set_S s = true → e ∈ g.edges.enum → e.2.v_source = s → e.2.v_target = t →
        (m.target_edges t = none ∨ ∃ e2, m.target_edges t = some e2 ∧ rank s < rank e2.2.v_source) →
        (∀ r ∈ R, ∃ e2, r = some e2 ∧ m.source_edges e2.2.v_source = some e2 ∧
          rank e2.2.v_source ≤ rank s) ∧
        R.Nodup ∧
        (∀ x ∈ A, x ∈ g.edges.enum ∧ rank x.2.v_source ≤ rank s ∧
          (m.source_edges x.2.v_source = none ∨ m.source_edges x.2.v_source ∈ R) ∧
          (x.2.v_target = t ∨ ∃ e2, m.target_edges x.2.v_target = some e2 ∧ some e2 ∈ R ∧
            rank e2.2.v_source ≤ rank s) ∧
          (∃ t2, a.target_prev_edge t2 = some x ∧ (t2 = t ∨ a.set_T t2 = true))) ∧
        A.Pairwise (fun x y => x.2.v_source ≠ y.2.v_source ∧ x.2.v_target ≠ y.2.v_target) ∧
        A.length = R.length + 1 := by
  intro t A R hp
  induction hp with
  | last t e s he hs hprev =>
    intro s1 e1 hs1 he1 hS hg hsrc hdst _
    rw [hs] at hs1
    rw [he] at he1
    cases hs1
    cases he1
    have hroot : s = a.root_exposed_source_vertex := by
      by_contra hne
      obtain ⟨e2, _, h2, _⟩ := ht.S_inv s hS hne
      rw [hprev] at h2
      cases h2
    refine ⟨by simp, by simp, ?_, by simp, by simp⟩
    intro x hx
    simp only [List.mem_singleton] at hx
    subst hx
    refine ⟨hg, by rw [hsrc], ?_, Or.inl hdst, ⟨t, he, Or.inl rfl⟩⟩
    left
    rw [hsrc, hroot]
    exact ht.root_exposed
  | step t e s t2 A R he hs hprev _ ih =>
    intro s1 e1 hs1 he1 hS hg hsrc hdst htgt
    rw [hs] at hs1
    rw [he] at he1
    cases hs1
    cases he1
    have hne : s ≠ a.root_exposed_source_vertex := by
      intro hc
      rw [hc, ht.root_prev] at hprev
      cases hprev
    obtain ⟨e2, hse2, hprev2, hpe2, hT2⟩ := ht.S_inv s hS hne
    rw [hprev] at hprev2
    cases hprev2
    obtain ⟨s2, e3, e4, h1, h2, h3, h4, h5, h6, h7, _, h9⟩ := ht.T_inv _ hT2
    have hte2 : m.target_edges e2.2.v_target = some e2 := (hm.src_edge _ _ hse2).2.2
    have he2src : e2.2.v_source = s := (hm.src_edge _ _ hse2).2.1
    rw [hte2] at h7
    cases h7
    rw [he2src] at h9
    obtain ⟨i1, i2, i3, i4, i5⟩ := ih s2 e3 h1 h2 h3 h4 h5 h6 (Or.inr ⟨e2, hte2, by rw [he2src]; exact h9⟩)
    rw [hpe2]
    refine ⟨?_, ?_, ?_, ?_, ?_⟩
    · intro r hr
      rcases List.mem_cons.1 hr with hr | hr
      · exact ⟨e2, hr, by rw [he2src]; exact hse2, by rw [he2src]⟩
      · obtain ⟨e5, h51, h52, h53⟩ := i1 r hr
        exact ⟨e5, h51, h52, by omega⟩
    · rw [List.nodup_cons]
      refine ⟨?_, i2⟩
      intro hc
      obtain ⟨e5, h51, _, h53⟩ := i1 _ hc
      cases h51
      rw [he2src] at h53
      omega
    · intro x hx
      rcases List.mem_cons.1 hx with hx | hx
      · subst hx
        refine ⟨hg, by rw [hsrc], ?_, Or.inl hdst, ⟨t, he, Or.inl rfl⟩⟩
        right
        rw [hsrc, hse2]
        exact List.mem_cons_self _ _
      · obtain ⟨j1, j2, j3, j4, j5⟩ := i3 x hx
        refine ⟨j1, by omega, ?_, ?_, ?_⟩
        · rcases j3 with j3 | j3
          · exact Or.inl j3
          · exact Or.inr (List.mem_cons_of_mem _ j3)
        · right
          rcases j4 with j4 | j4
          · exact ⟨e2, by rw [j4]; exact hte2, List.mem_cons_self _ _, by rw [he2src]⟩
          · obtain ⟨e5, h51, h52, h53⟩ := j4
            exact ⟨e5, h51, List.mem_cons_of_mem _ h52, by omega⟩
        · obtain ⟨t3, h31, h32⟩ := j5
          refine ⟨t3, h31, Or.inr ?_⟩
          rcases h32 with h32 | h32
          · rw [h32]; exact hT2
          · exact h32
    · rw [List.pairwise_cons]
      refine ⟨?_, i4⟩
      intro x hx
      obtain ⟨_, j2, _, j4, _⟩ := i3 x hx
      constructor
      · intro hc
        rw [hsrc] at hc
        rw [← hc] at j2
        omega
      · intro hc
        rw [hdst] at hc
        have hmatched : ∃ e5, m.target_edges x.2.v_target = some e5 ∧ rank e5.2.v_source ≤ rank s := by
          rcases j4 with j4 | j4
          · exact ⟨e2, by rw [j4]; exact hte2, by rw [he2src]⟩
          · obtain ⟨e5, h51, _, h53⟩ := j4
            exact ⟨e5, h51, by omega⟩
        obtain ⟨e5, h51, h52⟩ := hmatched
        rw [← hc] at h51
        rcases htgt with htgt | htgt
        · rw [htgt] at h51
          cases h51
        · obtain ⟨e6, h61, h62⟩ := htgt
          rw [h61] at h51
          cases h51
          omega
    · simp only [List.length_cons]
      omega

/-- Applying the augmenting path found by a search that keeps the invariant
gives a matching with one edge more, made of old edges and tree edges. -/
theorem applyAugmentingPath_spec {g : BipartiteMatchingGraph} {m m1 : Matching}
    {st : Search} {rank : Nat → Nat} (hm : MatchingInv g m) (hst : SearchInv g m st rank)
    (fuel : Nat) (h : st.atree.applyAugmentingPath fuel m = Outcome.done m1) :
    MatchingInv g m1 ∧ m1.edges.length = m.edges.length + 1 ∧
      ∀ e ∈ m1.edges, e ∈ m.edges ∨
        ∃ t, st.atree.target_prev_edge t = some e ∧
          (st.atree.end_exposed_target_vertex = some t ∨ st.atree.set_T t = true) := by
  unfold AlternatingTree.applyAugmentingPath at h
  cases hend : st.atree.end_exposed_target_vertex with
  | none => simp [hend] at h
  | some t =>
    simp only [hend] at h
    cases hc : st.atree.collectPath fuel t [] [] with
    | overflow => simp [hc] at h
    | fault => simp [hc] at h
    | running => simp [hc] at h
    | done r =>
      obtain ⟨A, R⟩ := r
      simp only [hc, Outcome.done.injEq] at h
      obtain ⟨A2, R2, hA, hR, hp⟩ := collectPath_augPath st.atree fuel t [] [] A R hc
      simp only [List.nil_append] at hA hR
      subst hA
      subst hR
      obtain ⟨hexp, s, e, p1, p2, p3, p4, p5, p6⟩ := hst.path_end t hend
      obtain ⟨i1, i2, i3, i4, i5⟩ :=
        augPath_spec hm hst.tree t A R hp s e p1 p2 p3 p4 p5 p6 (Or.inl hexp)
      obtain ⟨r1, r2, r3, r4, r5⟩ := foldl_removeEdgePtr R m hm
        (fun r hr => by
          obtain ⟨e2, h1, h2, _⟩ := i1 r hr
          exact ⟨e2, h1, h2⟩) i2
      have hA : ∀ x ∈ A, x ∈ g.edges.enum ∧
          (R.foldl Matching.removeEdgePtr m).source_edges x.2.v_source = none ∧
          (R.foldl Matching.removeEdgePtr m).target_edges x.2.v_target = none := by
        intro x hx
        obtain ⟨j1, _, j3, j4, _⟩ := i3 x hx
        refine ⟨j1, r3 _ j3, r4 _ ?_⟩
        rcases j4 with j4 | j4
        · left
          rw [j4]
          exact hexp
        · obtain ⟨e2, h1, h2, _⟩ := j4
          right
          rw [h1]
          exact h2
      obtain ⟨a1, a2, a3⟩ := foldl_addEdge A _ r1 hA i4
      subst h
      refine ⟨a1, ?_, ?_⟩
      · rw [a2]
        omega
      · intro x hx
        rcases a3 x hx with hx | hx
        · exact Or.inl (r5 x hx)
        · right
          obtain ⟨_, _, _, _, t2, h1, h2⟩ := i3 x hx
          refine ⟨t2, h1, ?_⟩
          rcases h2 with h2 | h2
          · left
            rw [h2]
          · exact Or.inr h2

end wpm

namespace wpm

/-! ## The slack array keeps its witnesses -/

theorem SlackRefs.mono {g : BipartiteMatchingGraph} {S S2 : Nat → Bool} {sa : SlackArray}
    (h : SlackRefs g S sa) (hS : ∀ x, S x = true → S2 x = true) : SlackRefs g S2 sa where
  some_src := by
    intro t s hs
    obtain ⟨h1, h2⟩ := h.some_src t s hs
    exact ⟨hS s h1, h2⟩
  none_src := h.none_src

theorem slackRefs_set {g : BipartiteMatchingGraph} {S : Nat → Bool} {sa : SlackArray}
    (h : SlackRefs g S sa) (c : Nat) (hc : S c = true) (e : EdgeRef) (he : e ∈ g.edges.enum)
    (hsrc : e.2.v_source = c) (x : Int) :
    SlackRefs g S
      { min_slack := upd sa.min_slack e.2.v_target x
        source_cid := upd sa.source_cid e.2.v_target (some c)
        edge_cid := upd sa.edge_cid e.2.v_target (some e) } where
  some_src := by
    intro t s hs
    simp only [upd_apply] at hs ⊢
    by_cases ht : t = e.2.v_target
    · simp only [ht, if_true, Option.some.injEq] at hs ⊢
      subst hs
      exact ⟨hc, e, rfl, he, hsrc, rfl⟩
    · simp only [ht, if_false] at hs ⊢
      exact h.some_src t s hs
  none_src := by
    intro t hs
    simp only [upd_apply] at hs ⊢
    by_cases ht : t = e.2.v_target
    · simp [ht] at hs
    · simp only [ht, if_false] at hs ⊢
      exact h.none_src t hs

theorem slackArray_init_refs {g : BipartiteMatchingGraph} (S : Nat → Bool) (root : Nat)
    (hroot : S root = true) (l : VertexLabeling) (es : List EdgeRef)
    (hes : ∀ e ∈ es, e ∈ g.edges.enum ∧ e.2.v_source = root) :
    SlackRefs g S (SlackArray.init root es l).1 := by
  unfold SlackArray.init
  have key : ∀ (es : List EdgeRef) (acc : SlackArray × Bool),
      (∀ e ∈ es, e ∈ g.edges.enum ∧ e.2.v_source = root) → SlackRefs g S acc.1 →
      SlackRefs g S (es.foldl
        (fun (acc : SlackArray × Bool) e =>
          ({ min_slack := upd acc.1.min_slack e.2.v_target (l.slackOf root e)
             source_cid := upd acc.1.source_cid e.2.v_target (some root)
             edge_cid := upd acc.1.edge_cid e.2.v_target (some e) },
            acc.2 || l.slackOverflows root e)) acc).1 := by
    intro es
    induction es with
    | nil => intro acc _ h; exact h
    | cons e rest ih =>
      intro acc hes h
      simp only [List.foldl_cons]
      apply ih
      · intro x hx
        exact hes x (List.mem_cons_of_mem _ hx)
      · obtain ⟨h1, h2⟩ := hes e (List.mem_cons_self _ _)
        exact slackRefs_set h root hroot e h1 h2 _
  apply key es _ hes
  exact ⟨by intro t s h; simp at h, by intro t _; rfl⟩

theorem updateWithNewSourceVertex_refs {g : BipartiteMatchingGraph} {S : Nat → Bool}
    {sa : SlackArray} (h : SlackRefs g S sa) (c : Nat) (hc : S c = true) (l : VertexLabeling)
    (es : List EdgeRef) (hes : ∀ e ∈ es, e ∈ g.edges.enum ∧ e.2.v_source = c) :
    SlackRefs g S (sa.updateWithNewSourceVertex c es l).1 := by
  unfold SlackArray.updateWithNewSourceVertex
  have key : ∀ (es : List EdgeRef) (acc : SlackArray × Bool),
      (∀ e ∈ es, e ∈ g.edges.enum ∧ e.2.v_source = c) → SlackRefs g S acc.1 →
      SlackRefs g S (es.foldl
        (fun (acc : SlackArray × Bool) e =>
          if l.slackOf c e < acc.1.min_slack e.2.v_target then
            ({ min_slack := upd acc.1.min_slack e.2.v_target (l.slackOf c e)
               source_cid := upd acc.1.source_cid e.2.v_target (some c)
               edge_cid := upd acc.1.edge_cid e.2.v_target (some e) },
              acc.2 || l.slackOverflows c e)
          else (acc.1, acc.2 || l.slackOverflows c e)) acc).1 := by
    intro es
    induction es with
    | nil => intro acc _ h; exact h
    | cons e rest ih =>
      intro acc hes h
      simp only [List.foldl_cons]
      apply ih
      · intro x hx
        exact hes x (List.mem_cons_of_mem _ hx)
      · obtain ⟨h1, h2⟩ := hes e (List.mem_cons_self _ _)
        split
        · exact slackRefs_set h c hc e h1 h2 _
        · exact h
  exact key es _ hes h

/-- A loop over the cliques that rewrites the entries selected by `c`: the
entries outside the selection are kept. -/
theorem foldl_range_upd_other (c : Nat → Bool) (F : Int → Int) (bad : Int → Bool) :
    ∀ (n : Nat) (f : Nat → Int) (b : Bool) (t : Nat), c t = false →
      ((List.range n).foldl
        (fun (acc : (Nat → Int) × Bool) i =>
          if c i then (upd acc.1 i (F (acc.1 i)), acc.2 || bad (acc.1 i)) else acc)
        (f, b)).1 t = f t := by
  intro n
  induction n with
  | zero => intro f b t _; rfl
  | succ n ih =>
    intro f b t ht
    rw [List.range_succ, List.foldl_append]
    simp only [List.foldl_cons, List.foldl_nil]
    split
    · rename_i hc
      simp only [upd_apply]
      have : t ≠ n := by
        intro h
        rw [h] at ht
        rw [ht] at hc
        cases hc
      simp only [this, if_false]
      exact ih f b t ht
    · exact ih f b t ht

theorem simplifyMinCostSlack_refs {g : BipartiteMatchingGraph} {S : Nat → Bool}
    {sa : SlackArray} (h : SlackRefs g S sa) (a : AlternatingTree) (n : Nat) :
    SlackRefs g S (sa.simplifyMinCostSlack a n).2.1 where
  some_src := h.some_src
  none_src := by
    intro t ht
    have hc : sa.isCandidate a t = false := by
      simp only [SlackArray.isCandidate] at ht ⊢
      rw [show sa.source_cid t = none from ht]
      rfl
    simp only [SlackArray.simplifyMinCostSlack]
    exact (foldl_range_upd_other (fun i => sa.isCandidate a i)
      (fun x => x - sa.minCostSlack a n) (fun x => !inIntRange (x - sa.minCostSlack a n))
      n sa.min_slack false t hc).trans (h.none_src t ht)

end wpm

namespace wpm

/-! ## The search keeps the structural invariant -/

theorem TreeInv.tree_setEnd {g : BipartiteMatchingGraph} {m : Matching} {a : AlternatingTree}
    {rank : Nat → Nat} (h : TreeInv g m a rank) (t : Nat) (ht : a.set_T t = false)
    (x : Option Nat) (y : Option EdgeRef) :
    TreeInv g m (a.setEndExposedTargetVertex x t y) rank where
  root_S := h.root_S
  root_exposed := h.root_exposed
  root_prev := h.root_prev
  T_inv := by
    intro t2 ht2
    have hne : t2 ≠ t := by
      intro hc
      rw [hc] at ht2
      simp only [AlternatingTree.setEndExposedTargetVertex] at ht2
      rw [ht] at ht2
      cases ht2
    simp only [AlternatingTree.setEndExposedTargetVertex, upd_apply, hne, if_false]
    exact h.T_inv t2 ht2
  S_inv := h.S_inv

theorem TreeInv.not_S_of_not_T {g : BipartiteMatchingGraph} {m : Matching}
    {a : AlternatingTree} {rank : Nat → Nat} (h : TreeInv g m a rank) (hm : MatchingInv g m)
    (t : Nat) (ht : a.set_T t = false) (e2 : EdgeRef) (he2 : m.target_edges t = some e2) :
    a.set_S e2.2.v_source = false := by
  obtain ⟨_, hdst, hsrc⟩ := hm.tgt_edge t e2 he2
  cases hS : a.set_S e2.2.v_source with
  | false => rfl
  | true =>
    have hne : e2.2.v_source ≠ a.root_exposed_source_vertex := by
      intro hc
      rw [hc, h.root_exposed] at hsrc
      cases hsrc
    obtain ⟨e3, h1, _, _, h4⟩ := h.S_inv _ hS hne
    rw [hsrc] at h1
    cases h1
    rw [hdst, ht] at h4
    cases h4

theorem TreeInv.tree_addTwo {g : BipartiteMatchingGraph} {m : Matching} {a : AlternatingTree}
    {rank : Nat → Nat} (h : TreeInv g m a rank) (hm : MatchingInv g m)
    (t : Nat) (ht : a.set_T t = false) (e2 : EdgeRef) (he2 : m.target_edges t = some e2)
    (s : Nat) (hs : a.set_S s = true) (e : EdgeRef) (he : e ∈ g.edges.enum)
    (hsrc : e.2.v_source = s) (hdst : e.2.v_target = t) :
    TreeInv g m (a.addTwoEdges (some s) t e2.2.v_source (some e) e2)
      (upd rank e2.2.v_source (rank s + 1)) := by
  have hnS := h.not_S_of_not_T hm t ht e2 he2
  obtain ⟨_, h2dst, h2src⟩ := hm.tgt_edge t e2 he2
  have hroot : a.root_exposed_source_vertex ≠ e2.2.v_source := by
    intro hc
    rw [← hc, h.root_S] at hnS
    cases hnS
  have hsne : s ≠ e2.2.v_source := by
    intro hc
    rw [← hc, hs] at hnS
    cases hnS
  exact
  { root_S := by
      simp only [AlternatingTree.addTwoEdges, upd_apply]
      simp [hroot, h.root_S]
    root_exposed := h.root_exposed
    root_prev := by
      simp only [AlternatingTree.addTwoEdges, upd_apply]
      simp [hroot, h.root_prev]
    T_inv := by
      intro t2 ht2
      simp only [AlternatingTree.addTwoEdges, upd_apply] at ht2 ⊢
      by_cases htt : t2 = t
      · subst htt
        simp only [if_true]
        refine ⟨s, e, e2, rfl, rfl, ?_, he, hsrc, hdst, he2, by simp, ?_⟩
        · simp [hsne, hs]
        · simp [hsne]
      · simp only [htt, if_false] at ht2 ⊢
        obtain ⟨s0, e0, e3, h1, h2, h3, h4, h5, h6, h7, h8, h9⟩ := h.T_inv t2 ht2
        have hs0 : s0 ≠ e2.2.v_source := by
          intro hc
          rw [hc, hnS] at h3
          cases h3
        have hs3 : e3.2.v_source ≠ e2.2.v_source := by
          intro hc
          rw [hc, hnS] at h8
          cases h8
        refine ⟨s0, e0, e3, h1, h2, ?_, h4, h5, h6, h7, ?_, ?_⟩
        · simp [hs0, h3]
        · simp [hs3, h8]
        · simp [hs0, hs3, h9]
    S_inv := by
      intro s2 hs2 hne
      simp only [AlternatingTree.addTwoEdges, upd_apply] at hs2 ⊢
      by_cases hss : s2 = e2.2.v_source
      · subst hss
        simp only [if_true]
        refine ⟨e2, h2src, by rw [h2dst], rfl, ?_⟩
        simp [h2dst]
      · simp only [hss, if_false] at hs2 ⊢
        obtain ⟨e3, h1, h2, h3, h4⟩ := h.S_inv s2 hs2 hne
        refine ⟨e3, h1, h2, h3, ?_⟩
        by_cases hc : e3.2.v_target = t
        · simp [hc]
        · simp [hc, h4] }

theorem TreeInv.addSingle_absurd {g : BipartiteMatchingGraph} {m : Matching}
    {a : AlternatingTree} {rank : Nat → Nat} (h : TreeInv g m a rank) (hm : MatchingInv g m)
    (t : Nat) (ht : a.set_T t = false) (e2 : EdgeRef) (he2 : m.target_edges t = some e2)
    (hS : a.set_S e2.2.v_source = true) : False := by
  have := h.not_S_of_not_T hm t ht e2 he2
  rw [this] at hS
  cases hS

/-- The invariant does not read the overflow flag. -/
theorem SearchInv.congr {g : BipartiteMatchingGraph} {m : Matching} {st st2 : Search}
    {rank : Nat → Nat} (h : SearchInv g m st rank) (h1 : st2.queue = st.queue)
    (h2 : st2.atree = st.atree) (h3 : st2.slack = st.slack) (h4 : st2.fault = st.fault) :
    SearchInv g m st2 rank where
  tree := by rw [h2]; exact h.tree
  queue_S := by rw [h1, h2]; exact h.queue_S
  slack := by rw [h2, h3]; exact h.slack
  no_fault := by rw [h4]; exact h.no_fault
  path_end := by rw [h2]; exact h.path_end
  end_not_T := by rw [h2]; exact h.end_not_T

/-- Recording the end of the path at an exposed target reached from `S`. -/
theorem SearchInv.setEnd {g : BipartiteMatchingGraph} {m : Matching} {st : Search}
    {rank : Nat → Nat} (h : SearchInv g m st rank) (t : Nat) (ht : st.atree.set_T t = false)
    (hexp : m.target_edges t = none) (s : Nat) (hs : st.atree.set_S s = true) (e : EdgeRef)
    (he : e ∈ g.edges.enum) (hsrc : e.2.v_source = s) (hdst : e.2.v_target = t) (ov : Bool) :
    SearchInv g m
      { queue := st.queue
        atree := st.atree.setEndExposedTargetVertex (some s) t (some e)
        slack := st.slack, overflow := ov, fault := st.fault } rank where
  tree := h.tree.tree_setEnd t ht _ _
  queue_S := h.queue_S
  slack := h.slack
  no_fault := h.no_fault
  path_end := by
    intro t2 ht2
    simp only [AlternatingTree.setEndExposedTargetVertex, Option.some.injEq] at ht2
    subst ht2
    refine ⟨hexp, s, e, ?_, ?_, hs, he, hsrc, hdst⟩
    · simp [AlternatingTree.setEndExposedTargetVertex, upd_apply]
    · simp [AlternatingTree.setEndExposedTargetVertex, upd_apply]
  end_not_T := by
    intro t2 ht2
    simp only [AlternatingTree.setEndExposedTargetVertex, Option.some.injEq] at ht2
    subst ht2
    exact ht

/-- Growing the tree by a matched target and its source. -/
theorem SearchInv.addTwo {g : BipartiteMatchingGraph} {m : Matching} {st : Search}
    {rank : Nat → Nat} (h : SearchInv g m st rank) (hm : MatchingInv g m)
    (hend : st.atree.end_exposed_target_vertex = none)
    (t : Nat) (ht : st.atree.set_T t = false) (e2 : EdgeRef) (he2 : m.target_edges t = some e2)
    (s : Nat) (hs : st.atree.set_S s = true) (e : EdgeRef) (he : e ∈ g.edges.enum)
    (hsrc : e.2.v_source = s) (hdst : e.2.v_target = t) (l : VertexLabeling) (ov : Bool) :
    SearchInv g m
      { queue := st.queue ++ [e2.2.v_source]
        atree := st.atree.addTwoEdges (some s) t e2.2.v_source (some e) e2
        slack := (st.slack.updateWithNewSourceVertex e2.2.v_source
          (g.sourceEdges e2.2.v_source) l).1
        overflow := ov, fault := st.fault }
      (upd rank e2.2.v_source (rank s + 1)) where
  tree := h.tree.tree_addTwo hm t ht e2 he2 s hs e he hsrc hdst
  queue_S := by
    intro x hx
    simp only [AlternatingTree.addTwoEdges, upd_apply]
    rcases List.mem_append.1 hx with hx | hx
    · by_cases hc : x = e2.2.v_source
      · simp [hc]
      · simp [hc, h.queue_S x hx]
    · simp only [List.mem_singleton] at hx
      simp [hx]
  slack := by
    have hmono : SlackRefs g (st.atree.addTwoEdges (some s) t e2.2.v_source (some e) e2).set_S
        st.slack := by
      apply h.slack.mono
      intro x hx
      simp only [AlternatingTree.addTwoEdges, upd_apply]
      by_cases hc : x = e2.2.v_source
      · simp [hc]
      · simp [hc, hx]
    apply updateWithNewSourceVertex_refs hmono
    · simp [AlternatingTree.addTwoEdges, upd_apply]
    · intro x hx
      exact mem_sourceEdges.1 hx
  no_fault := h.no_fault
  path_end := by
    intro t2 ht2
    simp only [AlternatingTree.addTwoEdges] at ht2
    rw [hend] at ht2
    cases ht2
  end_not_T := by
    intro t2 ht2
    simp only [AlternatingTree.addTwoEdges] at ht2
    rw [hend] at ht2
    cases ht2

end wpm

namespace wpm

theorem isInT_false_of_not {a : AlternatingTree} {t : Nat} (h : (!a.isInT t) = true) :
    a.set_T t = false := by
  simpa [AlternatingTree.isInT] using h

theorem MatchingInv.exposed_of_not_isTarget {g : BipartiteMatchingGraph} {m : Matching}
    (hm : MatchingInv g m) {t : Nat} (h : (!m.isTarget t) = true) : m.target_edges t = none := by
  cases hte : m.target_edges t with
  | none => rfl
  | some e =>
    have := (hm.isTarget_iff t).2 ⟨e, hte⟩
    rw [this] at h
    cases h

theorem MatchingInv.matched_of_isTarget {g : BipartiteMatchingGraph} {m : Matching}
    (hm : MatchingInv g m) {t : Nat} (h : ¬ (!m.isTarget t) = true) :
    ∃ e, m.target_edges t = some e := by
  apply (hm.isTarget_iff t).1
  simpa using h

/-- Scanning the edges of a source of `S` keeps the structural invariant. -/
theorem scanSourceEdges_inv {g : BipartiteMatchingGraph} {m : Matching} (hm : MatchingInv g m)
    (l : VertexLabeling) (s : Nat) :
    ∀ (es : List EdgeRef) (st : Search) (rank : Nat → Nat), SearchInv g m st rank →
      st.atree.end_exposed_target_vertex = none → st.atree.set_S s = true →
      (∀ e ∈ es, e ∈ g.edges.enum ∧ e.2.v_source = s) →
      ∃ rank2, SearchInv g m (scanSourceEdges g m l s es st) rank2 := by
  intro es
  induction es with
  | nil =>
    intro st rank h _ _ _
    exact ⟨rank, h⟩
  | cons e rest ih =>
    intro st rank h hend hs hes
    obtain ⟨he1, he2⟩ := hes e (List.mem_cons_self _ _)
    have hrest : ∀ x ∈ rest, x ∈ g.edges.enum ∧ x.2.v_source = s :=
      fun x hx => hes x (List.mem_cons_of_mem _ hx)
    simp only [scanSourceEdges]
    by_cases hc : (!st.atree.isInT e.2.v_target && l.slackOf s e == 0) = true
    · rw [if_pos hc]
      have hT : st.atree.set_T e.2.v_target = false :=
        isInT_false_of_not (Bool.and_eq_true_iff.1 hc).1
      by_cases hx : (!m.isTarget e.2.v_target) = true
      · rw [if_pos hx]
        exact ⟨rank, h.setEnd _ hT (hm.exposed_of_not_isTarget hx) s hs e he1 he2 rfl _⟩
      · rw [if_neg hx]
        obtain ⟨e2, hte2⟩ := hm.matched_of_isTarget hx
        simp only [Matching.getEdgeFromTarget, hte2]
        have h2 := h.addTwo hm hend _ hT e2 hte2 s hs e he1 he2 rfl l
          (st.overflow || l.slackOverflows s e ||
            (st.slack.updateWithNewSourceVertex e2.2.v_source (g.sourceEdges e2.2.v_source) l).2)
        apply ih _ _ h2
        · simp only [AlternatingTree.addTwoEdges]
          exact hend
        · simp only [AlternatingTree.addTwoEdges, upd_apply]
          by_cases hc2 : s = e2.2.v_source
          · simp [hc2]
          · simp [hc2, hs]
        · exact hrest
    · rw [if_neg hc]
      exact ih _ rank (h.congr rfl rfl rfl rfl) hend hs hrest

/-- The first search phase keeps the structural invariant. -/
theorem phaseA_inv {g : BipartiteMatchingGraph} {m : Matching} (hm : MatchingInv g m)
    (l : VertexLabeling) :
    ∀ (fuel : Nat) (st st2 : Search) (rank : Nat → Nat), SearchInv g m st rank →
      findAugmentingPathAroundCandidatesSourceVertices g m l fuel st = some st2 →
      ∃ rank2, SearchInv g m st2 rank2 := by
  intro fuel
  induction fuel with
  | zero =>
    intro st st2 rank h hr
    simp only [findAugmentingPathAroundCandidatesSourceVertices] at hr
    split at hr
    · cases hr
      exact ⟨rank, h⟩
    · split at hr
      · cases hr
        exact ⟨rank, h⟩
      · cases hr
  | succ n ih =>
    intro st st2 rank h hr
    simp only [findAugmentingPathAroundCandidatesSourceVertices] at hr
    split at hr
    · cases hr
      exact ⟨rank, h⟩
    · rename_i hstop
      split at hr
      · cases hr
        exact ⟨rank, h⟩
      · rename_i s rest hq
        have hend : st.atree.end_exposed_target_vertex = none := by
          simp only [Bool.or_eq_true, not_or, AlternatingTree.isAugmentingPathFound] at hstop
          cases hv : st.atree.end_exposed_target_vertex with
          | none => rfl
          | some v => simp [hv] at hstop
        have hs : st.atree.set_S s = true := h.queue_S s (by rw [hq]; exact List.mem_cons_self _ _)
        have h1 : SearchInv g m { st with queue := rest } rank :=
          { tree := h.tree
            queue_S := fun x hx => h.queue_S x (by rw [hq]; exact List.mem_cons_of_mem _ hx)
            slack := h.slack
            no_fault := h.no_fault
            path_end := h.path_end
            end_not_T := h.end_not_T }
        obtain ⟨rank2, h2⟩ := scanSourceEdges_inv hm l s (g.sourceEdges s) _ rank h1 hend hs
          (fun e he => mem_sourceEdges.1 he)
        exact ih _ _ rank2 h2 hr

/-- The second search phase keeps the structural invariant. -/
theorem phaseB_inv {g : BipartiteMatchingGraph} {m : Matching} (hm : MatchingInv g m)
    (l : VertexLabeling) :
    ∀ (cs : List Nat) (st : Search) (rank : Nat → Nat), SearchInv g m st rank →
      ∃ rank2, SearchInv g m (findAugmentingPathFromNewReachableTargetVertices g m l cs st)
        rank2 := by
  intro cs
  induction cs with
  | nil =>
    intro st rank h
    exact ⟨rank, h⟩
  | cons c rest ih =>
    intro st rank h
    simp only [findAugmentingPathFromNewReachableTargetVertices]
    by_cases hstop : (st.fault || st.atree.isAugmentingPathFound) = true
    · rw [if_pos hstop]
      exact ⟨rank, h⟩
    · rw [if_neg hstop]
      have hend : st.atree.end_exposed_target_vertex = none := by
        simp only [Bool.or_eq_true, not_or, AlternatingTree.isAugmentingPathFound] at hstop
        cases hv : st.atree.end_exposed_target_vertex with
        | none => rfl
        | some v => simp [hv] at hstop
      by_cases hc : (!st.atree.isInT c && st.slack.min_slack c == 0) = true
      · rw [if_pos hc]
        have hT : st.atree.set_T c = false := isInT_false_of_not (Bool.and_eq_true_iff.1 hc).1
        have hz : st.slack.min_slack c = 0 := by
          simpa using (Bool.and_eq_true_iff.1 hc).2
        cases hsrc : st.slack.source_cid c with
        | none =>
          have := h.slack.none_src c hsrc
          rw [hz] at this
          exact absurd this (by decide)
        | some s1 =>
          obtain ⟨hS1, e1, he1, hg1, hsrc1, hdst1⟩ := h.slack.some_src c s1 hsrc
          rw [he1]
          by_cases hx : (!m.isTarget c) = true
          · rw [if_pos hx]
            exact ⟨rank, h.setEnd c hT (hm.exposed_of_not_isTarget hx) s1 hS1 e1 hg1 hsrc1 hdst1 _⟩
          · rw [if_neg hx]
            obtain ⟨e2, hte2⟩ := hm.matched_of_isTarget hx
            simp only [Matching.getEdgeFromTarget, hte2]
            have hnS := h.tree.not_S_of_not_T hm c hT e2 hte2
            have hnS2 : (!st.atree.isInS e2.2.v_source) = true := by
              simp [AlternatingTree.isInS, hnS]
            rw [if_pos hnS2]
            exact ih _ _ (h.addTwo hm hend c hT e2 hte2 s1 hS1 e1 hg1 hsrc1 hdst1 l _)
      · rw [if_neg hc]
        exact ih st rank h

end wpm

namespace wpm

theorem Search.check_done {α : Type} {st : Search} {k : Outcome α} {x : α}
    (h : st.check k = Outcome.done x) : k = Outcome.done x := by
  unfold Search.check at h
  split at h
  · cases h
  · split at h
    · cases h
    · exact h

/-- The search loop keeps the structural invariant: the tree it returns
belongs to a search state that satisfies it. -/
theorem searchLoop_inv {g : BipartiteMatchingGraph} {m : Matching} (hm : MatchingInv g m) :
    ∀ (fuel : Nat) (l : VertexLabeling) (st : Search) (rank : Nat → Nat)
      (a : AlternatingTree) (l1 : VertexLabeling), SearchInv g m st rank →
      searchLoop g m fuel l st = Outcome.done (some a, l1) →
      ∃ st2 rank2, SearchInv g m st2 rank2 ∧ st2.atree = a := by
  intro fuel
  induction fuel with
  | zero =>
    intro l st rank a l1 _ h
    simp [searchLoop] at h
  | succ n ih =>
    intro l st rank a l1 hst h
    simp only [searchLoop] at h
    have h1 := Search.check_done h
    split at h1
    · simp only [Outcome.done.injEq, Prod.mk.injEq, Option.some.injEq] at h1
      exact ⟨st, rank, hst, h1.1⟩
    · split at h1
      · cases h1
      · rename_i st1 hA
        obtain ⟨rank1, hst1⟩ := phaseA_inv hm l n st st1 rank hst hA
        have h2 := Search.check_done h1
        split at h2
        · simp only [Outcome.done.injEq, Prod.mk.injEq, Option.some.injEq] at h2
          exact ⟨st1, rank1, hst1, h2.1⟩
        · split at h2
          · cases h2
          · split at h2
            · simp at h2
            · split at h2
              · cases h2
              · have hB : SearchInv g m
                    { queue := st1.queue, atree := st1.atree,
                      slack := (st1.slack.simplifyMinCostSlack st1.atree g.ncliques).2.1,
                      overflow := st1.overflow, fault := st1.fault } rank1 :=
                  { tree := hst1.tree
                    queue_S := hst1.queue_S
                    slack := simplifyMinCostSlack_refs hst1.slack st1.atree g.ncliques
                    no_fault := hst1.no_fault
                    path_end := hst1.path_end
                    end_not_T := hst1.end_not_T }
                obtain ⟨rank2, hst2⟩ := phaseB_inv hm
                  (l.update g.ncliques (st1.slack.simplifyMinCostSlack st1.atree g.ncliques).1
                    st1.atree).1 (List.range g.ncliques) _ rank1 hB
                have h3 := Search.check_done h2
                split at h3
                · simp only [Outcome.done.injEq, Prod.mk.injEq, Option.some.injEq] at h3
                  exact ⟨_, rank2, hst2, h3.1⟩
                · exact ih _ _ rank2 a l1 hst2 h3

/-- The state in which `augmentMatching` starts the search satisfies the
structural invariant. -/
theorem searchInv_init {g : BipartiteMatchingGraph} {m : Matching} (_hm : MatchingInv g m)
    (root : Nat) (hroot : m.source_edges root = none) (l : VertexLabeling) :
    SearchInv g m
      { queue := [root], atree := AlternatingTree.init root
        slack := (SlackArray.init root (g.sourceEdges root) l).1
        overflow := (SlackArray.init root (g.sourceEdges root) l).2, fault := false }
      (fun _ => 0) where
  tree :=
    { root_S := by simp [AlternatingTree.init, upd_apply]
      root_exposed := hroot
      root_prev := rfl
      T_inv := by
        intro t ht
        simp [AlternatingTree.init] at ht
      S_inv := by
        intro s hs hne
        simp only [AlternatingTree.init, upd_apply] at hs hne
        by_cases hc : s = root
        · exact absurd hc hne
        · simp [hc] at hs }
  queue_S := by
    intro s hs
    simp only [List.mem_singleton] at hs
    simp [AlternatingTree.init, upd_apply, hs]
  slack := by
    apply slackArray_init_refs
    · simp [AlternatingTree.init, upd_apply]
    · intro e he
      exact mem_sourceEdges.1 he
  no_fault := rfl
  path_end := by
    intro t ht
    simp [AlternatingTree.init] at ht
  end_not_T := by
    intro t ht
    simp [AlternatingTree.init] at ht

theorem findExposedSourceVertex_exposed {g : BipartiteMatchingGraph} {m : Matching}
    (hm : MatchingInv g m) {order : List Nat} {root : Nat}
    (h : findExposedSourceVertex order m = some root) :
    root ∈ order ∧ m.source_edges root = none := by
  unfold findExposedSourceVertex at h
  have h1 := List.find?_some h
  have h2 := List.mem_of_find?_eq_some h
  refine ⟨h2, ?_⟩
  cases hse : m.source_edges root with
  | none => rfl
  | some e =>
    have := (hm.isSource_iff root).2 ⟨e, hse⟩
    rw [this] at h1
    simp at h1

/-- One round of augmentation: the matching invariant is kept and a successful
round adds exactly one edge. -/
theorem augmentMatching_inv {g : BipartiteMatchingGraph} {m m1 : Matching}
    (hm : MatchingInv g m) (order : List Nat) (fuel : Nat) (l l1 : VertexLabeling)
    (h : augmentMatching g order fuel m l = Outcome.done (true, m1, l1)) :
    MatchingInv g m1 ∧ m1.edges.length = m.edges.length + 1 := by
  unfold augmentMatching at h
  split at h
  · simp at h
  · split at h
    · cases h
    · rename_i root hroot
      obtain ⟨_, hexp⟩ := findExposedSourceVertex_exposed hm hroot
      have hinit := searchInv_init hm root hexp l
      simp only at h
      split at h
      · cases h
      · cases h
      · cases h
      · simp at h
      · rename_i a l2 hsearch
        obtain ⟨st2, rank2, hst2, ha⟩ := searchLoop_inv hm fuel l _ _ a l2 hinit hsearch
        subst ha
        split at h
        · cases h
        · cases h
        · cases h
        · rename_i m2 happly
          simp only [Outcome.done.injEq, Prod.mk.injEq, true_and] at h
          obtain ⟨h1, _⟩ := h
          subst h1
          obtain ⟨r1, r2, _⟩ := applyAugmentingPath_spec hm hst2 fuel happly
          exact ⟨r1, r2⟩

/-- The rounds of `findPerfectMatching`: after `k` successful rounds the
matching has `k` edges more. -/
theorem augmentRounds_inv {g : BipartiteMatchingGraph} (orders : Nat → List Nat) (fuel : Nat) :
    ∀ (k i : Nat) (m m1 : Matching) (l : VertexLabeling), MatchingInv g m →
      augmentRounds g orders fuel k i m l = Outcome.done (some m1) →
      MatchingInv g m1 ∧ m1.edges.length = m.edges.length + k := by
  intro k
  induction k with
  | zero =>
    intro i m m1 l hm h
    simp only [augmentRounds, Outcome.done.injEq, Option.some.injEq] at h
    subst h
    exact ⟨hm, rfl⟩
  | succ k ih =>
    intro i m m1 l hm h
    simp only [augmentRounds] at h
    split at h
    · cases h
    · cases h
    · cases h
    · cases h
    · rename_i m2 l2 hround
      obtain ⟨h1, h2⟩ := augmentMatching_inv hm (orders i) fuel l l2 hround
      obtain ⟨h3, h4⟩ := ih (i + 1) m2 m1 l2 h1 h
      exact ⟨h3, by omega⟩

end wpm

namespace wpm

/-! ## Soundness of the solver -/

theorem mem_of_nodup_lt_length (l : List Nat) (n : Nat) (hnd : l.Nodup) (hlt : ∀ x ∈ l, x < n)
    (hlen : l.length = n) : ∀ c, c < n → c ∈ l := by
  intro c hc
  have hsub : l.toFinset ⊆ Finset.range n := by
    intro x hx
    rw [List.mem_toFinset] at hx
    exact Finset.mem_range.2 (hlt x hx)
  have hcard : (Finset.range n).card ≤ l.toFinset.card := by
    rw [List.toFinset_card_of_nodup hnd, Finset.card_range, hlen]
  have heq := Finset.eq_of_subset_of_card_le hsub hcard
  have : c ∈ l.toFinset := by
    rw [heq]
    exact Finset.mem_range.2 hc
  exact List.mem_toFinset.1 this

theorem countP_eq_one_of_nodup_map {α : Type} (l : List α) (f : α → Nat)
    (hnd : (l.map f).Nodup) (c : Nat) (hc : c ∈ l.map f) :
    l.countP (fun e => decide (f e = c)) = 1 := by
  have h1 : (l.map f).count c = 1 := List.count_eq_one_of_mem hnd hc
  rw [List.count, List.countP_map] at h1
  rw [← h1]
  apply List.countP_congr
  intro x _
  simp [Function.comp]

theorem MatchingInv.sources_nodup {g : BipartiteMatchingGraph} {m : Matching}
    (h : MatchingInv g m) : (m.edges.map (fun e => e.2.v_source)).Nodup := by
  rw [List.nodup_map_iff_inj_on h.edges_nodup]
  intro x hx y hy hxy
  have h1 := (h.edges_iff x).1 hx
  have h2 := (h.edges_iff y).1 hy
  rw [hxy, h2] at h1
  cases h1
  rfl

theorem MatchingInv.targets_nodup {g : BipartiteMatchingGraph} {m : Matching}
    (h : MatchingInv g m) : (m.edges.map (fun e => e.2.v_target)).Nodup := by
  rw [List.nodup_map_iff_inj_on h.edges_nodup]
  intro x hx y hy hxy
  have h1 := (h.src_edge _ _ ((h.edges_iff x).1 hx)).2.2
  have h2 := (h.src_edge _ _ ((h.edges_iff y).1 hy)).2.2
  rw [hxy, h2] at h1
  cases h1
  rfl

/-- A matching with as many edges as cliques covers every source half and every
target half exactly once. -/
theorem MatchingInv.perfect {g : BipartiteMatchingGraph} {m : Matching} (h : MatchingInv g m)
    (hg : g.WellFormed) (hlen : m.edges.length = g.ncliques) (c : Nat) (hc : c < g.ncliques) :
    m.edges.countP (fun e => decide (e.2.v_source = c)) = 1 ∧
      m.edges.countP (fun e => decide (e.2.v_target = c)) = 1 := by
  constructor
  · apply countP_eq_one_of_nodup_map m.edges (fun e => e.2.v_source) h.sources_nodup
    apply mem_of_nodup_lt_length _ g.ncliques h.sources_nodup _ (by simpa using hlen) c hc
    intro x hx
    obtain ⟨e, he, rfl⟩ := List.mem_map.1 hx
    exact (wellFormed_of_mem hg (h.mem_edges he)).1
  · apply countP_eq_one_of_nodup_map m.edges (fun e => e.2.v_target) h.targets_nodup
    apply mem_of_nodup_lt_length _ g.ncliques h.targets_nodup _ (by simpa using hlen) c hc
    intro x hx
    obtain ⟨e, he, rfl⟩ := List.mem_map.1 hx
    exact (wellFormed_of_mem hg (h.mem_edges he)).2

/-- What a successful run of `findPerfectMatching` returns: the edge list of a
matching that satisfies the invariant and has one edge per clique. -/
theorem findPerfectMatching_inv {g : BipartiteMatchingGraph} {orders : Nat → List Nat}
    {fuel : Nat} {M : List EdgeRef}
    (h : findPerfectMatching g orders fuel = Outcome.done (some M)) :
    ∃ m, MatchingInv g m ∧ m.edges = M ∧ M.length = g.ncliques := by
  unfold findPerfectMatching at h
  split at h
  · cases h
  · cases h
  · cases h
  · cases h
  · rename_i m hr
    simp only [Outcome.done.injEq, Option.some.injEq] at h
    obtain ⟨h1, h2⟩ := augmentRounds_inv orders fuel g.ncliques 0 _ m _ (matchingInv_empty g) hr
    refine ⟨m, h1, h, ?_⟩
    rw [← h, h2]
    simp [Matching.empty]

theorem findRandomPerfectMatching_inv {g : BipartiteMatchingGraph} {orders : Nat → List Nat}
    {fuel : Nat} {M : List EdgeRef}
    (h : findRandomPerfectMatching g orders fuel = Outcome.done (some M)) :
    ∃ m, MatchingInv g m ∧ m.edges = M ∧ M.length = g.ncliques := by
  unfold findRandomPerfectMatching at h
  split at h
  · rename_i tmp hr
    split at h
    · cases h
    · simp only [Outcome.done.injEq, Option.some.injEq] at h
      subst h
      exact findPerfectMatching_inv hr
  · cases h
  · cases h
  · cases h
  · cases h

/-- C2. Soundness: when `findRandomPerfectMatching` returns true on a graph with
`N` cliques, the returned list has exactly `N` edges, every returned edge is an
edge of the input graph, and every clique occurs exactly once as the source and
exactly once as the target of a returned edge. -/
theorem findRandomPerfectMatching_sound (g : BipartiteMatchingGraph) (hg : g.WellFormed)
    (orders : Nat → List Nat) (fuel : Nat) (M : List EdgeRef)
    (h : findRandomPerfectMatching g orders fuel = Outcome.done (some M)) :
    M.length = g.ncliques ∧ (∀ e ∈ M, e ∈ g.edges.enum) ∧
      ∀ c, c < g.ncliques →
        M.countP (fun e => decide (e.2.v_source = c)) = 1 ∧
          M.countP (fun e => decide (e.2.v_target = c)) = 1 := by
  obtain ⟨m, hm, rfl, hlen⟩ := findRandomPerfectMatching_inv h
  exact ⟨hlen, fun e he => hm.mem_edges he, fun c hc => hm.perfect hg hlen c hc⟩

/-- Witness of C2 on the graph of the test `FindHighestWeightMatch`. -/
theorem findRandomPerfectMatching_sound_witness :
    highestWeightGraph.WellFormed ∧
    findRandomPerfectMatching highestWeightGraph (fun _ => [0, 1, 2]) 10 =
      Outcome.done (some [(0, ⟨-5, 0, 1⟩), (3, ⟨-5, 1, 2⟩), (4, ⟨-5, 2, 0⟩)]) ∧
    ([((0 : Nat), (⟨-5, 0, 1⟩ : BMEdge)), (3, ⟨-5, 1, 2⟩), (4, ⟨-5, 2, 0⟩)].length =
        highestWeightGraph.ncliques ∧
      (∀ e ∈ [((0 : Nat), (⟨-5, 0, 1⟩ : BMEdge)), (3, ⟨-5, 1, 2⟩), (4, ⟨-5, 2, 0⟩)],
        e ∈ highestWeightGraph.edges.enum) ∧
      ∀ c, c < highestWeightGraph.ncliques →
        [((0 : Nat), (⟨-5, 0, 1⟩ : BMEdge)), (3, ⟨-5, 1, 2⟩), (4, ⟨-5, 2, 0⟩)].countP
            (fun e => decide (e.2.v_source = c)) = 1 ∧
          [((0 : Nat), (⟨-5, 0, 1⟩ : BMEdge)), (3, ⟨-5, 1, 2⟩), (4, ⟨-5, 2, 0⟩)].countP
            (fun e => decide (e.2.v_target = c)) = 1) :=
  ⟨by decide, by rfl,
    findRandomPerfectMatching_sound highestWeightGraph (by decide) (fun _ => [0, 1, 2]) 10 _
      (by rfl)⟩

end wpm

namespace wpm

/-! ## The converter -/

theorem foldl_upd_not_mem (cs : List NMEdge) :
    ∀ (init : Nat → Int) (j : Nat), j ∉ cs.map (fun e => e.v_target) →
      cs.foldl (fun scores e => upd scores e.v_target (convertNMCostToBMScore e.cost)) init j =
        init j := by
  induction cs with
  | nil => intro init j _; rfl
  | cons c rest ih =>
    intro init j hj
    simp only [List.map_cons, List.mem_cons, not_or] at hj
    simp only [List.foldl_cons]
    rw [ih _ j hj.2, upd_other _ _ hj.1]

theorem foldl_upd_mem (cs : List NMEdge) :
    ∀ (init : Nat → Int), (cs.map (fun e => e.v_target)).Nodup → ∀ e ∈ cs,
      cs.foldl (fun scores e => upd scores e.v_target (convertNMCostToBMScore e.cost)) init
        e.v_target = convertNMCostToBMScore e.cost := by
  induction cs with
  | nil => intro init _ e he; cases he
  | cons c rest ih =>
    intro init hnd e he
    simp only [List.map_cons, List.nodup_cons] at hnd
    simp only [List.foldl_cons]
    rcases List.mem_cons.1 he with he | he
    · subst he
      rw [foldl_upd_not_mem rest _ _ hnd.1, upd_same]
    · exact ih _ hnd.2 e he

/-- A candidate score other than `INT_MIN` belongs to another vertex and to a
pair without infinite constraint, when the vertex has no self-edge and no
duplicate edge. -/
theorem scoreMatchingCandidates_ne_min (v : NMVertex)
    (hself : ∀ e ∈ v.constraints, e.v_target ≠ v.id)
    (hdup : (v.constraints.map (fun e => e.v_target)).Nodup) (j : Nat)
    (h : scoreMatchingCandidates v j ≠ INT_MIN) :
    j ≠ v.id ∧ ∀ e ∈ v.constraints, e.v_target = j → e.cost ≠ UINT_MAX := by
  unfold scoreMatchingCandidates at h
  constructor
  · intro hj
    subst hj
    apply h
    rw [foldl_upd_not_mem]
    · exact upd_same _ _ _
    · intro hc
      obtain ⟨e, he, het⟩ := List.mem_map.1 hc
      exact hself e he het
  · intro e he het hcost
    apply h
    rw [← het, foldl_upd_mem v.constraints _ hdup e he, hcost]
    simp [convertNMCostToBMScore]

/-- Every edge the converter emits leaves the vertex it was made for, with that
vertex's candidate score, which is not `INT_MIN`. -/
theorem toBipartiteMatchingGraph_edges (nmgraph : NonMatchingGraph) :
    (toBipartiteMatchingGraph nmgraph).ncliques = nmgraph.vertices.length ∧
    ∀ e ∈ (toBipartiteMatchingGraph nmgraph).edges,
      ∃ v ∈ nmgraph.vertices, e.v_source = v.id ∧ e.v_target < nmgraph.vertices.length ∧
        e.score = scoreMatchingCandidates v e.v_target ∧ e.score ≠ INT_MIN := by
  unfold toBipartiteMatchingGraph
  simp only [NonMatchingGraph.getNumberVertices]
  generalize hn : nmgraph.vertices.length = n
  have inner : ∀ (v : NMVertex) (k : Nat) (bmg : BipartiteMatchingGraph) (P : BMEdge → Prop),
      (∀ e ∈ bmg.edges, P e) →
      (∀ e : BMEdge, e.v_source = v.id → e.v_target < k →
        e.score = scoreMatchingCandidates v e.v_target → e.score ≠ INT_MIN → P e) →
      ((List.range k).foldl
        (fun bmg cid =>
          if scoreMatchingCandidates v cid ≠ INT_MIN then
            bmg.addDirectedEdge v.id cid (scoreMatchingCandidates v cid)
          else bmg) bmg).ncliques = bmg.ncliques ∧
      ∀ e ∈ ((List.range k).foldl
        (fun bmg cid =>
          if scoreMatchingCandidates v cid ≠ INT_MIN then
            bmg.addDirectedEdge v.id cid (scoreMatchingCandidates v cid)
          else bmg) bmg).edges, P e := by
    intro v k
    induction k with
    | zero =>
      intro bmg P h1 _
      exact ⟨rfl, h1⟩
    | succ k ih =>
      intro bmg P h1 h2
      rw [List.range_succ, List.foldl_append]
      simp only [List.foldl_cons, List.foldl_nil]
      obtain ⟨i1, i2⟩ := ih bmg P h1
        (fun e ha hb hc hd => h2 e ha (Nat.lt_succ_of_lt hb) hc hd)
      split
      · rename_i hne
        refine ⟨i1, ?_⟩
        intro e he
        simp only [BipartiteMatchingGraph.addDirectedEdge, List.mem_append,
          List.mem_singleton] at he
        rcases he with he | he
        · exact i2 e he
        · subst he
          exact h2 _ rfl (Nat.lt_succ_self k) rfl hne
      · exact ⟨i1, i2⟩
  have outer : ∀ (vs : List NMVertex) (bmg : BipartiteMatchingGraph),
      (∀ v ∈ vs, v ∈ nmgraph.vertices) →
      (∀ e ∈ bmg.edges, ∃ v ∈ nmgraph.vertices, e.v_source = v.id ∧ e.v_target < n ∧
        e.score = scoreMatchingCandidates v e.v_target ∧ e.score ≠ INT_MIN) →
      (vs.foldl
        (fun bmgraph v =>
          (List.range n).foldl
            (fun bmg cid =>
              if scoreMatchingCandidates v cid ≠ INT_MIN then
                bmg.addDirectedEdge v.id cid (scoreMatchingCandidates v cid)
              else bmg) bmgraph) bmg).ncliques = bmg.ncliques ∧
      ∀ e ∈ (vs.foldl
        (fun bmgraph v =>
          (List.range n).foldl
            (fun bmg cid =>
              if scoreMatchingCandidates v cid ≠ INT_MIN then
                bmg.addDirectedEdge v.id cid (scoreMatchingCandidates v cid)
              else bmg) bmgraph) bmg).edges,
        ∃ v ∈ nmgraph.vertices, e.v_source = v.id ∧ e.v_target < n ∧
          e.score = scoreMatchingCandidates v e.v_target ∧ e.score ≠ INT_MIN := by
    intro vs
    induction vs with
    | nil =>
      intro bmg _ h
      exact ⟨rfl, h⟩
    | cons v rest ih =>
      intro bmg hvs h
      simp only [List.foldl_cons]
      obtain ⟨j1, j2⟩ := inner v n bmg _ h
        (fun e ha hb hc hd => ⟨v, hvs v (List.mem_cons_self _ _), ha, hb, hc, hd⟩)
      obtain ⟨k1, k2⟩ := ih _ (fun w hw => hvs w (List.mem_cons_of_mem _ hw)) j2
      exact ⟨k1.trans j1, k2⟩
  exact outer nmgraph.vertices (BipartiteMatchingGraph.startNewGraph n) (fun v hv => hv)
    (by intro e he; simp [BipartiteMatchingGraph.startNewGraph] at he)

theorem toBipartiteMatchingGraph_no_min (nmgraph : NonMatchingGraph) :
    ∀ e ∈ (toBipartiteMatchingGraph nmgraph).edges.enum, e.2.score ≠ INT_MIN := by
  intro e he
  obtain ⟨i, x⟩ := e
  have hx := List.getElem?_mem (List.mk_mem_enum_iff_getElem?.1 he)
  obtain ⟨_, _, _, _, _, h⟩ := (toBipartiteMatchingGraph_edges nmgraph).2 x hx
  exact h

/-- C8 (amended). The converter never emits an edge of score `S_MIN`, and the
solver returns edges of its input graph only: on every graph produced by
`toBipartiteMatchingGraph` no edge of score `S_MIN` appears in the matching
returned by `findRandomPerfectMatching`. -/
theorem forbidden_edge_never_selected_after_conversion (nmgraph : NonMatchingGraph)
    (orders : Nat → List Nat) (fuel : Nat) (M : List EdgeRef)
    (h : findRandomPerfectMatching (toBipartiteMatchingGraph nmgraph) orders fuel =
      Outcome.done (some M)) :
    ∀ e ∈ M, e.2.score ≠ INT_MIN := by
  obtain ⟨m, hm, rfl, _⟩ := findRandomPerfectMatching_inv h
  intro e he
  exact toBipartiteMatchingGraph_no_min nmgraph e (hm.mem_edges he)

/-- Witness of the amended C8 on three vertices with the pair `0 -> 1`
forbidden. -/
theorem forbidden_edge_never_selected_after_conversion_witness :
    findRandomPerfectMatching (toBipartiteMatchingGraph forbiddenPairExample)
        (fun _ => [0, 1, 2]) 10 =
      Outcome.done (some [(0, ⟨0, 0, 2⟩), (1, ⟨0, 1, 0⟩), (4, ⟨0, 2, 1⟩)]) ∧
    ∀ e ∈ [((0 : Nat), (⟨0, 0, 2⟩ : BMEdge)), (1, ⟨0, 1, 0⟩), (4, ⟨0, 2, 1⟩)],
      e.2.score ≠ INT_MIN :=
  ⟨by rfl,
    forbidden_edge_never_selected_after_conversion forbiddenPairExample (fun _ => [0, 1, 2]) 10 _
      (by rfl)⟩

end wpm

namespace wpm

/-! ## The facade -/

theorem checkGraphValidity_ids (g : NonMatchingGraph) (h : g.checkGraphValidity = true) :
    g.IdsArePositions := by
  unfold NonMatchingGraph.checkGraphValidity at h
  have key : ∀ (ps : List (Nat × NMVertex)) (acc : Option (Nat → Bool)) (flags : Nat → Bool),
      ps.foldl
        (fun (acc : Option (Nat → Bool)) p =>
          match acc with
          | none => none
          | some flags =>
            if p.1 ≠ p.2.id then none
            else if flags p.2.id then none
            else some (upd flags p.2.id true)) acc = some flags →
      ∀ p ∈ ps, p.2.id = p.1 := by
    intro ps
    induction ps with
    | nil => intro _ _ _ p hp; cases hp
    | cons q rest ih =>
      intro acc flags hf p hp
      simp only [List.foldl_cons] at hf
      have hnone : ∀ (qs : List (Nat × NMVertex)),
          qs.foldl
            (fun (acc : Option (Nat → Bool)) p =>
              match acc with
              | none => none
              | some flags =>
                if p.1 ≠ p.2.id then none
                else if flags p.2.id then none
                else some (upd flags p.2.id true)) none = none := by
        intro qs
        induction qs with
        | nil => rfl
        | cons _ _ ih2 => simpa using ih2
      cases acc with
      | none =>
        simp only at hf
        rw [hnone] at hf
        cases hf
      | some fl =>
        simp only at hf
        by_cases hq : q.1 ≠ q.2.id
        · rw [if_pos hq, hnone] at hf
          cases hf
        · rw [if_neg hq] at hf
          rcases List.mem_cons.1 hp with hp | hp
          · subst hp
            exact (not_not.1 hq).symm
          · exact ih _ flags hf p hp
  intro p hp
  simp only at h
  split at h
  · cases h
  · rename_i flags hfl
    exact key _ _ flags hfl p hp

theorem deserialize_ids {is rest : IStream} {G : NonMatchingGraph}
    (h : NonMatchingGraph.deserialize is = Parsed.accept G rest) : G.IdsArePositions := by
  unfold NonMatchingGraph.deserialize at h
  simp only at h
  split at h
  · split at h
    · cases h
    · split at h
      · cases h
      · split at h
        · rename_i g is1 _
          split at h
          · rename_i hv
            simp only [Parsed.accept.injEq] at h
            rw [← h.1]
            exact checkGraphValidity_ids g hv
          · cases h
        · cases h
        · cases h
  · split at h <;> cases h
  · split at h <;> cases h
  · cases h

theorem toGenericMatching_fold (es : List EdgeRef) :
    ∀ (init : List Nat), (es.map (fun e => e.2.v_source)).Nodup →
      (∀ e ∈ es, e.2.v_source < init.length) →
      (es.foldl (fun generic e => generic.set e.2.v_source e.2.v_target) init).length =
        init.length ∧
      ∀ e ∈ es,
        (es.foldl (fun generic e => generic.set e.2.v_source e.2.v_target) init)[e.2.v_source]? =
          some e.2.v_target := by
  induction es with
  | nil =>
    intro init _ _
    exact ⟨rfl, fun e he => by cases he⟩
  | cons a rest ih =>
    intro init hnd hlt
    simp only [List.map_cons, List.nodup_cons] at hnd
    simp only [List.foldl_cons]
    have hlt2 : ∀ e ∈ rest, e.2.v_source < (init.set a.2.v_source a.2.v_target).length := by
      intro e he
      rw [List.length_set]
      exact hlt e (List.mem_cons_of_mem _ he)
    obtain ⟨i1, i2⟩ := ih (init.set a.2.v_source a.2.v_target) hnd.2 hlt2
    refine ⟨by rw [i1, List.length_set], ?_⟩
    intro e he
    rcases List.mem_cons.1 he with he | he
    · subst he
      have hkeep : ∀ (rs : List EdgeRef) (l : List Nat) (i : Nat),
          i ∉ rs.map (fun e => e.2.v_source) →
          (rs.foldl (fun generic e => generic.set e.2.v_source e.2.v_target) l)[i]? = l[i]? := by
        intro rs
        induction rs with
        | nil => intro l i _; rfl
        | cons r rs ih2 =>
          intro l i hi
          simp only [List.map_cons, List.mem_cons, not_or] at hi
          simp only [List.foldl_cons]
          rw [ih2 _ i hi.2, List.getElem?_set_ne (Ne.symm hi.1)]
      rw [hkeep rest _ _ hnd.1]
      exact List.getElem?_set_self (hlt e (List.mem_cons_self _ _))
    · exact i2 e he

/-- The generic matching of a perfect bipartite matching: entry `s` holds `t` for
every edge `s -> t`. -/
theorem toGenericMatching_spec (bm : List EdgeRef)
    (hnd : (bm.map (fun e => e.2.v_source)).Nodup) (hlt : ∀ e ∈ bm, e.2.v_source < bm.length) :
    (toGenericMatching bm).length = bm.length ∧
      ∀ e ∈ bm, (toGenericMatching bm)[e.2.v_source]? = some e.2.v_target := by
  unfold toGenericMatching
  have := toGenericMatching_fold bm (List.replicate bm.length 0) hnd (by simpa using hlt)
  simpa using this

end wpm

namespace wpm

/-- The generic matching of a perfect matching is a permutation of `[0, N)`,
and entry `i` is the target of the matching edge that leaves `i`. -/
theorem genericMatching_perm {g : BipartiteMatchingGraph} {m : Matching} (hm : MatchingInv g m)
    (hg : g.WellFormed) (hlen : m.edges.length = g.ncliques) :
    (toGenericMatching m.edges).Perm (List.range g.ncliques) ∧
      ∀ i, i < g.ncliques →
        ∃ e ∈ m.edges, e.2.v_source = i ∧ (toGenericMatching m.edges)[i]? = some e.2.v_target := by
  have hsrc_lt : ∀ e ∈ m.edges, e.2.v_source < m.edges.length := by
    intro e he
    rw [hlen]
    exact (wellFormed_of_mem hg (hm.mem_edges he)).1
  obtain ⟨hl, hget⟩ := toGenericMatching_spec m.edges hm.sources_nodup hsrc_lt
  have hex : ∀ i, i < g.ncliques →
      ∃ e ∈ m.edges, e.2.v_source = i ∧
        (toGenericMatching m.edges)[i]? = some e.2.v_target := by
    intro i hi
    have := mem_of_nodup_lt_length _ g.ncliques hm.sources_nodup
      (by
        intro x hx
        obtain ⟨e, he, rfl⟩ := List.mem_map.1 hx
        exact (wellFormed_of_mem hg (hm.mem_edges he)).1)
      (by simpa using hlen) i hi
    obtain ⟨e, he, hei⟩ := List.mem_map.1 this
    exact ⟨e, he, hei, by rw [← hei]; exact hget e he⟩
  refine ⟨?_, hex⟩
  have hnd : (toGenericMatching m.edges).Nodup := by
    rw [List.nodup_iff_getElem?_ne_getElem?]
    intro i j hij hj hc
    rw [hl, hlen] at hj
    obtain ⟨e1, he1, hs1, hg1⟩ := hex i (by omega)
    obtain ⟨e2, he2, hs2, hg2⟩ := hex j hj
    rw [hg1, hg2, Option.some_inj] at hc
    have := List.inj_on_of_nodup_map hm.targets_nodup he1 he2 hc
    rw [this] at hs1
    omega
  have hlt : ∀ x ∈ toGenericMatching m.edges, x < g.ncliques := by
    intro x hx
    obtain ⟨i, hi⟩ := List.mem_iff_getElem?.1 hx
    have hib : i < g.ncliques := by
      have := (List.getElem?_eq_some_iff.1 hi).1
      rw [hl, hlen] at this
      exact this
    obtain ⟨e, he, _, hge⟩ := hex i hib
    rw [hge, Option.some_inj] at hi
    rw [← hi]
    exact (wellFormed_of_mem hg (hm.mem_edges he)).2
  rw [List.perm_ext_iff_of_nodup hnd (List.nodup_range g.ncliques)]
  intro a
  constructor
  · intro ha
    exact List.mem_range.2 (hlt a ha)
  · intro ha
    exact mem_of_nodup_lt_length _ g.ncliques hnd hlt (by rw [hl, hlen]) a (List.mem_range.1 ha)

theorem toBipartiteMatchingGraph_wellFormed (G : NonMatchingGraph) (hid : G.IdsArePositions) :
    (toBipartiteMatchingGraph G).WellFormed := by
  intro e he
  obtain ⟨hn, hedges⟩ := toBipartiteMatchingGraph_edges G
  obtain ⟨v, hv, h1, h2, _, _⟩ := hedges e he
  rw [hn]
  refine ⟨?_, h2⟩
  obtain ⟨i, hi⟩ := List.mem_iff_getElem?.1 hv
  have := idsArePositions_getElem? G hid i v hi
  rw [h1, this]
  exact (List.getElem?_eq_some_iff.1 hi).1

/-- C6. Admissible output: when the input text parses to a constraint graph `G`
without self-edge and without duplicate edge and the facade returns `Success`,
the returned vector `M` is a permutation of `[0, N)`, and for every `i` the entry
`M[i]` differs from `i` and the pair `(i, M[i])` has no stored constraint of
infinite cost in `G`. -/
theorem findBestPerfectMatching_admissible (graph_str : String) (orders : Nat → List Nat)
    (fuel : Nat) (G : NonMatchingGraph) (rest : IStream) (M : List Nat) (out : String)
    (hparse : NonMatchingGraph.deserialize ⟨graph_str.toList, true⟩ = Parsed.accept G rest)
    (hself : ∀ v ∈ G.vertices, ∀ e ∈ v.constraints, e.v_target ≠ v.id)
    (hdup : ∀ v ∈ G.vertices, (v.constraints.map (fun e => e.v_target)).Nodup)
    (hrun : findBestPerfectMatching graph_str orders fuel =
      Outcome.done (ResultCode.ResCode_Success, M, out)) :
    M.Perm (List.range G.vertices.length) ∧
      ∀ (i : Nat) (v : NMVertex), G.vertices[i]? = some v →
        ∃ j, M[i]? = some j ∧ j ≠ i ∧
          ∀ c ∈ v.constraints, c.v_target = j → c.cost ≠ UINT_MAX := by
  have hid := deserialize_ids hparse
  unfold findBestPerfectMatching at hrun
  rw [hparse] at hrun
  simp only at hrun
  split at hrun
  · cases hrun
  · cases hrun
  · cases hrun
  · simp at hrun
  · rename_i bm hsolve
    split at hrun
    · simp at hrun
    · simp only [Outcome.done.injEq, Prod.mk.injEq, true_and] at hrun
      obtain ⟨hM, _⟩ := hrun
      obtain ⟨m, hm, hedges, hlen⟩ := findRandomPerfectMatching_inv hsolve
      obtain ⟨hn, hconv⟩ := toBipartiteMatchingGraph_edges G
      have hwf := toBipartiteMatchingGraph_wellFormed G hid
      obtain ⟨hperm, hex⟩ := genericMatching_perm hm hwf (by rw [hedges]; exact hlen)
      rw [hedges, hM, hn] at hperm
      refine ⟨hperm, ?_⟩
      intro i v hv
      have hi : i < G.vertices.length := (List.getElem?_eq_some_iff.1 hv).1
      obtain ⟨e, he, hsrc, hget⟩ := hex i (by rw [hn]; exact hi)
      rw [hedges, hM] at hget
      refine ⟨e.2.v_target, hget, ?_⟩
      have hmem : e.2 ∈ (toBipartiteMatchingGraph G).edges := by
        have := hm.mem_edges he
        obtain ⟨k, x⟩ := e
        exact List.getElem?_mem (List.mk_mem_enum_iff_getElem?.1 this)
      obtain ⟨w, hw, h1, _, h3, h4⟩ := hconv e.2 hmem
      have hwv : w = v := by
        obtain ⟨k, hk⟩ := List.mem_iff_getElem?.1 hw
        have hkid := idsArePositions_getElem? G hid k w hk
        have : k = i := by rw [← hkid, ← h1, hsrc]
        subst this
        rw [hk] at hv
        exact Option.some.inj hv
      subst hwv
      have hvid : w.id = i := idsArePositions_getElem? G hid i w hv
      rw [h3] at h4
      obtain ⟨r1, r2⟩ := scoreMatchingCandidates_ne_min w (hself w hw) (hdup w hw) _ h4
      rw [hvid] at r1
      exact ⟨r1, r2⟩

end wpm

namespace wpm

/-- Witness of C6 on the text of three vertices with the pair `0 -> 1`
forbidden. -/
theorem findBestPerfectMatching_admissible_witness :
    NonMatchingGraph.deserialize ⟨"nv 3\nv 0 1(4294967295)\nv 1\nv 2\n".toList, true⟩ =
      Parsed.accept forbiddenPairExample ⟨[], true⟩ ∧
    (∀ v ∈ forbiddenPairExample.vertices, ∀ e ∈ v.constraints, e.v_target ≠ v.id) ∧
    (∀ v ∈ forbiddenPairExample.vertices, (v.constraints.map (fun e => e.v_target)).Nodup) ∧
    findBestPerfectMatching "nv 3\nv 0 1(4294967295)\nv 1\nv 2\n" (fun _ => [0, 1, 2]) 10 =
      Outcome.done (ResultCode.ResCode_Success, [2, 0, 1],
        "nv 3\nv 0 1(4294967295) 2(3)\nv 1 0(3)\nv 2 1(3)\n") ∧
    ([2, 0, 1].Perm (List.range forbiddenPairExample.vertices.length) ∧
      ∀ (i : Nat) (v : NMVertex), forbiddenPairExample.vertices[i]? = some v →
        ∃ j, [2, 0, 1][i]? = some j ∧ j ≠ i ∧
          ∀ c ∈ v.constraints, c.v_target = j → c.cost ≠ UINT_MAX) :=
  ⟨by rfl, by decide, by decide, by rfl,
    findBestPerfectMatching_admissible "nv 3\nv 0 1(4294967295)\nv 1\nv 2\n"
      (fun _ => [0, 1, 2]) 10 forbiddenPairExample ⟨[], true⟩ [2, 0, 1]
      "nv 3\nv 0 1(4294967295) 2(3)\nv 1 0(3)\nv 2 1(3)\n" (by rfl) (by decide) (by decide)
      (by rfl)⟩

end wpm

namespace wpm

/-! ## Loops over the cliques -/

/-- A loop over the cliques that rewrites the entries selected by `c`. -/
theorem foldl_range_upd_val (c : Nat → Bool) (F : Int → Int) (bad : Int → Bool) :
    ∀ (n : Nat) (f : Nat → Int) (b : Bool) (t : Nat),
      ((List.range n).foldl
        (fun (acc : (Nat → Int) × Bool) i =>
          if c i then (upd acc.1 i (F (acc.1 i)), acc.2 || bad (acc.1 i)) else acc)
        (f, b)).1 t = if t < n ∧ c t = true then F (f t) else f t := by
  intro n
  induction n with
  | zero => intro f b t; simp
  | succ n ih =>
    intro f b t
    rw [List.range_succ, List.foldl_append]
    simp only [List.foldl_cons, List.foldl_nil]
    have hn := ih f b n
    simp only [lt_irrefl, false_and, if_false] at hn
    by_cases hc : c n = true
    · rw [if_pos hc]
      simp only [upd_apply]
      by_cases ht : t = n
      · subst ht
        simp [hc, hn]
      · rw [if_neg ht, ih f b t]
        have : (t < n + 1 ∧ c t = true) ↔ (t < n ∧ c t = true) := by
          constructor
          · rintro ⟨h1, h2⟩
            exact ⟨by omega, h2⟩
          · rintro ⟨h1, h2⟩
            exact ⟨by omega, h2⟩
        simp only [this]
    · rw [if_neg hc, ih f b t]
      have : (t < n + 1 ∧ c t = true) ↔ (t < n ∧ c t = true) := by
        constructor
        · rintro ⟨h1, h2⟩
          refine ⟨?_, h2⟩
          by_contra hlt
          have : t = n := by omega
          subst this
          exact hc h2
        · rintro ⟨h1, h2⟩
          exact ⟨by omega, h2⟩
      simp only [this]

/-- The same loop: its flag is raised exactly when a rewritten entry is bad. -/
theorem foldl_range_upd_flag (c : Nat → Bool) (F : Int → Int) (bad : Int → Bool) :
    ∀ (n : Nat) (f : Nat → Int) (b : Bool),
      ((List.range n).foldl
        (fun (acc : (Nat → Int) × Bool) i =>
          if c i then (upd acc.1 i (F (acc.1 i)), acc.2 || bad (acc.1 i)) else acc)
        (f, b)).2 = true ↔ (b = true ∨ ∃ t, t < n ∧ c t = true ∧ bad (f t) = true) := by
  intro n
  induction n with
  | zero => intro f b; simp
  | succ n ih =>
    intro f b
    rw [List.range_succ, List.foldl_append]
    simp only [List.foldl_cons, List.foldl_nil]
    have hn := foldl_range_upd_val c F bad n f b n
    simp only [lt_irrefl, false_and, if_false] at hn
    by_cases hc : c n = true
    · rw [if_pos hc]
      simp only [Bool.or_eq_true, ih f b, hn]
      constructor
      · rintro ((h | ⟨t, h1, h2, h3⟩) | h)
        · exact Or.inl h
        · exact Or.inr ⟨t, by omega, h2, h3⟩
        · exact Or.inr ⟨n, by omega, hc, h⟩
      · rintro (h | ⟨t, h1, h2, h3⟩)
        · exact Or.inl (Or.inl h)
        · by_cases ht : t = n
          · subst ht
            exact Or.inr h3
          · exact Or.inl (Or.inr ⟨t, by omega, h2, h3⟩)
    · rw [if_neg hc, ih f b]
      constructor
      · rintro (h | ⟨t, h1, h2, h3⟩)
        · exact Or.inl h
        · exact Or.inr ⟨t, by omega, h2, h3⟩
      · rintro (h | ⟨t, h1, h2, h3⟩)
        · exact Or.inl h
        · by_cases ht : t = n
          · subst ht
            exact absurd h2 hc
          · exact Or.inr ⟨t, by omega, h2, h3⟩

theorem update_ls (l : VertexLabeling) (n : Nat) (delta : Int) (a : AlternatingTree) (s : Nat) :
    (l.update n delta a).1.ls s = if s < n ∧ a.set_S s = true then l.ls s - delta else l.ls s := by
  simp only [VertexLabeling.update, AlternatingTree.isInS]
  exact foldl_range_upd_val (fun i => a.set_S i) (fun x => x - delta)
    (fun x => !inIntRange (x - delta)) n l.ls false s

theorem update_lt (l : VertexLabeling) (n : Nat) (delta : Int) (a : AlternatingTree) (t : Nat) :
    (l.update n delta a).1.lt t = if t < n ∧ a.set_T t = true then l.lt t + delta else l.lt t := by
  simp only [VertexLabeling.update, AlternatingTree.isInT]
  exact foldl_range_upd_val (fun i => a.set_T i) (fun x => x + delta)
    (fun x => !inIntRange (x + delta)) n l.lt false t

theorem simplify_min_slack (sa : SlackArray) (a : AlternatingTree) (n : Nat) (t : Nat) :
    (sa.simplifyMinCostSlack a n).2.1.min_slack t =
      if t < n ∧ sa.isCandidate a t = true then sa.min_slack t - sa.minCostSlack a n
      else sa.min_slack t := by
  simp only [SlackArray.simplifyMinCostSlack]
  exact foldl_range_upd_val (fun i => sa.isCandidate a i) (fun x => x - sa.minCostSlack a n)
    (fun x => !inIntRange (x - sa.minCostSlack a n)) n sa.min_slack false t

theorem simplify_delta (sa : SlackArray) (a : AlternatingTree) (n : Nat) :
    (sa.simplifyMinCostSlack a n).1 = sa.minCostSlack a n := rfl

theorem simplify_source (sa : SlackArray) (a : AlternatingTree) (n : Nat) :
    (sa.simplifyMinCostSlack a n).2.1.source_cid = sa.source_cid ∧
      (sa.simplifyMinCostSlack a n).2.1.edge_cid = sa.edge_cid := ⟨rfl, rfl⟩

/-- The value of `delta`: at most `INT_MAX`, at most the slack of every
candidate, and equal to `INT_MAX` or to the slack of a candidate. -/
theorem minCostSlack_spec (sa : SlackArray) (a : AlternatingTree) (n : Nat) :
    sa.minCostSlack a n ≤ INT_MAX ∧
      (∀ t, t < n → sa.isCandidate a t = true → sa.minCostSlack a n ≤ sa.min_slack t) ∧
      (sa.minCostSlack a n = INT_MAX ∨
        ∃ t, t < n ∧ sa.isCandidate a t = true ∧ sa.minCostSlack a n = sa.min_slack t) := by
  unfold SlackArray.minCostSlack
  induction n with
  | zero => simp
  | succ n ih =>
    rw [List.range_succ, List.foldl_append]
    simp only [List.foldl_cons, List.foldl_nil]
    obtain ⟨i1, i2, i3⟩ := ih
    by_cases hc : sa.isCandidate a n = true
    · rw [if_pos hc]
      refine ⟨le_trans (min_le_left _ _) i1, ?_, ?_⟩
      · intro t ht hct
        by_cases htn : t = n
        · subst htn
          exact min_le_right _ _
        · exact le_trans (min_le_left _ _) (i2 t (by omega) hct)
      · rcases le_total ((List.range n).foldl
            (fun delta target_cid =>
              if sa.isCandidate a target_cid then min delta (sa.min_slack target_cid) else delta)
            INT_MAX) (sa.min_slack n) with h | h
        · rw [min_eq_left h]
          rcases i3 with i3 | ⟨t, h1, h2, h3⟩
          · exact Or.inl i3
          · exact Or.inr ⟨t, by omega, h2, h3⟩
        · rw [min_eq_right h]
          exact Or.inr ⟨n, by omega, hc, rfl⟩
    · rw [if_neg hc]
      refine ⟨i1, ?_, ?_⟩
      · intro t ht hct
        by_cases htn : t = n
        · subst htn
          exact absurd hct hc
        · exact i2 t (by omega) hct
      · rcases i3 with i3 | ⟨t, h1, h2, h3⟩
        · exact Or.inl i3
        · exact Or.inr ⟨t, by omega, h2, h3⟩

end wpm

namespace wpm

/-! ## The values of the slack array -/

theorem slackVals_set {l : VertexLabeling} {sa : SlackArray} (h : SlackVals l sa) (c : Nat)
    (e : EdgeRef) :
    SlackVals l
      { min_slack := upd sa.min_slack e.2.v_target (l.slackOf c e)
        source_cid := upd sa.source_cid e.2.v_target (some c)
        edge_cid := upd sa.edge_cid e.2.v_target (some e) } := by
  intro t s e2 hs he
  simp only [upd_apply] at hs he ⊢
  by_cases ht : t = e.2.v_target
  · simp only [ht, if_true, Option.some.injEq] at hs he ⊢
    subst hs
    subst he
    rfl
  · simp only [ht, if_false] at hs he ⊢
    exact h t s e2 hs he

theorem slackArray_init_vals (root : Nat) (l : VertexLabeling) (es : List EdgeRef) :
    SlackVals l (SlackArray.init root es l).1 := by
  unfold SlackArray.init
  have key : ∀ (es : List EdgeRef) (acc : SlackArray × Bool), SlackVals l acc.1 →
      SlackVals l (es.foldl
        (fun (acc : SlackArray × Bool) e =>
          ({ min_slack := upd acc.1.min_slack e.2.v_target (l.slackOf root e)
             source_cid := upd acc.1.source_cid e.2.v_target (some root)
             edge_cid := upd acc.1.edge_cid e.2.v_target (some e) },
            acc.2 || l.slackOverflows root e)) acc).1 := by
    intro es
    induction es with
    | nil => intro acc h; exact h
    | cons e rest ih =>
      intro acc h
      simp only [List.foldl_cons]
      exact ih _ (slackVals_set h root e)
  apply key
  intro t s e hs _
  simp at hs

/-- With one edge per target, the constructor stores the slack of each edge of
the root. -/
theorem slackArray_init_min (root : Nat) (l : VertexLabeling) (es : List EdgeRef)
    (hnd : (es.map (fun e => e.2.v_target)).Nodup) :
    ∀ e ∈ es, (SlackArray.init root es l).1.min_slack e.2.v_target = l.slackOf root e := by
  unfold SlackArray.init
  have keep : ∀ (es : List EdgeRef) (acc : SlackArray × Bool) (t : Nat),
      t ∉ es.map (fun e => e.2.v_target) →
      (es.foldl
        (fun (acc : SlackArray × Bool) e =>
          ({ min_slack := upd acc.1.min_slack e.2.v_target (l.slackOf root e)
             source_cid := upd acc.1.source_cid e.2.v_target (some root)
             edge_cid := upd acc.1.edge_cid e.2.v_target (some e) },
            acc.2 || l.slackOverflows root e)) acc).1.min_slack t = acc.1.min_slack t := by
    intro es
    induction es with
    | nil => intro acc t _; rfl
    | cons e rest ih =>
      intro acc t ht
      simp only [List.map_cons, List.mem_cons, not_or] at ht
      simp only [List.foldl_cons]
      rw [ih _ t ht.2]
      exact upd_other _ _ ht.1
  have key : ∀ (es : List EdgeRef) (acc : SlackArray × Bool),
      (es.map (fun e => e.2.v_target)).Nodup → ∀ e ∈ es,
      (es.foldl
        (fun (acc : SlackArray × Bool) e =>
          ({ min_slack := upd acc.1.min_slack e.2.v_target (l.slackOf root e)
             source_cid := upd acc.1.source_cid e.2.v_target (some root)
             edge_cid := upd acc.1.edge_cid e.2.v_target (some e) },
            acc.2 || l.slackOverflows root e)) acc).1.min_slack e.2.v_target =
        l.slackOf root e := by
    intro es
    induction es with
    | nil => intro acc _ e he; cases he
    | cons a rest ih =>
      intro acc hnd e he
      simp only [List.map_cons, List.nodup_cons] at hnd
      simp only [List.foldl_cons]
      rcases List.mem_cons.1 he with he | he
      · subst he
        rw [keep rest _ _ hnd.1]
        exact upd_same _ _ _
      · exact ih _ hnd.2 e he
  exact key es _ hnd

theorem updateWithNewSourceVertex_vals {l : VertexLabeling} {sa : SlackArray}
    (h : SlackVals l sa) (c : Nat) (es : List EdgeRef) :
    SlackVals l (sa.updateWithNewSourceVertex c es l).1 := by
  unfold SlackArray.updateWithNewSourceVertex
  have key : ∀ (es : List EdgeRef) (acc : SlackArray × Bool), SlackVals l acc.1 →
      SlackVals l (es.foldl
        (fun (acc : SlackArray × Bool) e =>
          if l.slackOf c e < acc.1.min_slack e.2.v_target then
            ({ min_slack := upd acc.1.min_slack e.2.v_target (l.slackOf c e)
               source_cid := upd acc.1.source_cid e.2.v_target (some c)
               edge_cid := upd acc.1.edge_cid e.2.v_target (some e) },
              acc.2 || l.slackOverflows c e)
          else (acc.1, acc.2 || l.slackOverflows c e)) acc).1 := by
    intro es
    induction es with
    | nil => intro acc h; exact h
    | cons e rest ih =>
      intro acc h
      simp only [List.foldl_cons]
      apply ih
      split
      · exact slackVals_set h c e
      · exact h
  exact key es _ h

/-- Adding a source to the slack array lowers entries only, and brings the
entries of the targets of the new edges down to the slack of these edges. -/
theorem updateWithNewSourceVertex_le (l : VertexLabeling) (sa : SlackArray) (c : Nat)
    (es : List EdgeRef) :
    (∀ t, (sa.updateWithNewSourceVertex c es l).1.min_slack t ≤ sa.min_slack t) ∧
      ∀ e ∈ es, (sa.updateWithNewSourceVertex c es l).1.min_slack e.2.v_target ≤
        l.slackOf c e := by
  unfold SlackArray.updateWithNewSourceVertex
  have key : ∀ (es : List EdgeRef) (acc : SlackArray × Bool),
      (∀ t, (es.foldl
        (fun (acc : SlackArray × Bool) e =>
          if l.slackOf c e < acc.1.min_slack e.2.v_target then
            ({ min_slack := upd acc.1.min_slack e.2.v_target (l.slackOf c e)
               source_cid := upd acc.1.source_cid e.2.v_target (some c)
               edge_cid := upd acc.1.edge_cid e.2.v_target (some e) },
              acc.2 || l.slackOverflows c e)
          else (acc.1, acc.2 || l.slackOverflows c e)) acc).1.min_slack t ≤
          acc.1.min_slack t) ∧
      ∀ e ∈ es, (es.foldl
        (fun (acc : SlackArray × Bool) e =>
          if l.slackOf c e < acc.1.min_slack e.2.v_target then
            ({ min_slack := upd acc.1.min_slack e.2.v_target (l.slackOf c e)
               source_cid := upd acc.1.source_cid e.2.v_target (some c)
               edge_cid := upd acc.1.edge_cid e.2.v_target (some e) },
              acc.2 || l.slackOverflows c e)
          else (acc.1, acc.2 || l.slackOverflows c e)) acc).1.min_slack e.2.v_target ≤
          l.slackOf c e := by
    intro es
    induction es with
    | nil =>
      intro acc
      exact ⟨fun t => le_refl _, fun e he => by cases he⟩
    | cons a rest ih =>
      intro acc
      simp only [List.foldl_cons]
      by_cases hlt : l.slackOf c a < acc.1.min_slack a.2.v_target
      · rw [if_pos hlt]
        obtain ⟨i1, i2⟩ := ih
          ({ min_slack := upd acc.1.min_slack a.2.v_target (l.slackOf c a)
             source_cid := upd acc.1.source_cid a.2.v_target (some c)
             edge_cid := upd acc.1.edge_cid a.2.v_target (some a) },
            acc.2 || l.slackOverflows c a)
        constructor
        · intro t
          refine le_trans (i1 t) ?_
          simp only [upd_apply]
          by_cases ht : t = a.2.v_target
          · simp only [ht, if_true]
            exact le_of_lt hlt
          · simp only [ht, if_false]
            exact le_refl _
        · intro e he
          rcases List.mem_cons.1 he with he | he
          · subst he
            refine le_trans (i1 _) ?_
            simp [upd_apply]
          · exact i2 e he
      · rw [if_neg hlt]
        obtain ⟨i1, i2⟩ := ih (acc.1, acc.2 || l.slackOverflows c a)
        constructor
        · intro t
          exact i1 t
        · intro e he
          rcases List.mem_cons.1 he with he | he
          · subst he
            exact le_trans (i1 _) (not_lt.1 hlt)
          · exact i2 e he
  exact key es (sa, false)

/-- The constructor gives a witness to every target of an edge of the root. -/
theorem slackArray_init_some (root : Nat) (l : VertexLabeling) (es : List EdgeRef) :
    ∀ e ∈ es, (SlackArray.init root es l).1.source_cid e.2.v_target ≠ none := by
  unfold SlackArray.init
  have keep : ∀ (es : List EdgeRef) (acc : SlackArray × Bool) (t : Nat),
      acc.1.source_cid t ≠ none →
      (es.foldl
        (fun (acc : SlackArray × Bool) e =>
          ({ min_slack := upd acc.1.min_slack e.2.v_target (l.slackOf root e)
             source_cid := upd acc.1.source_cid e.2.v_target (some root)
             edge_cid := upd acc.1.edge_cid e.2.v_target (some e) },
            acc.2 || l.slackOverflows root e)) acc).1.source_cid t ≠ none := by
    intro es
    induction es with
    | nil => intro acc t h; exact h
    | cons e rest ih =>
      intro acc t h
      simp only [List.foldl_cons]
      apply ih
      simp only [upd_apply]
      split
      · simp
      · exact h
  have key : ∀ (es : List EdgeRef) (acc : SlackArray × Bool), ∀ e ∈ es,
      (es.foldl
        (fun (acc : SlackArray × Bool) e =>
          ({ min_slack := upd acc.1.min_slack e.2.v_target (l.slackOf root e)
             source_cid := upd acc.1.source_cid e.2.v_target (some root)
             edge_cid := upd acc.1.edge_cid e.2.v_target (some e) },
            acc.2 || l.slackOverflows root e)) acc).1.source_cid e.2.v_target ≠ none := by
    intro es
    induction es with
    | nil => intro acc e he; cases he
    | cons a rest ih =>
      intro acc e he
      simp only [List.foldl_cons]
      rcases List.mem_cons.1 he with he | he
      · subst he
        apply keep
        simp [upd_apply]
      · exact ih _ e he
  exact key es _

/-- Adding a source to the slack array removes no witness. -/
theorem updateWithNewSourceVertex_some (l : VertexLabeling) (sa : SlackArray) (c : Nat)
    (es : List EdgeRef) (t : Nat) (h : sa.source_cid t ≠ none) :
    (sa.updateWithNewSourceVertex c es l).1.source_cid t ≠ none := by
  unfold SlackArray.updateWithNewSourceVertex
  have key : ∀ (es : List EdgeRef) (acc : SlackArray × Bool), acc.1.source_cid t ≠ none →
      (es.foldl
        (fun (acc : SlackArray × Bool) e =>
          if l.slackOf c e < acc.1.min_slack e.2.v_target then
            ({ min_slack := upd acc.1.min_slack e.2.v_target (l.slackOf c e)
               source_cid := upd acc.1.source_cid e.2.v_target (some c)
               edge_cid := upd acc.1.edge_cid e.2.v_target (some e) },
              acc.2 || l.slackOverflows c e)
          else (acc.1, acc.2 || l.slackOverflows c e)) acc).1.source_cid t ≠ none := by
    intro es
    induction es with
    | nil => intro acc h; exact h
    | cons e rest ih =>
      intro acc h
      simp only [List.foldl_cons]
      apply ih
      split
      · simp only [upd_apply]
        split
        · simp
        · exact h
      · exact h
  exact key es _ h

theorem sourceEdges_targets_nodup {g : BipartiteMatchingGraph} (hs : g.SimpleEdges) (c : Nat) :
    ((g.sourceEdges c).map (fun e => e.2.v_target)).Nodup := by
  have hnd : (g.sourceEdges c).Nodup := by
    unfold BipartiteMatchingGraph.sourceEdges
    apply List.Nodup.filter
    have h1 : (g.edges.enum.map Prod.fst).Nodup := by
      rw [List.enum_map_fst]
      exact List.nodup_range _
    exact List.Nodup.of_map _ h1
  rw [List.nodup_map_iff_inj_on hnd]
  intro x hx y hy hxy
  obtain ⟨hx1, hx2⟩ := mem_sourceEdges.1 hx
  obtain ⟨hy1, hy2⟩ := mem_sourceEdges.1 hy
  exact hs x hx1 y hy1 (by rw [hx2, hy2]) hxy

end wpm

namespace wpm

/-! ## The search keeps the invariant on the labels -/

/-- The invariant on the labels reads the tree and the slack array only. -/
theorem LabelInv.congr_label {g : BipartiteMatchingGraph} {m : Matching} {l : VertexLabeling}
    {st st2 : Search} (h : LabelInv g m l st) (h2 : st2.atree = st.atree)
    (h3 : st2.slack = st.slack) : LabelInv g m l st2 where
  ok := h.ok
  tree_tight := by rw [h2]; exact h.tree_tight
  slack_witness := by rw [h3]; exact h.slack_witness
  root_rec := by rw [h2, h3]; exact h.root_rec
  slack_min := by rw [h2, h3]; exact h.slack_min

/-- Recording the end of the path over a tight edge. -/
theorem LabelInv.setEnd_label {g : BipartiteMatchingGraph} {m : Matching} {l : VertexLabeling}
    {st : Search} (h : LabelInv g m l st) (t : Nat) (_ht : st.atree.set_T t = false)
    (s : Nat) (e : EdgeRef) (htight : l.ls e.2.v_source + l.lt e.2.v_target = e.2.score)
    (ov : Bool) :
    LabelInv g m l
      { queue := st.queue
        atree := st.atree.setEndExposedTargetVertex (some s) t (some e)
        slack := st.slack, overflow := ov, fault := st.fault } where
  ok := h.ok
  tree_tight := by
    intro t2 e2 hc hp
    simp only [AlternatingTree.setEndExposedTargetVertex, upd_apply, Option.some.injEq] at hc hp
    by_cases htt : t2 = t
    · simp only [htt, if_true, Option.some.injEq] at hp
      subst hp
      exact htight
    · simp only [htt, if_false] at hp
      rcases hc with hc | hc
      · exact h.tree_tight t2 e2 (Or.inl hc) hp
      · exact absurd hc.symm htt
  slack_witness := h.slack_witness
  root_rec := h.root_rec
  slack_min := h.slack_min

/-- Growing the tree over a tight edge by a matched target and its source. -/
theorem LabelInv.addTwo_label {g : BipartiteMatchingGraph} {m : Matching} {l : VertexLabeling}
    {st : Search} (h : LabelInv g m l st)
    (hend : st.atree.end_exposed_target_vertex = none)
    (t : Nat) (e2 : EdgeRef) (s : Nat) (e : EdgeRef)
    (htight : l.ls e.2.v_source + l.lt e.2.v_target = e.2.score) (ov : Bool) :
    LabelInv g m l
      { queue := st.queue ++ [e2.2.v_source]
        atree := st.atree.addTwoEdges (some s) t e2.2.v_source (some e) e2
        slack := (st.slack.updateWithNewSourceVertex e2.2.v_source
          (g.sourceEdges e2.2.v_source) l).1
        overflow := ov, fault := st.fault } where
  ok := h.ok
  tree_tight := by
    intro t2 e3 hc hp
    simp only [AlternatingTree.addTwoEdges, upd_apply] at hc hp
    rw [hend] at hc
    by_cases htt : t2 = t
    · simp only [htt, if_true, Option.some.injEq] at hp
      subst hp
      exact htight
    · simp only [htt, if_false] at hp hc
      rcases hc with hc | hc
      · exact h.tree_tight t2 e3 (Or.inl hc) hp
      · cases hc
  slack_witness := updateWithNewSourceVertex_vals h.slack_witness _ _
  root_rec := by
    intro x hx hroot
    simp only [AlternatingTree.addTwoEdges] at hroot
    exact updateWithNewSourceVertex_some l st.slack _ _ _ (h.root_rec x hx hroot)
  slack_min := by
    intro x hx hS hT
    simp only [AlternatingTree.addTwoEdges, upd_apply] at hS hT ⊢
    obtain ⟨i1, i2⟩ := updateWithNewSourceVertex_le l st.slack e2.2.v_source
      (g.sourceEdges e2.2.v_source)
    have hT0 : st.atree.set_T x.2.v_target = false := by
      by_cases hc : x.2.v_target = t
      · simp [hc] at hT
      · simpa [hc] using hT
    by_cases hsrc : x.2.v_source = e2.2.v_source
    · left
      have := i2 x (mem_sourceEdges.2 ⟨hx, hsrc⟩)
      simp only [VertexLabeling.slackOf] at this
      rw [hsrc]
      exact this
    · simp only [hsrc, if_false] at hS
      rcases h.slack_min x hx hS hT0 with h1 | ⟨y, hy1, hy2, hy3⟩
      · left
        exact le_trans (i1 _) h1
      · right
        refine ⟨y, hy1, ?_, hy3⟩
        by_cases hc : y = t
        · simp [hc]
        · simp [hc, hy2]

/-- Scanning the edges of a source keeps the invariant on the labels. -/
theorem scanSourceEdges_label {g : BipartiteMatchingGraph} {m : Matching}
    (l : VertexLabeling) (s : Nat) :
    ∀ (es : List EdgeRef) (st : Search), LabelInv g m l st →
      st.atree.end_exposed_target_vertex = none →
      (∀ e ∈ es, e.2.v_source = s) →
      LabelInv g m l (scanSourceEdges g m l s es st) := by
  intro es
  induction es with
  | nil =>
    intro st h _ _
    exact h
  | cons e rest ih =>
    intro st h hend hes
    have he := hes e (List.mem_cons_self _ _)
    have hrest : ∀ x ∈ rest, x.2.v_source = s :=
      fun x hx => hes x (List.mem_cons_of_mem _ hx)
    simp only [scanSourceEdges]
    by_cases hc : (!st.atree.isInT e.2.v_target && l.slackOf s e == 0) = true
    · rw [if_pos hc]
      have hT : st.atree.set_T e.2.v_target = false :=
        isInT_false_of_not (Bool.and_eq_true_iff.1 hc).1
      have hz : l.slackOf s e = 0 := by simpa using (Bool.and_eq_true_iff.1 hc).2
      have htight : l.ls e.2.v_source + l.lt e.2.v_target = e.2.score := by
        simp only [VertexLabeling.slackOf] at hz
        rw [he]
        omega
      by_cases hx : (!m.isTarget e.2.v_target) = true
      · rw [if_pos hx]
        exact h.setEnd_label _ hT s e htight _
      · rw [if_neg hx]
        cases hte : m.getEdgeFromTarget e.2.v_target with
        | none =>
          simp only
          exact h.congr_label rfl rfl
        | some e2 =>
          simp only
          apply ih _ (h.addTwo_label hend _ e2 s e htight _)
          · simp only [AlternatingTree.addTwoEdges]
            exact hend
          · exact hrest
    · rw [if_neg hc]
      exact ih _ (h.congr_label rfl rfl) hend hrest

/-- The first search phase keeps the invariant on the labels. -/
theorem phaseA_label {g : BipartiteMatchingGraph} {m : Matching} (l : VertexLabeling) :
    ∀ (fuel : Nat) (st st2 : Search), LabelInv g m l st →
      findAugmentingPathAroundCandidatesSourceVertices g m l fuel st = some st2 →
      LabelInv g m l st2 := by
  intro fuel
  induction fuel with
  | zero =>
    intro st st2 h hr
    simp only [findAugmentingPathAroundCandidatesSourceVertices] at hr
    split at hr
    · cases hr
      exact h
    · split at hr
      · cases hr
        exact h
      · cases hr
  | succ n ih =>
    intro st st2 h hr
    simp only [findAugmentingPathAroundCandidatesSourceVertices] at hr
    split at hr
    · cases hr
      exact h
    · rename_i hstop
      split at hr
      · cases hr
        exact h
      · rename_i s rest hq
        have hend : st.atree.end_exposed_target_vertex = none := by
          simp only [Bool.or_eq_true, not_or, AlternatingTree.isAugmentingPathFound] at hstop
          cases hv : st.atree.end_exposed_target_vertex with
          | none => rfl
          | some v => simp [hv] at hstop
        have h1 : LabelInv g m l { st with queue := rest } := h.congr_label rfl rfl
        exact ih _ _ (scanSourceEdges_label l s (g.sourceEdges s) _ h1 hend
          (fun e he => (mem_sourceEdges.1 he).2)) hr

/-- The second search phase keeps the invariant on the labels. -/
theorem phaseB_label {g : BipartiteMatchingGraph} {m : Matching} (hm : MatchingInv g m)
    (l : VertexLabeling) :
    ∀ (cs : List Nat) (st : Search) (rank : Nat → Nat), SearchInv g m st rank →
      LabelInv g m l st →
      LabelInv g m l (findAugmentingPathFromNewReachableTargetVertices g m l cs st) := by
  intro cs
  induction cs with
  | nil =>
    intro st rank _ h
    exact h
  | cons c rest ih =>
    intro st rank hs h
    simp only [findAugmentingPathFromNewReachableTargetVertices]
    by_cases hstop : (st.fault || st.atree.isAugmentingPathFound) = true
    · rw [if_pos hstop]
      exact h
    · rw [if_neg hstop]
      have hend : st.atree.end_exposed_target_vertex = none := by
        simp only [Bool.or_eq_true, not_or, AlternatingTree.isAugmentingPathFound] at hstop
        cases hv : st.atree.end_exposed_target_vertex with
        | none => rfl
        | some v => simp [hv] at hstop
      by_cases hc : (!st.atree.isInT c && st.slack.min_slack c == 0) = true
      · rw [if_pos hc]
        have hT : st.atree.set_T c = false := isInT_false_of_not (Bool.and_eq_true_iff.1 hc).1
        have hz : st.slack.min_slack c = 0 := by
          simpa using (Bool.and_eq_true_iff.1 hc).2
        cases hsrc : st.slack.source_cid c with
        | none =>
          have := hs.slack.none_src c hsrc
          rw [hz] at this
          exact absurd this (by decide)
        | some s1 =>
          obtain ⟨hS1, e1, he1, hg1, hsrc1, hdst1⟩ := hs.slack.some_src c s1 hsrc
          have htight : l.ls e1.2.v_source + l.lt e1.2.v_target = e1.2.score := by
            have := h.slack_witness c s1 e1 hsrc he1
            rw [hsrc1, hdst1]
            omega
          rw [he1]
          by_cases hx : (!m.isTarget c) = true
          · rw [if_pos hx]
            exact h.setEnd_label c hT s1 e1 htight _
          · rw [if_neg hx]
            obtain ⟨e2, hte2⟩ := hm.matched_of_isTarget hx
            simp only [Matching.getEdgeFromTarget, hte2]
            have hnS := hs.tree.not_S_of_not_T hm c hT e2 hte2
            have hnS2 : (!st.atree.isInS e2.2.v_source) = true := by
              simp [AlternatingTree.isInS, hnS]
            rw [if_pos hnS2]
            exact ih _ _ (hs.addTwo hm hend c hT e2 hte2 s1 hS1 e1 hg1 hsrc1 hdst1 l _)
              (h.addTwo_label hend c e2 s1 e1 htight _)
      · rw [if_neg hc]
        exact ih st rank hs h

end wpm

namespace wpm

/-! ## The label update keeps the invariant on the labels -/

/-- A label update that did not overflow kept the labels of `T` in range. -/
theorem update_lt_in_range (l : VertexLabeling) (n : Nat) (delta : Int) (a : AlternatingTree)
    (h : (l.update n delta a).2 = false) :
    ∀ t, t < n → a.set_T t = true → l.lt t + delta ≤ INT_MAX := by
  intro t ht hT
  simp only [VertexLabeling.update, AlternatingTree.isInT, Bool.or_eq_false_iff] at h
  have h2 := h.2
  by_contra hc
  have hflag := (foldl_range_upd_flag (fun i => a.set_T i) (fun x => x + delta)
    (fun x => !inIntRange (x + delta)) n l.lt false).2
    (Or.inr ⟨t, ht, hT, by
      simp only [inIntRange, Bool.not_eq_true', Bool.and_eq_false_iff, decide_eq_false_iff_not]
      exact Or.inr hc⟩)
  rw [h2] at hflag
  cases hflag

/-- The value of `delta` is not negative. -/
theorem minCostSlack_nonneg {g : BipartiteMatchingGraph} {m : Matching} {l : VertexLabeling}
    {st : Search} {rank : Nat → Nat} (hs : SearchInv g m st rank) (h : LabelInv g m l st) :
    0 ≤ st.slack.minCostSlack st.atree g.ncliques := by
  obtain ⟨_, _, h3⟩ := minCostSlack_spec st.slack st.atree g.ncliques
  rcases h3 with h3 | ⟨t, _, hc, h3⟩
  · rw [h3]
    decide
  · rw [h3]
    simp only [SlackArray.isCandidate, Bool.and_eq_true] at hc
    obtain ⟨s, hsrc⟩ := Option.isSome_iff_exists.1 hc.1
    obtain ⟨_, e, he, hg, hes, het⟩ := hs.slack.some_src t s hsrc
    rw [h.slack_witness t s e hsrc he]
    have := h.ok.feasible e hg
    rw [hes, het] at this
    omega

/-- The sum of the two labels of an edge after the update. -/
theorem update_sum (l : VertexLabeling) (n : Nat) (delta : Int) (a : AlternatingTree)
    (s t : Nat) (hs : s < n) (ht : t < n) :
    (l.update n delta a).1.ls s + (l.update n delta a).1.lt t =
      l.ls s + l.lt t - (if a.set_S s = true then delta else 0) +
        (if a.set_T t = true then delta else 0) := by
  rw [update_ls, update_lt]
  by_cases h1 : a.set_S s = true <;> by_cases h2 : a.set_T t = true <;>
    simp [hs, ht, h1, h2] <;> ring

/-- Lowering the slacks by `delta` and shifting the labels of the tree by
`delta` keeps the invariant on the labels, when the shift did not overflow. -/
theorem LabelInv.update_step {g : BipartiteMatchingGraph} (hg : g.WellFormed) {m : Matching}
    (hm : MatchingInv g m) {l : VertexLabeling} {st : Search} {rank : Nat → Nat}
    (hs : SearchInv g m st rank) (h : LabelInv g m l st)
    (hend : st.atree.end_exposed_target_vertex = none)
    (hov : (l.update g.ncliques (st.slack.minCostSlack st.atree g.ncliques) st.atree).2 = false) :
    LabelInv g m (l.update g.ncliques (st.slack.minCostSlack st.atree g.ncliques) st.atree).1
      { queue := st.queue, atree := st.atree
        slack := (st.slack.simplifyMinCostSlack st.atree g.ncliques).2.1
        overflow := st.overflow, fault := st.fault } := by
  have hd0 := minCostSlack_nonneg hs h
  have hrange := update_lt_in_range l g.ncliques _ st.atree hov
  obtain ⟨hdmax, hdle, _⟩ := minCostSlack_spec st.slack st.atree g.ncliques
  -- delta is at most the slack of every edge from S to a target outside T
  have hdelta : ∀ e ∈ g.edges.enum, st.atree.set_S e.2.v_source = true →
      st.atree.set_T e.2.v_target = false →
      st.slack.minCostSlack st.atree g.ncliques ≤
        l.ls e.2.v_source + l.lt e.2.v_target - e.2.score := by
    intro e he hS hT
    rcases h.slack_min e he hS hT with h1 | ⟨x, hx1, hx2, hx3⟩
    · refine le_trans ?_ h1
      cases hsrc : st.slack.source_cid e.2.v_target with
      | none =>
        rw [hs.slack.none_src _ hsrc]
        exact hdmax
      | some s0 =>
        apply hdle _ (wellFormed_of_mem hg he).2
        simp [SlackArray.isCandidate, hsrc, AlternatingTree.isInT, hT]
    · have := hrange x hx1 hx2
      omega
  exact
  { ok :=
    { feasible := by
        intro e he
        obtain ⟨w1, w2⟩ := wellFormed_of_mem hg he
        rw [update_sum l _ _ _ _ _ w1 w2]
        have hf := h.ok.feasible e he
        by_cases h1 : st.atree.set_S e.2.v_source = true
        · by_cases h2 : st.atree.set_T e.2.v_target = true
          · simp only [h1, h2, if_true]
            omega
          · have h2f : st.atree.set_T e.2.v_target = false := by simpa using h2
            have := hdelta e he h1 h2f
            simp only [h1, h2, if_true, if_false]
            omega
        · by_cases h2 : st.atree.set_T e.2.v_target = true
          · simp only [h1, h2, if_true, if_false]
            omega
          · simp only [h1, h2, if_false]
            omega
      matched_tight := by
        intro s e hse
        obtain ⟨he, hsrc, hte⟩ := hm.src_edge s e hse
        obtain ⟨w1, w2⟩ := wellFormed_of_mem hg he
        rw [update_sum l _ _ _ _ _ w1 w2]
        have ht := h.ok.matched_tight s e hse
        by_cases h2 : st.atree.set_T e.2.v_target = true
        · obtain ⟨_, _, e3, _, _, _, _, _, _, h7, h8, _⟩ := hs.tree.T_inv _ h2
          rw [hte] at h7
          cases h7
          simp only [h8, h2, if_true]
          omega
        · have h2f : st.atree.set_T e.2.v_target = false := by simpa using h2
          have h1 := hs.tree.not_S_of_not_T hm _ h2f e hte
          simp only [h1, h2, if_false, Bool.false_eq_true]
          omega
      lt_nonneg := by
        intro t
        rw [update_lt]
        have := h.ok.lt_nonneg t
        split
        · omega
        · exact this
      ls_le := by
        intro s
        rw [update_ls]
        have := h.ok.ls_le s
        split
        · omega
        · exact this }
    tree_tight := by
      intro t e hc hp
      simp only at hc hp
      rw [hend] at hc
      rcases hc with hc | hc
      · obtain ⟨s0, e0, _, _, h2, h3, h4, h5, h6, _⟩ := hs.tree.T_inv t hc
        rw [hp] at h2
        cases h2
        obtain ⟨w1, w2⟩ := wellFormed_of_mem hg h4
        rw [update_sum l _ _ _ _ _ w1 w2]
        have ht := h.tree_tight t e (Or.inl hc) hp
        rw [h5, h6]
        rw [h5, h6] at ht
        simp only [h3, hc, if_true]
        omega
      · cases hc
    slack_witness := by
      intro t s e hsrc hedge
      simp only [(simplify_source _ _ _).1, (simplify_source _ _ _).2] at hsrc hedge
      obtain ⟨hS, e0, he0, hg0, hes, het⟩ := hs.slack.some_src t s hsrc
      rw [hedge] at he0
      cases he0
      obtain ⟨w1, w2⟩ := wellFormed_of_mem hg hg0
      rw [hes] at w1
      rw [het] at w2
      have hv := h.slack_witness t s e hsrc hedge
      have hsum := update_sum l g.ncliques (st.slack.minCostSlack st.atree g.ncliques)
        st.atree s t w1 w2
      rw [simplify_min_slack]
      by_cases h2 : st.atree.set_T t = true
      · have hnc : ¬ (t < g.ncliques ∧ st.slack.isCandidate st.atree t = true) := by
          simp [SlackArray.isCandidate, AlternatingTree.isInT, h2]
        rw [if_neg hnc]
        simp only [hS, h2, if_true] at hsum
        omega
      · have h2f : st.atree.set_T t = false := by simpa using h2
        have hc : t < g.ncliques ∧ st.slack.isCandidate st.atree t = true := by
          refine ⟨w2, ?_⟩
          simp [SlackArray.isCandidate, AlternatingTree.isInT, h2f, hsrc]
        rw [if_pos hc]
        simp only [hS, h2f, if_true, if_false, Bool.false_eq_true] at hsum
        omega
    root_rec := by
      intro e he hroot
      simp only [(simplify_source _ _ _).1]
      exact h.root_rec e he hroot
    slack_min := by
      intro e he hS hT
      simp only at hS hT ⊢
      obtain ⟨w1, w2⟩ := wellFormed_of_mem hg he
      have hsum := update_sum l g.ncliques (st.slack.minCostSlack st.atree g.ncliques)
        st.atree _ _ w1 w2
      simp only [hS, hT, if_true, if_false, Bool.false_eq_true] at hsum
      rw [simplify_min_slack]
      -- a target of T below N whose label is not negative
      have hx : st.slack.source_cid e.2.v_target = none →
          ∃ x, x < g.ncliques ∧ st.atree.set_T x = true := by
        intro hnone
        by_cases hr : e.2.v_source = st.atree.root_exposed_source_vertex
        · exact absurd hnone (h.root_rec e he hr)
        · obtain ⟨e2, h1, _, _, h4⟩ := hs.tree.S_inv _ hS hr
          obtain ⟨hg2, _, _⟩ := hm.src_edge _ _ h1
          exact ⟨_, (wellFormed_of_mem hg hg2).2, h4⟩
      rcases h.slack_min e he hS hT with h1 | ⟨x, hx1, hx2, hx3⟩
      · cases hsrc : st.slack.source_cid e.2.v_target with
        | none =>
          obtain ⟨x, hx1, hx2⟩ := hx hsrc
          right
          refine ⟨x, hx1, hx2, ?_⟩
          have hltx := update_lt l g.ncliques (st.slack.minCostSlack st.atree g.ncliques)
            st.atree x
          rw [if_pos ⟨hx1, hx2⟩] at hltx
          have hmax := hs.slack.none_src _ hsrc
          have := h.ok.lt_nonneg x
          omega
        | some s0 =>
          left
          have hc : e.2.v_target < g.ncliques ∧
              st.slack.isCandidate st.atree e.2.v_target = true := by
            refine ⟨w2, ?_⟩
            simp [SlackArray.isCandidate, AlternatingTree.isInT, hT, hsrc]
          rw [if_pos hc]
          omega
      · right
        refine ⟨x, hx1, hx2, ?_⟩
        have hltx := update_lt l g.ncliques (st.slack.minCostSlack st.atree g.ncliques)
          st.atree x
        rw [if_pos ⟨hx1, hx2⟩] at hltx
        omega }

end wpm

namespace wpm

/-! ## Optimality of the solver -/

/-- The search loop keeps both invariants: the tree and the labeling it
returns belong to a search state that satisfies them. -/
theorem searchLoop_label {g : BipartiteMatchingGraph} (hg : g.WellFormed) {m : Matching}
    (hm : MatchingInv g m) :
    ∀ (fuel : Nat) (l : VertexLabeling) (st : Search) (rank : Nat → Nat)
      (a : AlternatingTree) (l1 : VertexLabeling), SearchInv g m st rank → LabelInv g m l st →
      searchLoop g m fuel l st = Outcome.done (some a, l1) →
      ∃ st2 rank2, SearchInv g m st2 rank2 ∧ LabelInv g m l1 st2 ∧ st2.atree = a := by
  intro fuel
  induction fuel with
  | zero =>
    intro l st rank a l1 _ _ h
    simp [searchLoop] at h
  | succ n ih =>
    intro l st rank a l1 hst hlb h
    simp only [searchLoop] at h
    have h1 := Search.check_done h
    split at h1
    · simp only [Outcome.done.injEq, Prod.mk.injEq, Option.some.injEq] at h1
      obtain ⟨e1, e2⟩ := h1
      subst e2
      exact ⟨st, rank, hst, hlb, e1⟩
    · split at h1
      · cases h1
      · rename_i st1 hA
        obtain ⟨rank1, hst1⟩ := phaseA_inv hm l n st st1 rank hst hA
        have hlb1 := phaseA_label l n st st1 hlb hA
        have h2 := Search.check_done h1
        split at h2
        · simp only [Outcome.done.injEq, Prod.mk.injEq, Option.some.injEq] at h2
          obtain ⟨e1, e2⟩ := h2
          subst e2
          exact ⟨st1, rank1, hst1, hlb1, e1⟩
        · rename_i hnf
          have hend : st1.atree.end_exposed_target_vertex = none := by
            simp only [AlternatingTree.isAugmentingPathFound] at hnf
            cases hv : st1.atree.end_exposed_target_vertex with
            | none => rfl
            | some v => simp [hv] at hnf
          split at h2
          · cases h2
          · split at h2
            · simp at h2
            · split at h2
              · cases h2
              · rename_i hov
                have hov2 : (l.update g.ncliques
                    (st1.slack.minCostSlack st1.atree g.ncliques) st1.atree).2 = false := by
                  simpa [SlackArray.simplifyMinCostSlack] using hov
                have hB : SearchInv g m
                    { queue := st1.queue, atree := st1.atree,
                      slack := (st1.slack.simplifyMinCostSlack st1.atree g.ncliques).2.1,
                      overflow := st1.overflow, fault := st1.fault } rank1 :=
                  { tree := hst1.tree
                    queue_S := hst1.queue_S
                    slack := simplifyMinCostSlack_refs hst1.slack st1.atree g.ncliques
                    no_fault := hst1.no_fault
                    path_end := hst1.path_end
                    end_not_T := hst1.end_not_T }
                have hLB := LabelInv.update_step hg hm hst1 hlb1 hend hov2
                obtain ⟨rank2, hst2⟩ := phaseB_inv hm
                  (l.update g.ncliques (st1.slack.simplifyMinCostSlack st1.atree g.ncliques).1
                    st1.atree).1 (List.range g.ncliques) _ rank1 hB
                have hlb2 := phaseB_label hm
                  (l.update g.ncliques (st1.slack.simplifyMinCostSlack st1.atree g.ncliques).1
                    st1.atree).1 (List.range g.ncliques) _ rank1 hB hLB
                have h3 := Search.check_done h2
                split at h3
                · simp only [Outcome.done.injEq, Prod.mk.injEq, Option.some.injEq] at h3
                  obtain ⟨e1, e2⟩ := h3
                  subst e2
                  exact ⟨_, rank2, hst2, hlb2, e1⟩
                · exact ih _ _ rank2 a l1 hst2 hlb2 h3

/-- The state in which `augmentMatching` starts the search satisfies the
invariant on the labels. -/
theorem labelInv_init {g : BipartiteMatchingGraph} (hs : g.SimpleEdges) {m : Matching}
    {l : VertexLabeling} (h : LabelOK g m l) (root : Nat) :
    LabelInv g m l
      { queue := [root], atree := AlternatingTree.init root
        slack := (SlackArray.init root (g.sourceEdges root) l).1
        overflow := (SlackArray.init root (g.sourceEdges root) l).2, fault := false } where
  ok := h
  tree_tight := by
    intro t e hc _
    simp [AlternatingTree.init] at hc
  slack_witness := slackArray_init_vals root l _
  root_rec := by
    intro e he hroot
    simp only [AlternatingTree.init] at hroot
    exact slackArray_init_some root l _ e (mem_sourceEdges.2 ⟨he, hroot⟩)
  slack_min := by
    intro e he hS _
    left
    simp only [AlternatingTree.init, upd_apply] at hS
    have hsrc : e.2.v_source = root := by
      by_contra hc
      simp [hc] at hS
    have := slackArray_init_min root l (g.sourceEdges root) (sourceEdges_targets_nodup hs root)
      e (mem_sourceEdges.2 ⟨he, hsrc⟩)
    simp only at this ⊢
    rw [this, hsrc]
    exact le_refl _

/-- One round of augmentation keeps the labeling feasible and the matching
tight. -/
theorem augmentMatching_label {g : BipartiteMatchingGraph} (hg : g.WellFormed)
    (hs : g.SimpleEdges) {m m1 : Matching} (hm : MatchingInv g m) (order : List Nat)
    (fuel : Nat) (l l1 : VertexLabeling) (hl : LabelOK g m l)
    (h : augmentMatching g order fuel m l = Outcome.done (true, m1, l1)) :
    LabelOK g m1 l1 := by
  unfold augmentMatching at h
  split at h
  · simp at h
  · split at h
    · cases h
    · rename_i root hroot
      obtain ⟨_, hexp⟩ := findExposedSourceVertex_exposed hm hroot
      have hinit := searchInv_init hm root hexp l
      have hlinit := labelInv_init hs hl root
      simp only at h
      split at h
      · cases h
      · cases h
      · cases h
      · simp at h
      · rename_i a l2 hsearch
        obtain ⟨st2, rank2, hst2, hlb2, ha⟩ :=
          searchLoop_label hg hm fuel l _ _ a l2 hinit hlinit hsearch
        subst ha
        split at h
        · cases h
        · cases h
        · cases h
        · rename_i m2 happly
          simp only [Outcome.done.injEq, Prod.mk.injEq, true_and] at h
          obtain ⟨h1, h2⟩ := h
          subst h1
          subst h2
          obtain ⟨r1, _, r3⟩ := applyAugmentingPath_spec hm hst2 fuel happly
          exact
          { feasible := hlb2.ok.feasible
            matched_tight := by
              intro s e hse
              have hmem : e ∈ m2.edges := by
                rw [r1.edges_iff e, (r1.src_edge s e hse).2.1]
                exact hse
              rcases r3 e hmem with hold | ⟨t, ht1, ht2⟩
              · exact hlb2.ok.matched_tight _ e ((hm.edges_iff e).1 hold)
              · exact hlb2.tree_tight t e ht2.symm ht1
            lt_nonneg := hlb2.ok.lt_nonneg
            ls_le := hlb2.ok.ls_le }

/-- The rounds of `findPerfectMatching` keep the labeling feasible and the
matching tight. -/
theorem augmentRounds_label {g : BipartiteMatchingGraph} (hg : g.WellFormed)
    (hs : g.SimpleEdges) (orders : Nat → List Nat) (fuel : Nat) :
    ∀ (k i : Nat) (m m1 : Matching) (l : VertexLabeling), MatchingInv g m → LabelOK g m l →
      augmentRounds g orders fuel k i m l = Outcome.done (some m1) →
      ∃ l1, LabelOK g m1 l1 := by
  intro k
  induction k with
  | zero =>
    intro i m m1 l _ hl h
    simp only [augmentRounds, Outcome.done.injEq, Option.some.injEq] at h
    subst h
    exact ⟨l, hl⟩
  | succ k ih =>
    intro i m m1 l hm hl h
    simp only [augmentRounds] at h
    split at h
    · cases h
    · cases h
    · cases h
    · cases h
    · rename_i m2 l2 hround
      obtain ⟨h1, _⟩ := augmentMatching_inv hm (orders i) fuel l l2 hround
      have h2 := augmentMatching_label hg hs hm (orders i) fuel l l2 hl hround
      exact ih (i + 1) m2 m1 l2 h1 h2 h

theorem getVertexMaxEdgeScore_ge (es : List EdgeRef) :
    ∀ e ∈ es, e.2.score ≤ VertexLabeling.getVertexMaxEdgeScore es := by
  unfold VertexLabeling.getVertexMaxEdgeScore
  have key : ∀ (es : List EdgeRef) (init : Int),
      init ≤ es.foldl (fun max_score e => if e.2.score > max_score then e.2.score
        else max_score) init ∧
      ∀ e ∈ es, e.2.score ≤ es.foldl (fun max_score e => if e.2.score > max_score then e.2.score
        else max_score) init := by
    intro es
    induction es with
    | nil =>
      intro init
      exact ⟨le_refl _, fun e he => by cases he⟩
    | cons a rest ih =>
      intro init
      simp only [List.foldl_cons]
      obtain ⟨i1, i2⟩ := ih (if a.2.score > init then a.2.score else init)
      constructor
      · refine le_trans ?_ i1
        split <;> omega
      · intro e he
        rcases List.mem_cons.1 he with he | he
        · subst he
          refine le_trans ?_ i1
          split <;> omega
        · exact i2 e he
  exact (key es INT_MIN).2

/-- The labels set by `_setToTriviallyFeasibleVertexLabeling`. -/
theorem setToTriviallyFeasibleVertexLabeling_spec (g : BipartiteMatchingGraph) (c : Nat) :
    (VertexLabeling.setToTriviallyFeasibleVertexLabeling g).ls c =
        (if c < g.ncliques then VertexLabeling.getVertexMaxEdgeScore (g.sourceEdges c) else 0) ∧
      (VertexLabeling.setToTriviallyFeasibleVertexLabeling g).lt c = 0 := by
  unfold VertexLabeling.setToTriviallyFeasibleVertexLabeling
  induction g.ncliques with
  | zero => simp
  | succ n ih =>
    rw [List.range_succ, List.foldl_append]
    simp only [List.foldl_cons, List.foldl_nil, upd_apply]
    obtain ⟨i1, i2⟩ := ih
    constructor
    · by_cases hc : c = n
      · subst hc
        simp
      · rw [if_neg hc, i1]
        by_cases h1 : c < n
        · have : c < n + 1 := by omega
          simp [h1, this]
        · have : ¬ c < n + 1 := by omega
          simp [h1, this]
    · split
      · rfl
      · exact i2

/-- The initial labeling is feasible. -/
theorem labelOK_init {g : BipartiteMatchingGraph} (hg : g.WellFormed) :
    LabelOK g Matching.empty (VertexLabeling.setToTriviallyFeasibleVertexLabeling g) where
  feasible := by
    intro e he
    obtain ⟨w1, _⟩ := wellFormed_of_mem hg he
    rw [(setToTriviallyFeasibleVertexLabeling_spec g _).1,
      (setToTriviallyFeasibleVertexLabeling_spec g _).2, if_pos w1]
    have := getVertexMaxEdgeScore_ge (g.sourceEdges e.2.v_source) e (mem_sourceEdges.2 ⟨he, rfl⟩)
    omega
  matched_tight := by
    intro s e h
    simp [Matching.empty] at h
  lt_nonneg := by
    intro t
    rw [(setToTriviallyFeasibleVertexLabeling_spec g _).2]
  ls_le := fun _ => le_refl _

theorem perm_range_of_nodup (l : List Nat) (n : Nat) (hnd : l.Nodup) (hlt : ∀ x ∈ l, x < n)
    (hlen : l.length = n) : l.Perm (List.range n) := by
  apply List.Subperm.perm_of_length_le
  · apply List.Nodup.subperm hnd
    intro x hx
    exact List.mem_range.2 (hlt x hx)
  · simp [hlen]

/-- A matching with as many edges as cliques is a perfect matching. -/
theorem MatchingInv.isPerfect {g : BipartiteMatchingGraph} {m : Matching} (h : MatchingInv g m)
    (hg : g.WellFormed) (hlen : m.edges.length = g.ncliques) : IsPerfectMatching g m.edges where
  edges_mem := fun e he => h.mem_edges he
  sources := by
    apply perm_range_of_nodup _ _ h.sources_nodup
    · intro x hx
      obtain ⟨e, he, rfl⟩ := List.mem_map.1 hx
      exact (wellFormed_of_mem hg (h.mem_edges he)).1
    · simpa using hlen
  targets := by
    apply perm_range_of_nodup _ _ h.targets_nodup
    · intro x hx
      obtain ⟨e, he, rfl⟩ := List.mem_map.1 hx
      exact (wellFormed_of_mem hg (h.mem_edges he)).2
    · simpa using hlen

/-- The sum of the labels over the edges of a perfect matching is the sum of
all labels. -/
theorem IsPerfectMatching.label_sum {g : BipartiteMatchingGraph} {P : List EdgeRef}
    (h : IsPerfectMatching g P) (l : VertexLabeling) :
    (P.map (fun e => l.ls e.2.v_source + l.lt e.2.v_target)).sum =
      ((List.range g.ncliques).map l.ls).sum + ((List.range g.ncliques).map l.lt).sum := by
  rw [List.sum_map_add]
  have h1 := (h.sources.map l.ls).sum_eq
  have h2 := (h.targets.map l.lt).sum_eq
  simp only [List.map_map] at h1 h2
  rw [← h1, ← h2]
  rfl

/-- A matching whose edges are tight for a feasible labeling has the largest
total score among the perfect matchings. -/
theorem LabelOK.optimal {g : BipartiteMatchingGraph} {m : Matching} {l : VertexLabeling}
    (h : LabelOK g m l) (hm : MatchingInv g m) (hM : IsPerfectMatching g m.edges)
    (P : List EdgeRef) (hP : IsPerfectMatching g P) : totalScore P ≤ totalScore m.edges := by
  unfold totalScore
  have h1 : (P.map (fun e => e.2.score)).sum ≤
      (P.map (fun e => l.ls e.2.v_source + l.lt e.2.v_target)).sum :=
    List.sum_le_sum (fun e he => h.feasible e (hP.edges_mem e he))
  have h2 : (m.edges.map (fun e => e.2.score)).sum =
      (m.edges.map (fun e => l.ls e.2.v_source + l.lt e.2.v_target)).sum := by
    congr 1
    apply List.map_congr_left
    intro e he
    exact (h.matched_tight _ e ((hm.edges_iff e).1 he)).symm
  rw [h2, hM.label_sum l]
  rw [hP.label_sum l] at h1
  exact h1

end wpm

namespace wpm

/-- What a successful run of `findRandomPerfectMatching` returns: the edge list
of a matching with one edge per clique, tight for a feasible labeling. -/
theorem findRandomPerfectMatching_label {g : BipartiteMatchingGraph} (hg : g.WellFormed)
    (hs : g.SimpleEdges) {orders : Nat → List Nat} {fuel : Nat} {M : List EdgeRef}
    (h : findRandomPerfectMatching g orders fuel = Outcome.done (some M)) :
    ∃ m l, MatchingInv g m ∧ LabelOK g m l ∧ m.edges = M ∧ M.length = g.ncliques := by
  unfold findRandomPerfectMatching at h
  split at h
  · rename_i tmp hr
    split at h
    · cases h
    · simp only [Outcome.done.injEq, Option.some.injEq] at h
      subst h
      unfold findPerfectMatching at hr
      split at hr
      · cases hr
      · cases hr
      · cases hr
      · cases hr
      · rename_i m hrounds
        simp only [Outcome.done.injEq, Option.some.injEq] at hr
        obtain ⟨h1, h2⟩ := augmentRounds_inv orders fuel g.ncliques 0 _ m _
          (matchingInv_empty g) hrounds
        obtain ⟨l1, h3⟩ := augmentRounds_label hg hs orders fuel g.ncliques 0 _ m _
          (matchingInv_empty g) (labelOK_init hg) hrounds
        refine ⟨m, l1, h1, h3, hr, ?_⟩
        rw [← hr, h2]
        simp [Matching.empty]
  · cases h
  · cases h
  · cases h
  · cases h

/-- C1. Optimality: on a graph whose edges join cliques of the graph, with at
most one edge per ordered clique pair, and for every sequence of clique orders
(root picks), when `findRandomPerfectMatching` returns true without an overflow
of an `int` computation, the returned edges are a perfect matching of the graph
and their total score is the maximum over all perfect matchings: no perfect
matching has a larger total score. -/
theorem findRandomPerfectMatching_optimal (g : BipartiteMatchingGraph) (hg : g.WellFormed)
    (hs : g.SimpleEdges) (orders : Nat → List Nat) (fuel : Nat) (M : List EdgeRef)
    (h : findRandomPerfectMatching g orders fuel = Outcome.done (some M)) :
    IsPerfectMatching g M ∧ ∀ P, IsPerfectMatching g P → totalScore P ≤ totalScore M := by
  obtain ⟨m, l, hm, hl, rfl, hlen⟩ := findRandomPerfectMatching_label hg hs h
  have hM := hm.isPerfect hg hlen
  exact ⟨hM, fun P hP => hl.optimal hm hM P hP⟩

/-- Witness of C1 on the graph of the test `FindHighestWeightMatch`: the run
returns the three edges of score -5, and no perfect matching scores more than
-15. -/
theorem findRandomPerfectMatching_optimal_witness :
    highestWeightGraph.WellFormed ∧ highestWeightGraph.SimpleEdges ∧
    findRandomPerfectMatching highestWeightGraph (fun _ => [0, 1, 2]) 10 =
      Outcome.done (some [(0, ⟨-5, 0, 1⟩), (3, ⟨-5, 1, 2⟩), (4, ⟨-5, 2, 0⟩)]) ∧
    totalScore [((0 : Nat), (⟨-5, 0, 1⟩ : BMEdge)), (3, ⟨-5, 1, 2⟩), (4, ⟨-5, 2, 0⟩)] = -15 ∧
    (IsPerfectMatching highestWeightGraph
        [((0 : Nat), (⟨-5, 0, 1⟩ : BMEdge)), (3, ⟨-5, 1, 2⟩), (4, ⟨-5, 2, 0⟩)] ∧
      ∀ P, IsPerfectMatching highestWeightGraph P →
        totalScore P ≤
          totalScore [((0 : Nat), (⟨-5, 0, 1⟩ : BMEdge)), (3, ⟨-5, 1, 2⟩), (4, ⟨-5, 2, 0⟩)]) :=
  ⟨by decide, by decide, by rfl, by decide,
    findRandomPerfectMatching_optimal highestWeightGraph (by decide) (by decide)
      (fun _ => [0, 1, 2]) 10 _ (by rfl)⟩

end wpm

namespace wpm

/-! ## Progress of the search: counting `T` -/

theorem countT_le (a : AlternatingTree) (n : Nat) : countT a n ≤ n := by
  unfold countT
  exact le_trans (List.countP_le_length _) (by simp)

theorem countP_range_upd (f : Nat → Bool) (t : Nat) (hf : f t = false) :
    ∀ n, (List.range n).countP (upd f t true) =
      (List.range n).countP f + if t < n then 1 else 0 := by
  intro n
  induction n with
  | zero => simp
  | succ n ih =>
    rw [List.range_succ, List.countP_append, List.countP_append, ih]
    simp only [List.countP_cons, List.countP_nil, upd_apply, zero_add]
    by_cases h1 : n = t
    · subst h1
      simp [hf]
    · by_cases h2 : t < n
      · have h3 : t < n + 1 := by omega
        simp only [h1, h2, h3, if_true, if_false]
        omega
      · have h3 : ¬ t < n + 1 := by omega
        simp [h1, h2, h3]

theorem countP_range_mono (f f2 : Nat → Bool) (h : ∀ t, f t = true → f2 t = true) (n : Nat) :
    (List.range n).countP f ≤ (List.range n).countP f2 :=
  List.countP_mono_left (fun x _ hx => h x hx)

theorem countT_addTwo (a : AlternatingTree) (n t : Nat) (ht : a.set_T t = false) (hn : t < n)
    (x : Option Nat) (s2 : Nat) (y : Option EdgeRef) (e2 : EdgeRef) :
    countT (a.addTwoEdges x t s2 y e2) n = countT a n + 1 := by
  unfold countT
  simp only [AlternatingTree.addTwoEdges]
  rw [countP_range_upd a.set_T t ht n, if_pos hn]

/-- A target that joined `T` makes the count grow. -/
theorem countT_lt_of_new (a a2 : AlternatingTree) (n t : Nat)
    (hmono : ∀ x, a.set_T x = true → a2.set_T x = true) (ht : a.set_T t = false)
    (ht2 : a2.set_T t = true) (hn : t < n) : countT a n + 1 ≤ countT a2 n := by
  unfold countT
  have h1 := countP_range_upd a.set_T t ht n
  rw [if_pos hn] at h1
  rw [← h1]
  apply countP_range_mono
  intro x hx
  simp only [upd_apply] at hx
  by_cases hc : x = t
  · rw [hc]
    exact ht2
  · simp only [hc, if_false] at hx
    exact hmono x hx

/-! ## Progress of the search: the relation between two states of a round -/

theorem Grows.refl (n : Nat) (st : Search) : Grows n st st where
  root_eq := rfl
  T_mono := fun _ h => h
  count_le := le_refl _
  queue_le := le_refl _

theorem Grows.trans {n : Nat} {st0 st1 st2 : Search} (h1 : Grows n st0 st1)
    (h2 : Grows n st1 st2) : Grows n st0 st2 where
  root_eq := h2.root_eq.trans h1.root_eq
  T_mono := fun t h => h2.T_mono t (h1.T_mono t h)
  count_le := le_trans h1.count_le h2.count_le
  queue_le := by
    have a := h1.queue_le
    have b := h2.queue_le
    omega

theorem Grows.of_eq {n : Nat} {st0 st1 st2 : Search} (h1 : Grows n st0 st1)
    (ha : st2.atree = st1.atree) (hq : st2.queue.length ≤ st1.queue.length) :
    Grows n st0 st2 where
  root_eq := by rw [ha]; exact h1.root_eq
  T_mono := by rw [ha]; exact h1.T_mono
  count_le := by rw [ha]; exact h1.count_le
  queue_le := by
    rw [ha]
    have := h1.queue_le
    omega

theorem grows_setEnd (n : Nat) (st : Search) (x : Option Nat) (t : Nat) (y : Option EdgeRef)
    (sa : SlackArray) (ov f : Bool) :
    Grows n st
      { queue := st.queue, atree := st.atree.setEndExposedTargetVertex x t y, slack := sa
        overflow := ov, fault := f } where
  root_eq := rfl
  T_mono := fun _ h => h
  count_le := le_refl _
  queue_le := le_refl _

theorem grows_addTwo (n : Nat) (st : Search) (t : Nat) (ht : st.atree.set_T t = false)
    (hn : t < n) (x : Option Nat) (s2 : Nat) (y : Option EdgeRef) (e2 : EdgeRef)
    (sa : SlackArray) (ov f : Bool) :
    Grows n st
      { queue := st.queue ++ [s2], atree := st.atree.addTwoEdges x t s2 y e2, slack := sa
        overflow := ov, fault := f } where
  root_eq := rfl
  T_mono := by
    intro t2 h
    simp only [AlternatingTree.addTwoEdges, upd_apply]
    split
    · rfl
    · exact h
  count_le := by
    simp only
    rw [countT_addTwo _ _ _ ht hn]
    omega
  queue_le := by
    simp only
    rw [countT_addTwo _ _ _ ht hn]
    simp only [List.length_append, List.length_singleton]
    omega

/-! ## Progress of the search: what `updateWithNewSourceVertex` changes -/

/-- An entry of the slack array is left alone by `updateWithNewSourceVertex`, or
it is lowered to the slack of one of the new edges and gets the new source as
witness. -/
theorem updateWithNewSourceVertex_cases (l : VertexLabeling) (sa : SlackArray) (c : Nat)
    (es : List EdgeRef) (t : Nat) :
    ((sa.updateWithNewSourceVertex c es l).1.min_slack t = sa.min_slack t ∧
        (sa.updateWithNewSourceVertex c es l).1.source_cid t = sa.source_cid t ∧
        (sa.updateWithNewSourceVertex c es l).1.edge_cid t = sa.edge_cid t) ∨
      ((sa.updateWithNewSourceVertex c es l).1.source_cid t = some c ∧
        (sa.updateWithNewSourceVertex c es l).1.min_slack t < sa.min_slack t ∧
        ∃ e ∈ es, (sa.updateWithNewSourceVertex c es l).1.min_slack t = l.slackOf c e) := by
  unfold SlackArray.updateWithNewSourceVertex
  have key : ∀ (es : List EdgeRef) (acc : SlackArray × Bool),
      ((es.foldl
        (fun (acc : SlackArray × Bool) e =>
          if l.slackOf c e < acc.1.min_slack e.2.v_target then
            ({ min_slack := upd acc.1.min_slack e.2.v_target (l.slackOf c e)
               source_cid := upd acc.1.source_cid e.2.v_target (some c)
               edge_cid := upd acc.1.edge_cid e.2.v_target (some e) },
              acc.2 || l.slackOverflows c e)
          else (acc.1, acc.2 || l.slackOverflows c e)) acc).1.min_slack t =
            acc.1.min_slack t ∧
        (es.foldl
        (fun (acc : SlackArray × Bool) e =>
          if l.slackOf c e < acc.1.min_slack e.2.v_target then
            ({ min_slack := upd acc.1.min_slack e.2.v_target (l.slackOf c e)
               source_cid := upd acc.1.source_cid e.2.v_target (some c)
               edge_cid := upd acc.1.edge_cid e.2.v_target (some e) },
              acc.2 || l.slackOverflows c e)
          else (acc.1, acc.2 || l.slackOverflows c e)) acc).1.source_cid t =
            acc.1.source_cid t ∧
        (es.foldl
        (fun (acc : SlackArray × Bool) e =>
          if l.slackOf c e < acc.1.min_slack e.2.v_target then
            ({ min_slack := upd acc.1.min_slack e.2.v_target (l.slackOf c e)
               source_cid := upd acc.1.source_cid e.2.v_target (some c)
               edge_cid := upd acc.1.edge_cid e.2.v_target (some e) },
              acc.2 || l.slackOverflows c e)
          else (acc.1, acc.2 || l.slackOverflows c e)) acc).1.edge_cid t =
            acc.1.edge_cid t) ∨
      ((es.foldl
        (fun (acc : SlackArray × Bool) e =>
          if l.slackOf c e < acc.1.min_slack e.2.v_target then
            ({ min_slack := upd acc.1.min_slack e.2.v_target (l.slackOf c e)
               source_cid := upd acc.1.source_cid e.2.v_target (some c)
               edge_cid := upd acc.1.edge_cid e.2.v_target (some e) },
              acc.2 || l.slackOverflows c e)
          else (acc.1, acc.2 || l.slackOverflows c e)) acc).1.source_cid t = some c ∧
        (es.foldl
        (fun (acc : SlackArray × Bool) e =>
          if l.slackOf c e < acc.1.min_slack e.2.v_target then
            ({ min_slack := upd acc.1.min_slack e.2.v_target (l.slackOf c e)
               source_cid := upd acc.1.source_cid e.2.v_target (some c)
               edge_cid := upd acc.1.edge_cid e.2.v_target (some e) },
              acc.2 || l.slackOverflows c e)
          else (acc.1, acc.2 || l.slackOverflows c e)) acc).1.min_slack t <
            acc.1.min_slack t ∧
        ∃ e ∈ es, (es.foldl
        (fun (acc : SlackArray × Bool) e =>
          if l.slackOf c e < acc.1.min_slack e.2.v_target then
            ({ min_slack := upd acc.1.min_slack e.2.v_target (l.slackOf c e)
               source_cid := upd acc.1.source_cid e.2.v_target (some c)
               edge_cid := upd acc.1.edge_cid e.2.v_target (some e) },
              acc.2 || l.slackOverflows c e)
          else (acc.1, acc.2 || l.slackOverflows c e)) acc).1.min_slack t =
            l.slackOf c e) := by
    intro es
    induction es with
    | nil =>
      intro acc
      left
      exact ⟨rfl, rfl, rfl⟩
    | cons a rest ih =>
      intro acc
      simp only [List.foldl_cons]
      by_cases hlt : l.slackOf c a < acc.1.min_slack a.2.v_target
      · rw [if_pos hlt]
        rcases ih
          ({ min_slack := upd acc.1.min_slack a.2.v_target (l.slackOf c a)
             source_cid := upd acc.1.source_cid a.2.v_target (some c)
             edge_cid := upd acc.1.edge_cid a.2.v_target (some a) },
            acc.2 || l.slackOverflows c a) with ⟨h1, h2, h3⟩ | ⟨h1, h2, e, he, h3⟩
        · by_cases ht : t = a.2.v_target
          · right
            rw [h1, h2]
            simp only [upd_apply, ht, if_true]
            exact ⟨trivial, hlt, a, List.mem_cons_self _ _, rfl⟩
          · left
            rw [h1, h2, h3]
            simp [upd_apply, ht]
        · right
          refine ⟨h1, lt_of_lt_of_le h2 ?_, e, List.mem_cons_of_mem _ he, h3⟩
          simp only [upd_apply]
          split
          · rename_i ht
            rw [ht]
            exact le_of_lt hlt
          · exact le_refl _
      · rw [if_neg hlt]
        rcases ih (acc.1, acc.2 || l.slackOverflows c a) with ⟨h1, h2, h3⟩ | ⟨h1, h2, e, he, h3⟩
        · left
          exact ⟨h1, h2, h3⟩
        · right
          exact ⟨h1, h2, e, List.mem_cons_of_mem _ he, h3⟩
  exact key es (sa, false)

/-- Under a feasible labeling a slack entry equal to zero stays zero. -/
theorem updateWithNewSourceVertex_zero {g : BipartiteMatchingGraph} {l : VertexLabeling}
    (hf : ∀ e ∈ g.edges.enum, e.2.score ≤ l.ls e.2.v_source + l.lt e.2.v_target)
    (sa : SlackArray) (c : Nat) (t : Nat) (h : sa.min_slack t = 0) :
    (sa.updateWithNewSourceVertex c (g.sourceEdges c) l).1.min_slack t = 0 := by
  rcases updateWithNewSourceVertex_cases l sa c (g.sourceEdges c) t with
    ⟨h1, _, _⟩ | ⟨_, h2, e, he, h3⟩
  · rw [h1, h]
  · exfalso
    obtain ⟨hg, hsrc⟩ := mem_sourceEdges.1 he
    have := hf e hg
    rw [h3, h] at h2
    simp only [VertexLabeling.slackOf] at h2
    rw [hsrc] at this
    omega

theorem sourceEdges_nodup (g : BipartiteMatchingGraph) (c : Nat) : (g.sourceEdges c).Nodup := by
  unfold BipartiteMatchingGraph.sourceEdges
  apply List.Nodup.filter
  have h1 : (g.edges.enum.map Prod.fst).Nodup := by
    rw [List.enum_map_fst]
    exact List.nodup_range _
  exact List.Nodup.of_map _ h1

/-! ## Progress of the search: slack entries that are not zero -/

theorem SlackNonzero.of_end (st : Search) (sel : Nat → EdgeRef → Prop) (t : Nat)
    (h : st.atree.end_exposed_target_vertex = some t) : SlackNonzero st sel := by
  intro hend
  rw [h] at hend
  cases hend

/-- Growing the tree by a matched target `t` and its source keeps the nonzero
slacks: the new source is queued, and `t` is in `T`. -/
theorem SlackNonzero.addTwo_nonzero {st : Search} {sel sel2 : Nat → EdgeRef → Prop}
    (h : SlackNonzero st sel) (hend : st.atree.end_exposed_target_vertex = none)
    (t : Nat) (hsel : ∀ t2 e, t2 ≠ t → sel2 t2 e → sel t2 e)
    (x : Option Nat) (s2 : Nat) (y : Option EdgeRef) (e2 : EdgeRef) (es : List EdgeRef)
    (l : VertexLabeling) (ov f : Bool) :
    SlackNonzero
      { queue := st.queue ++ [s2], atree := st.atree.addTwoEdges x t s2 y e2
        slack := (st.slack.updateWithNewSourceVertex s2 es l).1
        overflow := ov, fault := f } sel2 := by
  intro _ t2 s e hT hsrc hedge hq hs2
  simp only [AlternatingTree.addTwoEdges, upd_apply] at hT hsrc hedge hq ⊢
  have hne : t2 ≠ t := by
    intro hc
    simp [hc] at hT
  simp only [hne, if_false] at hT
  have hs : s ≠ s2 := by
    intro hc
    apply hq
    simp [hc]
  have hq0 : s ∉ st.queue := fun hc => hq (List.mem_append_left _ hc)
  rcases updateWithNewSourceVertex_cases l st.slack s2 es t2 with ⟨h1, h2, h3⟩ | ⟨h1, _, _⟩
  · rw [h1]
    rw [h2] at hsrc
    rw [h3] at hedge
    exact h hend t2 s e hT hsrc hedge hq0 (hsel t2 e hne hs2)
  · rw [h1] at hsrc
    simp only [Option.some.injEq] at hsrc
    exact absurd hsrc.symm hs

end wpm

namespace wpm

/-! ## Progress of the two search phases -/

theorem SlackNonzero.mono_sel {st : Search} {sel sel2 : Nat → EdgeRef → Prop}
    (h : SlackNonzero st sel) (hsel : ∀ t e, sel2 t e → sel t e) : SlackNonzero st sel2 :=
  fun hend t s e hT hsrc hedge hq hs => h hend t s e hT hsrc hedge hq (hsel t e hs)

theorem end_none_of_not_found {a : AlternatingTree} (h : ¬ a.isAugmentingPathFound = true) :
    a.end_exposed_target_vertex = none := by
  simp only [AlternatingTree.isAugmentingPathFound] at h
  cases hv : a.end_exposed_target_vertex with
  | none => rfl
  | some v => simp [hv] at h

/-- Scanning the edges of a source: the tree grows, and afterwards no scanned
edge is the witness of a zero slack of a target outside `T`. -/
theorem scanSourceEdges_prog {g : BipartiteMatchingGraph} (hg : g.WellFormed) {m : Matching}
    (hm : MatchingInv g m) (l : VertexLabeling) (s : Nat) :
    ∀ (es : List EdgeRef) (st : Search) (rank : Nat → Nat), SearchInv g m st rank →
      LabelInv g m l st → st.atree.end_exposed_target_vertex = none →
      st.atree.set_S s = true → (∀ e ∈ es, e ∈ g.edges.enum ∧ e.2.v_source = s) → es.Nodup →
      SlackNonzero st (fun t e => e.2.v_target = t → e ∉ es) →
      Grows g.ncliques st (scanSourceEdges g m l s es st) ∧
        SlackNonzero (scanSourceEdges g m l s es st) (fun _ _ => True) := by
  intro es
  induction es with
  | nil =>
    intro st rank _ _ _ _ _ _ hnz
    exact ⟨Grows.refl _ _, hnz.mono_sel (fun _ _ _ _ => by simp)⟩
  | cons e rest ih =>
    intro st rank h hlb hend hs hes hnd hnz
    obtain ⟨he1, he2⟩ := hes e (List.mem_cons_self _ _)
    have hrest : ∀ x ∈ rest, x ∈ g.edges.enum ∧ x.2.v_source = s :=
      fun x hx => hes x (List.mem_cons_of_mem _ hx)
    obtain ⟨hnot, hnd2⟩ := List.nodup_cons.1 hnd
    simp only [scanSourceEdges]
    by_cases hc : (!st.atree.isInT e.2.v_target && l.slackOf s e == 0) = true
    · rw [if_pos hc]
      have hT : st.atree.set_T e.2.v_target = false :=
        isInT_false_of_not (Bool.and_eq_true_iff.1 hc).1
      have hz : l.slackOf s e = 0 := by simpa using (Bool.and_eq_true_iff.1 hc).2
      have htight : l.ls e.2.v_source + l.lt e.2.v_target = e.2.score := by
        simp only [VertexLabeling.slackOf] at hz
        rw [he2]
        omega
      by_cases hx : (!m.isTarget e.2.v_target) = true
      · rw [if_pos hx]
        exact ⟨grows_setEnd _ st _ _ _ _ _ _, SlackNonzero.of_end _ _ e.2.v_target rfl⟩
      · rw [if_neg hx]
        obtain ⟨e2, hte2⟩ := hm.matched_of_isTarget hx
        simp only [Matching.getEdgeFromTarget, hte2]
        have h2 := h.addTwo hm hend _ hT e2 hte2 s hs e he1 he2 rfl l
          (st.overflow || l.slackOverflows s e ||
            (st.slack.updateWithNewSourceVertex e2.2.v_source (g.sourceEdges e2.2.v_source) l).2)
        have hlb2 := hlb.addTwo_label hend e.2.v_target e2 s e htight
          (st.overflow || l.slackOverflows s e ||
            (st.slack.updateWithNewSourceVertex e2.2.v_source (g.sourceEdges e2.2.v_source) l).2)
        have hnz2 := hnz.addTwo_nonzero hend e.2.v_target
          (fun t2 (e3 : EdgeRef) (hne : t2 ≠ e.2.v_target)
            (h3 : e3.2.v_target = t2 → e3 ∉ rest) (hd : e3.2.v_target = t2) => by
              intro hmem
              rcases List.mem_cons.1 hmem with hmem | hmem
              · rw [hmem] at hd
                exact hne hd.symm
              · exact h3 hd hmem)
          (some s) e2.2.v_source (some e) e2 (g.sourceEdges e2.2.v_source) l
          (st.overflow || l.slackOverflows s e ||
            (st.slack.updateWithNewSourceVertex e2.2.v_source (g.sourceEdges e2.2.v_source) l).2)
          st.fault
        have hS2 : (st.atree.addTwoEdges (some s) e.2.v_target e2.2.v_source (some e)
            e2).set_S s = true := by
          simp only [AlternatingTree.addTwoEdges, upd_apply]
          by_cases hc2 : s = e2.2.v_source
          · simp [hc2]
          · simp [hc2, hs]
        obtain ⟨i1, i2⟩ := ih _ _ h2 hlb2 (by simpa [AlternatingTree.addTwoEdges] using hend)
          hS2 hrest hnd2 hnz2
        refine ⟨Grows.trans ?_ i1, i2⟩
        exact grows_addTwo _ st _ hT (wellFormed_of_mem hg he1).2 _ _ _ _ _ _ _
    · rw [if_neg hc]
      have hnz2 : SlackNonzero { st with overflow := st.overflow || l.slackOverflows s e }
          (fun t e3 => e3.2.v_target = t → e3 ∉ rest) := by
        intro hend0 t s0 e3 hT hsrc hedge hq hsel
        obtain ⟨_, e4, h4, _, h4s, h4t⟩ := h.slack.some_src t s0 hsrc
        simp only at hedge hsrc hT hq ⊢
        rw [hedge] at h4
        cases h4
        by_cases hee : e3 = e
        · subst hee
          rw [hlb.slack_witness t s0 e3 hsrc hedge]
          intro hzero
          apply hc
          rw [he2] at h4s
          subst h4s
          subst h4t
          simp [AlternatingTree.isInT, hT, VertexLabeling.slackOf, hzero]
        · apply hnz hend0 t s0 e3 hT hsrc hedge hq
          intro _ hmem
          rcases List.mem_cons.1 hmem with hmem | hmem
          · exact hee hmem
          · exact hsel h4t hmem
      obtain ⟨i1, i2⟩ := ih { st with overflow := st.overflow || l.slackOverflows s e } rank
        (h.congr rfl rfl rfl rfl) (hlb.congr_label rfl rfl) hend hs hrest hnd2 hnz2
      exact ⟨⟨i1.root_eq, i1.T_mono, i1.count_le, i1.queue_le⟩, i2⟩

/-- The first search phase returns when it has as much fuel as sources in the
queue plus targets outside `T`; it stops with a path end or an empty queue. -/
theorem phaseA_prog {g : BipartiteMatchingGraph} (hg : g.WellFormed) {m : Matching}
    (hm : MatchingInv g m) (l : VertexLabeling) :
    ∀ (fuel : Nat) (st : Search) (rank : Nat → Nat), SearchInv g m st rank →
      LabelInv g m l st → SlackNonzero st (fun _ _ => True) →
      st.queue.length + (g.ncliques - countT st.atree g.ncliques) ≤ fuel →
      ∃ st2, findAugmentingPathAroundCandidatesSourceVertices g m l fuel st = some st2 ∧
        Grows g.ncliques st st2 ∧ SlackNonzero st2 (fun _ _ => True) ∧
        (st2.atree.end_exposed_target_vertex ≠ none ∨ st2.queue = []) := by
  intro fuel
  induction fuel with
  | zero =>
    intro st rank h _ hnz hfuel
    have hq : st.queue = [] := by
      apply List.eq_nil_of_length_eq_zero
      omega
    refine ⟨st, ?_, Grows.refl _ _, hnz, Or.inr hq⟩
    simp only [findAugmentingPathAroundCandidatesSourceVertices, hq]
    split <;> rfl
  | succ n ih =>
    intro st rank h hlb hnz hfuel
    simp only [findAugmentingPathAroundCandidatesSourceVertices]
    by_cases hstop : (st.fault || st.atree.isAugmentingPathFound) = true
    · rw [if_pos hstop]
      refine ⟨st, rfl, Grows.refl _ _, hnz, Or.inl ?_⟩
      rw [h.no_fault] at hstop
      simp only [Bool.false_or, AlternatingTree.isAugmentingPathFound] at hstop
      intro hc
      rw [hc] at hstop
      cases hstop
    · rw [if_neg hstop]
      have hend : st.atree.end_exposed_target_vertex = none := by
        apply end_none_of_not_found
        intro hc
        apply hstop
        simp [hc]
      cases hq : st.queue with
      | nil => exact ⟨st, rfl, Grows.refl _ _, hnz, Or.inr hq⟩
      | cons s rest =>
        simp only
        have hs : st.atree.set_S s = true := h.queue_S s (by rw [hq]; exact List.mem_cons_self _ _)
        have h1 : SearchInv g m { st with queue := rest } rank :=
          { tree := h.tree
            queue_S := fun x hx => h.queue_S x (by rw [hq]; exact List.mem_cons_of_mem _ hx)
            slack := h.slack
            no_fault := h.no_fault
            path_end := h.path_end
            end_not_T := h.end_not_T }
        have hlb1 : LabelInv g m l { st with queue := rest } := hlb.congr_label rfl rfl
        have hnz1 : SlackNonzero { st with queue := rest }
            (fun t e => e.2.v_target = t → e ∉ g.sourceEdges s) := by
          intro hend0 t s0 e3 hT hsrc hedge hq0 hsel
          obtain ⟨_, e4, h4, h4g, h4s, h4t⟩ := h.slack.some_src t s0 hsrc
          simp only at hedge hsrc hT hq0 ⊢
          rw [hedge] at h4
          cases h4
          apply hnz hend0 t s0 e3 hT hsrc hedge _ trivial
          rw [hq]
          intro hmem
          rcases List.mem_cons.1 hmem with hmem | hmem
          · apply hsel h4t
            rw [← hmem, ← h4s]
            exact mem_sourceEdges.2 ⟨h4g, rfl⟩
          · exact hq0 hmem
        have hes : ∀ e ∈ g.sourceEdges s, e ∈ g.edges.enum ∧ e.2.v_source = s :=
          fun e he => mem_sourceEdges.1 he
        obtain ⟨i1, i2⟩ := scanSourceEdges_prog hg hm l s (g.sourceEdges s) _ rank h1 hlb1 hend
          hs hes (sourceEdges_nodup g s) hnz1
        obtain ⟨rank2, h2⟩ := scanSourceEdges_inv hm l s (g.sourceEdges s) _ rank h1 hend hs hes
        have hlb2 := scanSourceEdges_label l s (g.sourceEdges s) _ hlb1 hend
          (fun e he => (hes e he).2)
        have hfuel2 : (scanSourceEdges g m l s (g.sourceEdges s)
              { st with queue := rest }).queue.length +
            (g.ncliques - countT (scanSourceEdges g m l s (g.sourceEdges s)
              { st with queue := rest }).atree g.ncliques) ≤ n := by
          have a1 := i1.queue_le
          have a2 := i1.count_le
          have a3 := countT_le (scanSourceEdges g m l s (g.sourceEdges s)
              { st with queue := rest }).atree g.ncliques
          simp only at a1 a2
          rw [hq] at hfuel
          simp only [List.length_cons] at hfuel
          omega
        obtain ⟨st2, j1, j2, j3, j4⟩ := ih _ rank2 h2 hlb2 i2 hfuel2
        refine ⟨st2, j1, Grows.trans ?_ j2, j3, j4⟩
        refine ⟨i1.root_eq, i1.T_mono, i1.count_le, ?_⟩
        have a1 := i1.queue_le
        simp only at a1
        rw [hq]
        simp only [List.length_cons]
        omega

/-- The second search phase: the tree grows, every target visited outside `T`
keeps a slack different from zero, and a target with slack zero ends in `T`
unless the path end was recorded. -/
theorem phaseB_prog {g : BipartiteMatchingGraph} (hg : g.WellFormed) {m : Matching}
    (hm : MatchingInv g m) (l : VertexLabeling) :
    ∀ (cs visited : List Nat) (st : Search) (rank : Nat → Nat), SearchInv g m st rank →
      LabelInv g m l st → SlackNonzero st (fun t _ => t ∈ visited) →
      Grows g.ncliques st (findAugmentingPathFromNewReachableTargetVertices g m l cs st) ∧
        SlackNonzero (findAugmentingPathFromNewReachableTargetVertices g m l cs st)
          (fun t _ => t ∈ visited ++ cs) ∧
        ∀ t0 ∈ cs, st.slack.min_slack t0 = 0 →
          (findAugmentingPathFromNewReachableTargetVertices g m l cs
              st).atree.end_exposed_target_vertex ≠ none ∨
            (findAugmentingPathFromNewReachableTargetVertices g m l cs st).atree.set_T t0 =
              true := by
  intro cs
  induction cs with
  | nil =>
    intro visited st rank _ _ hnz
    exact ⟨Grows.refl _ _, hnz.mono_sel (fun t _ ht => by simpa using ht),
      fun t0 ht0 => by cases ht0⟩
  | cons c rest ih =>
    intro visited st rank hs h hnz
    simp only [findAugmentingPathFromNewReachableTargetVertices]
    by_cases hstop : (st.fault || st.atree.isAugmentingPathFound) = true
    · rw [if_pos hstop]
      have hfound : st.atree.end_exposed_target_vertex ≠ none := by
        rw [hs.no_fault] at hstop
        simp only [Bool.false_or, AlternatingTree.isAugmentingPathFound] at hstop
        intro hc
        rw [hc] at hstop
        cases hstop
      exact ⟨Grows.refl _ _, fun hend => absurd hend hfound, fun _ _ _ => Or.inl hfound⟩
    · rw [if_neg hstop]
      have hend : st.atree.end_exposed_target_vertex = none := by
        apply end_none_of_not_found
        intro hc
        apply hstop
        simp [hc]
      by_cases hc : (!st.atree.isInT c && st.slack.min_slack c == 0) = true
      · rw [if_pos hc]
        have hT : st.atree.set_T c = false := isInT_false_of_not (Bool.and_eq_true_iff.1 hc).1
        have hz : st.slack.min_slack c = 0 := by
          simpa using (Bool.and_eq_true_iff.1 hc).2
        cases hsrc : st.slack.source_cid c with
        | none =>
          have := hs.slack.none_src c hsrc
          rw [hz] at this
          exact absurd this (by decide)
        | some s1 =>
          obtain ⟨hS1, e1, he1, hg1, hsrc1, hdst1⟩ := hs.slack.some_src c s1 hsrc
          have htight : l.ls e1.2.v_source + l.lt e1.2.v_target = e1.2.score := by
            have := h.slack_witness c s1 e1 hsrc he1
            rw [hsrc1, hdst1]
            omega
          rw [he1]
          by_cases hx : (!m.isTarget c) = true
          · rw [if_pos hx]
            exact ⟨grows_setEnd _ st _ _ _ _ _ _, SlackNonzero.of_end _ _ c rfl,
              fun _ _ _ => Or.inl (by simp [AlternatingTree.setEndExposedTargetVertex])⟩
          · rw [if_neg hx]
            obtain ⟨e2, hte2⟩ := hm.matched_of_isTarget hx
            simp only [Matching.getEdgeFromTarget, hte2]
            have hnS := hs.tree.not_S_of_not_T hm c hT e2 hte2
            have hnS2 : (!st.atree.isInS e2.2.v_source) = true := by
              simp [AlternatingTree.isInS, hnS]
            rw [if_pos hnS2]
            have hs2 := hs.addTwo hm hend c hT e2 hte2 s1 hS1 e1 hg1 hsrc1 hdst1 l
              (st.overflow ||
                (st.slack.updateWithNewSourceVertex e2.2.v_source
                  (g.sourceEdges e2.2.v_source) l).2)
            have hlb2 := h.addTwo_label hend c e2 s1 e1 htight
              (st.overflow ||
                (st.slack.updateWithNewSourceVertex e2.2.v_source
                  (g.sourceEdges e2.2.v_source) l).2)
            have hnz2 := hnz.addTwo_nonzero hend c
              (fun t2 (_ : EdgeRef) (hne : t2 ≠ c) (h3 : t2 ∈ visited ++ [c]) => by
                rcases List.mem_append.1 h3 with h3 | h3
                · exact h3
                · exact absurd (List.mem_singleton.1 h3) hne)
              (some s1) e2.2.v_source (some e1) e2 (g.sourceEdges e2.2.v_source) l
              (st.overflow ||
                (st.slack.updateWithNewSourceVertex e2.2.v_source
                  (g.sourceEdges e2.2.v_source) l).2)
              st.fault
            obtain ⟨i1, i2, i3⟩ := ih (visited ++ [c]) _ _ hs2 hlb2 hnz2
            have hcn : c < g.ncliques := by
              rw [← hdst1]
              exact (wellFormed_of_mem hg hg1).2
            have hgr := grows_addTwo g.ncliques st c hT hcn (some s1) e2.2.v_source (some e1) e2
              (st.slack.updateWithNewSourceVertex e2.2.v_source
                  (g.sourceEdges e2.2.v_source) l).1
              (st.overflow ||
                (st.slack.updateWithNewSourceVertex e2.2.v_source
                  (g.sourceEdges e2.2.v_source) l).2)
              st.fault
            refine ⟨Grows.trans hgr i1, i2.mono_sel (fun t _ ht => by simpa using ht), ?_⟩
            intro t0 ht0 hz0
            rcases List.mem_cons.1 ht0 with ht0 | ht0
            · right
              apply i1.T_mono
              simp [AlternatingTree.addTwoEdges, upd_apply, ht0]
            · apply i3 t0 ht0
              exact updateWithNewSourceVertex_zero h.ok.feasible st.slack _ t0 hz0
      · rw [if_neg hc]
        have hnz2 : SlackNonzero st (fun t _ => t ∈ visited ++ [c]) := by
          intro hend0 t s0 e3 hT hsrc hedge hq hsel
          rcases List.mem_append.1 hsel with hsel | hsel
          · exact hnz hend0 t s0 e3 hT hsrc hedge hq hsel
          · rw [List.mem_singleton.1 hsel] at hT ⊢
            intro hzero
            apply hc
            simp [AlternatingTree.isInT, hT, hzero]
        obtain ⟨i1, i2, i3⟩ := ih (visited ++ [c]) st rank hs h hnz2
        refine ⟨i1, i2.mono_sel (fun t _ ht => by simpa using ht), ?_⟩
        intro t0 ht0 hz0
        rcases List.mem_cons.1 ht0 with ht0 | ht0
        · right
          apply i1.T_mono
          rw [ht0]
          rw [ht0] at hz0
          by_contra hTc
          apply hc
          simp [AlternatingTree.isInT, hTc, hz0]
        · exact i3 t0 ht0 hz0

end wpm

namespace wpm

/-! ## The search loop returns -/

theorem Search.check_overflow {α : Type} {st : Search} (k : Outcome α) (hf : st.fault = false)
    (ho : st.overflow = true) : st.check k = Outcome.overflow := by
  simp [Search.check, hf, ho]

theorem Search.check_pass {α : Type} {st : Search} (k : Outcome α) (hf : st.fault = false)
    (ho : ¬ st.overflow = true) : st.check k = k := by
  simp [Search.check, hf, ho]

/-- A label update that did not overflow kept the labels of `S` in range. -/
theorem update_ls_in_range (l : VertexLabeling) (n : Nat) (delta : Int) (a : AlternatingTree)
    (h : (l.update n delta a).2 = false) :
    ∀ s, s < n → a.set_S s = true → INT_MIN ≤ l.ls s - delta := by
  intro s hs hS
  simp only [VertexLabeling.update, AlternatingTree.isInS, Bool.or_eq_false_iff] at h
  have h1 := h.1
  by_contra hc
  have hflag := (foldl_range_upd_flag (fun i => a.set_S i) (fun x => x - delta)
    (fun x => !inIntRange (x - delta)) n l.ls false).2
    (Or.inr ⟨s, hs, hS, by
      simp only [inIntRange, Bool.not_eq_true', Bool.and_eq_false_iff, decide_eq_false_iff_not]
      exact Or.inl hc⟩)
  rw [h1] at hflag
  cases hflag

/-- The value of `delta` is not zero once the first phase has emptied the
queue without finding a path. -/
theorem minCostSlack_ne_zero {g : BipartiteMatchingGraph} {m : Matching} {st : Search}
    {rank : Nat → Nat} (hs : SearchInv g m st rank) (hnz : SlackNonzero st (fun _ _ => True))
    (hend : st.atree.end_exposed_target_vertex = none) (hq : st.queue = []) :
    st.slack.minCostSlack st.atree g.ncliques ≠ 0 := by
  obtain ⟨_, _, h3⟩ := minCostSlack_spec st.slack st.atree g.ncliques
  rcases h3 with h3 | ⟨t, _, hc, h3⟩
  · rw [h3]
    decide
  · rw [h3]
    simp only [SlackArray.isCandidate, Bool.and_eq_true] at hc
    obtain ⟨s, hsrc⟩ := Option.isSome_iff_exists.1 hc.1
    obtain ⟨_, e, he, _, _, _⟩ := hs.slack.some_src t s hsrc
    have hT : st.atree.set_T t = false := isInT_false_of_not hc.2
    exact hnz hend t s e hT hsrc he (by rw [hq]; simp) trivial

/-- The search loop returns: with `k` repetitions left by the potential and
fuel for them and for the first phase, the loop ends with an overflow or with
the tree of an augmenting path. It never reports that `delta` is zero. -/
theorem searchLoop_total {g : BipartiteMatchingGraph} (hg : g.WellFormed) {m : Matching}
    (hm : MatchingInv g m) :
    ∀ (k fuel : Nat) (l : VertexLabeling) (st : Search) (rank : Nat → Nat),
      SearchInv g m st rank → LabelInv g m l st → SlackNonzero st (fun _ _ => True) →
      st.atree.root_exposed_source_vertex < g.ncliques →
      st.queue.length ≤ countT st.atree g.ncliques + 1 →
      1 ≤ k → potential g st l < (k : Int) * INT_MAX → k + g.ncliques + 1 ≤ fuel →
      searchLoop g m fuel l st = Outcome.overflow ∨
        ∃ a l1, searchLoop g m fuel l st = Outcome.done (some a, l1) := by
  intro k
  induction k with
  | zero =>
    intro fuel l st rank _ _ _ _ _ hk _ _
    omega
  | succ k ih =>
    intro fuel l st rank hs hlb hnz hroot hqb _ hpot hfuel
    obtain ⟨f, rfl⟩ : ∃ f, fuel = f + 1 := ⟨fuel - 1, by omega⟩
    simp only [searchLoop]
    by_cases hov : st.overflow = true
    · left
      exact Search.check_overflow _ hs.no_fault hov
    rw [Search.check_pass _ hs.no_fault hov]
    by_cases hfound : st.atree.isAugmentingPathFound = true
    · right
      rw [if_pos hfound]
      exact ⟨_, _, rfl⟩
    rw [if_neg hfound]
    have hcT := countT_le st.atree g.ncliques
    obtain ⟨st1, hA, hgr1, hnz1, hstop1⟩ := phaseA_prog hg hm l f st rank hs hlb hnz (by omega)
    obtain ⟨rank1, hs1⟩ := phaseA_inv hm l f st st1 rank hs hA
    have hlb1 := phaseA_label l f st st1 hlb hA
    simp only [hA]
    by_cases hov1 : st1.overflow = true
    · left
      exact Search.check_overflow _ hs1.no_fault hov1
    rw [Search.check_pass _ hs1.no_fault hov1]
    by_cases hfound1 : st1.atree.isAugmentingPathFound = true
    · right
      rw [if_pos hfound1]
      exact ⟨_, _, rfl⟩
    rw [if_neg hfound1]
    have hend1 := end_none_of_not_found hfound1
    have hq1 : st1.queue = [] := by
      rcases hstop1 with h | h
      · exact absurd hend1 h
      · exact h
    by_cases hso : (st1.slack.simplifyMinCostSlack st1.atree g.ncliques).2.2 = true
    · left
      rw [if_pos hso]
    rw [if_neg hso]
    have hdne := minCostSlack_ne_zero hs1 hnz1 hend1 hq1
    have hd0 := minCostSlack_nonneg hs1 hlb1
    have hdz : ¬ ((st1.slack.simplifyMinCostSlack st1.atree g.ncliques).1 == 0) = true := by
      simpa [SlackArray.simplifyMinCostSlack] using hdne
    rw [if_neg hdz]
    by_cases hlo : (l.update g.ncliques (st1.slack.simplifyMinCostSlack st1.atree g.ncliques).1
        st1.atree).2 = true
    · left
      rw [if_pos hlo]
    rw [if_neg hlo]
    have hlo2 : (l.update g.ncliques (st1.slack.minCostSlack st1.atree g.ncliques)
        st1.atree).2 = false := by
      simpa [SlackArray.simplifyMinCostSlack] using hlo
    have hB : SearchInv g m
        { queue := st1.queue, atree := st1.atree,
          slack := (st1.slack.simplifyMinCostSlack st1.atree g.ncliques).2.1,
          overflow := st1.overflow, fault := st1.fault } rank1 :=
      { tree := hs1.tree
        queue_S := hs1.queue_S
        slack := simplifyMinCostSlack_refs hs1.slack st1.atree g.ncliques
        no_fault := hs1.no_fault
        path_end := hs1.path_end
        end_not_T := hs1.end_not_T }
    have hLB := LabelInv.update_step hg hm hs1 hlb1 hend1 hlo2
    have hnzB : SlackNonzero
        { queue := st1.queue, atree := st1.atree,
          slack := (st1.slack.simplifyMinCostSlack st1.atree g.ncliques).2.1,
          overflow := st1.overflow, fault := st1.fault } (fun t _ => t ∈ ([] : List Nat)) :=
      fun _ _ _ _ _ _ _ _ hsel => by cases hsel
    obtain ⟨j1, j2, j3⟩ := phaseB_prog hg hm
      (l.update g.ncliques (st1.slack.simplifyMinCostSlack st1.atree g.ncliques).1 st1.atree).1
      (List.range g.ncliques) [] _ rank1 hB hLB hnzB
    obtain ⟨rank2, hs2⟩ := phaseB_inv hm
      (l.update g.ncliques (st1.slack.simplifyMinCostSlack st1.atree g.ncliques).1 st1.atree).1
      (List.range g.ncliques) _ rank1 hB
    have hlb2 := phaseB_label hm
      (l.update g.ncliques (st1.slack.simplifyMinCostSlack st1.atree g.ncliques).1 st1.atree).1
      (List.range g.ncliques) _ rank1 hB hLB
    by_cases hov2 : (findAugmentingPathFromNewReachableTargetVertices g m
        (l.update g.ncliques (st1.slack.simplifyMinCostSlack st1.atree g.ncliques).1 st1.atree).1
        (List.range g.ncliques)
        { queue := st1.queue, atree := st1.atree,
          slack := (st1.slack.simplifyMinCostSlack st1.atree g.ncliques).2.1,
          overflow := st1.overflow, fault := st1.fault }).overflow = true
    · left
      exact Search.check_overflow _ hs2.no_fault hov2
    rw [Search.check_pass _ hs2.no_fault hov2]
    by_cases hfound2 : (findAugmentingPathFromNewReachableTargetVertices g m
        (l.update g.ncliques (st1.slack.simplifyMinCostSlack st1.atree g.ncliques).1 st1.atree).1
        (List.range g.ncliques)
        { queue := st1.queue, atree := st1.atree,
          slack := (st1.slack.simplifyMinCostSlack st1.atree g.ncliques).2.1,
          overflow := st1.overflow, fault := st1.fault }).atree.isAugmentingPathFound = true
    · right
      rw [if_pos hfound2]
      exact ⟨_, _, rfl⟩
    rw [if_neg hfound2]
    have hend2 := end_none_of_not_found hfound2
    -- the facts about the state after the second phase
    have hroot1 : st1.atree.root_exposed_source_vertex = st.atree.root_exposed_source_vertex :=
      hgr1.root_eq
    have hroot2 := j1.root_eq
    have hc1 := hgr1.count_le
    have hc2 := j1.count_le
    have hq1le := hgr1.queue_le
    have hq2le := j1.queue_le
    have hcT2 := countT_le (findAugmentingPathFromNewReachableTargetVertices g m
        (l.update g.ncliques (st1.slack.simplifyMinCostSlack st1.atree g.ncliques).1 st1.atree).1
        (List.range g.ncliques)
        { queue := st1.queue, atree := st1.atree,
          slack := (st1.slack.simplifyMinCostSlack st1.atree g.ncliques).2.1,
          overflow := st1.overflow, fault := st1.fault }).atree g.ncliques
    simp only at hroot2 hc2 hq2le
    have hS1 : st1.atree.set_S st.atree.root_exposed_source_vertex = true := by
      rw [← hroot1]
      exact hs1.tree.root_S
    have hls : (l.update g.ncliques (st1.slack.simplifyMinCostSlack st1.atree g.ncliques).1
        st1.atree).1.ls st.atree.root_exposed_source_vertex =
        l.ls st.atree.root_exposed_source_vertex -
          st1.slack.minCostSlack st1.atree g.ncliques := by
      rw [update_ls, if_pos ⟨hroot, hS1⟩]
      rfl
    have hge := update_ls_in_range l g.ncliques _ st1.atree hlo2 _ hroot hS1
    have hcase : st1.slack.minCostSlack st1.atree g.ncliques = INT_MAX ∨
        countT st1.atree g.ncliques + 1 ≤
          countT (findAugmentingPathFromNewReachableTargetVertices g m
            (l.update g.ncliques (st1.slack.simplifyMinCostSlack st1.atree g.ncliques).1
              st1.atree).1
            (List.range g.ncliques)
            { queue := st1.queue, atree := st1.atree,
              slack := (st1.slack.simplifyMinCostSlack st1.atree g.ncliques).2.1,
              overflow := st1.overflow, fault := st1.fault }).atree g.ncliques := by
      obtain ⟨_, _, h3⟩ := minCostSlack_spec st1.slack st1.atree g.ncliques
      rcases h3 with h3 | ⟨t0, ht0, hcand, h3⟩
      · exact Or.inl h3
      · right
        have hT0 : st1.atree.set_T t0 = false := by
          simp only [SlackArray.isCandidate, Bool.and_eq_true] at hcand
          exact isInT_false_of_not hcand.2
        have hzero : (st1.slack.simplifyMinCostSlack st1.atree g.ncliques).2.1.min_slack t0 =
            0 := by
          rw [simplify_min_slack, if_pos ⟨ht0, hcand⟩, h3]
          omega
        rcases j3 t0 (List.mem_range.2 ht0) hzero with h4 | h4
        · exact absurd hend2 h4
        · exact countT_lt_of_new st1.atree _ g.ncliques t0 j1.T_mono hT0 h4 ht0
    have hnz2 : SlackNonzero (findAugmentingPathFromNewReachableTargetVertices g m
        (l.update g.ncliques (st1.slack.simplifyMinCostSlack st1.atree g.ncliques).1 st1.atree).1
        (List.range g.ncliques)
        { queue := st1.queue, atree := st1.atree,
          slack := (st1.slack.simplifyMinCostSlack st1.atree g.ncliques).2.1,
          overflow := st1.overflow, fault := st1.fault }) (fun _ _ => True) := by
      intro hend0 t s0 e3 hT hsrc hedge hq _
      obtain ⟨_, e4, h4, h4g, _, h4t⟩ := hs2.slack.some_src t s0 hsrc
      apply j2 hend0 t s0 e3 hT hsrc hedge hq
      simp only [List.nil_append, List.mem_range]
      rw [← h4t]
      exact (wellFormed_of_mem hg h4g).2
    have hpot2 : potential g (findAugmentingPathFromNewReachableTargetVertices g m
        (l.update g.ncliques (st1.slack.simplifyMinCostSlack st1.atree g.ncliques).1 st1.atree).1
        (List.range g.ncliques)
        { queue := st1.queue, atree := st1.atree,
          slack := (st1.slack.simplifyMinCostSlack st1.atree g.ncliques).2.1,
          overflow := st1.overflow, fault := st1.fault })
        (l.update g.ncliques (st1.slack.simplifyMinCostSlack st1.atree g.ncliques).1
          st1.atree).1 < (k : Int) * INT_MAX ∧ 1 ≤ k := by
      unfold potential at hpot ⊢
      rw [hroot2, hroot1, hls]
      simp only [INT_MAX, INT_MIN] at hpot hge hcase hd0 ⊢
      push_cast at hpot
      rcases hcase with hcase | hcase
      · constructor <;> omega
      · constructor <;> omega
    apply ih f _ _ rank2 hs2 hlb2 hnz2
    · rw [hroot2, hroot1]
      exact hroot
    · omega
    · exact hpot2.2
    · exact hpot2.1
    · omega

end wpm

namespace wpm

/-! ## The rounds return -/

/-- The loop of `applyAugmentingPath` returns: along the back-pointers the rank
of the sources decreases, so the walk visits each source of `S` at most once. -/
theorem collectPath_total {g : BipartiteMatchingGraph} (hg : g.WellFormed) {m : Matching}
    (hm : MatchingInv g m) {a : AlternatingTree} {rank : Nat → Nat} (ht : TreeInv g m a rank) :
    ∀ (n t : Nat) (accA : List EdgeRef) (accR : List (Option EdgeRef)) (s : Nat) (e : EdgeRef),
      a.target_prev t = some s → a.target_prev_edge t = some e → a.set_S s = true →
      (List.range g.ncliques).countP (fun x => a.set_S x && decide (rank x < rank s)) ≤ n →
      ∀ fuel, n + 1 ≤ fuel → ∃ r, a.collectPath fuel t accA accR = Outcome.done r := by
  intro n
  induction n with
  | zero =>
    intro t accA accR s e hp he hS hcount fuel hfuel
    obtain ⟨f, rfl⟩ : ∃ f, fuel = f + 1 := ⟨fuel - 1, by omega⟩
    unfold AlternatingTree.collectPath
    simp only [hp, he]
    cases hsp : a.source_prev s with
    | none => exact ⟨_, rfl⟩
    | some t2 =>
      exfalso
      have hne : s ≠ a.root_exposed_source_vertex := by
        intro hc
        rw [hc, ht.root_prev] at hsp
        cases hsp
      obtain ⟨e2, h1, h2, _, h4⟩ := ht.S_inv s hS hne
      obtain ⟨s0, e0, e3, _, _, k3, k4, k5, _, k7, _, k9⟩ := ht.T_inv _ h4
      obtain ⟨_, m2, m3⟩ := hm.src_edge s e2 h1
      rw [m3] at k7
      cases k7
      rw [m2] at k9
      have hlt := (wellFormed_of_mem hg k4).1
      rw [k5] at hlt
      have hpos : 0 < (List.range g.ncliques).countP
          (fun x => a.set_S x && decide (rank x < rank s)) := by
        apply List.countP_pos_iff.2
        exact ⟨s0, List.mem_range.2 hlt, by simp [k3, k9]⟩
      omega
  | succ n ih =>
    intro t accA accR s e hp he hS hcount fuel hfuel
    obtain ⟨f, rfl⟩ : ∃ f, fuel = f + 1 := ⟨fuel - 1, by omega⟩
    unfold AlternatingTree.collectPath
    simp only [hp, he]
    cases hsp : a.source_prev s with
    | none => exact ⟨_, rfl⟩
    | some t2 =>
      simp only
      have hne : s ≠ a.root_exposed_source_vertex := by
        intro hc
        rw [hc, ht.root_prev] at hsp
        cases hsp
      obtain ⟨e2, h1, h2, _, h4⟩ := ht.S_inv s hS hne
      rw [hsp] at h2
      cases h2
      obtain ⟨s0, e0, e3, k1, k2, k3, k4, k5, _, k7, _, k9⟩ := ht.T_inv _ h4
      obtain ⟨_, m2, m3⟩ := hm.src_edge s e2 h1
      rw [m3] at k7
      cases k7
      rw [m2] at k9
      have hlt := (wellFormed_of_mem hg k4).1
      rw [k5] at hlt
      apply ih _ _ _ s0 e0 k1 k2 k3 _ f (by omega)
      -- the sources of smaller rank than `s0` are fewer than those of smaller rank than `s`
      have hf : (fun x => a.set_S x && decide (rank x < rank s0)) s0 = false := by simp
      have h5 := countP_range_upd (fun x => a.set_S x && decide (rank x < rank s0)) s0 hf
        g.ncliques
      rw [if_pos hlt] at h5
      have h6 := countP_range_mono
        (upd (fun x => a.set_S x && decide (rank x < rank s0)) s0 true)
        (fun x => a.set_S x && decide (rank x < rank s))
        (by
          intro x hx
          simp only [upd_apply] at hx
          by_cases hc : x = s0
          · rw [hc]
            simp [k3, k9]
          · simp only [hc, if_false, Bool.and_eq_true, decide_eq_true_eq] at hx
            simp only [Bool.and_eq_true, decide_eq_true_eq]
            exact ⟨hx.1, lt_trans hx.2 k9⟩)
        g.ncliques
      omega

/-- Applying the augmenting path returns when the fuel exceeds the number of
cliques. -/
theorem applyAugmentingPath_total {g : BipartiteMatchingGraph} (hg : g.WellFormed)
    {m : Matching} (hm : MatchingInv g m) {st : Search} {rank : Nat → Nat}
    (hst : SearchInv g m st rank) (hfound : st.atree.isAugmentingPathFound = true)
    (fuel : Nat) (hfuel : g.ncliques + 1 ≤ fuel) :
    ∃ m1, st.atree.applyAugmentingPath fuel m = Outcome.done m1 := by
  unfold AlternatingTree.applyAugmentingPath
  cases hend : st.atree.end_exposed_target_vertex with
  | none => simp [AlternatingTree.isAugmentingPathFound, hend] at hfound
  | some t =>
    obtain ⟨_, s, e, h1, h2, h3, _, _, _⟩ := hst.path_end t hend
    have hcount : (List.range g.ncliques).countP
        (fun x => st.atree.set_S x && decide (rank x < rank s)) ≤ g.ncliques :=
      le_trans (List.countP_le_length _) (by simp)
    obtain ⟨r, hr⟩ := collectPath_total hg hm hst.tree g.ncliques t [] [] s e h1 h2 h3 hcount
      fuel hfuel
    simp only [hr]
    exact ⟨_, rfl⟩

/-- The tree returned by the search loop holds a path end. -/
theorem searchLoop_found {g : BipartiteMatchingGraph} {m : Matching} :
    ∀ (fuel : Nat) (l : VertexLabeling) (st : Search) (a : AlternatingTree)
      (l1 : VertexLabeling), searchLoop g m fuel l st = Outcome.done (some a, l1) →
      a.isAugmentingPathFound = true := by
  intro fuel
  induction fuel with
  | zero =>
    intro l st a l1 h
    simp [searchLoop] at h
  | succ n ih =>
    intro l st a l1 h
    simp only [searchLoop] at h
    have h1 := Search.check_done h
    split at h1
    · rename_i hf
      simp only [Outcome.done.injEq, Prod.mk.injEq, Option.some.injEq] at h1
      rw [← h1.1]
      exact hf
    · split at h1
      · cases h1
      · have h2 := Search.check_done h1
        split at h2
        · rename_i hf
          simp only [Outcome.done.injEq, Prod.mk.injEq, Option.some.injEq] at h2
          rw [← h2.1]
          exact hf
        · split at h2
          · cases h2
          · split at h2
            · simp at h2
            · split at h2
              · cases h2
              · have h3 := Search.check_done h2
                split at h3
                · rename_i hf
                  simp only [Outcome.done.injEq, Prod.mk.injEq, Option.some.injEq] at h3
                  rw [← h3.1]
                  exact hf
                · exact ih _ _ a l1 h3

theorem getVertexMaxEdgeScore_le (es : List EdgeRef) (h : ∀ e ∈ es, e.2.score ≤ INT_MAX) :
    VertexLabeling.getVertexMaxEdgeScore es ≤ INT_MAX := by
  unfold VertexLabeling.getVertexMaxEdgeScore
  have key : ∀ (es : List EdgeRef) (init : Int), init ≤ INT_MAX →
      (∀ e ∈ es, e.2.score ≤ INT_MAX) →
      es.foldl (fun max_score e => if e.2.score > max_score then e.2.score
        else max_score) init ≤ INT_MAX := by
    intro es
    induction es with
    | nil =>
      intro init hi _
      exact hi
    | cons a rest ih =>
      intro init hi hes
      simp only [List.foldl_cons]
      apply ih
      · split
        · exact hes a (List.mem_cons_self _ _)
        · exact hi
      · exact fun e he => hes e (List.mem_cons_of_mem _ he)
  exact key es INT_MIN (by decide) h

/-- With scores that fit an `int`, no initial source label exceeds `INT_MAX`. -/
theorem initial_ls_le {g : BipartiteMatchingGraph} (hr : g.ScoresInRange) (c : Nat) :
    (VertexLabeling.setToTriviallyFeasibleVertexLabeling g).ls c ≤ INT_MAX := by
  rw [(setToTriviallyFeasibleVertexLabeling_spec g c).1]
  split
  · apply getVertexMaxEdgeScore_le
    intro e he
    obtain ⟨hmem, _⟩ := mem_sourceEdges.1 he
    obtain ⟨i, x⟩ := e
    have hx := List.mk_mem_enum_iff_getElem?.1 hmem
    have := hr x (List.getElem?_mem hx)
    simp only [inIntRange, Bool.and_eq_true, decide_eq_true_eq] at this
    exact this.2
  · decide

/-- A matching with fewer edges than cliques leaves a source exposed, and
`findExposedSourceVertex` finds one in a clique order that lists every clique. -/
theorem findExposedSourceVertex_some {g : BipartiteMatchingGraph} (_hg : g.WellFormed)
    {m : Matching} (hm : MatchingInv g m) (hlen : m.edges.length < g.ncliques)
    (order : List Nat) (ho : order.Perm (List.range g.ncliques)) :
    ∃ root, findExposedSourceVertex order m = some root := by
  cases hf : findExposedSourceVertex order m with
  | some root => exact ⟨root, rfl⟩
  | none =>
    exfalso
    unfold findExposedSourceVertex at hf
    rw [List.find?_eq_none] at hf
    have hsub : List.range g.ncliques ⊆ m.edges.map (fun e => e.2.v_source) := by
      intro c hc
      have hco : c ∈ order := ho.mem_iff.2 hc
      have h1 := hf c hco
      have h2 : m.isSource c = true := by
        cases hb : m.isSource c with
        | true => rfl
        | false => simp [hb] at h1
      obtain ⟨e, he⟩ := (hm.isSource_iff c).1 h2
      obtain ⟨_, hsrc, _⟩ := hm.src_edge c e he
      apply List.mem_map.2
      refine ⟨e, (hm.edges_iff e).2 ?_, hsrc⟩
      rw [hsrc]
      exact he
    have h3 := (List.Nodup.subperm (List.nodup_range g.ncliques) hsub).length_le
    simp only [List.length_range, List.length_map] at h3
    omega

end wpm

namespace wpm

/-! ## Completeness of the solver -/

/-- The state in which `augmentMatching` starts the search has no slack witness
outside the queue. -/
theorem slackNonzero_init {g : BipartiteMatchingGraph} {m : Matching} (hm : MatchingInv g m)
    (root : Nat) (hroot : m.source_edges root = none) (l : VertexLabeling) :
    SlackNonzero
      { queue := [root], atree := AlternatingTree.init root
        slack := (SlackArray.init root (g.sourceEdges root) l).1
        overflow := (SlackArray.init root (g.sourceEdges root) l).2, fault := false }
      (fun _ _ => True) := by
  intro _ t s e _ hsrc _ hq _
  exfalso
  obtain ⟨hS, _⟩ := (searchInv_init hm root hroot l).slack.some_src t s hsrc
  simp only [AlternatingTree.init, upd_apply] at hS
  apply hq
  by_cases hc : s = root
  · simp [hc]
  · simp [hc] at hS

/-- One round on a matching that is not perfect yet returns: it ends with an
overflow or with an augmented matching. It never returns false. -/
theorem augmentMatching_total {g : BipartiteMatchingGraph} (hg : g.WellFormed)
    (hs : g.SimpleEdges) (hr : g.ScoresInRange) {m : Matching} (hm : MatchingInv g m)
    {l : VertexLabeling} (hl : LabelOK g m l) (hlen : m.edges.length < g.ncliques)
    (order : List Nat) (ho : order.Perm (List.range g.ncliques)) (fuel : Nat)
    (hfuel : 2 * g.ncliques + 4 ≤ fuel) :
    augmentMatching g order fuel m l = Outcome.overflow ∨
      ∃ m1 l1, augmentMatching g order fuel m l = Outcome.done (true, m1, l1) := by
  unfold augmentMatching
  have hne : ¬ m.getNumberEdges = g.ncliques := by
    simp only [Matching.getNumberEdges]
    omega
  rw [if_neg hne]
  obtain ⟨root, hroot⟩ := findExposedSourceVertex_some hg hm hlen order ho
  obtain ⟨hmem, hexp⟩ := findExposedSourceVertex_exposed hm hroot
  have hrootN : root < g.ncliques := List.mem_range.1 (ho.mem_iff.1 hmem)
  simp only [hroot]
  have hinit := searchInv_init hm root hexp l
  have hlinit := labelInv_init hs hl root
  have hnz := slackNonzero_init hm root hexp l
  have hpot : potential g
      { queue := [root], atree := AlternatingTree.init root
        slack := (SlackArray.init root (g.sourceEdges root) l).1
        overflow := (SlackArray.init root (g.sourceEdges root) l).2, fault := false } l <
      ((g.ncliques + 3 : Nat) : Int) * INT_MAX := by
    unfold potential
    have h1 := le_trans (hl.ls_le root) (initial_ls_le hr root)
    have h2 : ((g.ncliques - countT (AlternatingTree.init root) g.ncliques : Nat) : Int) ≤
        (g.ncliques : Int) := by
      exact_mod_cast Nat.sub_le _ _
    simp only [AlternatingTree.init, INT_MAX, INT_MIN] at h1 h2 ⊢
    push_cast
    omega
  rcases searchLoop_total hg hm (g.ncliques + 3) fuel l _ _ hinit hlinit hnz hrootN
    (by simp) (by omega) hpot (by omega) with hsl | ⟨a, l1, hsl⟩
  · left
    rw [hsl]
  · right
    rw [hsl]
    simp only
    obtain ⟨st2, rank2, hst2, ha⟩ := searchLoop_inv hm fuel l _ _ a l1 hinit hsl
    have hfound := searchLoop_found fuel l _ a l1 hsl
    subst ha
    obtain ⟨m1, hm1⟩ := applyAugmentingPath_total hg hm hst2 hfound fuel (by omega)
    rw [hm1]
    exact ⟨m1, l1, rfl⟩

/-- The rounds of `findPerfectMatching` return: with one round left per clique
that is not matched yet, they end with an overflow or with a matching. -/
theorem augmentRounds_total {g : BipartiteMatchingGraph} (hg : g.WellFormed)
    (hs : g.SimpleEdges) (hr : g.ScoresInRange) (orders : Nat → List Nat)
    (ho : ∀ i, (orders i).Perm (List.range g.ncliques)) (fuel : Nat)
    (hfuel : 2 * g.ncliques + 4 ≤ fuel) :
    ∀ (k i : Nat) (m : Matching) (l : VertexLabeling), MatchingInv g m → LabelOK g m l →
      m.edges.length + k = g.ncliques →
      augmentRounds g orders fuel k i m l = Outcome.overflow ∨
        ∃ m1, augmentRounds g orders fuel k i m l = Outcome.done (some m1) := by
  intro k
  induction k with
  | zero =>
    intro i m l _ _ _
    exact Or.inr ⟨m, rfl⟩
  | succ k ih =>
    intro i m l hm hl hlen
    simp only [augmentRounds]
    rcases augmentMatching_total hg hs hr hm hl (by omega) (orders i) (ho i) fuel hfuel with
      h | ⟨m1, l1, h⟩
    · left
      rw [h]
    · obtain ⟨h1, h2⟩ := augmentMatching_inv hm (orders i) fuel l l1 h
      have h3 := augmentMatching_label hg hs hm (orders i) fuel l l1 hl h
      rw [h]
      exact ih (i + 1) m1 l1 h1 h3 (by omega)

/-- The solver returns on every graph: an overflow, or true with a matching. -/
theorem findRandomPerfectMatching_total {g : BipartiteMatchingGraph} (hg : g.WellFormed)
    (hs : g.SimpleEdges) (hr : g.ScoresInRange) (orders : Nat → List Nat)
    (ho : ∀ i, (orders i).Perm (List.range g.ncliques)) (fuel : Nat)
    (hfuel : 2 * g.ncliques + 4 ≤ fuel) :
    findRandomPerfectMatching g orders fuel = Outcome.overflow ∨
      ∃ M, findRandomPerfectMatching g orders fuel = Outcome.done (some M) := by
  rcases augmentRounds_total hg hs hr orders ho fuel hfuel g.ncliques 0 Matching.empty
    (VertexLabeling.setToTriviallyFeasibleVertexLabeling g) (matchingInv_empty g)
    (labelOK_init hg) (by simp [Matching.empty]) with h | ⟨m1, h⟩
  · left
    simp [findRandomPerfectMatching, findPerfectMatching, h]
  · right
    obtain ⟨_, h2⟩ := augmentRounds_inv orders fuel g.ncliques 0 _ m1 _ (matchingInv_empty g) h
    have hlen : ¬ m1.edges.length < g.ncliques := by
      rw [h2]
      simp [Matching.empty]
    exact ⟨m1.edges, by simp [findRandomPerfectMatching, findPerfectMatching, h, hlen]⟩

/-- On a graph with a perfect matching and scores that fit an `int`, whether
the run overflows depends on the root picks: `updateWithNewSourceVertex` does
not record an edge whose slack is exactly `INT_MAX`, so with the roots 0, 1, 2
the target 1 never gets a witness, `delta` stays `INT_MAX` and the second label
update overflows; with the roots 1, 0, 2 the run returns the perfect matching. -/
theorem unrecorded_slack_overflow :
    unrecordedSlackGraph.WellFormed ∧ unrecordedSlackGraph.SimpleEdges ∧
    unrecordedSlackGraph.ScoresInRange ∧
    findRandomPerfectMatching unrecordedSlackGraph (fun _ => [0, 1, 2]) 20 = Outcome.overflow ∧
    findRandomPerfectMatching unrecordedSlackGraph (fun _ => [1, 0, 2]) 20 =
      Outcome.done (some [(2, ⟨0, 1, 2⟩), (1, ⟨-2147483647, 0, 1⟩), (3, ⟨0, 2, 0⟩)]) :=
  ⟨by decide, by decide, by decide, by rfl, by rfl⟩

end wpm

namespace wpm

/-! ## The evolution rule: what a vertex stores afterwards -/

/-- The threshold of the avoid-deterministic rule is below the vertex count. -/
theorem threshold_lt (N : Nat) (h : 1 ≤ N) : ((N * 2) % (UINT_MAX + 1)) / 3 < N := by
  unfold UINT_MAX
  omega

theorem threshold_lt_max (N : Nat) : ((N * 2) % (UINT_MAX + 1)) / 3 < UINT_MAX := by
  unfold UINT_MAX
  omega

/-- The list of a vertex after its visit is the list after decay and reset, or
that list without its edges of cost at most the threshold. -/
theorem vertexEvolve_constraints (N : Nat) (matching : List Nat) (avoid : Bool) (v : NMVertex) :
    (vertexEvolve N matching avoid v).constraints =
        evolveSpec N v.id (matching.getD v.id 0) v.constraints ∨
      (vertexEvolve N matching avoid v).constraints =
        (evolveSpec N v.id (matching.getD v.id 0) v.constraints).filter
          (fun e => decide (((N * 2) % (UINT_MAX + 1)) / 3 < e.cost)) := by
  have hf := vertexEvolve_false N matching v
  have hf2 : (vertexEvolve N matching false v).constraints =
      evolveSpec N v.id (matching.getD v.id 0) v.constraints := by rw [hf]
  rw [← hf2]
  cases avoid with
  | false => exact Or.inl rfl
  | true =>
    unfold vertexEvolve
    simp only [Bool.true_and, Bool.false_and, Bool.false_eq_true, if_false]
    split
    · right
      rw [eraseCheapConstraints_eq_filter]
    · left
      rfl

theorem mem_decaySpec {L : List NMEdge} {e : NMEdge} (h : e ∈ decaySpec L) :
    (e.cost = UINT_MAX ∧ e ∈ L) ∨
      ∃ e0 ∈ L, 1 < e0.cost ∧ e0.cost ≠ UINT_MAX ∧ e.cost = e0.cost - 1 ∧
        e.v_target = e0.v_target ∧ e.v_source = e0.v_source := by
  unfold decaySpec at h
  obtain ⟨e0, h0, rfl⟩ := List.mem_map.1 h
  obtain ⟨hmem, hc⟩ := List.mem_filter.1 h0
  simp only [decide_eq_true_eq] at hc
  by_cases hinf : e0.cost = UINT_MAX
  · left
    simp [hinf, hmem]
  · right
    exact ⟨e0, hmem, hc, hinf, by simp [hinf], by simp [hinf], by simp [hinf]⟩

theorem mem_resetFirstSpec {target N : Nat} {L : List NMEdge} {e : NMEdge}
    (h : e ∈ resetFirstSpec target N L) : e.cost = N ∨ e ∈ L := by
  induction L with
  | nil => simp [resetFirstSpec] at h
  | cons a rest ih =>
    unfold resetFirstSpec at h
    split at h
    · rcases List.mem_cons.1 h with h | h
      · left
        rw [h]
      · right
        exact List.mem_cons_of_mem _ h
    · rcases List.mem_cons.1 h with h | h
      · right
        rw [h]
        exact List.mem_cons_self _ _
      · rcases ih h with h | h
        · exact Or.inl h
        · exact Or.inr (List.mem_cons_of_mem _ h)

theorem mem_evolveSpec {N i target : Nat} {L : List NMEdge} {e : NMEdge}
    (h : e ∈ evolveSpec N i target L) : e.cost = N ∨ e ∈ decaySpec L := by
  unfold evolveSpec at h
  split at h
  · exact mem_resetFirstSpec h
  · rcases List.mem_append.1 h with h | h
    · exact Or.inr h
    · left
      simp only [List.mem_singleton] at h
      rw [h]

/-- An edge stored after the visit of a vertex is the reset edge of cost `N`, an
edge of infinite cost stored before, or an edge stored before whose finite cost
was above 1 and is now one less. -/
theorem mem_vertexEvolve {N : Nat} {matching : List Nat} {avoid : Bool} {v : NMVertex}
    {e : NMEdge} (h : e ∈ (vertexEvolve N matching avoid v).constraints) :
    e.cost = N ∨ (e.cost = UINT_MAX ∧ e ∈ v.constraints) ∨
      ∃ e0 ∈ v.constraints, 1 < e0.cost ∧ e0.cost ≠ UINT_MAX ∧ e.cost = e0.cost - 1 := by
  have h2 : e ∈ evolveSpec N v.id (matching.getD v.id 0) v.constraints := by
    rcases vertexEvolve_constraints N matching avoid v with hc | hc
    · rw [hc] at h
      exact h
    · rw [hc] at h
      exact (List.mem_filter.1 h).1
  rcases mem_evolveSpec h2 with h3 | h3
  · exact Or.inl h3
  · rcases mem_decaySpec h3 with h4 | ⟨e0, h5, h6, h7, h8, _, _⟩
    · exact Or.inr (Or.inl h4)
    · exact Or.inr (Or.inr ⟨e0, h5, h6, h7, h8⟩)

theorem resetFirstSpec_has {target N : Nat} {L : List NMEdge}
    (h : L.any (fun e => decide (e.v_target = target)) = true) :
    ∃ e ∈ resetFirstSpec target N L, e.v_target = target ∧ e.cost = N := by
  induction L with
  | nil => simp at h
  | cons a rest ih =>
    unfold resetFirstSpec
    by_cases ht : a.v_target = target
    · rw [if_pos ht]
      exact ⟨{ a with cost := N }, List.mem_cons_self _ _, ht, rfl⟩
    · rw [if_neg ht]
      simp only [List.any_cons, ht, decide_False, Bool.false_or] at h
      obtain ⟨e, he, h1, h2⟩ := ih h
      exact ⟨e, List.mem_cons_of_mem _ he, h1, h2⟩

/-- After decay and reset the list holds an edge to the matched vertex with
cost `N`. -/
theorem evolveSpec_has (N i target : Nat) (L : List NMEdge) :
    ∃ e ∈ evolveSpec N i target L, e.v_target = target ∧ e.cost = N := by
  unfold evolveSpec
  split
  · rename_i h
    exact resetFirstSpec_has h
  · exact ⟨⟨i, target, N⟩, by simp, rfl, rfl⟩

/-- The visit of a vertex leaves an edge to the matched vertex with cost `N`;
the avoid-deterministic rule does not erase it. -/
theorem vertexEvolve_has (N : Nat) (hN : 1 ≤ N) (matching : List Nat) (avoid : Bool)
    (v : NMVertex) :
    ∃ e ∈ (vertexEvolve N matching avoid v).constraints,
      e.v_target = matching.getD v.id 0 ∧ e.cost = N := by
  obtain ⟨e, he, h1, h2⟩ := evolveSpec_has N v.id (matching.getD v.id 0) v.constraints
  rcases vertexEvolve_constraints N matching avoid v with hc | hc
  · rw [hc]
    exact ⟨e, he, h1, h2⟩
  · rw [hc]
    refine ⟨e, List.mem_filter.2 ⟨he, ?_⟩, h1, h2⟩
    simp only [decide_eq_true_eq, h2]
    exact threshold_lt N hN

/-- The vertices after `updateConstraints`, position by position. -/
theorem updateConstraints_getElem? (g : NonMatchingGraph) (matching : List Nat) (avoid : Bool)
    (hid : g.IdsArePositions) (i : Nat) :
    (g.updateConstraints matching avoid).vertices[i]? =
      (g.vertices[i]?).map (vertexEvolve g.vertices.length matching avoid) := by
  rw [updateConstraints_eq_map g matching avoid (idsArePositions_getElem? g hid)]
  simp

end wpm

namespace wpm

/-! ## Claims on what the evolution rule stores -/

/-- C11. Just-used pairs stay penalised: for both values of
`avoid_deterministic`, after `updateConstraints` on a graph with `N` vertices
every vertex `i` stores an edge to `matching[i]` whose cost is exactly `N`; the
avoid-deterministic erasure does not remove it. (The hypothesis that the
matching uses no infinite-cost pair is not needed.) -/
theorem updateConstraints_keeps_matched (g : NonMatchingGraph) (matching : List Nat)
    (avoid : Bool) (hid : g.IdsArePositions) (i : Nat) (hi : i < g.vertices.length) :
    ∃ v, (g.updateConstraints matching avoid).vertices[i]? = some v ∧ v.id = i ∧
      ∃ e ∈ v.constraints, e.v_target = matching.getD i 0 ∧ e.cost = g.vertices.length ∧
        1 ≤ e.cost := by
  have hv : g.vertices[i]? = some g.vertices[i] := List.getElem?_eq_getElem hi
  have hidv := idsArePositions_getElem? g hid i _ hv
  refine ⟨vertexEvolve g.vertices.length matching avoid g.vertices[i], ?_, ?_, ?_⟩
  · rw [updateConstraints_getElem? g matching avoid hid i, hv]
    rfl
  · rw [vertexEvolve_id]
    exact hidv
  · obtain ⟨e, he, h1, h2⟩ := vertexEvolve_has g.vertices.length (by omega) matching avoid
      g.vertices[i]
    rw [hidv] at h1
    exact ⟨e, he, h1, h2, by omega⟩

/-- Witness of C11: on the example, vertex 1 matched to vertex 0 with the
avoid-deterministic rule. -/
theorem updateConstraints_keeps_matched_witness :
    evolveExample.IdsArePositions ∧ 1 < evolveExample.vertices.length ∧
    ∃ v, (evolveExample.updateConstraints [2, 0, 1] true).vertices[1]? = some v ∧ v.id = 1 ∧
      ∃ e ∈ v.constraints, e.v_target = [2, 0, 1].getD 1 0 ∧
        e.cost = evolveExample.vertices.length ∧ 1 ≤ e.cost :=
  ⟨by decide, by decide,
    updateConstraints_keeps_matched evolveExample [2, 0, 1] true (by decide) 1 (by decide)⟩

theorem infiniteEdges_decaySpec (L : List NMEdge) (h : ∀ e ∈ L, e.cost ≤ UINT_MAX) :
    infiniteEdges (decaySpec L) = infiniteEdges L := by
  rw [← decrementCosts_eq_decaySpec]
  induction L with
  | nil => rfl
  | cons a rest ih =>
    have ih2 := ih (fun e he => h e (List.mem_cons_of_mem _ he))
    have ha := h a (List.mem_cons_self _ _)
    unfold NonMatchingGraph.decrementCosts
    by_cases h1 : a.cost ≤ 1
    · have h2 : a.cost ≠ UINT_MAX := by
        unfold UINT_MAX
        omega
      rw [if_pos h1, ih2]
      simp [infiniteEdges, List.filter_cons, h2]
    · rw [if_neg h1]
      by_cases h2 : a.cost = UINT_MAX
      · have h3 : ¬ a.cost ≠ UINT_MAX := by simpa using h2
        rw [if_neg h3]
        unfold infiniteEdges at ih2 ⊢
        rw [List.filter_cons, List.filter_cons, ih2]
      · rw [if_pos h2]
        have h3 : a.cost - 1 ≠ UINT_MAX := by omega
        unfold infiniteEdges at ih2 ⊢
        rw [List.filter_cons, List.filter_cons, ih2]
        simp [h2, h3]

theorem infiniteEdges_resetFirstSpec (target N : Nat) (hN : N ≠ UINT_MAX) (L : List NMEdge)
    (h : ∀ e ∈ L, e.v_target = target → e.cost ≠ UINT_MAX) :
    infiniteEdges (resetFirstSpec target N L) = infiniteEdges L := by
  induction L with
  | nil => rfl
  | cons a rest ih =>
    unfold resetFirstSpec
    by_cases ht : a.v_target = target
    · have ha := h a (List.mem_cons_self _ _) ht
      rw [if_pos ht]
      simp [infiniteEdges, List.filter_cons, hN, ha]
    · rw [if_neg ht]
      have ih2 := ih (fun e he => h e (List.mem_cons_of_mem _ he))
      unfold infiniteEdges at *
      simp only [List.filter_cons]
      rw [ih2]

/-- The visit of a vertex keeps its edges of infinite cost, in order, and makes
no other edge infinite, when the vertex count is not the value that stands for
infinity and the vertex stores no infinite edge to the vertex it is matched
with. -/
theorem infiniteEdges_vertexEvolve (N : Nat) (hN : N ≠ UINT_MAX) (matching : List Nat)
    (avoid : Bool) (v : NMVertex) (hfit : ∀ e ∈ v.constraints, e.cost ≤ UINT_MAX)
    (hav : ∀ e ∈ v.constraints, e.v_target = matching.getD v.id 0 → e.cost ≠ UINT_MAX) :
    infiniteEdges (vertexEvolve N matching avoid v).constraints = infiniteEdges v.constraints := by
  have hdec : ∀ e ∈ decaySpec v.constraints, e.v_target = matching.getD v.id 0 →
      e.cost ≠ UINT_MAX := by
    intro e he ht hc
    rcases mem_decaySpec he with ⟨_, h2⟩ | ⟨e0, h0, _, h4, h5, _, _⟩
    · exact hav e h2 ht hc
    · have := hfit e0 h0
      omega
  have h2 : infiniteEdges (evolveSpec N v.id (matching.getD v.id 0) v.constraints) =
      infiniteEdges v.constraints := by
    unfold evolveSpec
    split
    · rw [infiniteEdges_resetFirstSpec _ _ hN _ hdec, infiniteEdges_decaySpec _ hfit]
    · unfold infiniteEdges
      rw [List.filter_append]
      have := infiniteEdges_decaySpec _ hfit
      unfold infiniteEdges at this
      rw [this]
      simp [hN]
  rcases vertexEvolve_constraints N matching avoid v with hc | hc
  · rw [hc, h2]
  · rw [hc, ← h2]
    unfold infiniteEdges
    rw [List.filter_filter]
    apply List.filter_congr
    intro e _
    have := threshold_lt_max N
    by_cases hinf : e.cost = UINT_MAX
    · simp [hinf, this]
    · simp [hinf]

/-- C14, counterexample. On three vertices with one edge of cost 10, after
`updateConstraints` vertex 0 stores the finite cost 9, which exceeds `N = 3`. -/
theorem evolution_bound_exceeded :
    (largeCostExample.updateConstraints [2, 0, 1] false).vertices =
        [⟨0, [⟨0, 1, 9⟩, ⟨0, 2, 3⟩]⟩, ⟨1, [⟨1, 0, 3⟩]⟩, ⟨2, [⟨2, 1, 3⟩]⟩] ∧
      (9 : Nat) ≠ UINT_MAX ∧ largeCostExample.vertices.length < 9 := by
  decide

/-- C14, amended. After `updateConstraints` a stored finite cost is `N` or one
less than a finite cost stored before: when every finite cost stored before is
at most `B + 1`, every finite cost stored afterwards is at most `max N B`. -/
theorem updateConstraints_cost_bound (g : NonMatchingGraph) (matching : List Nat)
    (avoid : Bool) (hid : g.IdsArePositions) (B : Nat)
    (hB : ∀ v ∈ g.vertices, ∀ e ∈ v.constraints, e.cost ≠ UINT_MAX → e.cost ≤ B + 1) :
    ∀ v ∈ (g.updateConstraints matching avoid).vertices, ∀ e ∈ v.constraints,
      e.cost ≠ UINT_MAX → e.cost ≤ max g.vertices.length B := by
  intro v hv e he hfin
  rw [updateConstraints_eq_map g matching avoid (idsArePositions_getElem? g hid)] at hv
  obtain ⟨v0, hv0, rfl⟩ := List.mem_map.1 hv
  rcases mem_vertexEvolve he with h1 | ⟨h1, _⟩ | ⟨e0, h0, _, h3, h4⟩
  · rw [h1]
    exact le_max_left _ _
  · exact absurd h1 hfin
  · have := hB v0 hv0 e0 h0 h3
    have h5 : e.cost ≤ B := by omega
    exact le_trans h5 (le_max_right _ _)

/-- Witness of C14 amended: on the example with `B = 9`. -/
theorem updateConstraints_cost_bound_witness :
    largeCostExample.IdsArePositions ∧
    (∀ v ∈ largeCostExample.vertices, ∀ e ∈ v.constraints, e.cost ≠ UINT_MAX → e.cost ≤ 9 + 1) ∧
    ∀ v ∈ (largeCostExample.updateConstraints [2, 0, 1] true).vertices, ∀ e ∈ v.constraints,
      e.cost ≠ UINT_MAX → e.cost ≤ max largeCostExample.vertices.length 9 :=
  ⟨by decide, by decide,
    updateConstraints_cost_bound largeCostExample [2, 0, 1] true (by decide) 9 (by decide)⟩

/-- C15. Cost-range invariant of the evolution: after `updateConstraints` no
stored cost is 0; and when every finite cost stored before the call is at most
`N + 1`, every cost stored afterwards is infinite or in the range `1..N`. -/
theorem updateConstraints_cost_range (g : NonMatchingGraph) (matching : List Nat)
    (avoid : Bool) (hid : g.IdsArePositions) :
    (∀ v ∈ (g.updateConstraints matching avoid).vertices, ∀ e ∈ v.constraints, e.cost ≠ 0) ∧
      ((∀ v ∈ g.vertices, ∀ e ∈ v.constraints, e.cost ≠ UINT_MAX →
          e.cost ≤ g.vertices.length + 1) →
        ∀ v ∈ (g.updateConstraints matching avoid).vertices, ∀ e ∈ v.constraints,
          e.cost = UINT_MAX ∨ (1 ≤ e.cost ∧ e.cost ≤ g.vertices.length)) := by
  rw [updateConstraints_eq_map g matching avoid (idsArePositions_getElem? g hid)]
  constructor
  · intro v hv e he
    obtain ⟨v0, hv0, rfl⟩ := List.mem_map.1 hv
    have hN : 1 ≤ g.vertices.length := List.length_pos_of_mem hv0
    rcases mem_vertexEvolve he with h1 | ⟨h1, _⟩ | ⟨e0, _, h2, _, h4⟩
    · omega
    · rw [h1]
      decide
    · omega
  · intro hB v hv e he
    obtain ⟨v0, hv0, rfl⟩ := List.mem_map.1 hv
    have hN : 1 ≤ g.vertices.length := List.length_pos_of_mem hv0
    rcases mem_vertexEvolve he with h1 | ⟨h1, _⟩ | ⟨e0, h0, h2, h3, h4⟩
    · right
      omega
    · exact Or.inl h1
    · right
      have := hB v0 hv0 e0 h0 h3
      omega

/-- Witness of C15 on the example, whose finite costs are at most `N + 1 = 4`. -/
theorem updateConstraints_cost_range_witness :
    evolveExample.IdsArePositions ∧
    (∀ v ∈ evolveExample.vertices, ∀ e ∈ v.constraints, e.cost ≠ UINT_MAX →
      e.cost ≤ evolveExample.vertices.length + 1) ∧
    (∀ v ∈ (evolveExample.updateConstraints [2, 0, 1] true).vertices, ∀ e ∈ v.constraints,
      e.cost ≠ 0) ∧
    ∀ v ∈ (evolveExample.updateConstraints [2, 0, 1] true).vertices, ∀ e ∈ v.constraints,
      e.cost = UINT_MAX ∨ (1 ≤ e.cost ∧ e.cost ≤ evolveExample.vertices.length) :=
  ⟨by decide, by decide,
    (updateConstraints_cost_range evolveExample [2, 0, 1] true (by decide)).1,
    (updateConstraints_cost_range evolveExample [2, 0, 1] true (by decide)).2 (by decide)⟩

end wpm

namespace wpm

/-! ## Claims on the checks of the constraint graph -/

/-- C13. Matching a forbidden pair is not reported by the default build: the
assertion on the infinite cost is compiled out and `updateConstraints`, which
returns nothing, overwrites the cost. On three vertices with the forbidden pair
`0 -> 1` and the matching `0 -> 1, 1 -> 2, 2 -> 0`, vertex 0 stores afterwards the
edge `0 -> 1` with the finite cost `N = 3` and no edge of infinite cost, for
both values of `avoid_deterministic`. -/
theorem updateConstraints_resets_forbidden :
    forbiddenPairExample.vertices = [⟨0, [⟨0, 1, UINT_MAX⟩]⟩, ⟨1, []⟩, ⟨2, []⟩] ∧
    ∀ avoid : Bool, (forbiddenPairExample.updateConstraints [1, 2, 0] avoid).vertices =
      [⟨0, [⟨0, 1, 3⟩]⟩, ⟨1, [⟨1, 2, 3⟩]⟩, ⟨2, [⟨2, 0, 3⟩]⟩] := by
  decide

/-- C17. Constraint-graph deserialisation accepts duplicate, missing and
out-of-order vertex ids: the ids of the vertices come from `startNewGraph`, a
vertex line only overwrites the constraints of the vertex it names, so
`_checkGraphValidity` always passes. The text `nv 2`, `v 0`, `v 0` and the text
`nv 2`, `v 1`, `v 0` are both accepted and give the graph with two vertices and
no edge. -/
theorem deserialize_accepts_duplicate_ids :
    NonMatchingGraph.deserialize ⟨"nv 2\nv 0\nv 0\n".toList, true⟩ =
        Parsed.accept ⟨[⟨0, []⟩, ⟨1, []⟩]⟩ ⟨[], true⟩ ∧
      NonMatchingGraph.deserialize ⟨"nv 2\nv 1\nv 0\n".toList, true⟩ =
        Parsed.accept ⟨[⟨0, []⟩, ⟨1, []⟩]⟩ ⟨[], true⟩ :=
  ⟨by rfl, by rfl⟩

/-- C18. Constraint-graph deserialisation accepts self-edges: `Vertex::deserialize`
compares the target with the vertex count only. The text `nv 2`, `v 0 0(1)`,
`v 1` is accepted and gives a graph in which vertex 0 stores the edge `0 -> 0`. -/
theorem deserialize_accepts_self_edge :
    NonMatchingGraph.deserialize ⟨"nv 2\nv 0 0(1)\nv 1\n".toList, true⟩ =
      Parsed.accept ⟨[⟨0, [⟨0, 0, 1⟩]⟩, ⟨1, []⟩]⟩ ⟨[], true⟩ := by
  rfl

/-- C19. `addDirectedEdge` has no check in the default build: the assertion on
the ids is compiled out, and no build compares the two ids. On a graph with two
vertices `addDirectedEdge(0, 0, 5)` stores the self-edge `0 -> 0`, and
`addDirectedEdge(0, 7, 5)` stores an edge to the id 7, which no vertex has. -/
theorem addDirectedEdge_stores_invalid_edge :
    (NonMatchingGraph.startNewGraph 2).addDirectedEdge 0 0 5 =
        ⟨[⟨0, [⟨0, 0, 5⟩]⟩, ⟨1, []⟩]⟩ ∧
      (NonMatchingGraph.startNewGraph 2).addDirectedEdge 0 7 5 =
        ⟨[⟨0, [⟨0, 7, 5⟩]⟩, ⟨1, []⟩]⟩ := by
  decide

end wpm

namespace wpm

/-! ## Printing and reading unsigned numbers -/

theorem digitChar_spec : ∀ k, k < 10 →
    (Nat.digitChar k).isDigit = true ∧ (Nat.digitChar k).toNat - 48 = k := by
  decide

/-- The digits printed for `n`: a nonempty run of decimal digits whose value
is `n`. -/
theorem toDigitsCore_spec : ∀ (fuel n : Nat) (ds : List Char), n < fuel →
    ∃ pre, Nat.toDigitsCore 10 fuel n ds = pre ++ ds ∧ pre ≠ [] ∧
      (∀ c ∈ pre, c.isDigit = true) ∧
      ∀ acc, pre.foldl (fun acc d => 10 * acc + (d.toNat - 48)) acc =
        acc * 10 ^ pre.length + n := by
  intro fuel
  induction fuel with
  | zero => intro n ds h; omega
  | succ f ih =>
    intro n ds h
    unfold Nat.toDigitsCore
    obtain ⟨d1, d2⟩ := digitChar_spec (n % 10) (Nat.mod_lt _ (by decide))
    by_cases h0 : n / 10 = 0
    · simp only [h0, if_true]
      refine ⟨[Nat.digitChar (n % 10)], rfl, by simp, ?_, ?_⟩
      · intro c hc
        simp only [List.mem_singleton] at hc
        rw [hc]
        exact d1
      · intro acc
        simp only [List.foldl_cons, List.foldl_nil, List.length_singleton, pow_one, d2]
        omega
    · simp only [h0, if_false]
      obtain ⟨pre, h1, _, h3, h4⟩ := ih (n / 10) (Nat.digitChar (n % 10) :: ds) (by omega)
      refine ⟨pre ++ [Nat.digitChar (n % 10)], ?_, by simp, ?_, ?_⟩
      · rw [h1]
        simp
      · intro c hc
        rcases List.mem_append.1 hc with hc | hc
        · exact h3 c hc
        · simp only [List.mem_singleton] at hc
          rw [hc]
          exact d1
      · intro acc
        rw [List.foldl_append, h4]
        simp only [List.foldl_cons, List.foldl_nil, List.length_append, List.length_singleton,
          d2, pow_succ]
        have := Nat.div_add_mod n 10
        nlinarith [this]

theorem repr_spec (n : Nat) :
    ∃ pre, (Nat.repr n).toList = pre ∧ pre ≠ [] ∧ (∀ c ∈ pre, c.isDigit = true) ∧
      IStream.digitsValue pre = n := by
  obtain ⟨pre, h1, h2, h3, h4⟩ := toDigitsCore_spec (n + 1) n [] (by omega)
  refine ⟨pre, ?_, h2, h3, ?_⟩
  · have : (Nat.repr n).toList = Nat.toDigitsCore 10 (n + 1) n [] := rfl
    rw [this, h1]
    simp
  · unfold IStream.digitsValue
    rw [h4 0]
    simp

/-- The extraction on a text that does not start with a sign. -/
theorem extractUnsigned_nosign (d : Char) (tl : List Char) (good : Bool)
    (hplus : d ≠ '+') (hminus : d ≠ '-') :
    IStream.extractUnsigned ⟨d :: tl, good⟩ =
      if ((d :: tl).takeWhile Char.isDigit).isEmpty then
        (0, ⟨(d :: tl).dropWhile Char.isDigit, false⟩)
      else if IStream.digitsValue ((d :: tl).takeWhile Char.isDigit) > UINT_MAX then
        (UINT_MAX, ⟨(d :: tl).dropWhile Char.isDigit, false⟩)
      else
        (IStream.digitsValue ((d :: tl).takeWhile Char.isDigit),
          ⟨(d :: tl).dropWhile Char.isDigit, !((d :: tl).dropWhile Char.isDigit).isEmpty⟩) := by
  unfold IStream.extractUnsigned
  simp [hplus, hminus]

/-- Reading back a printed number that is followed by a character that is no
digit. -/
theorem extractUnsigned_repr (n : Nat) (hn : n ≤ UINT_MAX) (c : Char) (r : List Char)
    (hc : c.isDigit = false) (good : Bool) :
    IStream.extractUnsigned ⟨(Nat.repr n).toList ++ c :: r, good⟩ = (n, ⟨c :: r, true⟩) := by
  obtain ⟨pre, h1, h2, h3, h4⟩ := repr_spec n
  rw [h1]
  obtain ⟨d, tl, rfl⟩ : ∃ d tl, pre = d :: tl := by
    cases pre with
    | nil => exact absurd rfl h2
    | cons d tl => exact ⟨d, tl, rfl⟩
  have hd : d.isDigit = true := h3 d (List.mem_cons_self _ _)
  have hplus : d ≠ '+' := by
    intro h
    rw [h] at hd
    exact absurd hd (by decide)
  have hminus : d ≠ '-' := by
    intro h
    rw [h] at hd
    exact absurd hd (by decide)
  have htake : (d :: (tl ++ c :: r)).takeWhile Char.isDigit = d :: tl := by
    have : ((d :: tl) ++ c :: r).takeWhile Char.isDigit =
        (d :: tl) ++ (c :: r).takeWhile Char.isDigit := List.takeWhile_append_of_pos h3
    simp only [List.cons_append] at this
    rw [this]
    simp [List.takeWhile_cons, hc]
  have hdrop : (d :: (tl ++ c :: r)).dropWhile Char.isDigit = c :: r := by
    have : ((d :: tl) ++ c :: r).dropWhile Char.isDigit =
        (c :: r).dropWhile Char.isDigit := List.dropWhile_append_of_pos h3
    simp only [List.cons_append] at this
    rw [this]
    simp [List.dropWhile_cons, hc]
  simp only [List.cons_append]
  rw [extractUnsigned_nosign d _ good hplus hminus, htake, hdrop, h4]
  have hle : ¬ n > UINT_MAX := by omega
  simp [hle]

end wpm

namespace wpm

/-! ## The text written by `serialize` -/

theorem foldl_append_toList (l : List String) (acc : String) :
    (l.foldl (fun r s => r ++ s) acc).toList = acc.toList ++ (l.map String.toList).flatten := by
  induction l generalizing acc with
  | nil => simp
  | cons a rest ih =>
    simp only [List.foldl_cons, List.map_cons, List.flatten_cons]
    rw [ih]
    simp [String.toList]

theorem join_toList (l : List String) :
    (String.join l).toList = (l.map String.toList).flatten := by
  unfold String.join
  rw [foldl_append_toList]
  rfl

theorem serializeVertex_toList (v : NMVertex) :
    (NonMatchingGraph.serializeVertex v).toList = encodeVertex v := by
  unfold NonMatchingGraph.serializeVertex encodeVertex
  simp only [String.toList, String.data_append]
  have h := join_toList (v.constraints.map
    (fun e => " " ++ Nat.repr e.v_target ++ "(" ++ Nat.repr e.cost ++ ")"))
  simp only [String.toList, List.map_map] at h
  rw [h]
  have hmap : (String.toList ∘ fun (e : NMEdge) =>
      " " ++ Nat.repr e.v_target ++ "(" ++ Nat.repr e.cost ++ ")") = encodeConstraint := by
    funext e
    simp [encodeConstraint, String.toList, String.data_append]
  rw [hmap]
  simp [String.toList]

theorem serialize_toList (g : NonMatchingGraph) :
    (NonMatchingGraph.serialize g).toList =
      'n' :: 'v' :: ' ' :: ((Nat.repr g.vertices.length).toList ++
        '\n' :: (g.vertices.map encodeVertex).flatten) := by
  unfold NonMatchingGraph.serialize
  simp only [String.toList, String.data_append]
  have h := join_toList (g.vertices.map NonMatchingGraph.serializeVertex)
  simp only [String.toList, List.map_map] at h
  rw [h]
  have hmap : (String.toList ∘ NonMatchingGraph.serializeVertex) = encodeVertex := by
    funext v
    exact serializeVertex_toList v
  rw [hmap]
  simp

end wpm

namespace wpm

/-! ## Reading back the text written by `serialize` -/

theorem read_one (c : Char) (r : List Char) :
    IStream.read ⟨c :: r, true⟩ 1 = ([c], ⟨r, true⟩) := by
  simp [IStream.read]

theorem read_two (c d : Char) (r : List Char) :
    IStream.read ⟨c :: d :: r, true⟩ 2 = ([c, d], ⟨r, true⟩) := by
  simp [IStream.read]

theorem read_three (c d e : Char) (r : List Char) :
    IStream.read ⟨c :: d :: e :: r, true⟩ 3 = ([c, d, e], ⟨r, true⟩) := by
  simp [IStream.read]

theorem encodeConstraint_append (e : NMEdge) (X : List Char) :
    encodeConstraint e ++ X =
      ' ' :: ((Nat.repr e.v_target).toList ++ '(' :: ((Nat.repr e.cost).toList ++ ')' :: X)) := by
  simp [encodeConstraint]

/-- The loop of `Vertex::deserialize` reads back the constraints written by
`Vertex::serialize`. -/
theorem deserializeConstraints_encoded (N : Nat) (hN : N ≤ UINT_MAX) :
    ∀ (cs : List NMEdge) (fuel : Nat) (c0 : Char) (rest : List Char) (acc : List (Nat × Nat)),
      cs.length < fuel → (∀ e ∈ cs, e.v_target < N ∧ e.cost ≤ UINT_MAX) →
      NonMatchingGraph.deserializeConstraints N fuel c0
          ⟨(cs.map encodeConstraint).flatten ++ '\n' :: rest, true⟩ acc =
        Parsed.accept (acc ++ cs.map (fun e => (e.v_target, e.cost))) ⟨rest, true⟩ := by
  intro cs
  induction cs with
  | nil =>
    intro fuel c0 rest acc hf _
    obtain ⟨f, rfl⟩ : ∃ f, fuel = f + 1 := ⟨fuel - 1, by simp at hf; omega⟩
    simp [NonMatchingGraph.deserializeConstraints, read_one]
  | cons e es ih =>
    intro fuel c0 rest acc hf hes
    obtain ⟨f, rfl⟩ : ∃ f, fuel = f + 1 := ⟨fuel - 1, by simp at hf; omega⟩
    obtain ⟨h1, h2⟩ := hes e (List.mem_cons_self _ _)
    have hrest : ∀ x ∈ es, x.v_target < N ∧ x.cost ≤ UINT_MAX :=
      fun x hx => hes x (List.mem_cons_of_mem _ hx)
    have hlen : es.length < f := by
      simp only [List.length_cons] at hf
      omega
    have hbuf : ((e :: es).map encodeConstraint).flatten ++ '\n' :: rest =
        ' ' :: ((Nat.repr e.v_target).toList ++ '(' :: ((Nat.repr e.cost).toList ++
          ')' :: ((es.map encodeConstraint).flatten ++ '\n' :: rest))) := by
      simp only [List.map_cons, List.flatten_cons, List.append_assoc]
      exact encodeConstraint_append e _
    have e1 := extractUnsigned_repr e.v_target (by omega) '('
      ((Nat.repr e.cost).toList ++ ')' :: ((es.map encodeConstraint).flatten ++ '\n' :: rest))
      (by decide) true
    have e2 := extractUnsigned_repr e.cost h2 ')'
      ((es.map encodeConstraint).flatten ++ '\n' :: rest) (by decide) true
    have hge : ¬ e.v_target ≥ N := by omega
    rw [hbuf]
    unfold NonMatchingGraph.deserializeConstraints
    simp only [read_one, List.head?_cons, Option.getD_some, e1, e2, hge, if_false]
    have := ih f ')' rest (acc ++ [(e.v_target, e.cost)]) hlen hrest
    simp only [List.append_assoc, List.singleton_append] at this
    simpa using this

end wpm

namespace wpm

theorem encoded_constraints_head (cs : List NMEdge) (rest : List Char) :
    ∃ c r, (cs.map encodeConstraint).flatten ++ '\n' :: rest = c :: r ∧ c.isDigit = false := by
  cases cs with
  | nil => exact ⟨'\n', rest, by simp, by decide⟩
  | cons e es =>
    refine ⟨' ', (Nat.repr e.v_target).toList ++ '(' :: ((Nat.repr e.cost).toList ++
      ')' :: ((es.map encodeConstraint).flatten ++ '\n' :: rest)), ?_, by decide⟩
    simp only [List.map_cons, List.flatten_cons, List.append_assoc]
    exact encodeConstraint_append e _

theorem encoded_constraints_length (cs : List NMEdge) :
    cs.length ≤ ((cs.map encodeConstraint).flatten).length := by
  induction cs with
  | nil => simp
  | cons e es ih =>
    simp only [List.map_cons, List.flatten_cons, List.length_append, List.length_cons]
    have : 1 ≤ (encodeConstraint e).length := by simp [encodeConstraint]
    omega

/-- `Vertex::deserialize` reads back the line written by `Vertex::serialize`. -/
theorem deserializeVertex_encoded (g : NonMatchingGraph) (hN : g.vertices.length ≤ UINT_MAX)
    (v : NMVertex) (hid : v.id < g.vertices.length)
    (hcs : ∀ e ∈ v.constraints, e.v_target < g.vertices.length ∧ e.cost ≤ UINT_MAX)
    (rest : List Char) :
    NonMatchingGraph.deserializeVertex g ⟨encodeVertex v ++ rest, true⟩ =
      Parsed.accept (storeLine g v) ⟨rest, true⟩ := by
  obtain ⟨c, r, hcr, hc⟩ := encoded_constraints_head v.constraints rest
  have hbuf : encodeVertex v ++ rest =
      'v' :: ' ' :: ((Nat.repr v.id).toList ++
        ((v.constraints.map encodeConstraint).flatten ++ '\n' :: rest)) := by
    simp [encodeVertex]
  have e1 := extractUnsigned_repr v.id (by omega) c r hc true
  have hfuel : v.constraints.length < r.length + 1 + 1 := by
    have h1 := encoded_constraints_length v.constraints
    have h2 : ((v.constraints.map encodeConstraint).flatten ++ '\n' :: rest).length =
        (c :: r).length := by rw [hcr]
    simp only [List.length_append, List.length_cons] at h2
    omega
  have hparse := deserializeConstraints_encoded g.vertices.length hN v.constraints
    (r.length + 1 + 1) 'v' rest [] hfuel hcs
  rw [hcr] at hparse
  rw [hbuf, hcr]
  unfold NonMatchingGraph.deserializeVertex
  have hge : ¬ v.id ≥ g.vertices.length := by omega
  simp only [read_two, storeChars, List.map_cons, List.map_nil, List.length_cons,
    List.length_nil, List.drop, List.append_nil, e1, hge, if_false]
  simp only [ne_eq, not_true_eq_false, or_self, if_false, List.length_cons, hparse,
    List.nil_append, List.map_map]
  rfl

/-- The loop of `deserialize` over the vertex lines reads back the lines
written for the vertices `vs`. -/
theorem deserializeVertices_encoded :
    ∀ (vs : List NMVertex) (g : NonMatchingGraph) (rest : List Char),
      g.vertices.length ≤ UINT_MAX →
      (∀ v ∈ vs, v.id < g.vertices.length ∧
        ∀ e ∈ v.constraints, e.v_target < g.vertices.length ∧ e.cost ≤ UINT_MAX) →
      NonMatchingGraph.deserializeVertices vs.length g
          ⟨(vs.map encodeVertex).flatten ++ rest, true⟩ =
        Parsed.accept (vs.foldl storeLine g) ⟨rest, true⟩ := by
  intro vs
  induction vs with
  | nil =>
    intro g rest _ _
    simp [NonMatchingGraph.deserializeVertices]
  | cons v vs ih =>
    intro g rest hN hvs
    obtain ⟨h1, h2⟩ := hvs v (List.mem_cons_self _ _)
    have hlen : (storeLine g v).vertices.length = g.vertices.length := by
      simp [storeLine]
    simp only [List.length_cons, NonMatchingGraph.deserializeVertices, List.map_cons,
      List.flatten_cons, List.append_assoc, List.foldl_cons]
    rw [deserializeVertex_encoded g hN v h1 h2]
    simp only
    apply ih
    · rw [hlen]
      exact hN
    · intro w hw
      rw [hlen]
      exact hvs w (List.mem_cons_of_mem _ hw)

end wpm

namespace wpm

/-! ## The round trip of the constraint graph -/

/-- The vertex lines written for a stored graph, read into the graph that
`startNewGraph` creates, give back the vertices. -/
theorem foldl_storeLine (vs : List NMVertex)
    (hid : ∀ (i : Nat) (v : NMVertex), vs[i]? = some v → v.id = i)
    (hsrc : ∀ v ∈ vs, ∀ e ∈ v.constraints, e.v_source = v.id) :
    ∀ k, k ≤ vs.length →
      ((vs.take k).foldl storeLine (NonMatchingGraph.startNewGraph vs.length)).vertices =
        vs.take k ++ ((List.range vs.length).map (fun id => (⟨id, []⟩ : NMVertex))).drop k := by
  intro k
  induction k with
  | zero =>
    intro _
    simp [NonMatchingGraph.startNewGraph]
  | succ k ih =>
    intro hk
    have hk1 : k < vs.length := by omega
    have hv : vs[k]? = some vs[k] := List.getElem?_eq_getElem hk1
    have hidk := hid k _ hv
    have hfix : (vs[k].constraints.map (fun e => (⟨vs[k].id, e.v_target, e.cost⟩ : NMEdge))) =
        vs[k].constraints := by
      conv_rhs => rw [← List.map_id vs[k].constraints]
      apply List.map_congr_left
      intro e he
      have := hsrc vs[k] (List.getElem_mem _) e he
      cases e
      simp only [id_eq, NMEdge.mk.injEq, and_true] at this ⊢
      exact this.symm
    rw [List.take_succ, hv]
    simp only [Option.toList_some, List.foldl_append, List.foldl_cons, List.foldl_nil]
    have hstore : ∀ (g : NonMatchingGraph) (v : NMVertex), (storeLine g v).vertices =
        g.vertices.modify
          (fun w => ⟨w.id, v.constraints.map (fun e => ⟨v.id, e.v_target, e.cost⟩)⟩) v.id :=
      fun _ _ => rfl
    rw [hstore, ih (by omega), hfix, hidk]
    apply List.ext_getElem?
    intro i
    rw [List.getElem?_modify]
    by_cases h1 : i < k
    · have hne : ¬ k = i := by omega
      simp only [hne, if_false]
      rw [List.getElem?_append_left (by simp; omega),
        List.getElem?_append_left (by simp; omega)]
      simp [List.getElem?_take, h1]
      have : i < k + 1 := by omega
      simp [List.getElem?_append_left, List.length_take, h1, hk1, this, Nat.min_eq_left,
        Nat.le_of_lt hk1]
    · by_cases h2 : i = k
      · subst h2
        simp only [if_true]
        rw [List.getElem?_append_right (by simp), List.getElem?_append_left (by simp; omega)]
        simp only [List.length_take, Nat.min_eq_left (Nat.le_of_lt hk1), Nat.sub_self,
          List.getElem?_drop, Nat.add_zero, List.getElem?_map, List.getElem?_range hk1,
          Option.map_some', List.getElem?_append_right, List.length_singleton]
        simp
        have : vs[i] = ⟨vs[i].id, vs[i].constraints⟩ := rfl
        rw [hidk] at this
        rw [hv, ← this]
      · have hne : ¬ k = i := fun h => h2 h.symm
        have h3 : k < i := by omega
        simp only [hne, if_false]
        rw [List.getElem?_append_right (by simp; omega),
          List.getElem?_append_right (by simp; omega)]
        simp only [List.length_take, Nat.min_eq_left (Nat.le_of_lt hk1), List.length_append,
          List.length_singleton, List.getElem?_drop, id_eq, Option.map_eq_map, Option.map_id']
        congr 1
        omega

theorem checkGraphValidity_of_ids (g : NonMatchingGraph) (h : g.IdsArePositions) :
    g.checkGraphValidity = true := by
  unfold NonMatchingGraph.checkGraphValidity
  have key : ∀ (l : List NMVertex) (k : Nat) (flags : Nat → Bool),
      (∀ i, flags i = true ↔ i < k) → (∀ p ∈ l.enumFrom k, p.2.id = p.1) →
      ∃ flags2, (l.enumFrom k).foldl
        (fun (acc : Option (Nat → Bool)) p =>
          match acc with
          | none => none
          | some flags =>
            if p.1 ≠ p.2.id then none
            else if flags p.2.id then none
            else some (upd flags p.2.id true)) (some flags) = some flags2 ∧
        ∀ i, flags2 i = true ↔ i < k + l.length := by
    intro l
    induction l with
    | nil =>
      intro k flags hf _
      exact ⟨flags, rfl, by simpa using hf⟩
    | cons v rest ih =>
      intro k flags hf hp
      have hv : v.id = k := hp (k, v) (by simp [List.enumFrom_cons])
      simp only [List.enumFrom_cons, List.foldl_cons]
      have h1 : ¬ k ≠ v.id := by simp [hv]
      have h2 : ¬ flags v.id = true := by
        rw [hf]
        omega
      simp only [h1, if_false, h2]
      have hf2 : ∀ i, upd flags v.id true i = true ↔ i < k + 1 := by
        intro i
        simp only [upd_apply]
        by_cases hc : i = v.id
        · simp [hc, hv]
        · simp only [hc, if_false, hf]
          omega
      obtain ⟨flags2, e1, e2⟩ := ih (k + 1) _ hf2
        (fun p hp2 => hp p (by simp [List.enumFrom_cons, hp2]))
      refine ⟨flags2, e1, ?_⟩
      intro i
      rw [e2]
      simp only [List.length_cons]
      omega
  obtain ⟨flags2, e1, e2⟩ := key g.vertices 0 (fun _ => false) (by simp) h
  simp only [List.enum]
  generalize hx : List.foldl _ (some (fun (_ : Nat) => false)) (List.enumFrom 0 g.vertices) = x
  have hx2 : x = some flags2 := hx.symm.trans e1
  subst hx2
  simp only [List.all_eq_true, List.mem_range]
  intro i hi
  rw [e2]
  omega

end wpm

namespace wpm

theorem stored_startNewGraph (N : Nat) : (NonMatchingGraph.startNewGraph N).Stored where
  ids := by
    intro p hp
    obtain ⟨i, v⟩ := p
    have h := List.mk_mem_enum_iff_getElem?.1 hp
    simp only [NonMatchingGraph.startNewGraph, List.getElem?_map] at h
    cases hr : (List.range N)[i]? with
    | none => simp [hr] at h
    | some j =>
      have hj : j = i := by
        rcases List.getElem?_eq_some_iff.1 hr with ⟨hlt, hget⟩
        simp at hget
        exact hget.symm
      simp only [hr, Option.map_some', Option.some.injEq] at h
      rw [← h]
      exact hj
  sources := by
    intro v hv e he
    simp only [NonMatchingGraph.startNewGraph, List.mem_map] at hv
    obtain ⟨_, _, rfl⟩ := hv
    cases he
  targets := by
    intro v hv e he
    simp only [NonMatchingGraph.startNewGraph, List.mem_map] at hv
    obtain ⟨_, _, rfl⟩ := hv
    cases he
  costs := by
    intro v hv e he
    simp only [NonMatchingGraph.startNewGraph, List.mem_map] at hv
    obtain ⟨_, _, rfl⟩ := hv
    cases he

theorem addDirectedEdge_length (g : NonMatchingGraph) (s t c : Nat) :
    (g.addDirectedEdge s t c).vertices.length = g.vertices.length := by
  simp [NonMatchingGraph.addDirectedEdge]

/-- A vertex of the graph after `addDirectedEdge` is a vertex of the graph
before, or the source vertex with the new edge at the end of its list. -/
theorem mem_addDirectedEdge {g : NonMatchingGraph} {s t c : Nat} {v : NMVertex}
    (h : v ∈ (g.addDirectedEdge s t c).vertices) :
    v ∈ g.vertices ∨ ∃ v0, g.vertices[s]? = some v0 ∧
      v = { v0 with constraints := v0.constraints ++ [⟨s, t, c⟩] } := by
  obtain ⟨i, hi⟩ := List.mem_iff_getElem?.1 h
  simp only [NonMatchingGraph.addDirectedEdge, List.getElem?_modify] at hi
  by_cases hc : s = i
  · subst hc
    cases hv : g.vertices[s]? with
    | none => simp [hv] at hi
    | some v0 =>
      right
      simp only [hv, if_true, Option.map_eq_map, Option.map_some', Option.some.injEq] at hi
      exact ⟨v0, rfl, hi.symm⟩
  · left
    simp only [hc, if_false, id_eq, Option.map_eq_map, Option.map_id'] at hi
    exact List.mem_iff_getElem?.2 ⟨i, hi⟩

theorem NonMatchingGraph.Stored.addDirected {g : NonMatchingGraph} (h : g.Stored)
    (s t c : Nat) (ht : t < g.vertices.length) (hc : c ≤ UINT_MAX) :
    (g.addDirectedEdge s t c).Stored where
  ids := by
    intro p hp
    obtain ⟨i, v⟩ := p
    have hi := List.mk_mem_enum_iff_getElem?.1 hp
    simp only [NonMatchingGraph.addDirectedEdge, List.getElem?_modify] at hi
    cases hv : g.vertices[i]? with
    | none => simp [hv] at hi
    | some v0 =>
      have h0 := idsArePositions_getElem? g h.ids i v0 hv
      by_cases hsi : s = i
      · simp only [hv, hsi, if_true, Option.map_eq_map, Option.map_some',
          Option.some.injEq] at hi
        rw [← hi]
        exact h0
      · simp only [hv, hsi, if_false, id_eq, Option.map_eq_map, Option.map_some',
          Option.some.injEq] at hi
        rw [← hi]
        exact h0
  sources := by
    intro v hv e he
    rcases mem_addDirectedEdge hv with h1 | ⟨v0, h1, rfl⟩
    · exact h.sources v h1 e he
    · simp only [List.mem_append, List.mem_singleton] at he
      rcases he with he | he
      · exact h.sources v0 (List.getElem?_mem h1) e he
      · rw [he]
        exact (idsArePositions_getElem? g h.ids s v0 h1).symm
  targets := by
    intro v hv e he
    rw [addDirectedEdge_length]
    rcases mem_addDirectedEdge hv with h1 | ⟨v0, h1, rfl⟩
    · exact h.targets v h1 e he
    · simp only [List.mem_append, List.mem_singleton] at he
      rcases he with he | he
      · exact h.targets v0 (List.getElem?_mem h1) e he
      · rw [he]
        exact ht
  costs := by
    intro v hv e he
    rcases mem_addDirectedEdge hv with h1 | ⟨v0, h1, rfl⟩
    · exact h.costs v h1 e he
    · simp only [List.mem_append, List.mem_singleton] at he
      rcases he with he | he
      · exact h.costs v0 (List.getElem?_mem h1) e he
      · rw [he]
        exact hc

/-- A graph built with the functions of the class has `N` vertices and stores
what the data model asks for. -/
theorem built_stored {N : Nat} {g : NonMatchingGraph} (h : NonMatchingGraph.Built N g) :
    g.vertices.length = N ∧ g.Stored := by
  induction h with
  | start => exact ⟨by simp [NonMatchingGraph.startNewGraph], stored_startNewGraph N⟩
  | directed g s t c _ _ ht hc ih =>
    obtain ⟨i1, i2⟩ := ih
    exact ⟨by rw [addDirectedEdge_length, i1], i2.addDirected s t c (by omega) hc⟩
  | undirected g a b c _ ha hb hc ih =>
    obtain ⟨i1, i2⟩ := ih
    unfold NonMatchingGraph.addUndirectedEdge
    have j := i2.addDirected a b c (by omega) hc
    exact ⟨by rw [addDirectedEdge_length, addDirectedEdge_length, i1],
      j.addDirected b a c (by rw [addDirectedEdge_length]; omega) hc⟩

/-- Deserialising the text written for a stored graph gives the graph back. -/
theorem deserialize_serialize_stored (g : NonMatchingGraph) (h : g.Stored)
    (hN : g.vertices.length ≤ UINT_MAX) :
    NonMatchingGraph.deserialize ⟨(NonMatchingGraph.serialize g).toList, true⟩ =
      Parsed.accept g ⟨[], true⟩ := by
  have hstart : (NonMatchingGraph.startNewGraph g.vertices.length).vertices.length =
      g.vertices.length := by simp [NonMatchingGraph.startNewGraph]
  have hvs := deserializeVertices_encoded g.vertices
    (NonMatchingGraph.startNewGraph g.vertices.length) [] (by rw [hstart]; exact hN)
    (by
      intro v hv
      rw [hstart]
      refine ⟨?_, fun e he => ⟨h.targets v hv e he, h.costs v hv e he⟩⟩
      obtain ⟨i, hi⟩ := List.mem_iff_getElem?.1 hv
      have := idsArePositions_getElem? g h.ids i v hi
      rw [this]
      exact (List.getElem?_eq_some_iff.1 hi).1)
  have hfold := foldl_storeLine g.vertices (idsArePositions_getElem? g h.ids) h.sources
    g.vertices.length (le_refl _)
  have hdrop : List.drop g.vertices.length
      (List.map (fun id => (⟨id, []⟩ : NMVertex)) (List.range g.vertices.length)) = [] := by
    apply List.drop_eq_nil_of_le
    simp
  rw [List.take_length, hdrop, List.append_nil] at hfold
  have hgraph : g.vertices.foldl storeLine (NonMatchingGraph.startNewGraph g.vertices.length) =
      g := by
    cases hg : g.vertices.foldl storeLine (NonMatchingGraph.startNewGraph g.vertices.length)
    rw [hg] at hfold
    cases g
    simp only at hfold
    simp [hfold]
  rw [hgraph, List.append_nil] at hvs
  have e1 := extractUnsigned_repr g.vertices.length hN '\n'
    ((g.vertices.map encodeVertex).flatten) (by decide) true
  rw [serialize_toList]
  unfold NonMatchingGraph.deserialize
  simp only [read_three, storeChars, List.map_cons, List.map_nil, List.length_cons,
    List.length_nil, List.drop, List.append_nil, e1, read_one, List.head?_cons,
    Option.getD_some]
  simp only [ne_eq, not_true_eq_false, or_self, if_false, hvs,
    checkGraphValidity_of_ids g h.ids, if_true]

/-- C20. Constraint-graph round trip: for a graph built with `startNewGraph`,
`addDirectedEdge` and `addUndirectedEdge` with ids below `N` and `unsigned int`
costs, with `N` an `unsigned int`, deserialising the text written by
`serialize` succeeds and gives the same graph: the same `N` vertices, and for
every vertex the same ordered list of edges. -/
theorem deserialize_serialize_built (N : Nat) (g : NonMatchingGraph)
    (hb : NonMatchingGraph.Built N g) (hN : N ≤ UINT_MAX) :
    NonMatchingGraph.deserialize ⟨(NonMatchingGraph.serialize g).toList, true⟩ =
      Parsed.accept g ⟨[], true⟩ := by
  obtain ⟨h1, h2⟩ := built_stored hb
  exact deserialize_serialize_stored g h2 (by omega)

/-- Witness of C20: three vertices, an undirected edge of cost 2 and a
forbidden directed edge. -/
theorem deserialize_serialize_built_witness :
    NonMatchingGraph.Built 3 builtExample ∧ 3 ≤ UINT_MAX ∧
    NonMatchingGraph.deserialize ⟨(NonMatchingGraph.serialize builtExample).toList, true⟩ =
      Parsed.accept builtExample ⟨[], true⟩ :=
  ⟨NonMatchingGraph.Built.directed _ 2 0 UINT_MAX
      (NonMatchingGraph.Built.undirected _ 0 1 2 NonMatchingGraph.Built.start (by decide)
        (by decide) (by decide)) (by decide) (by decide) (by decide),
    by decide,
    deserialize_serialize_built 3 builtExample
      (NonMatchingGraph.Built.directed _ 2 0 UINT_MAX
        (NonMatchingGraph.Built.undirected _ 0 1 2 NonMatchingGraph.Built.start (by decide)
          (by decide) (by decide)) (by decide) (by decide) (by decide))
      (by decide)⟩

end wpm

namespace wpm

/-! ## The graph made by the converter -/

/-- The edges the converter emits for one vertex. -/
theorem converter_inner (v : NMVertex) :
    ∀ (n : Nat) (bmg : BipartiteMatchingGraph),
      (List.range n).foldl
        (fun bmg cid =>
          if scoreMatchingCandidates v cid ≠ INT_MIN then
            bmg.addDirectedEdge v.id cid (scoreMatchingCandidates v cid)
          else bmg) bmg =
      ⟨bmg.ncliques, bmg.edges ++
        ((List.range n).filter (fun cid => decide (scoreMatchingCandidates v cid ≠ INT_MIN))).map
          (fun cid => ⟨scoreMatchingCandidates v cid, v.id, cid⟩)⟩ := by
  intro n
  induction n with
  | zero => intro bmg; simp
  | succ n ih =>
    intro bmg
    rw [List.range_succ, List.foldl_append, ih]
    simp only [List.foldl_cons, List.foldl_nil, List.filter_append, List.map_append]
    by_cases h : scoreMatchingCandidates v n ≠ INT_MIN
    · simp [h, BipartiteMatchingGraph.addDirectedEdge]
    · simp [h]

/-- The edge list of the graph made by the converter: vertex by vertex, the
candidates whose score is not `INT_MIN`, by increasing target. -/
theorem toBipartiteMatchingGraph_eq (G : NonMatchingGraph) :
    toBipartiteMatchingGraph G =
      ⟨G.vertices.length, G.vertices.flatMap (fun v =>
        ((List.range G.vertices.length).filter
          (fun cid => decide (scoreMatchingCandidates v cid ≠ INT_MIN))).map
          (fun cid => ⟨scoreMatchingCandidates v cid, v.id, cid⟩))⟩ := by
  unfold toBipartiteMatchingGraph
  simp only [NonMatchingGraph.getNumberVertices]
  generalize G.vertices.length = n
  have key : ∀ (vs : List NMVertex) (bmg : BipartiteMatchingGraph),
      vs.foldl
        (fun bmgraph v =>
          (List.range n).foldl
            (fun bmg cid =>
              if scoreMatchingCandidates v cid ≠ INT_MIN then
                bmg.addDirectedEdge v.id cid (scoreMatchingCandidates v cid)
              else bmg)
            bmgraph) bmg =
      ⟨bmg.ncliques, bmg.edges ++ vs.flatMap (fun v =>
        ((List.range n).filter
          (fun cid => decide (scoreMatchingCandidates v cid ≠ INT_MIN))).map
          (fun cid => ⟨scoreMatchingCandidates v cid, v.id, cid⟩))⟩ := by
    intro vs
    induction vs with
    | nil => intro bmg; simp
    | cons v rest ih =>
      intro bmg
      simp only [List.foldl_cons, List.flatMap_cons]
      rw [converter_inner v n bmg, ih]
      simp
  rw [key]
  simp [BipartiteMatchingGraph.startNewGraph]

/-- The pairs the converter joins by an edge. -/
theorem mem_toBipartiteMatchingGraph (G : NonMatchingGraph) (e : BMEdge) :
    e ∈ (toBipartiteMatchingGraph G).edges ↔
      ∃ v ∈ G.vertices, e.v_source = v.id ∧ e.v_target < G.vertices.length ∧
        e.score = scoreMatchingCandidates v e.v_target ∧
        scoreMatchingCandidates v e.v_target ≠ INT_MIN := by
  rw [toBipartiteMatchingGraph_eq]
  simp only [List.mem_flatMap, List.mem_map, List.mem_filter, List.mem_range,
    decide_eq_true_eq]
  constructor
  · rintro ⟨v, hv, cid, ⟨h1, h2⟩, rfl⟩
    exact ⟨v, hv, rfl, h1, rfl, h2⟩
  · rintro ⟨v, hv, h1, h2, h3, h4⟩
    refine ⟨v, hv, e.v_target, ⟨h2, h4⟩, ?_⟩
    cases e
    simp only at h1 h3 ⊢
    rw [h1, h3]

theorem toInt32_range (x : Nat) : INT_MIN ≤ toInt32 x ∧ toInt32 x ≤ INT_MAX := by
  unfold toInt32 INT_MIN INT_MAX UINT_MAX
  have h : x % (4294967295 + 1) < 4294967296 := Nat.mod_lt _ (by norm_num)
  split <;> omega

theorem convertNMCostToBMScore_range (c : Nat) :
    inIntRange (convertNMCostToBMScore c) = true := by
  have h := toInt32_range c
  unfold convertNMCostToBMScore inIntRange
  simp only [Bool.and_eq_true, decide_eq_true_eq]
  unfold INT_MIN INT_MAX at *
  split
  · omega
  · split
    · omega
    · rename_i h1 h2
      omega

theorem scoreMatchingCandidates_range (v : NMVertex) (j : Nat) :
    inIntRange (scoreMatchingCandidates v j) = true := by
  unfold scoreMatchingCandidates
  have key : ∀ (cs : List NMEdge) (init : Nat → Int), (∀ j, inIntRange (init j) = true) →
      ∀ j, inIntRange (cs.foldl
        (fun scores e => upd scores e.v_target (convertNMCostToBMScore e.cost)) init j) =
        true := by
    intro cs
    induction cs with
    | nil => intro init h j; exact h j
    | cons c rest ih =>
      intro init h j
      simp only [List.foldl_cons]
      apply ih
      intro k
      simp only [upd_apply]
      split
      · exact convertNMCostToBMScore_range _
      · exact h k
  apply key
  intro k
  simp only [upd_apply]
  split <;> decide

/-- Every score of the graph made by the converter fits an `int`. -/
theorem toBipartiteMatchingGraph_scoresInRange (G : NonMatchingGraph) :
    (toBipartiteMatchingGraph G).ScoresInRange := by
  intro e he
  obtain ⟨v, _, _, _, h3, _⟩ := (mem_toBipartiteMatchingGraph G e).1 he
  rw [h3]
  exact scoreMatchingCandidates_range v _

/-- The converter emits at most one edge per ordered pair. -/
theorem toBipartiteMatchingGraph_pairs_nodup (G : NonMatchingGraph) (hid : G.IdsArePositions) :
    ((toBipartiteMatchingGraph G).edges.map (fun e => (e.v_source, e.v_target))).Nodup := by
  rw [toBipartiteMatchingGraph_eq]
  simp only [List.map_flatMap, List.map_map]
  have hids : (G.vertices.map (fun v => v.id)).Nodup := by
    have : G.vertices.map (fun v => v.id) = List.range G.vertices.length := by
      apply List.ext_getElem?
      intro i
      simp only [List.getElem?_map]
      cases hv : G.vertices[i]? with
      | none =>
        have : G.vertices.length ≤ i := List.getElem?_eq_none_iff.1 hv
        simp [List.getElem?_range, this, List.getElem?_eq_none_iff.2]
      | some v =>
        have h1 := idsArePositions_getElem? G hid i v hv
        have h2 := (List.getElem?_eq_some_iff.1 hv).1
        simp [h1, List.getElem?_range h2]
    rw [this]
    exact List.nodup_range _
  generalize G.vertices.length = n at *
  generalize G.vertices = vs at *
  induction vs with
  | nil => simp
  | cons v rest ih =>
    simp only [List.map_cons, List.nodup_cons] at hids
    simp only [List.flatMap_cons]
    rw [List.nodup_append]
    refine ⟨?_, ih hids.2, ?_⟩
    · apply List.Nodup.map_on
      · intro x _ y _ hxy
        simp only [Function.comp, Prod.mk.injEq, true_and] at hxy
        exact hxy
      · exact List.Nodup.filter _ (List.nodup_range n)
    · intro p hp1 hp2
      simp only [List.mem_map, List.mem_filter, Function.comp, List.mem_flatMap] at hp1 hp2
      obtain ⟨c1, _, rfl⟩ := hp1
      obtain ⟨w, hw, c2, _, h2⟩ := hp2
      simp only [Prod.mk.injEq] at h2
      apply hids.1
      rw [← h2.1]
      exact List.mem_map.2 ⟨w, hw, rfl⟩

theorem toBipartiteMatchingGraph_simpleEdges (G : NonMatchingGraph) (hid : G.IdsArePositions) :
    (toBipartiteMatchingGraph G).SimpleEdges := by
  intro e1 h1 e2 h2 hs ht
  have hnd := toBipartiteMatchingGraph_pairs_nodup G hid
  obtain ⟨i1, x1⟩ := e1
  obtain ⟨i2, x2⟩ := e2
  have g1 := List.mk_mem_enum_iff_getElem?.1 h1
  have g2 := List.mk_mem_enum_iff_getElem?.1 h2
  obtain ⟨l1, k1⟩ := List.getElem?_eq_some_iff.1 g1
  obtain ⟨l2, k2⟩ := List.getElem?_eq_some_iff.1 g2
  have b1 : i1 < ((toBipartiteMatchingGraph G).edges.map
      (fun e => (e.v_source, e.v_target))).length := by simpa using l1
  have b2 : i2 < ((toBipartiteMatchingGraph G).edges.map
      (fun e => (e.v_source, e.v_target))).length := by simpa using l2
  have heq : ((toBipartiteMatchingGraph G).edges.map (fun e => (e.v_source, e.v_target)))[i1] =
      ((toBipartiteMatchingGraph G).edges.map (fun e => (e.v_source, e.v_target)))[i2] := by
    simp only [List.getElem_map, k1, k2, Prod.mk.injEq]
    exact ⟨hs, ht⟩
  have hi : i1 = i2 := (List.Nodup.getElem_inj_iff hnd).1 heq
  subst hi
  rw [g1] at g2
  cases g2
  rfl

end wpm

namespace wpm

/-! ## Bounded scores: counting the tree and summing the labels -/

theorem sum_map_shift (c : Nat → Bool) (f f2 : Nat → Int) (d : Int) :
    ∀ (L : List Nat), (∀ x ∈ L, f2 x = if c x = true then f x + d else f x) →
      (L.map f2).sum = (L.map f).sum + (L.countP c : Int) * d := by
  intro L
  induction L with
  | nil => intro _; simp
  | cons a rest ih =>
    intro h
    have h1 := h a (List.mem_cons_self _ _)
    have h2 := ih (fun x hx => h x (List.mem_cons_of_mem _ hx))
    simp only [List.map_cons, List.sum_cons, List.countP_cons, h1, h2]
    by_cases hc : c a = true
    · simp only [hc, if_true]
      push_cast
      ring
    · simp only [hc, if_false, Bool.false_eq_true]
      push_cast
      ring

/-- The sum of the labels after an update: every source of `S` lost `delta`,
every target of `T` gained it. -/
theorem labelSum_update (l : VertexLabeling) (n : Nat) (delta : Int) (a : AlternatingTree) :
    labelSum n (l.update n delta a).1 =
      labelSum n l - (countS a n : Int) * delta + (countT a n : Int) * delta := by
  unfold labelSum countS countT
  have h1 := sum_map_shift a.set_S l.ls (l.update n delta a).1.ls (-delta) (List.range n)
    (by
      intro x hx
      rw [update_ls]
      have hx2 := List.mem_range.1 hx
      by_cases hc : a.set_S x = true
      · simp only [hx2, hc, and_self, if_true]
        ring
      · simp only [hc, and_false, if_false, Bool.false_eq_true])
  have h2 := sum_map_shift a.set_T l.lt (l.update n delta a).1.lt delta (List.range n)
    (by
      intro x hx
      rw [update_lt]
      have hx2 := List.mem_range.1 hx
      by_cases hc : a.set_T x = true
      · simp only [hx2, hc, and_self, if_true]
      · simp only [hc, and_false, if_false, Bool.false_eq_true])
  rw [h1, h2]
  ring

theorem countP_range_card (p : Nat → Bool) (n : Nat) :
    (List.range n).countP p = ((Finset.range n).filter (fun i => p i = true)).card := by
  simp [Finset.card_def, Finset.filter_val, Finset.range_val, Multiset.range,
    List.countP_eq_length_filter]

/-- The tree holds one source more than targets: the root, and the source
matched to each target. -/
theorem countT_lt_countS {g : BipartiteMatchingGraph} (hg : g.WellFormed) {m : Matching}
    (hm : MatchingInv g m) {a : AlternatingTree} {rank : Nat → Nat} (ht : TreeInv g m a rank)
    (hroot : a.root_exposed_source_vertex < g.ncliques) :
    countT a g.ncliques + 1 ≤ countS a g.ncliques := by
  unfold countT countS
  rw [countP_range_card, countP_range_card]
  have hrootmem : a.root_exposed_source_vertex ∈
      (Finset.range g.ncliques).filter (fun i => a.set_S i = true) := by
    simp [hroot, ht.root_S]
  have hle : ((Finset.range g.ncliques).filter (fun i => a.set_T i = true)).card ≤
      (((Finset.range g.ncliques).filter (fun i => a.set_S i = true)).erase
        a.root_exposed_source_vertex).card := by
    apply Finset.card_le_card_of_injOn (fun t => (m.target_matches t).getD 0)
    · intro t htm
      have htm2 := Finset.mem_filter.1 (Finset.mem_coe.1 htm)
      obtain ⟨_, _, e2, _, _, _, _, _, _, h7, h8, _⟩ := ht.T_inv t htm2.2
      obtain ⟨k1, _, k3⟩ := hm.tgt_edge t e2 h7
      have hval : (m.target_matches t).getD 0 = e2.2.v_source := by
        rw [hm.tgt_match, h7]
        rfl
      show (m.target_matches t).getD 0 ∈ (((Finset.range g.ncliques).filter
        (fun i => a.set_S i = true)).erase a.root_exposed_source_vertex : Set Nat)
      rw [hval]
      apply Finset.mem_coe.2
      apply Finset.mem_erase.2
      refine ⟨?_, Finset.mem_filter.2 ⟨Finset.mem_range.2 (wellFormed_of_mem hg k1).1, h8⟩⟩
      intro hc
      have := ht.root_exposed
      rw [← hc, k3] at this
      cases this
    · intro t1 ht1 t2 ht2 hft
      have hm1 := Finset.mem_filter.1 (Finset.mem_coe.1 ht1)
      have hm2 := Finset.mem_filter.1 (Finset.mem_coe.1 ht2)
      obtain ⟨_, _, e1, _, _, _, _, _, _, h7, _, _⟩ := ht.T_inv t1 hm1.2
      obtain ⟨_, _, e2, _, _, _, _, _, _, k7, _, _⟩ := ht.T_inv t2 hm2.2
      obtain ⟨_, a2, a3⟩ := hm.tgt_edge t1 e1 h7
      obtain ⟨_, b2, b3⟩ := hm.tgt_edge t2 e2 k7
      simp only [hm.tgt_match, h7, k7, Option.map_some', Option.getD_some] at hft
      rw [hft, b3] at a3
      cases a3
      rw [← a2, ← b2]
  rw [Finset.card_erase_of_mem hrootmem] at hle
  have hpos : 0 < ((Finset.range g.ncliques).filter (fun i => a.set_S i = true)).card :=
    Finset.card_pos.2 ⟨_, hrootmem⟩
  omega

/-- A perfect matching leaves the tree: when the tree holds more sources than
targets, one of its edges joins a source of `S` to a target outside `T`. -/
theorem IsPerfectMatching.leaves_tree {g : BipartiteMatchingGraph} {P : List EdgeRef}
    (hP : IsPerfectMatching g P) (a : AlternatingTree)
    (hc : countT a g.ncliques < countS a g.ncliques) :
    ∃ e ∈ P, a.set_S e.2.v_source = true ∧ a.set_T e.2.v_target = false := by
  by_contra hno
  have hall : ∀ e ∈ P, a.set_S e.2.v_source = true → a.set_T e.2.v_target = true := by
    intro e he hS
    by_contra hT
    exact hno ⟨e, he, hS, by simpa using hT⟩
  have h1 : countS a g.ncliques = P.countP (fun e => a.set_S e.2.v_source) := by
    unfold countS
    rw [← hP.sources.countP_eq, List.countP_map]
    rfl
  have h2 : countT a g.ncliques = P.countP (fun e => a.set_T e.2.v_target) := by
    unfold countT
    rw [← hP.targets.countP_eq, List.countP_map]
    rfl
  have h3 : P.countP (fun e => a.set_S e.2.v_source) ≤
      P.countP (fun e => a.set_T e.2.v_target) :=
    List.countP_mono_left (fun e he hS => hall e he hS)
  omega

theorem mem_edges_of_enum {g : BipartiteMatchingGraph} {e : EdgeRef} (he : e ∈ g.edges.enum) :
    e.2 ∈ g.edges := by
  obtain ⟨i, x⟩ := e
  exact List.getElem?_mem (List.mk_mem_enum_iff_getElem?.1 he)

theorem getVertexMaxEdgeScore_le_of (es : List EdgeRef) (B : Int) (hB : INT_MIN ≤ B)
    (h : ∀ e ∈ es, e.2.score ≤ B) : VertexLabeling.getVertexMaxEdgeScore es ≤ B := by
  unfold VertexLabeling.getVertexMaxEdgeScore
  have key : ∀ (es : List EdgeRef) (init : Int), init ≤ B → (∀ e ∈ es, e.2.score ≤ B) →
      es.foldl (fun max_score e => if e.2.score > max_score then e.2.score else max_score)
        init ≤ B := by
    intro es
    induction es with
    | nil => intro init hi _; exact hi
    | cons x rest ih =>
      intro init hi hall
      simp only [List.foldl_cons]
      apply ih
      · split
        · exact hall x (List.mem_cons_self _ _)
        · exact hi
      · exact fun e he => hall e (List.mem_cons_of_mem _ he)
  exact key es INT_MIN hB h

theorem sum_map_nonpos (f : Nat → Int) :
    ∀ (L : List Nat), (∀ x ∈ L, f x ≤ 0) → (L.map f).sum ≤ 0 := by
  intro L
  induction L with
  | nil => intro _; simp
  | cons a rest ih =>
    intro h
    have h1 := h a (List.mem_cons_self _ _)
    have h2 := ih (fun x hx => h x (List.mem_cons_of_mem _ hx))
    simp only [List.map_cons, List.sum_cons]
    omega

/-- The initial labels sum up to at most 0 when no score is positive. -/
theorem labelSum_init_le {g : BipartiteMatchingGraph} {C : Int} (hC : g.ScoresWithin C) :
    labelSum g.ncliques (VertexLabeling.setToTriviallyFeasibleVertexLabeling g) ≤ 0 := by
  unfold labelSum
  have h1 : ((List.range g.ncliques).map
      (VertexLabeling.setToTriviallyFeasibleVertexLabeling g).ls).sum ≤ 0 := by
    apply sum_map_nonpos
    intro x hx
    rw [(setToTriviallyFeasibleVertexLabeling_spec g x).1, if_pos (List.mem_range.1 hx)]
    apply getVertexMaxEdgeScore_le_of _ 0 (by decide)
    intro e he
    exact (hC e.2 (mem_edges_of_enum (mem_sourceEdges.1 he).1)).2
  have h2 : ((List.range g.ncliques).map
      (VertexLabeling.setToTriviallyFeasibleVertexLabeling g).lt).sum ≤ 0 := by
    apply sum_map_nonpos
    intro x _
    rw [(setToTriviallyFeasibleVertexLabeling_spec g x).2]
  omega

theorem sum_map_ge (f : EdgeRef → Int) (C : Int) :
    ∀ (L : List EdgeRef), (∀ x ∈ L, -C ≤ f x) → -((L.length : Int) * C) ≤ (L.map f).sum := by
  intro L
  induction L with
  | nil => intro _; simp
  | cons a rest ih =>
    intro h
    have h1 := h a (List.mem_cons_self _ _)
    have h2 := ih (fun x hx => h x (List.mem_cons_of_mem _ hx))
    simp only [List.map_cons, List.sum_cons, List.length_cons]
    push_cast
    have : ((rest.length : Int) + 1) * C = (rest.length : Int) * C + C := by ring
    omega

/-- A feasible labeling sums up to at least the score of a perfect matching. -/
theorem labelSum_ge {g : BipartiteMatchingGraph} {m : Matching} {l : VertexLabeling}
    (h : LabelOK g m l) {P : List EdgeRef} (hP : IsPerfectMatching g P) {C : Int}
    (hC : g.ScoresWithin C) : -((g.ncliques : Int) * C) ≤ labelSum g.ncliques l := by
  have h1 : (P.map (fun e => e.2.score)).sum ≤
      (P.map (fun e => l.ls e.2.v_source + l.lt e.2.v_target)).sum :=
    List.sum_le_sum (fun e he => h.feasible e (hP.edges_mem e he))
  rw [hP.label_sum l] at h1
  have h2 := sum_map_ge (fun e => e.2.score) C P
    (fun e he => (hC e.2 (mem_edges_of_enum (hP.edges_mem e he))).1)
  have hlen : P.length = g.ncliques := by
    have := hP.sources.length_eq
    simpa using this
  rw [hlen] at h2
  unfold labelSum
  omega

/-- With scores between `-C` and 0 and a perfect matching in the graph, a
feasible labeling that obeys the drop bound has source labels in
`[-(N+1) C, 0]` and target labels in `[0, N C]`. -/
theorem labelRange_of_bound {g : BipartiteMatchingGraph} {m : Matching}
    {l : VertexLabeling} (h : LabelOK g m l) (hb : LabelBound g l) {P : List EdgeRef}
    (hP : IsPerfectMatching g P) {C : Int} (hC : g.ScoresWithin C) : LabelRange g C l := by
  have hsum := labelSum_ge h hP hC
  have h0 := labelSum_init_le hC
  have hinit : ∀ s, s < g.ncliques →
      -C ≤ (VertexLabeling.setToTriviallyFeasibleVertexLabeling g).ls s ∧
        (VertexLabeling.setToTriviallyFeasibleVertexLabeling g).ls s ≤ 0 := by
    intro s hs
    rw [(setToTriviallyFeasibleVertexLabeling_spec g s).1, if_pos hs]
    constructor
    · have hmem : s ∈ P.map (fun e => e.2.v_source) :=
        hP.sources.mem_iff.2 (List.mem_range.2 hs)
      obtain ⟨e, he, hes⟩ := List.mem_map.1 hmem
      have hin := hP.edges_mem e he
      have h1 := getVertexMaxEdgeScore_ge (g.sourceEdges s) e (mem_sourceEdges.2 ⟨hin, hes⟩)
      have h2 := (hC e.2 (mem_edges_of_enum hin)).1
      omega
    · apply getVertexMaxEdgeScore_le_of _ 0 (by decide)
      intro e he
      exact (hC e.2 (mem_edges_of_enum (mem_sourceEdges.1 he).1)).2
  exact
  { ls_ge := by
      intro s hs
      have h1 := hb.drop_ls s hs
      have h2 := (hinit s hs).1
      have : -((g.ncliques : Int) + 1) * C = -((g.ncliques : Int) * C) - C := by ring
      omega
    ls_le := by
      intro s hs
      have h1 := h.ls_le s
      have h2 := (hinit s hs).2
      omega
    lt_ge := fun t _ => h.lt_nonneg t
    lt_le := by
      intro t ht
      have h1 := hb.drop_lt t ht
      omega }

/-- Labels in range: no slack of an edge of the graph overflows. -/
theorem LabelRange.slack_range {g : BipartiteMatchingGraph} (hg : g.WellFormed) {C : Int}
    {l : VertexLabeling} (h : LabelRange g C l) (hC : g.ScoresWithin C)
    (hN : (2 * (g.ncliques : Int) + 2) * C ≤ INT_MAX) :
    ∀ e ∈ g.edges.enum, l.slackOverflows e.2.v_source e = false ∧
      l.ls e.2.v_source + l.lt e.2.v_target - e.2.score ≤ ((g.ncliques : Int) + 1) * C := by
  intro e he
  obtain ⟨w1, w2⟩ := wellFormed_of_mem hg he
  obtain ⟨c1, c2⟩ := hC e.2 (mem_edges_of_enum he)
  have a1 := h.ls_ge _ w1
  have a2 := h.ls_le _ w1
  have a3 := h.lt_ge _ w2
  have a4 := h.lt_le _ w2
  have e1 : -((g.ncliques : Int) + 1) * C = -((g.ncliques : Int) * C) - C := by ring
  have e2 : (2 * (g.ncliques : Int) + 2) * C = 2 * ((g.ncliques : Int) * C) + 2 * C := by ring
  have e3 : ((g.ncliques : Int) + 1) * C = (g.ncliques : Int) * C + C := by ring
  have hC0 : 0 ≤ C := by omega
  have hNC : 0 ≤ (g.ncliques : Int) * C := mul_nonneg (Int.ofNat_nonneg _) hC0
  rw [e1] at a1
  rw [e2] at hN
  rw [e3]
  unfold INT_MAX at hN
  constructor
  · simp only [VertexLabeling.slackOverflows, inIntRange, INT_MIN, INT_MAX, Bool.or_eq_false_iff,
      Bool.not_eq_false', Bool.and_eq_true, decide_eq_true_eq]
    omega
  · omega

end wpm

namespace wpm

/-! ## Bounded scores: the search raises no overflow flag -/

theorem updateWithNewSourceVertex_flag (l : VertexLabeling) (c : Nat) :
    ∀ (es : List EdgeRef) (sa : SlackArray),
      (∀ e ∈ es, l.slackOverflows c e = false) →
      (sa.updateWithNewSourceVertex c es l).2 = false := by
  unfold SlackArray.updateWithNewSourceVertex
  have key : ∀ (es : List EdgeRef) (acc : SlackArray × Bool),
      (∀ e ∈ es, l.slackOverflows c e = false) → acc.2 = false →
      (es.foldl
        (fun (acc : SlackArray × Bool) e =>
          if l.slackOf c e < acc.1.min_slack e.2.v_target then
            ({ min_slack := upd acc.1.min_slack e.2.v_target (l.slackOf c e)
               source_cid := upd acc.1.source_cid e.2.v_target (some c)
               edge_cid := upd acc.1.edge_cid e.2.v_target (some e) },
              acc.2 || l.slackOverflows c e)
          else (acc.1, acc.2 || l.slackOverflows c e)) acc).2 = false := by
    intro es
    induction es with
    | nil => intro acc _ h; exact h
    | cons e rest ih =>
      intro acc hall hacc
      simp only [List.foldl_cons]
      apply ih
      · exact fun x hx => hall x (List.mem_cons_of_mem _ hx)
      · have := hall e (List.mem_cons_self _ _)
        split <;> simp [hacc, this]
  intro es sa h
  exact key es (sa, false) h rfl

theorem slackArray_init_flag (l : VertexLabeling) (c : Nat) :
    ∀ (es : List EdgeRef), (∀ e ∈ es, l.slackOverflows c e = false) →
      (SlackArray.init c es l).2 = false := by
  unfold SlackArray.init
  have key : ∀ (es : List EdgeRef) (acc : SlackArray × Bool),
      (∀ e ∈ es, l.slackOverflows c e = false) → acc.2 = false →
      (es.foldl
        (fun (acc : SlackArray × Bool) e =>
          ({ min_slack := upd acc.1.min_slack e.2.v_target (l.slackOf c e)
             source_cid := upd acc.1.source_cid e.2.v_target (some c)
             edge_cid := upd acc.1.edge_cid e.2.v_target (some e) },
            acc.2 || l.slackOverflows c e)) acc).2 = false := by
    intro es
    induction es with
    | nil => intro acc _ h; exact h
    | cons e rest ih =>
      intro acc hall hacc
      simp only [List.foldl_cons]
      apply ih
      · exact fun x hx => hall x (List.mem_cons_of_mem _ hx)
      · have := hall e (List.mem_cons_self _ _)
        simp [hacc, this]
  intro es h
  exact key es _ h rfl

theorem sourceEdges_no_overflow {g : BipartiteMatchingGraph} {l : VertexLabeling}
    (hno : ∀ e ∈ g.edges.enum, l.slackOverflows e.2.v_source e = false) (c : Nat) :
    ∀ e ∈ g.sourceEdges c, l.slackOverflows c e = false := by
  intro e he
  obtain ⟨h1, h2⟩ := mem_sourceEdges.1 he
  rw [← h2]
  exact hno e h1

/-- Scanning the edges of a source raises no overflow flag. -/
theorem scanSourceEdges_flag {g : BipartiteMatchingGraph} (m : Matching) {l : VertexLabeling}
    (hno : ∀ e ∈ g.edges.enum, l.slackOverflows e.2.v_source e = false) (s : Nat) :
    ∀ (es : List EdgeRef) (st : Search), (∀ e ∈ es, l.slackOverflows s e = false) →
      st.overflow = false → (scanSourceEdges g m l s es st).overflow = false := by
  intro es
  induction es with
  | nil =>
    intro st _ h
    exact h
  | cons e rest ih =>
    intro st hall hov
    have he := hall e (List.mem_cons_self _ _)
    have hrest : ∀ x ∈ rest, l.slackOverflows s x = false :=
      fun x hx => hall x (List.mem_cons_of_mem _ hx)
    simp only [scanSourceEdges]
    by_cases hc : (!st.atree.isInT e.2.v_target && l.slackOf s e == 0) = true
    · rw [if_pos hc]
      by_cases hx : (!m.isTarget e.2.v_target) = true
      · rw [if_pos hx]
        simp [hov, he]
      · rw [if_neg hx]
        cases hte : m.getEdgeFromTarget e.2.v_target with
        | none =>
          simp [hov, he]
        | some e2 =>
          simp only
          apply ih _ hrest
          simp [hov, he,
            updateWithNewSourceVertex_flag l _ _ st.slack (sourceEdges_no_overflow hno _)]
    · rw [if_neg hc]
      apply ih _ hrest
      simp [hov, he]

/-- The first search phase raises no overflow flag. -/
theorem phaseA_flag {g : BipartiteMatchingGraph} (m : Matching) {l : VertexLabeling}
    (hno : ∀ e ∈ g.edges.enum, l.slackOverflows e.2.v_source e = false) :
    ∀ (fuel : Nat) (st st2 : Search), st.overflow = false →
      findAugmentingPathAroundCandidatesSourceVertices g m l fuel st = some st2 →
      st2.overflow = false := by
  intro fuel
  induction fuel with
  | zero =>
    intro st st2 hov hr
    simp only [findAugmentingPathAroundCandidatesSourceVertices] at hr
    split at hr
    · cases hr
      exact hov
    · split at hr
      · cases hr
        exact hov
      · cases hr
  | succ n ih =>
    intro st st2 hov hr
    simp only [findAugmentingPathAroundCandidatesSourceVertices] at hr
    split at hr
    · cases hr
      exact hov
    · split at hr
      · cases hr
        exact hov
      · rename_i s rest _
        apply ih _ st2 _ hr
        exact scanSourceEdges_flag m hno s _ _ (sourceEdges_no_overflow hno s) hov

/-- The second search phase raises no overflow flag. -/
theorem phaseB_flag {g : BipartiteMatchingGraph} (m : Matching) {l : VertexLabeling}
    (hno : ∀ e ∈ g.edges.enum, l.slackOverflows e.2.v_source e = false) :
    ∀ (cs : List Nat) (st : Search), st.overflow = false →
      (findAugmentingPathFromNewReachableTargetVertices g m l cs st).overflow = false := by
  intro cs
  induction cs with
  | nil =>
    intro st h
    exact h
  | cons c rest ih =>
    intro st hov
    simp only [findAugmentingPathFromNewReachableTargetVertices]
    split
    · exact hov
    · split
      · split
        · exact hov
        · split
          · exact hov
          · split
            · apply ih
              simp [hov,
                updateWithNewSourceVertex_flag l _ _ st.slack (sourceEdges_no_overflow hno _)]
            · exact ih _ hov
      · exact ih _ hov

end wpm

namespace wpm

/-! ## Bounded scores: the root, `delta` and the label update -/

theorem scanSourceEdges_root (g : BipartiteMatchingGraph) (m : Matching) (l : VertexLabeling)
    (s : Nat) :
    ∀ (es : List EdgeRef) (st : Search),
      (scanSourceEdges g m l s es st).atree.root_exposed_source_vertex =
        st.atree.root_exposed_source_vertex := by
  intro es
  induction es with
  | nil => intro st; rfl
  | cons e rest ih =>
    intro st
    simp only [scanSourceEdges]
    split
    · split
      · rfl
      · split
        · rfl
        · rw [ih]
          rfl
    · rw [ih]

theorem phaseA_root (g : BipartiteMatchingGraph) (m : Matching) (l : VertexLabeling) :
    ∀ (fuel : Nat) (st st2 : Search),
      findAugmentingPathAroundCandidatesSourceVertices g m l fuel st = some st2 →
      st2.atree.root_exposed_source_vertex = st.atree.root_exposed_source_vertex := by
  intro fuel
  induction fuel with
  | zero =>
    intro st st2 hr
    simp only [findAugmentingPathAroundCandidatesSourceVertices] at hr
    split at hr
    · cases hr
      rfl
    · split at hr
      · cases hr
        rfl
      · cases hr
  | succ n ih =>
    intro st st2 hr
    simp only [findAugmentingPathAroundCandidatesSourceVertices] at hr
    split at hr
    · cases hr
      rfl
    · split at hr
      · cases hr
        rfl
      · rw [ih _ st2 hr, scanSourceEdges_root]

theorem phaseB_root (g : BipartiteMatchingGraph) (m : Matching) (l : VertexLabeling) :
    ∀ (cs : List Nat) (st : Search),
      (findAugmentingPathFromNewReachableTargetVertices g m l cs
        st).atree.root_exposed_source_vertex = st.atree.root_exposed_source_vertex := by
  intro cs
  induction cs with
  | nil => intro st; rfl
  | cons c rest ih =>
    intro st
    simp only [findAugmentingPathFromNewReachableTargetVertices]
    split
    · rfl
    · split
      · split
        · rfl
        · split
          · rfl
          · split
            · rw [ih]
              rfl
            · rw [ih]
              rfl
      · rw [ih]

/-- The slack entry of a candidate lies between 0 and `(N+1) C`. -/
theorem candidate_slack_range {g : BipartiteMatchingGraph} (hg : g.WellFormed) {m : Matching}
    {l : VertexLabeling} {st : Search} {rank : Nat → Nat} (hs : SearchInv g m st rank)
    (h : LabelInv g m l st) {C : Int} (hr : LabelRange g C l) (hC : g.ScoresWithin C)
    (hN : (2 * (g.ncliques : Int) + 2) * C ≤ INT_MAX) (t : Nat)
    (hc : st.slack.isCandidate st.atree t = true) :
    0 ≤ st.slack.min_slack t ∧ st.slack.min_slack t ≤ ((g.ncliques : Int) + 1) * C := by
  simp only [SlackArray.isCandidate, Bool.and_eq_true] at hc
  obtain ⟨s, hsrc⟩ := Option.isSome_iff_exists.1 hc.1
  obtain ⟨_, e, he, hin, hes, het⟩ := hs.slack.some_src t s hsrc
  rw [h.slack_witness t s e hsrc he]
  have h1 := h.ok.feasible e hin
  have h2 := (hr.slack_range hg hC hN e hin).2
  rw [hes, het] at h1 h2
  constructor
  · omega
  · exact h2

/-- With a perfect matching in the graph, `delta` is at most `(N+1) C`. -/
theorem minCostSlack_le {g : BipartiteMatchingGraph} (hg : g.WellFormed) {m : Matching}
    (hm : MatchingInv g m) {l : VertexLabeling} {st : Search} {rank : Nat → Nat}
    (hs : SearchInv g m st rank) (h : LabelInv g m l st) {C : Int} (hr : LabelRange g C l)
    (hC : g.ScoresWithin C) (hN : (2 * (g.ncliques : Int) + 2) * C ≤ INT_MAX)
    {P : List EdgeRef} (hP : IsPerfectMatching g P)
    (hroot : st.atree.root_exposed_source_vertex < g.ncliques) :
    st.slack.minCostSlack st.atree g.ncliques ≤ ((g.ncliques : Int) + 1) * C := by
  have hcount := countT_lt_countS hg hm hs.tree hroot
  obtain ⟨e, heP, hS, hT⟩ := hP.leaves_tree st.atree (by omega)
  have hin := hP.edges_mem e heP
  obtain ⟨_, w2⟩ := wellFormed_of_mem hg hin
  have hsl := (hr.slack_range hg hC hN e hin).2
  obtain ⟨_, hdle, _⟩ := minCostSlack_spec st.slack st.atree g.ncliques
  have e3 : ((g.ncliques : Int) + 1) * C = (g.ncliques : Int) * C + C := by ring
  have e2 : (2 * (g.ncliques : Int) + 2) * C = 2 * ((g.ncliques : Int) * C) + 2 * C := by ring
  rw [e3] at hsl ⊢
  rw [e2] at hN
  have hC0 : 0 ≤ C := by
    have := hC e.2 (mem_edges_of_enum hin)
    omega
  have hNC : 0 ≤ (g.ncliques : Int) * C := mul_nonneg (Int.ofNat_nonneg _) hC0
  unfold INT_MAX at hN
  rcases h.slack_min e hin hS hT with h1 | ⟨x, hx1, _, hx3⟩
  · cases hsrc : st.slack.source_cid e.2.v_target with
    | none =>
      have := hs.slack.none_src _ hsrc
      unfold INT_MAX at this
      omega
    | some s0 =>
      have := hdle _ w2 (by simp [SlackArray.isCandidate, hsrc, AlternatingTree.isInT, hT])
      omega
  · have := hr.lt_le x hx1
    unfold INT_MAX at hx3
    omega

/-- The subtraction of `delta` from the slacks does not overflow. -/
theorem simplifyMinCostSlack_flag {g : BipartiteMatchingGraph} (hg : g.WellFormed)
    {m : Matching} {l : VertexLabeling} {st : Search} {rank : Nat → Nat}
    (hs : SearchInv g m st rank) (h : LabelInv g m l st) {C : Int} (hr : LabelRange g C l)
    (hC : g.ScoresWithin C) (hN : (2 * (g.ncliques : Int) + 2) * C ≤ INT_MAX) :
    (st.slack.simplifyMinCostSlack st.atree g.ncliques).2.2 = false := by
  simp only [SlackArray.simplifyMinCostSlack]
  by_contra hc
  have hflag := (foldl_range_upd_flag (fun i => st.slack.isCandidate st.atree i)
    (fun x => x - st.slack.minCostSlack st.atree g.ncliques)
    (fun x => !inIntRange (x - st.slack.minCostSlack st.atree g.ncliques)) g.ncliques
    st.slack.min_slack false).1 (by simpa using hc)
  rcases hflag with hf | ⟨t, ht, hcand, hbad⟩
  · cases hf
  · obtain ⟨r1, r2⟩ := candidate_slack_range hg hs h hr hC hN t hcand
    obtain ⟨_, hdle, _⟩ := minCostSlack_spec st.slack st.atree g.ncliques
    have hd := hdle t ht hcand
    have hd0 := minCostSlack_nonneg hs h
    have e3 : ((g.ncliques : Int) + 1) * C = (g.ncliques : Int) * C + C := by ring
    have e2 : (2 * (g.ncliques : Int) + 2) * C = 2 * ((g.ncliques : Int) * C) + 2 * C := by
      ring
    rw [e3] at r2
    rw [e2] at hN
    unfold INT_MAX at hN
    simp only [inIntRange, INT_MIN, INT_MAX, Bool.not_eq_true', Bool.and_eq_false_iff,
      decide_eq_false_iff_not] at hbad
    omega

/-- The label update by `delta` does not overflow. -/
theorem update_flag {g : BipartiteMatchingGraph} {C : Int} {l : VertexLabeling}
    (hr : LabelRange g C l) (hN : (2 * (g.ncliques : Int) + 2) * C ≤ INT_MAX) (delta : Int)
    (hd0 : 0 ≤ delta) (hd : delta ≤ ((g.ncliques : Int) + 1) * C) (a : AlternatingTree) :
    (l.update g.ncliques delta a).2 = false := by
  have e1 : -((g.ncliques : Int) + 1) * C = -((g.ncliques : Int) * C) - C := by ring
  have e3 : ((g.ncliques : Int) + 1) * C = (g.ncliques : Int) * C + C := by ring
  have e2 : (2 * (g.ncliques : Int) + 2) * C = 2 * ((g.ncliques : Int) * C) + 2 * C := by ring
  have hC0 : 0 ≤ C := by
    by_contra hneg
    have : ((g.ncliques : Int) + 1) * C < 0 :=
      mul_neg_of_pos_of_neg (by omega) (by omega)
    omega
  rw [e3] at hd
  rw [e2] at hN
  unfold INT_MAX at hN
  simp only [VertexLabeling.update, AlternatingTree.isInS, AlternatingTree.isInT,
    Bool.or_eq_false_iff]
  constructor
  · by_contra hc
    have hflag := (foldl_range_upd_flag (fun i => a.set_S i) (fun x => x - delta)
      (fun x => !inIntRange (x - delta)) g.ncliques l.ls false).1 (by simpa using hc)
    rcases hflag with hf | ⟨s, hs, _, hbad⟩
    · cases hf
    · have a1 := hr.ls_ge s hs
      have a2 := hr.ls_le s hs
      rw [e1] at a1
      simp only [inIntRange, INT_MIN, INT_MAX, Bool.not_eq_true', Bool.and_eq_false_iff,
        decide_eq_false_iff_not] at hbad
      omega
  · by_contra hc
    have hflag := (foldl_range_upd_flag (fun i => a.set_T i) (fun x => x + delta)
      (fun x => !inIntRange (x + delta)) g.ncliques l.lt false).1 (by simpa using hc)
    rcases hflag with hf | ⟨t, ht, _, hbad⟩
    · cases hf
    · have a1 := hr.lt_ge t ht
      have a2 := hr.lt_le t ht
      simp only [inIntRange, INT_MIN, INT_MAX, Bool.not_eq_true', Bool.and_eq_false_iff,
        decide_eq_false_iff_not] at hbad
      omega

/-- The label update keeps the drop bound: the sum of the labels drops by at
least `delta`, and no label moves by more than `delta`. -/
theorem LabelBound.update {g : BipartiteMatchingGraph} {l : VertexLabeling}
    (h : LabelBound g l) (delta : Int) (hd0 : 0 ≤ delta) (a : AlternatingTree)
    (hcount : countT a g.ncliques + 1 ≤ countS a g.ncliques) :
    LabelBound g (l.update g.ncliques delta a).1 := by
  obtain ⟨k, hk⟩ : ∃ k, countS a g.ncliques = countT a g.ncliques + 1 + k :=
    ⟨countS a g.ncliques - (countT a g.ncliques + 1), by omega⟩
  have hsum := labelSum_update l g.ncliques delta a
  rw [hk] at hsum
  push_cast at hsum
  have hk0 : 0 ≤ (k : Int) * delta := mul_nonneg (Int.ofNat_nonneg _) hd0
  have hdrop : labelSum g.ncliques (l.update g.ncliques delta a).1 ≤
      labelSum g.ncliques l - delta := by
    have : labelSum g.ncliques l - ((countT a g.ncliques : Int) + 1 + (k : Int)) * delta +
        (countT a g.ncliques : Int) * delta =
        labelSum g.ncliques l - delta - (k : Int) * delta := by ring
    omega
  exact
  { drop_ls := by
      intro s hs
      have h1 := h.drop_ls s hs
      rw [update_ls]
      split <;> omega
    drop_lt := by
      intro t ht
      have h1 := h.drop_lt t ht
      rw [update_lt]
      split <;> omega }

/-- The initial labeling obeys the drop bound. -/
theorem labelBound_init (g : BipartiteMatchingGraph) :
    LabelBound g (VertexLabeling.setToTriviallyFeasibleVertexLabeling g) where
  drop_ls := by
    intro s _
    omega
  drop_lt := by
    intro t _
    rw [(setToTriviallyFeasibleVertexLabeling_spec g t).2]
    omega

end wpm

namespace wpm

/-! ## Bounded scores: the solver does not overflow -/

/-- With scores between `-C` and 0, `(2 N + 2) C` at most `INT_MAX` and a
perfect matching in the graph, the search loop does not overflow, and the
labeling it returns obeys the drop bound. -/
theorem searchLoop_safe {g : BipartiteMatchingGraph} (hg : g.WellFormed) {m : Matching}
    (hm : MatchingInv g m) {P : List EdgeRef} (hP : IsPerfectMatching g P) {C : Int}
    (hC : g.ScoresWithin C) (hN : (2 * (g.ncliques : Int) + 2) * C ≤ INT_MAX) :
    ∀ (fuel : Nat) (l : VertexLabeling) (st : Search) (rank : Nat → Nat)
      (r : Outcome (Option AlternatingTree × VertexLabeling)),
      SearchInv g m st rank → LabelInv g m l st → LabelBound g l → st.overflow = false →
      st.atree.root_exposed_source_vertex < g.ncliques →
      searchLoop g m fuel l st = r →
      r ≠ Outcome.overflow ∧ ∀ a l1, r = Outcome.done (some a, l1) → LabelBound g l1 := by
  intro fuel
  induction fuel with
  | zero =>
    intro l st rank r _ _ _ _ _ hres
    simp only [searchLoop] at hres
    subst hres
    exact ⟨by simp, by intro a l1 h; cases h⟩
  | succ n ih =>
    intro l st rank r hs hlb hb hov hroot hres
    have hr := labelRange_of_bound hlb.ok hb hP hC
    have hno : ∀ e ∈ g.edges.enum, l.slackOverflows e.2.v_source e = false :=
      fun e he => (hr.slack_range hg hC hN e he).1
    simp only [searchLoop] at hres
    rw [Search.check_pass _ hs.no_fault (by simp [hov])] at hres
    by_cases hfound : st.atree.isAugmentingPathFound = true
    · rw [if_pos hfound] at hres
      subst hres
      refine ⟨by simp, ?_⟩
      intro a l1 h
      simp only [Outcome.done.injEq, Prod.mk.injEq] at h
      rw [← h.2]
      exact hb
    rw [if_neg hfound] at hres
    cases hA : findAugmentingPathAroundCandidatesSourceVertices g m l n st with
    | none =>
      simp only [hA] at hres
      subst hres
      exact ⟨by simp, by intro a l1 h; cases h⟩
    | some st1 =>
      simp only [hA] at hres
      obtain ⟨rank1, hs1⟩ := phaseA_inv hm l n st st1 rank hs hA
      have hlb1 := phaseA_label l n st st1 hlb hA
      have hov1 := phaseA_flag m hno n st st1 hov hA
      have hroot1 : st1.atree.root_exposed_source_vertex < g.ncliques := by
        rw [phaseA_root g m l n st st1 hA]
        exact hroot
      rw [Search.check_pass _ hs1.no_fault (by simp [hov1])] at hres
      by_cases hfound1 : st1.atree.isAugmentingPathFound = true
      · rw [if_pos hfound1] at hres
        subst hres
        refine ⟨by simp, ?_⟩
        intro a l1 h
        simp only [Outcome.done.injEq, Prod.mk.injEq] at h
        rw [← h.2]
        exact hb
      rw [if_neg hfound1] at hres
      have hend1 := end_none_of_not_found hfound1
      have hso := simplifyMinCostSlack_flag hg hs1 hlb1 hr hC hN
      rw [if_neg (by simp [hso])] at hres
      by_cases hdz : ((st1.slack.simplifyMinCostSlack st1.atree g.ncliques).1 == 0) = true
      · rw [if_pos hdz] at hres
        subst hres
        exact ⟨by simp, by intro a l1 h; cases h⟩
      rw [if_neg hdz] at hres
      have hd0 := minCostSlack_nonneg hs1 hlb1
      have hdle := minCostSlack_le hg hm hs1 hlb1 hr hC hN hP hroot1
      have hlo : (l.update g.ncliques (st1.slack.minCostSlack st1.atree g.ncliques)
          st1.atree).2 = false := update_flag hr hN _ hd0 hdle st1.atree
      have hlo1 : (l.update g.ncliques (st1.slack.simplifyMinCostSlack st1.atree g.ncliques).1
          st1.atree).2 = false := hlo
      rw [if_neg (by simp [hlo1])] at hres
      have hB : SearchInv g m
          { queue := st1.queue, atree := st1.atree,
            slack := (st1.slack.simplifyMinCostSlack st1.atree g.ncliques).2.1,
            overflow := st1.overflow, fault := st1.fault } rank1 :=
        { tree := hs1.tree
          queue_S := hs1.queue_S
          slack := simplifyMinCostSlack_refs hs1.slack st1.atree g.ncliques
          no_fault := hs1.no_fault
          path_end := hs1.path_end
          end_not_T := hs1.end_not_T }
      have hLB := LabelInv.update_step hg hm hs1 hlb1 hend1 hlo
      have hb2 : LabelBound g (l.update g.ncliques
          (st1.slack.minCostSlack st1.atree g.ncliques) st1.atree).1 :=
        hb.update _ hd0 st1.atree (countT_lt_countS hg hm hs1.tree hroot1)
      have hr2 := labelRange_of_bound hLB.ok hb2 hP hC
      have hno2 : ∀ e ∈ g.edges.enum, (l.update g.ncliques
          (st1.slack.minCostSlack st1.atree g.ncliques) st1.atree).1.slackOverflows
            e.2.v_source e = false :=
        fun e he => (hr2.slack_range hg hC hN e he).1
      obtain ⟨rank2, hs2⟩ := phaseB_inv hm
        (l.update g.ncliques (st1.slack.minCostSlack st1.atree g.ncliques) st1.atree).1
        (List.range g.ncliques) _ rank1 hB
      have hlb2 := phaseB_label hm
        (l.update g.ncliques (st1.slack.minCostSlack st1.atree g.ncliques) st1.atree).1
        (List.range g.ncliques) _ rank1 hB hLB
      have hov2 := phaseB_flag m hno2 (List.range g.ncliques)
        { queue := st1.queue, atree := st1.atree,
          slack := (st1.slack.simplifyMinCostSlack st1.atree g.ncliques).2.1,
          overflow := st1.overflow, fault := st1.fault } hov1
      have hroot2 := phaseB_root g m
        (l.update g.ncliques (st1.slack.minCostSlack st1.atree g.ncliques) st1.atree).1
        (List.range g.ncliques)
        { queue := st1.queue, atree := st1.atree,
          slack := (st1.slack.simplifyMinCostSlack st1.atree g.ncliques).2.1,
          overflow := st1.overflow, fault := st1.fault }
      simp only at hroot2
      change Search.check (findAugmentingPathFromNewReachableTargetVertices g m
        (l.update g.ncliques (st1.slack.minCostSlack st1.atree g.ncliques) st1.atree).1
        (List.range g.ncliques)
        { queue := st1.queue, atree := st1.atree,
          slack := (st1.slack.simplifyMinCostSlack st1.atree g.ncliques).2.1,
          overflow := st1.overflow, fault := st1.fault }) _ = r at hres
      rw [Search.check_pass _ hs2.no_fault (by simp [hov2])] at hres
      split at hres
      · subst hres
        refine ⟨by simp, ?_⟩
        intro a l1 h
        simp only [Outcome.done.injEq, Prod.mk.injEq] at h
        rw [← h.2]
        exact hb2
      · exact ih _ _ rank2 r hs2 hlb2 hb2 hov2 (by rw [hroot2]; exact hroot1) hres

theorem collectPath_no_overflow (a : AlternatingTree) :
    ∀ (fuel t : Nat) (A : List EdgeRef) (R : List (Option EdgeRef)),
      a.collectPath fuel t A R ≠ Outcome.overflow := by
  intro fuel
  induction fuel with
  | zero =>
    intro t A R
    simp [AlternatingTree.collectPath]
  | succ n ih =>
    intro t A R
    simp only [AlternatingTree.collectPath]
    split
    · split
      · exact ih _ _ _
      · simp
    · simp

theorem applyAugmentingPath_no_overflow (a : AlternatingTree) (fuel : Nat) (m : Matching) :
    a.applyAugmentingPath fuel m ≠ Outcome.overflow := by
  unfold AlternatingTree.applyAugmentingPath
  split
  · simp
  · split
    · simp
    · rename_i h
      exact absurd h (collectPath_no_overflow a _ _ _ _)
    · simp
    · simp

/-- One round does not overflow, and the labeling it leaves obeys the drop
bound. -/
theorem augmentMatching_safe {g : BipartiteMatchingGraph} (hg : g.WellFormed)
    (hs : g.SimpleEdges) {m : Matching} (hm : MatchingInv g m) {P : List EdgeRef}
    (hP : IsPerfectMatching g P) {C : Int} (hC : g.ScoresWithin C)
    (hN : (2 * (g.ncliques : Int) + 2) * C ≤ INT_MAX) {l : VertexLabeling}
    (hl : LabelOK g m l) (hb : LabelBound g l) (order : List Nat)
    (ho : order.Perm (List.range g.ncliques)) (fuel : Nat) :
    augmentMatching g order fuel m l ≠ Outcome.overflow ∧
      ∀ m1 l1, augmentMatching g order fuel m l = Outcome.done (true, m1, l1) →
        LabelBound g l1 := by
  unfold augmentMatching
  split
  · exact ⟨by simp, by intro m1 l1 h; simp at h⟩
  · split
    · exact ⟨by simp, by intro m1 l1 h; cases h⟩
    · rename_i root hroot
      obtain ⟨hmem, hexp⟩ := findExposedSourceVertex_exposed hm hroot
      have hrootN : root < g.ncliques := List.mem_range.1 (ho.mem_iff.1 hmem)
      have hinit := searchInv_init hm root hexp l
      have hlinit := labelInv_init hs hl root
      have hr := labelRange_of_bound hl hb hP hC
      have hno : ∀ e ∈ g.edges.enum, l.slackOverflows e.2.v_source e = false :=
        fun e he => (hr.slack_range hg hC hN e he).1
      have hov0 := slackArray_init_flag l root (g.sourceEdges root)
        (sourceEdges_no_overflow hno root)
      have hsafe := searchLoop_safe hg hm hP hC hN fuel l _ _ _ hinit hlinit hb hov0 hrootN rfl
      simp only
      split
      · exact ⟨by simp, by intro m1 l1 h; cases h⟩
      · rename_i h
        exact absurd h hsafe.1
      · exact ⟨by simp, by intro m1 l1 h; cases h⟩
      · exact ⟨by simp, by intro m1 l1 h; simp at h⟩
      · rename_i a l2 hsearch
        have hb2 := hsafe.2 a l2 hsearch
        split
        · exact ⟨by simp, by intro m1 l1 h; cases h⟩
        · rename_i h
          exact absurd h (applyAugmentingPath_no_overflow _ _ _)
        · exact ⟨by simp, by intro m1 l1 h; cases h⟩
        · refine ⟨by simp, ?_⟩
          intro m1 l1 h
          simp only [Outcome.done.injEq, Prod.mk.injEq, true_and] at h
          rw [← h.2]
          exact hb2

/-- The rounds of `findPerfectMatching` do not overflow. -/
theorem augmentRounds_safe {g : BipartiteMatchingGraph} (hg : g.WellFormed)
    (hs : g.SimpleEdges) {P : List EdgeRef} (hP : IsPerfectMatching g P) {C : Int}
    (hC : g.ScoresWithin C) (hN : (2 * (g.ncliques : Int) + 2) * C ≤ INT_MAX)
    (orders : Nat → List Nat) (ho : ∀ i, (orders i).Perm (List.range g.ncliques))
    (fuel : Nat) :
    ∀ (k i : Nat) (m : Matching) (l : VertexLabeling), MatchingInv g m → LabelOK g m l →
      LabelBound g l → augmentRounds g orders fuel k i m l ≠ Outcome.overflow := by
  intro k
  induction k with
  | zero =>
    intro i m l _ _ _
    simp [augmentRounds]
  | succ k ih =>
    intro i m l hm hl hb
    obtain ⟨h1, h2⟩ := augmentMatching_safe hg hs hm hP hC hN hl hb (orders i) (ho i) fuel
    simp only [augmentRounds]
    split
    · simp
    · rename_i h
      exact absurd h h1
    · simp
    · simp
    · rename_i m1 l1 hround
      obtain ⟨k1, _⟩ := augmentMatching_inv hm (orders i) fuel l l1 hround
      have k2 := augmentMatching_label hg hs hm (orders i) fuel l l1 hl hround
      exact ih (i + 1) m1 l1 k1 k2 (h2 m1 l1 hround)

/-- Bounded scores: on a graph with a perfect matching, scores between `-C`
and 0 and `(2 N + 2) C` at most `INT_MAX`, the solver returns true with `N`
edges for every sequence of clique orders, given fuel for `2 N + 4`
repetitions of each loop. -/
theorem findRandomPerfectMatching_bounded {g : BipartiteMatchingGraph} (hg : g.WellFormed)
    (hs : g.SimpleEdges) {P : List EdgeRef} (hP : IsPerfectMatching g P) {C : Int}
    (hC : g.ScoresWithin C) (hN : (2 * (g.ncliques : Int) + 2) * C ≤ INT_MAX)
    (orders : Nat → List Nat) (ho : ∀ i, (orders i).Perm (List.range g.ncliques))
    (fuel : Nat) (hfuel : 2 * g.ncliques + 4 ≤ fuel) :
    ∃ M, findRandomPerfectMatching g orders fuel = Outcome.done (some M) ∧
      M.length = g.ncliques := by
  have hr : g.ScoresInRange := by
    intro e he
    obtain ⟨c1, c2⟩ := hC e he
    have e2 : (2 * (g.ncliques : Int) + 2) * C = 2 * ((g.ncliques : Int) * C) + 2 * C := by
      ring
    have hC0 : 0 ≤ C := by omega
    have hNC : 0 ≤ (g.ncliques : Int) * C := mul_nonneg (Int.ofNat_nonneg _) hC0
    rw [e2] at hN
    unfold INT_MAX at hN
    simp only [inIntRange, INT_MIN, INT_MAX, Bool.and_eq_true, decide_eq_true_eq]
    omega
  have hsafe := augmentRounds_safe hg hs hP hC hN orders ho fuel g.ncliques 0 Matching.empty
    (VertexLabeling.setToTriviallyFeasibleVertexLabeling g) (matchingInv_empty g)
    (labelOK_init hg) (labelBound_init g)
  rcases findRandomPerfectMatching_total hg hs hr orders ho fuel hfuel with h | ⟨M, h⟩
  · exfalso
    apply hsafe
    unfold findRandomPerfectMatching findPerfectMatching at h
    split at h
    · split at h <;> cases h
    · cases h
    · rename_i h2
      split at h2
      · cases h2
      · assumption
      · cases h2
      · cases h2
      · cases h2
    · cases h
    · cases h
  · obtain ⟨_, _, _, hlen⟩ := findRandomPerfectMatching_inv h
    exact ⟨M, h, hlen⟩

end wpm

namespace wpm

/-! ## Successive solves: what the evolution keeps -/

theorem idsArePositions_of_getElem? (g : NonMatchingGraph)
    (h : ∀ (i : Nat) (v : NMVertex), g.vertices[i]? = some v → v.id = i) :
    g.IdsArePositions := by
  intro p hp
  obtain ⟨i, v⟩ := p
  exact h i v (List.mk_mem_enum_iff_getElem?.1 hp)

/-- The evolution keeps every vertex at the position of its id. -/
theorem updateConstraints_ids (g : NonMatchingGraph) (matching : List Nat) (avoid : Bool)
    (hid : g.IdsArePositions) : (g.updateConstraints matching avoid).IdsArePositions := by
  apply idsArePositions_of_getElem?
  intro i v hv
  rw [updateConstraints_getElem? g matching avoid hid i] at hv
  cases hg : g.vertices[i]? with
  | none =>
    rw [hg] at hv
    cases hv
  | some w =>
    rw [hg] at hv
    simp only [Option.map_some', Option.some.injEq] at hv
    rw [← hv, vertexEvolve_id]
    exact idsArePositions_getElem? g hid i w hg

theorem updateConstraints_length (g : NonMatchingGraph) (matching : List Nat) (avoid : Bool)
    (hid : g.IdsArePositions) :
    (g.updateConstraints matching avoid).vertices.length = g.vertices.length := by
  rw [updateConstraints_eq_map g matching avoid (idsArePositions_getElem? g hid),
    List.length_map]

theorem mem_updateConstraints {g : NonMatchingGraph} {matching : List Nat} {avoid : Bool}
    (hid : g.IdsArePositions) {v : NMVertex}
    (hv : v ∈ (g.updateConstraints matching avoid).vertices) :
    ∃ w ∈ g.vertices, v = vertexEvolve g.vertices.length matching avoid w := by
  rw [updateConstraints_eq_map g matching avoid (idsArePositions_getElem? g hid)] at hv
  obtain ⟨w, hw, rfl⟩ := List.mem_map.1 hv
  exact ⟨w, hw, rfl⟩

theorem decrementCosts_targets (L : List NMEdge) :
    ((NonMatchingGraph.decrementCosts L).map (fun e => e.v_target)).Sublist
      (L.map (fun e => e.v_target)) := by
  induction L with
  | nil => simp [NonMatchingGraph.decrementCosts]
  | cons e rest ih =>
    simp only [NonMatchingGraph.decrementCosts, List.map_cons]
    split
    · exact List.Sublist.cons _ ih
    · split
      · exact List.Sublist.cons₂ _ ih
      · exact List.Sublist.cons₂ _ ih

theorem resetFirstSpec_targets (target N : Nat) (L : List NMEdge) :
    (resetFirstSpec target N L).map (fun e => e.v_target) = L.map (fun e => e.v_target) := by
  induction L with
  | nil => rfl
  | cons e rest ih =>
    simp only [resetFirstSpec]
    split
    · simp
    · simp [ih]

theorem evolveSpec_targets_nodup (N i target : Nat) (L : List NMEdge)
    (h : (L.map (fun e => e.v_target)).Nodup) :
    ((evolveSpec N i target L).map (fun e => e.v_target)).Nodup := by
  have hdec : ((decaySpec L).map (fun e => e.v_target)).Nodup := by
    rw [← decrementCosts_eq_decaySpec]
    exact h.sublist (decrementCosts_targets L)
  unfold evolveSpec
  split
  · rw [resetFirstSpec_targets]
    exact hdec
  · rename_i hany
    rw [List.map_append, List.nodup_append]
    refine ⟨hdec, by simp, ?_⟩
    intro x hx1 hx2
    simp only [List.map_cons, List.map_nil, List.mem_singleton] at hx2
    subst hx2
    obtain ⟨e, he, het⟩ := List.mem_map.1 hx1
    apply hany
    exact List.any_eq_true.2 ⟨e, he, by simpa using het⟩

theorem vertexEvolve_targets_nodup (N : Nat) (matching : List Nat) (avoid : Bool)
    (v : NMVertex) (h : (v.constraints.map (fun e => e.v_target)).Nodup) :
    ((vertexEvolve N matching avoid v).constraints.map (fun e => e.v_target)).Nodup := by
  have hev := evolveSpec_targets_nodup N v.id (matching.getD v.id 0) v.constraints h
  rcases vertexEvolve_constraints N matching avoid v with h1 | h1
  · rw [h1]
    exact hev
  · rw [h1]
    exact hev.sublist (List.Sublist.map _ (List.filter_sublist _))

/-- The evolution stores no second edge to a target. -/
theorem updateConstraints_distinct (g : NonMatchingGraph) (matching : List Nat) (avoid : Bool)
    (hid : g.IdsArePositions) (hdt : g.DistinctTargets) :
    (g.updateConstraints matching avoid).DistinctTargets := by
  intro v hv
  obtain ⟨w, hw, rfl⟩ := mem_updateConstraints hid hv
  exact vertexEvolve_targets_nodup _ _ _ w (hdt w hw)

/-- After the evolution every finite cost is at most `max B N`. -/
theorem updateConstraints_within (g : NonMatchingGraph) (matching : List Nat) (avoid : Bool)
    (hid : g.IdsArePositions) (B : Nat) (hB : g.FiniteCostsWithin B) :
    (g.updateConstraints matching avoid).FiniteCostsWithin (max B g.vertices.length) := by
  intro v hv e he hfin
  obtain ⟨w, hw, rfl⟩ := mem_updateConstraints hid hv
  rcases mem_vertexEvolve he with h1 | ⟨h1, _⟩ | ⟨e0, he0, _, h3, h4⟩
  · rw [h1]
    exact le_max_right _ _
  · exact absurd h1 hfin
  · have := hB w hw e0 he0 h3
    have h5 : e.cost ≤ B := by omega
    exact le_trans h5 (le_max_left _ _)

/-! ## Successive solves: the scores of the converted graph -/

theorem convertNMCostToBMScore_small (c : Nat) (h : c < 2147483648) :
    convertNMCostToBMScore c = -(c : Int) := by
  have hmod : c % (UINT_MAX + 1) = c := Nat.mod_eq_of_lt (by unfold UINT_MAX; omega)
  have ht : toInt32 c = (c : Int) := by
    unfold toInt32
    rw [hmod, if_pos h]
  unfold convertNMCostToBMScore
  rw [ht]
  have h1 : c ≠ UINT_MAX := by unfold UINT_MAX; omega
  have h2 : (c : Int) ≠ INT_MIN := by unfold INT_MIN; omega
  rw [if_neg h1, if_neg h2]

theorem convertNMCostToBMScore_max : convertNMCostToBMScore UINT_MAX = INT_MIN := by
  simp [convertNMCostToBMScore]

theorem scoreMatchingCandidates_within (v : NMVertex) (C : Nat) (hC : C < 2147483648)
    (h : ∀ e ∈ v.constraints, e.cost ≠ UINT_MAX → e.cost ≤ C) (j : Nat) :
    scoreMatchingCandidates v j = INT_MIN ∨
      (-(C : Int) ≤ scoreMatchingCandidates v j ∧ scoreMatchingCandidates v j ≤ 0) := by
  unfold scoreMatchingCandidates
  have key : ∀ (cs : List NMEdge) (init : Nat → Int),
      (∀ e ∈ cs, e.cost ≠ UINT_MAX → e.cost ≤ C) →
      (∀ j, init j = INT_MIN ∨ (-(C : Int) ≤ init j ∧ init j ≤ 0)) →
      ∀ j, cs.foldl
          (fun scores e => upd scores e.v_target (convertNMCostToBMScore e.cost)) init j =
            INT_MIN ∨
        (-(C : Int) ≤ cs.foldl
          (fun scores e => upd scores e.v_target (convertNMCostToBMScore e.cost)) init j ∧
        cs.foldl
          (fun scores e => upd scores e.v_target (convertNMCostToBMScore e.cost)) init j ≤
            0) := by
    intro cs
    induction cs with
    | nil => intro init _ hi j; exact hi j
    | cons c rest ih =>
      intro init hcs hi j
      simp only [List.foldl_cons]
      apply ih _ (fun e he => hcs e (List.mem_cons_of_mem _ he))
      intro k
      simp only [upd_apply]
      split
      · by_cases hinf : c.cost = UINT_MAX
        · left
          rw [hinf]
          exact convertNMCostToBMScore_max
        · right
          have hle := hcs c (List.mem_cons_self _ _) hinf
          rw [convertNMCostToBMScore_small c.cost (by omega)]
          omega
      · exact hi k
  apply key _ _ h
  intro k
  simp only [upd_apply]
  split
  · left
    rfl
  · right
    omega

/-- With finite costs at most `C < 2^31` the scores of the converted graph lie
between `-C` and 0. -/
theorem toBipartiteMatchingGraph_scoresWithin (G : NonMatchingGraph) (C : Nat)
    (hC : C < 2147483648) (h : G.FiniteCostsWithin C) :
    (toBipartiteMatchingGraph G).ScoresWithin (C : Int) := by
  intro e he
  obtain ⟨v, hv, _, _, h3, h4⟩ := (mem_toBipartiteMatchingGraph G e).1 he
  rcases scoreMatchingCandidates_within v C hC (h v hv) e.v_target with h5 | h5
  · exact absurd h5 h4
  · rw [h3]
    exact h5

end wpm

namespace wpm

/-! ## Successive solves: the matching just used stays available -/

theorem exists_edge_list (g : BipartiteMatchingGraph) (t : Nat → Nat) :
    ∀ (L : List Nat),
      (∀ i ∈ L, ∃ e ∈ g.edges.enum, e.2.v_source = i ∧ e.2.v_target = t i) →
      ∃ P : List EdgeRef, (∀ e ∈ P, e ∈ g.edges.enum) ∧
        P.map (fun e => e.2.v_source) = L ∧ P.map (fun e => e.2.v_target) = L.map t := by
  intro L
  induction L with
  | nil =>
    intro _
    exact ⟨[], by simp, rfl, rfl⟩
  | cons i rest ih =>
    intro h
    obtain ⟨e, he, h1, h2⟩ := h i (List.mem_cons_self _ _)
    obtain ⟨P, p1, p2, p3⟩ := ih (fun j hj => h j (List.mem_cons_of_mem _ hj))
    refine ⟨e :: P, ?_, ?_, ?_⟩
    · intro x hx
      rcases List.mem_cons.1 hx with hx | hx
      · rw [hx]
        exact he
      · exact p1 x hx
    · simp [h1, p2]
    · simp [h2, p3]

theorem map_getD_range (M : List Nat) :
    (List.range M.length).map (fun i => M.getD i 0) = M := by
  apply List.ext_getElem
  · simp
  · intro i h1 h2
    simp [List.getD_eq_getElem?_getD, List.getElem?_eq_getElem h2]

/-- An assignment that is a permutation of the cliques and uses edges of the
graph only is a perfect matching of the graph. -/
theorem isPerfectMatching_of_assignment (g : BipartiteMatchingGraph) (M : List Nat)
    (hM : M.Perm (List.range g.ncliques))
    (h : ∀ i, i < g.ncliques → ∃ x ∈ g.edges, x.v_source = i ∧ x.v_target = M.getD i 0) :
    ∃ P, IsPerfectMatching g P := by
  obtain ⟨P, p1, p2, p3⟩ := exists_edge_list g (fun i => M.getD i 0) (List.range g.ncliques)
    (by
      intro i hi
      obtain ⟨x, hx, h1, h2⟩ := h i (List.mem_range.1 hi)
      obtain ⟨k, hk⟩ := List.mem_iff_getElem?.1 hx
      exact ⟨(k, x), List.mk_mem_enum_iff_getElem?.2 hk, h1, h2⟩)
  have hlen : M.length = g.ncliques := by
    have := hM.length_eq
    simpa using this
  refine ⟨P, ⟨p1, ?_, ?_⟩⟩
  · rw [p2]
  · rw [p3, ← hlen, map_getD_range, hlen]
    exact hM

/-- After the evolution with a permutation `M`, the converted graph holds the
edge `i -> M[i]` with score `-N` for every `i`. -/
theorem evolved_has_edge (G : NonMatchingGraph) (hid : G.IdsArePositions)
    (hdt : G.DistinctTargets) (M : List Nat) (hM : M.Perm (List.range G.vertices.length))
    (hN : G.vertices.length < 2147483648) (avoid : Bool) (i : Nat)
    (hi : i < G.vertices.length) :
    (⟨-(G.vertices.length : Int), i, M.getD i 0⟩ : BMEdge) ∈
      (toBipartiteMatchingGraph (G.updateConstraints M avoid)).edges := by
  have hlen := updateConstraints_length G M avoid hid
  have hw : G.vertices[i]? = some G.vertices[i] := List.getElem?_eq_getElem hi
  have hwid := idsArePositions_getElem? G hid i _ hw
  have hv : (G.updateConstraints M avoid).vertices[i]? =
      some (vertexEvolve G.vertices.length M avoid G.vertices[i]) := by
    rw [updateConstraints_getElem? G M avoid hid i, hw]
    rfl
  obtain ⟨e, he, het, hec⟩ := vertexEvolve_has G.vertices.length (by omega) M avoid G.vertices[i]
  rw [hwid] at het
  have hnd := vertexEvolve_targets_nodup G.vertices.length M avoid G.vertices[i]
    (hdt _ (List.getElem_mem _))
  have hscore : scoreMatchingCandidates (vertexEvolve G.vertices.length M avoid G.vertices[i])
      (M.getD i 0) = -(G.vertices.length : Int) := by
    unfold scoreMatchingCandidates
    rw [← het, foldl_upd_mem _ _ hnd e he, hec, convertNMCostToBMScore_small _ hN]
  have htgt : M.getD i 0 < G.vertices.length := by
    have hlenM : M.length = G.vertices.length := by
      have := hM.length_eq
      simpa using this
    have hmem : M.getD i 0 ∈ M := by
      rw [List.getD_eq_getElem?_getD, List.getElem?_eq_getElem (by omega)]
      exact List.getElem_mem _
    exact List.mem_range.1 (hM.mem_iff.1 hmem)
  apply (mem_toBipartiteMatchingGraph _ _).2
  refine ⟨_, List.getElem?_mem hv, ?_, ?_, ?_, ?_⟩
  · simp only [vertexEvolve_id]
    exact hwid.symm
  · rw [hlen]
    exact htgt
  · exact hscore.symm
  · simp only [hscore]
    unfold INT_MIN
    omega

/-- After the evolution with a permutation `M`, the pairs just used form a
perfect matching of the converted graph. -/
theorem evolved_has_matching (G : NonMatchingGraph) (hid : G.IdsArePositions)
    (hdt : G.DistinctTargets) (M : List Nat) (hM : M.Perm (List.range G.vertices.length))
    (hN : G.vertices.length < 2147483648) (avoid : Bool) :
    ∃ P, IsPerfectMatching (toBipartiteMatchingGraph (G.updateConstraints M avoid)) P := by
  have hlen := updateConstraints_length G M avoid hid
  have hnc : (toBipartiteMatchingGraph (G.updateConstraints M avoid)).ncliques =
      G.vertices.length := by
    rw [(toBipartiteMatchingGraph_edges _).1, hlen]
  apply isPerfectMatching_of_assignment _ M (by rw [hnc]; exact hM)
  intro i hi
  rw [hnc] at hi
  exact ⟨_, evolved_has_edge G hid hdt M hM hN avoid i hi, rfl, rfl⟩

/-- A run of the solver on a converted graph that returned true returned a
perfect matching of the graph, and its generic form is a permutation. -/
theorem solved_perm {G : NonMatchingGraph} (hid : G.IdsArePositions)
    {orders : Nat → List Nat} {fuel : Nat} {E : List EdgeRef}
    (h : findRandomPerfectMatching (toBipartiteMatchingGraph G) orders fuel =
      Outcome.done (some E)) :
    (toGenericMatching E).Perm (List.range G.vertices.length) ∧
      IsPerfectMatching (toBipartiteMatchingGraph G) E := by
  obtain ⟨m, hm, hE, hlen⟩ := findRandomPerfectMatching_inv h
  have hg := toBipartiteMatchingGraph_wellFormed G hid
  subst hE
  have hp := (genericMatching_perm hm hg hlen).1
  rw [(toBipartiteMatchingGraph_edges G).1] at hp
  exact ⟨hp, hm.isPerfect hg hlen⟩

/-- What every graph reached by solve-then-evolve iterations keeps: the
data-model invariants, the cost bound, the number of vertices, and a perfect
matching in the converted graph. -/
theorem solveEvolve_inv (G : NonMatchingGraph) (B : Nat) (hid : G.IdsArePositions)
    (hdt : G.DistinctTargets) (hB : G.FiniteCostsWithin B)
    (hN : G.vertices.length < 2147483648)
    (hP : ∃ P, IsPerfectMatching (toBipartiteMatchingGraph G) P)
    (G1 : NonMatchingGraph) (h : SolveEvolve G G1) :
    G1.IdsArePositions ∧ G1.DistinctTargets ∧
      G1.FiniteCostsWithin (max B G.vertices.length) ∧
      G1.vertices.length = G.vertices.length ∧
      ∃ P, IsPerfectMatching (toBipartiteMatchingGraph G1) P := by
  induction h with
  | start =>
    exact ⟨hid, hdt, fun v hv e he hf => le_trans (hB v hv e he hf) (le_max_left _ _), rfl, hP⟩
  | step G2 orders fuel E _ hsolve ih =>
    obtain ⟨i1, i2, i3, i4, _⟩ := ih
    obtain ⟨hperm, _⟩ := solved_perm i1 hsolve
    refine ⟨updateConstraints_ids _ _ _ i1, updateConstraints_distinct _ _ _ i1 i2, ?_, ?_, ?_⟩
    · have := updateConstraints_within G2 (toGenericMatching E) true i1 _ i3
      rw [i4, max_assoc, max_self] at this
      exact this
    · rw [updateConstraints_length _ _ _ i1, i4]
    · exact evolved_has_matching G2 i1 i2 _ hperm (by rw [i4]; exact hN) true

end wpm

namespace wpm

/-! ## Successive solves -/

/-- C16, counterexample. The graph `successiveSolveExample` satisfies the
data-model invariants (ids at their positions, no self-edge, no second edge to a
target, positive costs) and its finite costs are below `2^31`. Solving its
converted graph with the root picks 0, 1, 2, 3 returns true with the matching
`[2, 0, 3, 1]`. After `updateConstraints([2, 0, 3, 1], true)` the solve with the
root picks 1, 2, 3, 0 does not return true for any fuel: in the round of root 0
the slack of the edge `0 -> 3`, `-4 + 8 + 2147483646`, leaves the `int` range. -/
theorem successive_solve_overflows :
    successiveSolveExample.IdsArePositions ∧ successiveSolveExample.DistinctTargets ∧
    (∀ v ∈ successiveSolveExample.vertices, ∀ e ∈ v.constraints,
      e.v_target ≠ v.id ∧ 1 ≤ e.cost ∧ (e.cost ≠ UINT_MAX → e.cost < 2147483648)) ∧
    findRandomPerfectMatching (toBipartiteMatchingGraph successiveSolveExample)
      (fun _ => [0, 1, 2, 3]) 12 =
      Outcome.done (some [(0, ⟨0, 0, 2⟩), (2, ⟨0, 1, 0⟩), (5, ⟨0, 2, 3⟩), (7, ⟨0, 3, 1⟩)]) ∧
    toGenericMatching [(0, ⟨0, 0, 2⟩), (2, ⟨0, 1, 0⟩), (5, ⟨0, 2, 3⟩), (7, ⟨0, 3, 1⟩)] =
      [2, 0, 3, 1] ∧
    (successiveSolveExample.updateConstraints [2, 0, 3, 1] true).vertices =
      [⟨0, [⟨0, 1, UINT_MAX⟩, ⟨0, 3, 2147483646⟩, ⟨0, 2, 4⟩]⟩,
        ⟨1, [⟨1, 2, UINT_MAX⟩, ⟨1, 0, 4⟩]⟩,
        ⟨2, [⟨2, 0, 2147483646⟩, ⟨2, 1, UINT_MAX⟩, ⟨2, 3, 4⟩]⟩,
        ⟨3, [⟨3, 2, UINT_MAX⟩, ⟨3, 1, 4⟩]⟩] ∧
    ∀ fuel : Nat,
      findRandomPerfectMatching
          (toBipartiteMatchingGraph (successiveSolveExample.updateConstraints [2, 0, 3, 1] true))
          (fun _ => [1, 2, 3, 0]) fuel = Outcome.overflow ∨
        findRandomPerfectMatching
          (toBipartiteMatchingGraph (successiveSolveExample.updateConstraints [2, 0, 3, 1] true))
          (fun _ => [1, 2, 3, 0]) fuel = Outcome.running := by
  refine ⟨by decide, by decide, by decide, by rfl, by decide, by decide, ?_⟩
  intro fuel
  match fuel with
  | 0 | 1 | 2 | 3 => exact Or.inr (by rfl)
  | 4 | 5 | 6 | 7 | 8 | 9 | 10 | 11 => exact Or.inl (by rfl)
  | n + 12 => exact Or.inl (by rfl)

/-- C16, amended. Let `G` be a constraint graph whose vertices are stored at
the position of their id, that stores no two edges from a vertex to the same
target, and whose finite costs are at most `B`, with
`(2 N + 2) * max(B, N) < 2^31`. If one solve of the converted graph of `G`
returned true, then for every graph `G1` reached from `G` by any number of
solve-then-evolve iterations (`updateConstraints` with the matching found and
`avoid_deterministic_matching = true`; `G` itself and the graph after the first
iteration included), every solve of the converted graph of `G1` returns true
with `N` edges, for every sequence of root picks and fuel for `2 N + 4`
repetitions of each loop. -/
theorem successive_solves_succeed (G : NonMatchingGraph) (B : Nat) (hid : G.IdsArePositions)
    (hdt : G.DistinctTargets) (hB : G.FiniteCostsWithin B)
    (hN : (2 * G.vertices.length + 2) * max B G.vertices.length < 2147483648)
    (orders0 : Nat → List Nat) (fuel0 : Nat) (E0 : List EdgeRef)
    (h0 : findRandomPerfectMatching (toBipartiteMatchingGraph G) orders0 fuel0 =
      Outcome.done (some E0))
    (G1 : NonMatchingGraph) (hreach : SolveEvolve G G1) (orders : Nat → List Nat)
    (ho : ∀ i, (orders i).Perm (List.range G.vertices.length)) (fuel : Nat)
    (hfuel : 2 * G.vertices.length + 4 ≤ fuel) :
    ∃ E, findRandomPerfectMatching (toBipartiteMatchingGraph G1) orders fuel =
        Outcome.done (some E) ∧ E.length = G.vertices.length := by
  have hmax : max B G.vertices.length ≤ (2 * G.vertices.length + 2) * max B G.vertices.length :=
    Nat.le_mul_of_pos_left _ (by omega)
  have hNlt : G.vertices.length < 2147483648 :=
    lt_of_le_of_lt (le_trans (le_max_right _ _) hmax) hN
  have hClt : max B G.vertices.length < 2147483648 := lt_of_le_of_lt hmax hN
  obtain ⟨i1, i2, i3, i4, P, hP⟩ := solveEvolve_inv G B hid hdt hB hNlt
    ⟨E0, (solved_perm hid h0).2⟩ G1 hreach
  have hnc : (toBipartiteMatchingGraph G1).ncliques = G.vertices.length := by
    rw [(toBipartiteMatchingGraph_edges G1).1, i4]
  have hbound : (2 * ((toBipartiteMatchingGraph G1).ncliques : Int) + 2) *
      ((max B G.vertices.length : Nat) : Int) ≤ INT_MAX := by
    rw [hnc]
    have h1 : (2 * G.vertices.length + 2) * max B G.vertices.length ≤ 2147483647 := by omega
    unfold INT_MAX
    exact_mod_cast h1
  obtain ⟨E, hE, hlen⟩ := findRandomPerfectMatching_bounded
    (toBipartiteMatchingGraph_wellFormed G1 i1) (toBipartiteMatchingGraph_simpleEdges G1 i1) hP
    (toBipartiteMatchingGraph_scoresWithin G1 _ hClt i3) hbound orders
    (by rw [hnc]; exact ho) fuel (by rw [hnc]; exact hfuel)
  exact ⟨E, hE, by rw [hlen, hnc]⟩

/-- Witness of C16 (amended) on the graph of the test `FindSuccessiveMatch`
(5 vertices, infinite costs only, `B = 0`): the first solve with the root picks
0, 1, 2, 3, 4 returns the matching `[1, 0, 3, 4, 2]`, and the solve of the graph
evolved with it succeeds with the root picks 4, 3, 2, 1, 0. -/
theorem successive_solves_succeed_witness :
    successiveMatchGraph.IdsArePositions ∧ successiveMatchGraph.DistinctTargets ∧
    successiveMatchGraph.FiniteCostsWithin 0 ∧
    (2 * successiveMatchGraph.vertices.length + 2) * max 0 successiveMatchGraph.vertices.length <
      2147483648 ∧
    findRandomPerfectMatching (toBipartiteMatchingGraph successiveMatchGraph)
      (fun _ => [0, 1, 2, 3, 4]) 14 =
      Outcome.done (some [(0, ⟨0, 0, 1⟩), (2, ⟨0, 1, 0⟩), (6, ⟨0, 2, 3⟩), (10, ⟨0, 3, 4⟩),
        (12, ⟨0, 4, 2⟩)]) ∧
    SolveEvolve successiveMatchGraph
      (successiveMatchGraph.updateConstraints
        (toGenericMatching [(0, ⟨0, 0, 1⟩), (2, ⟨0, 1, 0⟩), (6, ⟨0, 2, 3⟩), (10, ⟨0, 3, 4⟩),
          (12, ⟨0, 4, 2⟩)]) true) ∧
    (∀ i : Nat, ((fun _ => [4, 3, 2, 1, 0]) i : List Nat).Perm
      (List.range successiveMatchGraph.vertices.length)) ∧
    2 * successiveMatchGraph.vertices.length + 4 ≤ 14 ∧
    ∃ E, findRandomPerfectMatching
        (toBipartiteMatchingGraph (successiveMatchGraph.updateConstraints
          (toGenericMatching [(0, ⟨0, 0, 1⟩), (2, ⟨0, 1, 0⟩), (6, ⟨0, 2, 3⟩), (10, ⟨0, 3, 4⟩),
            (12, ⟨0, 4, 2⟩)]) true))
        (fun _ => [4, 3, 2, 1, 0]) 14 = Outcome.done (some E) ∧
      E.length = successiveMatchGraph.vertices.length :=
  ⟨by decide, by decide, by decide, by decide, by rfl,
    SolveEvolve.step _ (fun _ => [0, 1, 2, 3, 4]) 14 _ SolveEvolve.start (by rfl),
    fun _ =>
      (by decide : [4, 3, 2, 1, 0].Perm (List.range successiveMatchGraph.vertices.length)),
    by decide,
    successive_solves_succeed successiveMatchGraph 0 (by decide) (by decide) (by decide)
      (by decide) (fun _ => [0, 1, 2, 3, 4]) 14 _ (by rfl) _
      (SolveEvolve.step _ (fun _ => [0, 1, 2, 3, 4]) 14 _ SolveEvolve.start (by rfl))
      (fun _ => [4, 3, 2, 1, 0])
      (fun _ =>
        (by decide : [4, 3, 2, 1, 0].Perm (List.range successiveMatchGraph.vertices.length)))
      14 (by decide)⟩

end wpm

namespace wpm

/-! ## The encoding of costs as scores -/

/-- C27, counterexample. The finite cost 3000000000 lies in `1 .. 4294967294`,
and its score is `1294967296`, not `-3000000000`: the cast to `int` wraps. The
finite cost `2^31` is encoded as `S_MIN`, the score of the infinite cost, and
does not come back. -/
theorem cost_encoding_wraps :
    1 ≤ 3000000000 ∧ 3000000000 ≤ 4294967294 ∧
    convertNMCostToBMScore 3000000000 = 1294967296 ∧
    convertNMCostToBMScore 3000000000 ≠ -((3000000000 : Nat) : Int) ∧
    convertNMCostToBMScore 2147483648 = INT_MIN ∧
    convertBMScoreToNMCost (convertNMCostToBMScore 2147483648) ≠ 2147483648 := by
  decide

theorem convertBMScoreToNMCost_neg (c : Nat) (h : c ≤ 2147483647) :
    convertBMScoreToNMCost (-(c : Int)) = c := by
  unfold convertBMScoreToNMCost INT_MIN
  rw [if_neg (by omega), neg_neg]
  have h1 : ((c : Int)) % 4294967296 = (c : Int) := Int.emod_eq_of_lt (by omega) (by omega)
  rw [h1]
  simp

/-- C27, amended. For every finite cost `c` with `1 <= c <= 2^31 - 1` the score
is `-c`, differs from `S_MIN`, and converts back to `c`; the infinite cost maps to
`S_MIN` and back. -/
theorem cost_encoding_lossless (c : Nat) (h1 : 1 ≤ c) (h2 : c ≤ 2147483647) :
    convertNMCostToBMScore c = -(c : Int) ∧ convertNMCostToBMScore c ≠ INT_MIN ∧
    convertBMScoreToNMCost (convertNMCostToBMScore c) = c ∧
    convertNMCostToBMScore UINT_MAX = INT_MIN ∧ convertBMScoreToNMCost INT_MIN = UINT_MAX := by
  have hs := convertNMCostToBMScore_small c (by omega)
  refine ⟨hs, ?_, ?_, convertNMCostToBMScore_max, by decide⟩
  · rw [hs]
    unfold INT_MIN
    omega
  · rw [hs]
    exact convertBMScoreToNMCost_neg c h2

/-- Witness of C27 (amended) at the largest cost, `2^31 - 1`. -/
theorem cost_encoding_lossless_witness :
    1 ≤ 2147483647 ∧ 2147483647 ≤ 2147483647 ∧
    convertNMCostToBMScore 2147483647 = -((2147483647 : Nat) : Int) ∧
    convertNMCostToBMScore 2147483647 ≠ INT_MIN ∧
    convertBMScoreToNMCost (convertNMCostToBMScore 2147483647) = 2147483647 ∧
    convertNMCostToBMScore UINT_MAX = INT_MIN ∧ convertBMScoreToNMCost INT_MIN = UINT_MAX :=
  ⟨by decide, by decide, cost_encoding_lossless 2147483647 (by decide) (by decide)⟩

/-! ## The validity check -/

/-- The first loop of the validity check from position `k` on: it fails exactly
when a target repeats, and otherwise flags the positions visited and the
targets met. -/
theorem checkMatchingEntries_spec (M : List Nat) :
    ∀ (rest : List Nat) (k : Nat) (first second : Nat → Bool),
      (∀ i, k ≤ i → first i = false) →
      (checkMatchingEntries M rest k first second = none ↔
          ¬ (rest.Nodup ∧ ∀ t ∈ rest, second t = false)) ∧
      ∀ f s, checkMatchingEntries M rest k first second = some (f, s) →
        (∀ i, f i = true ↔ (first i = true ∨ (k ≤ i ∧ i < k + rest.length))) ∧
        (∀ t, s t = true ↔ (second t = true ∨ t ∈ rest)) := by
  intro rest
  induction rest with
  | nil =>
    intro k first second _
    simp only [checkMatchingEntries, List.nodup_nil, List.not_mem_nil, false_implies,
      implies_true, and_self, not_true_eq_false, iff_false, List.length_nil, add_zero,
      Option.some.injEq, Prod.mk.injEq, or_false]
    refine ⟨by simp, ?_⟩
    rintro f s ⟨rfl, rfl⟩
    refine ⟨fun i => ?_, fun t => Iff.rfl⟩
    constructor
    · exact fun h => Or.inl h
    · rintro (h | h)
      · exact h
      · omega
  | cons t rest ih =>
    intro k first second hfirst
    have hk : first k = false := hfirst k (le_refl _)
    simp only [checkMatchingEntries, hk, Bool.false_eq_true, if_false]
    by_cases ht : second t = true
    · simp only [ht, if_true, true_iff]
      refine ⟨?_, by intro f s h; cases h⟩
      intro hc
      have := hc.2 t (List.mem_cons_self _ _)
      rw [ht] at this
      cases this
    · have htf : second t = false := by simpa using ht
      simp only [htf, Bool.false_eq_true, if_false]
      obtain ⟨i1, i2⟩ := ih (k + 1) (upd first k true) (upd second t true)
        (by
          intro i hi
          rw [upd_apply, if_neg (by omega)]
          exact hfirst i (by omega))
      constructor
      · rw [i1]
        apply not_congr
        simp only [List.nodup_cons, List.mem_cons, forall_eq_or_imp, upd_apply]
        constructor
        · rintro ⟨h1, h2⟩
          refine ⟨⟨?_, h1⟩, htf, ?_⟩
          · intro hmem
            simpa using h2 t hmem
          · intro x hx
            have := h2 x hx
            by_cases hxt : x = t
            · simp [hxt] at this
            · simpa [hxt] using this
        · rintro ⟨⟨h1, h2⟩, _, h4⟩
          refine ⟨h2, ?_⟩
          intro x hx
          have hxt : x ≠ t := fun hc => h1 (hc ▸ hx)
          simp only [hxt, if_false]
          exact h4 x hx
      · intro f s hfs
        obtain ⟨j1, j2⟩ := i2 f s hfs
        constructor
        · intro i
          rw [j1, upd_apply, List.length_cons]
          by_cases hik : i = k
          · simp [hik]
          · simp only [hik, if_false]
            constructor
            · rintro (h | h)
              · exact Or.inl h
              · exact Or.inr (by omega)
            · rintro (h | h)
              · exact Or.inl h
              · exact Or.inr (by omega)
        · intro x
          rw [j2, upd_apply, List.mem_cons]
          by_cases hxt : x = t
          · simp [hxt]
          · simp only [hxt, if_false, false_or]

/-- The validity check accepts exactly the vectors without a repeated entry
that hold every index below `N` as a position and as an entry. -/
theorem checkPerfectMatchingValidity_iff (N : Nat) (M : List Nat) :
    checkPerfectMatchingValidity N M = true ↔
      (M.Nodup ∧ ∀ id, id < N → id < M.length ∧ id ∈ M) := by
  obtain ⟨h1, h2⟩ := checkMatchingEntries_spec M M 0 (fun _ => false) (fun _ => false)
    (fun _ _ => rfl)
  unfold checkPerfectMatchingValidity
  cases hres : checkMatchingEntries M M 0 (fun _ => false) (fun _ => false) with
  | none =>
    have := h1.1 hres
    simp only [implies_true, and_true] at this
    simp only [Bool.false_eq_true, false_iff, not_and]
    intro hnd
    exact absurd hnd this
  | some flags =>
    obtain ⟨f, s⟩ := flags
    obtain ⟨j1, j2⟩ := h2 f s hres
    have hnd : M.Nodup := by
      by_contra hc
      have := h1.2 (fun h => hc h.1)
      rw [hres] at this
      cases this
    simp only [List.all_eq_true, List.mem_range, Bool.and_eq_true, j1, j2, Bool.false_eq_true,
      false_or, zero_le, true_and, zero_add]
    exact ⟨fun h => ⟨hnd, h⟩, fun h => h.2⟩

/-- C29. Validity check: for every `N` and every vector `M` of length at most
`N` whose entries are below `N`, `checkPerfectMatchingValidity(N, M)` returns
true if and only if `M` has length `N` and every index of `[0, N)` occurs exactly
once among its entries, that is, if and only if `M` is a permutation of
`[0, N)`. -/
theorem checkPerfectMatchingValidity_correct (N : Nat) (M : List Nat) (hlen : M.length ≤ N)
    (hlt : ∀ x ∈ M, x < N) :
    (checkPerfectMatchingValidity N M = true ↔
      (M.length = N ∧ ∀ i, i < N → M.count i = 1)) ∧
    (checkPerfectMatchingValidity N M = true ↔ M.Perm (List.range N)) := by
  rw [checkPerfectMatchingValidity_iff]
  have key : (M.Nodup ∧ ∀ id, id < N → id < M.length ∧ id ∈ M) ↔ M.Perm (List.range N) := by
    constructor
    · rintro ⟨hnd, hall⟩
      have hl : M.length = N := by
        rcases Nat.eq_zero_or_pos N with h0 | hpos
        · omega
        · have := (hall (N - 1) (by omega)).1
          omega
      exact perm_range_of_nodup M N hnd hlt hl
    · intro hp
      have hl : M.length = N := by
        have := hp.length_eq
        simpa using this
      refine ⟨hp.nodup_iff.2 (List.nodup_range N), ?_⟩
      intro id hid
      exact ⟨by omega, hp.mem_iff.2 (List.mem_range.2 hid)⟩
  refine ⟨?_, key⟩
  rw [key]
  constructor
  · intro hp
    have hl : M.length = N := by
      have := hp.length_eq
      simpa using this
    refine ⟨hl, ?_⟩
    intro i hi
    rw [hp.count_eq]
    exact List.count_eq_one_of_mem (List.nodup_range N) (List.mem_range.2 hi)
  · rintro ⟨hl, hc⟩
    apply List.Perm.symm
    apply List.Subperm.perm_of_length_le
    · apply List.Nodup.subperm (List.nodup_range N)
      intro x hx
      have := hc x (List.mem_range.1 hx)
      exact List.count_pos_iff.1 (by omega)
    · simp [hl]

/-- Witness of C29 on the vector `[2, 0, 1]` with `N = 3`. -/
theorem checkPerfectMatchingValidity_correct_witness :
    [2, 0, 1].length ≤ 3 ∧ (∀ x ∈ [2, 0, 1], x < 3) ∧
    (checkPerfectMatchingValidity 3 [2, 0, 1] = true ↔
      ([2, 0, 1].length = 3 ∧ ∀ i, i < 3 → [2, 0, 1].count i = 1)) ∧
    (checkPerfectMatchingValidity 3 [2, 0, 1] = true ↔ [2, 0, 1].Perm (List.range 3)) :=
  ⟨by decide, by decide,
    checkPerfectMatchingValidity_correct 3 [2, 0, 1] (by decide) (by decide)⟩

end wpm

namespace wpm

/-! ## The generic matching -/

/-- C28. `toGenericMatching`: for every list of edges in which every clique of
`[0, N)` is once a source and once a target (a perfect matching on `N` cliques,
hence `N` edges), the result has length `N`, `result[s] = t` holds exactly for
the edges `s -> t` of the list, the result is a permutation of `[0, N)`, and
`checkPerfectMatchingValidity` accepts it. -/
theorem toGenericMatching_perfect (N : Nat) (E : List EdgeRef)
    (hsrc : (E.map (fun e => e.2.v_source)).Perm (List.range N))
    (htgt : (E.map (fun e => e.2.v_target)).Perm (List.range N)) :
    E.length = N ∧ (toGenericMatching E).length = N ∧
    (∀ s t, (toGenericMatching E)[s]? = some t ↔
      ∃ e ∈ E, e.2.v_source = s ∧ e.2.v_target = t) ∧
    (toGenericMatching E).Perm (List.range N) ∧
    checkPerfectMatchingValidity N (toGenericMatching E) = true := by
  have hlenE : E.length = N := by
    have := hsrc.length_eq
    simpa using this
  have hsnd : (E.map (fun e => e.2.v_source)).Nodup := hsrc.nodup_iff.2 (List.nodup_range N)
  have htnd : (E.map (fun e => e.2.v_target)).Nodup := htgt.nodup_iff.2 (List.nodup_range N)
  have hslt : ∀ e ∈ E, e.2.v_source < E.length := by
    intro e he
    rw [hlenE]
    exact List.mem_range.1 (hsrc.mem_iff.1 (List.mem_map.2 ⟨e, he, rfl⟩))
  obtain ⟨hl, hget⟩ := toGenericMatching_spec E hsnd hslt
  have hex : ∀ i, i < N →
      ∃ e ∈ E, e.2.v_source = i ∧ (toGenericMatching E)[i]? = some e.2.v_target := by
    intro i hi
    obtain ⟨e, he, hei⟩ := List.mem_map.1 (hsrc.mem_iff.2 (List.mem_range.2 hi))
    exact ⟨e, he, hei, by rw [← hei]; exact hget e he⟩
  have hnd : (toGenericMatching E).Nodup := by
    rw [List.nodup_iff_getElem?_ne_getElem?]
    intro i j hij hj hc
    rw [hl, hlenE] at hj
    obtain ⟨e1, he1, hs1, hg1⟩ := hex i (by omega)
    obtain ⟨e2, he2, hs2, hg2⟩ := hex j hj
    rw [hg1, hg2, Option.some_inj] at hc
    have := List.inj_on_of_nodup_map htnd he1 he2 hc
    rw [this] at hs1
    omega
  have hlt : ∀ x ∈ toGenericMatching E, x < N := by
    intro x hx
    obtain ⟨i, hi⟩ := List.mem_iff_getElem?.1 hx
    have hib : i < N := by
      have := (List.getElem?_eq_some_iff.1 hi).1
      rw [hl, hlenE] at this
      exact this
    obtain ⟨e, he, _, hge⟩ := hex i hib
    rw [hge, Option.some_inj] at hi
    rw [← hi]
    exact List.mem_range.1 (htgt.mem_iff.1 (List.mem_map.2 ⟨e, he, rfl⟩))
  have hperm : (toGenericMatching E).Perm (List.range N) :=
    perm_range_of_nodup _ N hnd hlt (by rw [hl, hlenE])
  refine ⟨hlenE, by rw [hl, hlenE], ?_, hperm, ?_⟩
  · intro s t
    constructor
    · intro h
      have hs : s < N := by
        have := (List.getElem?_eq_some_iff.1 h).1
        rw [hl, hlenE] at this
        exact this
      obtain ⟨e, he, hes, hge⟩ := hex s hs
      rw [hge, Option.some_inj] at h
      exact ⟨e, he, hes, h⟩
    · rintro ⟨e, he, rfl, rfl⟩
      exact hget e he
  · rw [checkPerfectMatchingValidity_iff]
    refine ⟨hnd, ?_⟩
    intro id hid
    exact ⟨by rw [hl, hlenE]; exact hid, hperm.mem_iff.2 (List.mem_range.2 hid)⟩

/-- Witness of C28 on the matching `0 -> 1`, `1 -> 2`, `2 -> 0` of the graph of
the test `FindHighestWeightMatch`, listed in the order `1 -> 2`, `2 -> 0`,
`0 -> 1`. -/
theorem toGenericMatching_perfect_witness :
    ([((3 : Nat), (⟨-5, 1, 2⟩ : BMEdge)), (4, ⟨-5, 2, 0⟩), (0, ⟨-5, 0, 1⟩)].map
      (fun e => e.2.v_source)).Perm (List.range 3) ∧
    ([((3 : Nat), (⟨-5, 1, 2⟩ : BMEdge)), (4, ⟨-5, 2, 0⟩), (0, ⟨-5, 0, 1⟩)].map
      (fun e => e.2.v_target)).Perm (List.range 3) ∧
    toGenericMatching [(3, ⟨-5, 1, 2⟩), (4, ⟨-5, 2, 0⟩), (0, ⟨-5, 0, 1⟩)] = [1, 2, 0] ∧
    ([((3 : Nat), (⟨-5, 1, 2⟩ : BMEdge)), (4, ⟨-5, 2, 0⟩), (0, ⟨-5, 0, 1⟩)].length = 3 ∧
    (toGenericMatching [(3, ⟨-5, 1, 2⟩), (4, ⟨-5, 2, 0⟩), (0, ⟨-5, 0, 1⟩)]).length = 3 ∧
    (∀ s t, (toGenericMatching [(3, ⟨-5, 1, 2⟩), (4, ⟨-5, 2, 0⟩), (0, ⟨-5, 0, 1⟩)])[s]? =
        some t ↔
      ∃ e ∈ [((3 : Nat), (⟨-5, 1, 2⟩ : BMEdge)), (4, ⟨-5, 2, 0⟩), (0, ⟨-5, 0, 1⟩)],
        e.2.v_source = s ∧ e.2.v_target = t) ∧
    (toGenericMatching [(3, ⟨-5, 1, 2⟩), (4, ⟨-5, 2, 0⟩), (0, ⟨-5, 0, 1⟩)]).Perm
      (List.range 3) ∧
    checkPerfectMatchingValidity 3
      (toGenericMatching [(3, ⟨-5, 1, 2⟩), (4, ⟨-5, 2, 0⟩), (0, ⟨-5, 0, 1⟩)]) = true) :=
  ⟨by decide, by decide, by decide,
    toGenericMatching_perfect 3 [(3, ⟨-5, 1, 2⟩), (4, ⟨-5, 2, 0⟩), (0, ⟨-5, 0, 1⟩)]
      (by decide) (by decide)⟩

/-! ## The evolution and the next solve -/

end wpm

namespace wpm

/-! ## The constraint graph: what an accepted text stores -/

theorem extractUnsigned_le (is : IStream) : is.extractUnsigned.1 ≤ UINT_MAX := by
  unfold IStream.extractUnsigned
  simp only
  split
  · simp
  · split
    · exact le_refl _
    · split
      · exact Nat.lt_succ_iff.1 (Nat.mod_lt _ (by decide))
      · omega

/-- The pairs read by the loop of `Vertex::deserialize` hold a target below
`N` and an `unsigned int` cost. -/
theorem deserializeConstraints_valid (N : Nat) :
    ∀ (fuel : Nat) (c0 : Char) (is : IStream) (acc res : List (Nat × Nat)) (rest : IStream),
      (∀ p ∈ acc, p.1 < N ∧ p.2 ≤ UINT_MAX) →
      NonMatchingGraph.deserializeConstraints N fuel c0 is acc = Parsed.accept res rest →
      ∀ p ∈ res, p.1 < N ∧ p.2 ≤ UINT_MAX := by
  intro fuel
  induction fuel with
  | zero =>
    intro c0 is acc res rest _ h
    simp [NonMatchingGraph.deserializeConstraints] at h
  | succ n ih =>
    intro c0 is acc res rest hacc h
    simp only [NonMatchingGraph.deserializeConstraints] at h
    split at h
    · simp only [Parsed.accept.injEq] at h
      rw [← h.1]
      exact hacc
    · split at h
      · cases h
      · split at h
        · cases h
        · rename_i hlt
          split at h
          · cases h
          · split at h
            · cases h
            · apply ih _ _ _ _ _ _ h
              intro p hp
              rcases List.mem_append.1 hp with hp | hp
              · exact hacc p hp
              · simp only [List.mem_singleton] at hp
                rw [hp]
                exact ⟨by simpa using hlt, extractUnsigned_le _⟩

/-- Replacing the constraints of the vertex at position `i` by edges that leave
`i`, reach vertices of the graph and carry `unsigned int` costs keeps what the
data model asks for. -/
theorem NonMatchingGraph.Stored.setConstraints {g : NonMatchingGraph} (h : g.Stored) (i : Nat)
    (cs : List NMEdge)
    (hcs : ∀ e ∈ cs, e.v_source = i ∧ e.v_target < g.vertices.length ∧ e.cost ≤ UINT_MAX) :
    NonMatchingGraph.Stored ⟨g.vertices.modify (fun v => { v with constraints := cs }) i⟩ := by
  have hmem : ∀ v ∈ g.vertices.modify (fun v => { v with constraints := cs }) i,
      v ∈ g.vertices ∨ ∃ v0, g.vertices[i]? = some v0 ∧ v = { v0 with constraints := cs } := by
    intro v hv
    obtain ⟨j, hj⟩ := List.mem_iff_getElem?.1 hv
    simp only [List.getElem?_modify] at hj
    by_cases hc : i = j
    · subst hc
      cases hv0 : g.vertices[i]? with
      | none => simp [hv0] at hj
      | some v0 =>
        right
        simp only [hv0, if_true, Option.map_eq_map, Option.map_some', Option.some.injEq] at hj
        exact ⟨v0, rfl, hj.symm⟩
    · left
      simp only [hc, if_false, id_eq, Option.map_eq_map, Option.map_id'] at hj
      exact List.mem_iff_getElem?.2 ⟨j, hj⟩
  exact
  { ids := by
      intro p hp
      obtain ⟨j, v⟩ := p
      have hj := List.mk_mem_enum_iff_getElem?.1 hp
      simp only [List.getElem?_modify] at hj
      cases hv : g.vertices[j]? with
      | none => simp [hv] at hj
      | some v0 =>
        have h0 := idsArePositions_getElem? g h.ids j v0 hv
        by_cases hsi : i = j
        · simp only [hv, hsi, if_true, Option.map_eq_map, Option.map_some',
            Option.some.injEq] at hj
          rw [← hj]
          exact h0
        · simp only [hv, hsi, if_false, id_eq, Option.map_eq_map, Option.map_some',
            Option.some.injEq] at hj
          rw [← hj]
          exact h0
    sources := by
      intro v hv e he
      rcases hmem v hv with h1 | ⟨v0, h1, rfl⟩
      · exact h.sources v h1 e he
      · rw [(hcs e he).1]
        exact (idsArePositions_getElem? g h.ids i v0 h1).symm
    targets := by
      intro v hv e he
      simp only [List.length_modify]
      rcases hmem v hv with h1 | ⟨v0, h1, rfl⟩
      · exact h.targets v h1 e he
      · exact (hcs e he).2.1
    costs := by
      intro v hv e he
      rcases hmem v hv with h1 | ⟨v0, h1, rfl⟩
      · exact h.costs v h1 e he
      · exact (hcs e he).2.2 }

/-- Reading one vertex line keeps what the data model asks for. -/
theorem deserializeVertex_stored {g g1 : NonMatchingGraph} {is is1 : IStream} (h : g.Stored)
    (hr : NonMatchingGraph.deserializeVertex g is = Parsed.accept g1 is1) :
    g1.Stored ∧ g1.vertices.length = g.vertices.length := by
  unfold NonMatchingGraph.deserializeVertex at hr
  simp only at hr
  split at hr
  · split at hr
    · cases hr
    · split at hr
      · cases hr
      · split at hr
        · rename_i tmp is2 hcons
          simp only [Parsed.accept.injEq] at hr
          rw [← hr.1]
          have hvalid := deserializeConstraints_valid _ _ _ _ _ _ _
            (fun p hp => by cases hp) hcons
          refine ⟨?_, by simp⟩
          apply h.setConstraints
          intro e he
          obtain ⟨p, hp, rfl⟩ := List.mem_map.1 he
          exact ⟨rfl, (hvalid p hp).1, (hvalid p hp).2⟩
        · cases hr
        · cases hr
  · split at hr <;> cases hr
  · cases hr

theorem deserializeVertices_stored :
    ∀ (n : Nat) (g g1 : NonMatchingGraph) (is is1 : IStream), g.Stored →
      NonMatchingGraph.deserializeVertices n g is = Parsed.accept g1 is1 →
      g1.Stored ∧ g1.vertices.length = g.vertices.length := by
  intro n
  induction n with
  | zero =>
    intro g g1 is is1 h hr
    simp only [NonMatchingGraph.deserializeVertices, Parsed.accept.injEq] at hr
    rw [← hr.1]
    exact ⟨h, rfl⟩
  | succ n ih =>
    intro g g1 is is1 h hr
    simp only [NonMatchingGraph.deserializeVertices] at hr
    split at hr
    · rename_i g2 is2 hv
      obtain ⟨j1, j2⟩ := deserializeVertex_stored h hv
      obtain ⟨k1, k2⟩ := ih g2 g1 is2 is1 j1 hr
      exact ⟨k1, by rw [k2, j2]⟩
    · cases hr
    · cases hr

/-- The graph of an accepted text stores what the data model asks for, and its
number of vertices is an `unsigned int`. -/
theorem deserialize_stored {is rest : IStream} {G : NonMatchingGraph}
    (h : NonMatchingGraph.deserialize is = Parsed.accept G rest) :
    G.Stored ∧ G.vertices.length ≤ UINT_MAX := by
  unfold NonMatchingGraph.deserialize at h
  simp only at h
  split at h
  · split at h
    · cases h
    · split at h
      · cases h
      · split at h
        · rename_i g is1 hvs
          split at h
          · simp only [Parsed.accept.injEq] at h
            rw [← h.1]
            obtain ⟨j1, j2⟩ := deserializeVertices_stored _ _ _ _ _ (stored_startNewGraph _) hvs
            refine ⟨j1, ?_⟩
            rw [j2]
            simp only [NonMatchingGraph.startNewGraph, List.length_map, List.length_range]
            exact extractUnsigned_le _
          · cases h
        · cases h
        · cases h
  · split at h <;> cases h
  · split at h <;> cases h
  · cases h

/-- C21, counterexample. `deserialize` accepts the text `nv 01`, `v 0` (a
leading zero) and the text `nv 2`, `v 0 +1(3)`, `v 1` (a plus sign), and it
accepts `nv 1`, `v 0` followed by `xyz`, which it leaves unread; serialising
the graphs read gives `nv 1`, `v 0` and `nv 2`, `v 0 1(3)`, `v 1`, not the
texts read. -/
theorem deserialize_accepts_other_spellings :
    NonMatchingGraph.deserialize ⟨"nv 01\nv 0\n".toList, true⟩ =
      Parsed.accept ⟨[⟨0, []⟩]⟩ ⟨[], true⟩ ∧
    NonMatchingGraph.serialize ⟨[⟨0, []⟩]⟩ = "nv 1\nv 0\n" ∧
    "nv 1\nv 0\n" ≠ "nv 01\nv 0\n" ∧
    NonMatchingGraph.deserialize ⟨"nv 2\nv 0 +1(3)\nv 1\n".toList, true⟩ =
      Parsed.accept ⟨[⟨0, [⟨0, 1, 3⟩]⟩, ⟨1, []⟩]⟩ ⟨[], true⟩ ∧
    NonMatchingGraph.serialize ⟨[⟨0, [⟨0, 1, 3⟩]⟩, ⟨1, []⟩]⟩ = "nv 2\nv 0 1(3)\nv 1\n" ∧
    "nv 2\nv 0 1(3)\nv 1\n" ≠ "nv 2\nv 0 +1(3)\nv 1\n" ∧
    NonMatchingGraph.deserialize ⟨"nv 1\nv 0\nxyz".toList, true⟩ =
      Parsed.accept ⟨[⟨0, []⟩]⟩ ⟨"xyz".toList, true⟩ :=
  ⟨by rfl, by decide, by decide, by rfl, by decide, by decide, by rfl⟩

/-- C21, amended. For every text that `deserialize` accepts, with graph `G`:
`G` stores what the data model asks for, the text `serialize(G)` is accepted
in turn, is read to its end and gives the same graph `G`, so that serialising
the graph read from `serialize(G)` reproduces `serialize(G)` byte for byte.
The text `serialize(G)` spells the numbers of the input without sign or leading
zeros, lists the vertex lines by id and holds nothing after the last line. -/
theorem serialize_deserialize_accepted (is rest : IStream) (G : NonMatchingGraph)
    (h : NonMatchingGraph.deserialize is = Parsed.accept G rest) :
    G.Stored ∧
    NonMatchingGraph.deserialize ⟨(NonMatchingGraph.serialize G).toList, true⟩ =
      Parsed.accept G ⟨[], true⟩ ∧
    ∀ G2 rest2,
      NonMatchingGraph.deserialize ⟨(NonMatchingGraph.serialize G).toList, true⟩ =
        Parsed.accept G2 rest2 →
      NonMatchingGraph.serialize G2 = NonMatchingGraph.serialize G := by
  obtain ⟨h1, h2⟩ := deserialize_stored h
  have h3 := deserialize_serialize_stored G h1 h2
  refine ⟨h1, h3, ?_⟩
  intro G2 rest2 h4
  rw [h3] at h4
  simp only [Parsed.accept.injEq] at h4
  rw [← h4.1]

/-- Witness of C21 (amended) on the text `nv 3`, `v 0 1(4294967295)`, `v 1`,
`v 2`. -/
theorem serialize_deserialize_accepted_witness :
    NonMatchingGraph.deserialize ⟨"nv 3\nv 0 1(4294967295)\nv 1\nv 2\n".toList, true⟩ =
      Parsed.accept forbiddenPairExample ⟨[], true⟩ ∧
    NonMatchingGraph.serialize forbiddenPairExample = "nv 3\nv 0 1(4294967295)\nv 1\nv 2\n" ∧
    forbiddenPairExample.Stored ∧
    NonMatchingGraph.deserialize
        ⟨(NonMatchingGraph.serialize forbiddenPairExample).toList, true⟩ =
      Parsed.accept forbiddenPairExample ⟨[], true⟩ ∧
    ∀ G2 rest2,
      NonMatchingGraph.deserialize
          ⟨(NonMatchingGraph.serialize forbiddenPairExample).toList, true⟩ =
        Parsed.accept G2 rest2 →
      NonMatchingGraph.serialize G2 = NonMatchingGraph.serialize forbiddenPairExample :=
  ⟨by rfl, by decide,
    serialize_deserialize_accepted ⟨"nv 3\nv 0 1(4294967295)\nv 1\nv 2\n".toList, true⟩
      ⟨[], true⟩ forbiddenPairExample (by rfl)⟩

end wpm

namespace wpm

/-! ## Conversion to the assignment graph -/

theorem ids_eq_range (G : NonMatchingGraph) (hid : G.IdsArePositions) :
    G.vertices.map (fun v => v.id) = List.range G.vertices.length := by
  apply List.ext_getElem?
  intro i
  simp only [List.getElem?_map]
  cases hv : G.vertices[i]? with
  | none =>
    have : G.vertices.length ≤ i := List.getElem?_eq_none_iff.1 hv
    simp [List.getElem?_range, this, List.getElem?_eq_none_iff.2]
  | some v =>
    have h1 := idsArePositions_getElem? G hid i v hv
    have h2 := (List.getElem?_eq_some_iff.1 hv).1
    simp [h1, List.getElem?_range h2]

theorem mem_vertices_id_lt (G : NonMatchingGraph) (hid : G.IdsArePositions) {v : NMVertex}
    (hv : v ∈ G.vertices) : v.id < G.vertices.length ∧ G.vertices[v.id]? = some v := by
  obtain ⟨i, hi⟩ := List.mem_iff_getElem?.1 hv
  have h1 := idsArePositions_getElem? G hid i v hi
  rw [h1]
  exact ⟨(List.getElem?_eq_some_iff.1 hi).1, hi⟩

/-- The candidate score of target `j` for a vertex without two edges to the same
target: the converted cost of the edge to `j` when there is one, and otherwise
`S_MIN` for the vertex itself and 0 for the others. -/
theorem scoreMatchingCandidates_eq (v : NMVertex)
    (hdup : (v.constraints.map (fun e => e.v_target)).Nodup) (j : Nat) :
    (∀ e ∈ v.constraints, e.v_target = j →
      scoreMatchingCandidates v j = convertNMCostToBMScore e.cost) ∧
    ((∀ e ∈ v.constraints, e.v_target ≠ j) →
      scoreMatchingCandidates v j = if j = v.id then INT_MIN else 0) := by
  unfold scoreMatchingCandidates
  constructor
  · intro e he het
    rw [← het]
    exact foldl_upd_mem _ _ hdup e he
  · intro hno
    rw [foldl_upd_not_mem]
    · simp only [upd_apply]
    · intro hmem
      obtain ⟨e, he, het⟩ := List.mem_map.1 hmem
      exact hno e he het

/-- A candidate is emitted exactly when it is not the vertex itself and no
infinite cost is stored for it. -/
theorem scoreMatchingCandidates_ne_min_iff (v : NMVertex)
    (hself : ∀ e ∈ v.constraints, e.v_target ≠ v.id)
    (hdup : (v.constraints.map (fun e => e.v_target)).Nodup)
    (hfin : ∀ e ∈ v.constraints, e.cost ≠ UINT_MAX → e.cost < 2147483648) (j : Nat) :
    scoreMatchingCandidates v j ≠ INT_MIN ↔
      (j ≠ v.id ∧ ∀ e ∈ v.constraints, e.v_target = j → e.cost ≠ UINT_MAX) := by
  obtain ⟨h1, h2⟩ := scoreMatchingCandidates_eq v hdup j
  by_cases hex : ∃ e ∈ v.constraints, e.v_target = j
  · obtain ⟨e, he, het⟩ := hex
    rw [h1 e he het]
    have hj : j ≠ v.id := by
      rw [← het]
      exact hself e he
    constructor
    · intro hne
      refine ⟨hj, ?_⟩
      intro e2 he2 het2
      have : e2 = e := List.inj_on_of_nodup_map hdup he2 he (by rw [het2, het])
      rw [this]
      intro hc
      rw [hc] at hne
      exact hne convertNMCostToBMScore_max
    · rintro ⟨_, hall⟩
      have hc := hall e he het
      have hlt := hfin e he hc
      rw [convertNMCostToBMScore_small _ hlt]
      unfold INT_MIN
      omega
  · have hno : ∀ e ∈ v.constraints, e.v_target ≠ j := fun e he het => hex ⟨e, he, het⟩
    rw [h2 hno]
    constructor
    · intro hne
      refine ⟨?_, fun e he het => absurd het (hno e he)⟩
      intro hc
      rw [if_pos hc] at hne
      exact hne rfl
    · rintro ⟨hj, _⟩
      rw [if_neg hj]
      decide

/-- The edges of the converted graph are listed by source and then by
target. -/
theorem toBipartiteMatchingGraph_sorted (G : NonMatchingGraph) (hid : G.IdsArePositions) :
    (toBipartiteMatchingGraph G).edges.Pairwise
      (fun a b => a.v_source < b.v_source ∨
        (a.v_source = b.v_source ∧ a.v_target < b.v_target)) := by
  rw [toBipartiteMatchingGraph_eq]
  simp only
  rw [List.pairwise_flatMap]
  constructor
  · intro v _
    rw [List.pairwise_map]
    apply List.Pairwise.imp _ (List.Pairwise.filter _ (List.pairwise_lt_range _))
    intro a b hab
    exact Or.inr ⟨rfl, hab⟩
  · have hids : (G.vertices.map (fun v => v.id)).Pairwise (· < ·) := by
      rw [ids_eq_range G hid]
      exact List.pairwise_lt_range _
    rw [List.pairwise_map] at hids
    apply List.Pairwise.imp _ hids
    intro a b hab x hx y hy
    obtain ⟨_, _, rfl⟩ := List.mem_map.1 hx
    obtain ⟨_, _, rfl⟩ := List.mem_map.1 hy
    exact Or.inl hab

/-- The ordered pairs joined by an edge of the converted graph: `i -> j` for the
vertices `j != i` for which `i` stores no infinite cost. -/
theorem toBipartiteMatchingGraph_pair_iff (G : NonMatchingGraph) (hid : G.IdsArePositions)
    (hself : ∀ v ∈ G.vertices, ∀ e ∈ v.constraints, e.v_target ≠ v.id)
    (hdup : G.DistinctTargets)
    (hfin : ∀ v ∈ G.vertices, ∀ e ∈ v.constraints, e.cost ≠ UINT_MAX → e.cost < 2147483648)
    (i j : Nat) (v : NMVertex) (hv : G.vertices[i]? = some v) :
    (∃ x ∈ (toBipartiteMatchingGraph G).edges, x.v_source = i ∧ x.v_target = j) ↔
      (j < G.vertices.length ∧ j ≠ i ∧
        ∀ e ∈ v.constraints, e.v_target = j → e.cost ≠ UINT_MAX) := by
  have hvm : v ∈ G.vertices := List.getElem?_mem hv
  have hvid : v.id = i := idsArePositions_getElem? G hid i v hv
  have hiff := scoreMatchingCandidates_ne_min_iff v (hself v hvm) (hdup v hvm) (hfin v hvm) j
  rw [hvid] at hiff
  constructor
  · rintro ⟨x, hx, rfl, rfl⟩
    obtain ⟨w, hw, h1, h2, _, h4⟩ := (mem_toBipartiteMatchingGraph G x).1 hx
    have hwv : w = v := by
      have := (mem_vertices_id_lt G hid hw).2
      rw [← h1, hv] at this
      exact (Option.some_inj.1 this).symm
    rw [hwv] at h4
    exact ⟨h2, hiff.1 h4⟩
  · rintro ⟨hj, hrest⟩
    have hne := hiff.2 hrest
    exact ⟨⟨scoreMatchingCandidates v j, i, j⟩,
      (mem_toBipartiteMatchingGraph G _).2 ⟨v, hvm, hvid.symm, hj, rfl, hne⟩, rfl, rfl⟩

/-- C24. Conversion to the assignment graph: for every constraint graph whose
vertices are stored at the position of their id, with no self-edge, no two
edges from a vertex to the same target and finite costs below `2^31`, the edge
list of `toBipartiteMatchingGraph(G)` is sorted by source id and then by target
id (strictly: at most one edge per ordered pair), holds an edge `i -> j`
exactly when `i` and `j` are vertices, `j != i` and `G` stores no infinite-cost
constraint `i -> j`, and that edge has score `-cost` when `G` stores a (finite)
constraint `i -> j` of that cost and score 0 when it stores none. -/
theorem toBipartiteMatchingGraph_spec (G : NonMatchingGraph) (hid : G.IdsArePositions)
    (hself : ∀ v ∈ G.vertices, ∀ e ∈ v.constraints, e.v_target ≠ v.id)
    (hdup : G.DistinctTargets)
    (hfin : ∀ v ∈ G.vertices, ∀ e ∈ v.constraints, e.cost ≠ UINT_MAX → e.cost < 2147483648) :
    (toBipartiteMatchingGraph G).ncliques = G.vertices.length ∧
    (toBipartiteMatchingGraph G).edges.Pairwise
      (fun a b => a.v_source < b.v_source ∨
        (a.v_source = b.v_source ∧ a.v_target < b.v_target)) ∧
    (∀ (i j : Nat) (v : NMVertex), G.vertices[i]? = some v →
      ((∃ x ∈ (toBipartiteMatchingGraph G).edges, x.v_source = i ∧ x.v_target = j) ↔
        (j < G.vertices.length ∧ j ≠ i ∧
          ∀ e ∈ v.constraints, e.v_target = j → e.cost ≠ UINT_MAX))) ∧
    (∀ x ∈ (toBipartiteMatchingGraph G).edges,
      ∃ v, G.vertices[x.v_source]? = some v ∧
        (∀ e ∈ v.constraints, e.v_target = x.v_target → x.score = -(e.cost : Int)) ∧
        ((∀ e ∈ v.constraints, e.v_target ≠ x.v_target) → x.score = 0)) := by
  refine ⟨(toBipartiteMatchingGraph_edges G).1, toBipartiteMatchingGraph_sorted G hid, ?_, ?_⟩
  · exact fun i j v hv => toBipartiteMatchingGraph_pair_iff G hid hself hdup hfin i j v hv
  · intro x hx
    obtain ⟨w, hw, h1, _, h3, h4⟩ := (mem_toBipartiteMatchingGraph G x).1 hx
    refine ⟨w, by rw [h1]; exact (mem_vertices_id_lt G hid hw).2, ?_, ?_⟩
    · intro e he het
      have hiff := scoreMatchingCandidates_ne_min_iff w (hself w hw) (hdup w hw) (hfin w hw)
        x.v_target
      have hc := (hiff.1 h4).2 e he het
      rw [h3, (scoreMatchingCandidates_eq w (hdup w hw) x.v_target).1 e he het,
        convertNMCostToBMScore_small _ (hfin w hw e he hc)]
    · intro hno
      rw [h3, (scoreMatchingCandidates_eq w (hdup w hw) x.v_target).2 hno]
      have hiff := scoreMatchingCandidates_ne_min_iff w (hself w hw) (hdup w hw) (hfin w hw)
        x.v_target
      rw [if_neg (hiff.1 h4).1]

/-- Witness of C24 on the graph of the test `NM2BMConversion`, with the edge
list the test expects. -/
theorem toBipartiteMatchingGraph_spec_witness :
    roundTripGraph.IdsArePositions ∧
    (∀ v ∈ roundTripGraph.vertices, ∀ e ∈ v.constraints, e.v_target ≠ v.id) ∧
    roundTripGraph.DistinctTargets ∧
    (∀ v ∈ roundTripGraph.vertices, ∀ e ∈ v.constraints,
      e.cost ≠ UINT_MAX → e.cost < 2147483648) ∧
    (toBipartiteMatchingGraph roundTripGraph).edges =
      [⟨0, 0, 1⟩, ⟨-1, 0, 3⟩, ⟨0, 1, 0⟩, ⟨-1, 1, 2⟩, ⟨0, 1, 4⟩, ⟨0, 2, 1⟩, ⟨0, 2, 3⟩,
        ⟨-1, 2, 4⟩, ⟨-1, 3, 0⟩, ⟨0, 3, 2⟩, ⟨0, 3, 4⟩, ⟨-1, 4, 1⟩, ⟨0, 4, 2⟩, ⟨0, 4, 3⟩] ∧
    ((toBipartiteMatchingGraph roundTripGraph).ncliques = roundTripGraph.vertices.length ∧
    (toBipartiteMatchingGraph roundTripGraph).edges.Pairwise
      (fun a b => a.v_source < b.v_source ∨
        (a.v_source = b.v_source ∧ a.v_target < b.v_target)) ∧
    (∀ (i j : Nat) (v : NMVertex), roundTripGraph.vertices[i]? = some v →
      ((∃ x ∈ (toBipartiteMatchingGraph roundTripGraph).edges,
          x.v_source = i ∧ x.v_target = j) ↔
        (j < roundTripGraph.vertices.length ∧ j ≠ i ∧
          ∀ e ∈ v.constraints, e.v_target = j → e.cost ≠ UINT_MAX))) ∧
    (∀ x ∈ (toBipartiteMatchingGraph roundTripGraph).edges,
      ∃ v, roundTripGraph.vertices[x.v_source]? = some v ∧
        (∀ e ∈ v.constraints, e.v_target = x.v_target → x.score = -(e.cost : Int)) ∧
        ((∀ e ∈ v.constraints, e.v_target ≠ x.v_target) → x.score = 0))) :=
  ⟨by decide, by decide, by decide, by decide, by decide,
    toBipartiteMatchingGraph_spec roundTripGraph (by decide) (by decide) (by decide)
      (by decide)⟩

end wpm

namespace wpm

/-! ## Conversion to the assignment graph: the pairs left out -/

/-- C23, counterexample. The graph of the text `nv 3`, `v 0 1(4294967295)`,
`v 1`, `v 2` has 3 vertices and one infinite-cost constraint, `0 -> 1`. Its
converted graph has 5 edges, not `3 * 2`: no edge joins source 0 to target 1,
and no edge has the score `S_MIN`. -/
theorem forbidden_pair_not_emitted :
    (toBipartiteMatchingGraph forbiddenPairExample).edges =
      [⟨0, 0, 2⟩, ⟨0, 1, 0⟩, ⟨0, 1, 2⟩, ⟨0, 2, 0⟩, ⟨0, 2, 1⟩] ∧
    (toBipartiteMatchingGraph forbiddenPairExample).edges.length ≠
      forbiddenPairExample.vertices.length * (forbiddenPairExample.vertices.length - 1) ∧
    (∀ x ∈ (toBipartiteMatchingGraph forbiddenPairExample).edges,
      ¬ (x.v_source = 0 ∧ x.v_target = 1)) ∧
    ∀ x ∈ (toBipartiteMatchingGraph forbiddenPairExample).edges, x.score ≠ INT_MIN := by
  decide

theorem length_flatMap_sum {α β : Type} (f : α → List β) (L : List α) :
    (L.flatMap f).length = (L.map (fun a => (f a).length)).sum := by
  induction L with
  | nil => rfl
  | cons a rest ih => simp [List.flatMap_cons, ih]

theorem sum_map_add_const {α : Type} (a b : α → Nat) (c : Nat) :
    ∀ (L : List α), (∀ x ∈ L, a x + b x = c) →
      (L.map a).sum + (L.map b).sum = L.length * c := by
  intro L
  induction L with
  | nil => intro _; simp
  | cons x rest ih =>
    intro h
    have h1 := h x (List.mem_cons_self _ _)
    have h2 := ih (fun y hy => h y (List.mem_cons_of_mem _ hy))
    simp only [List.map_cons, List.sum_cons, List.length_cons]
    rw [Nat.add_mul, one_mul]
    omega

/-- The candidates of a vertex that are left out: the vertex itself and the
targets of its infinite-cost constraints. -/
theorem candidates_left_out (N : Nat) (v : NMVertex) (hid : v.id < N)
    (hself : ∀ e ∈ v.constraints, e.v_target ≠ v.id)
    (hdup : (v.constraints.map (fun e => e.v_target)).Nodup)
    (htgt : ∀ e ∈ v.constraints, e.v_target < N)
    (hfin : ∀ e ∈ v.constraints, e.cost ≠ UINT_MAX → e.cost < 2147483648) :
    ((List.range N).filter
        (fun cid => decide (scoreMatchingCandidates v cid ≠ INT_MIN))).length +
      ((infiniteEdges v.constraints).length + 1) = N := by
  have hsplit := List.length_eq_countP_add_countP
    (fun cid => decide (scoreMatchingCandidates v cid ≠ INT_MIN)) (List.range N)
  rw [List.length_range] at hsplit
  rw [← List.countP_eq_length_filter]
  have hinf : (List.range N).countP
      (fun cid => decide ¬ decide (scoreMatchingCandidates v cid ≠ INT_MIN) = true) =
      (infiniteEdges v.constraints).length + 1 := by
    rw [countP_range_card]
    have hnd : ((infiniteEdges v.constraints).map (fun e => e.v_target)).Nodup :=
      hdup.sublist (List.Sublist.map _ (List.filter_sublist _))
    have hnotin : v.id ∉ ((infiniteEdges v.constraints).map (fun e => e.v_target)).toFinset := by
      rw [List.mem_toFinset]
      intro hmem
      obtain ⟨e, he, het⟩ := List.mem_map.1 hmem
      exact hself e (List.mem_filter.1 he).1 het
    have hset : (Finset.range N).filter
        (fun i => decide (¬ decide (scoreMatchingCandidates v i ≠ INT_MIN) = true) = true) =
        insert v.id ((infiniteEdges v.constraints).map (fun e => e.v_target)).toFinset := by
      ext j
      have hiff := scoreMatchingCandidates_ne_min_iff v hself hdup hfin j
      simp only [Finset.mem_filter, Finset.mem_range, decide_eq_true_eq,
        Finset.mem_insert, List.mem_toFinset, List.mem_map, infiniteEdges, List.mem_filter]
      constructor
      · rintro ⟨_, hmin⟩
        by_cases hj : j = v.id
        · exact Or.inl hj
        · right
          by_contra hno
          apply hmin
          apply hiff.2
          refine ⟨hj, ?_⟩
          intro e he het hc
          exact hno ⟨e, ⟨he, hc⟩, het⟩
      · rintro (hj | ⟨e, ⟨he, hc⟩, het⟩)
        · refine ⟨by rw [hj]; exact hid, ?_⟩
          intro hne
          exact (hiff.1 hne).1 hj
        · refine ⟨by rw [← het]; exact htgt e he, ?_⟩
          intro hne
          exact (hiff.1 hne).2 e he het hc
    rw [hset, Finset.card_insert_of_not_mem hnotin, List.toFinset_card_of_nodup hnd,
      List.length_map]
  omega

/-- C23, amended. For every constraint graph with `N` vertices stored at the
position of their id, with no self-edge, no two edges from a vertex to the same
target, targets below `N` and finite costs below `2^31`,
`toBipartiteMatchingGraph` emits at most one edge per ordered pair, emits the
edge `i -> j` exactly for the pairs with `j != i` for which `G` stores no
infinite-cost constraint, and emits no edge of score `S_MIN`: the pairs with a
stored infinite-cost constraint are left out, so the graph has `N (N - 1)` edges
minus the number of stored infinite-cost constraints. -/
theorem toBipartiteMatchingGraph_pairs (G : NonMatchingGraph) (hid : G.IdsArePositions)
    (hself : ∀ v ∈ G.vertices, ∀ e ∈ v.constraints, e.v_target ≠ v.id)
    (hdup : G.DistinctTargets)
    (htgt : ∀ v ∈ G.vertices, ∀ e ∈ v.constraints, e.v_target < G.vertices.length)
    (hfin : ∀ v ∈ G.vertices, ∀ e ∈ v.constraints, e.cost ≠ UINT_MAX → e.cost < 2147483648) :
    ((toBipartiteMatchingGraph G).edges.map (fun e => (e.v_source, e.v_target))).Nodup ∧
    (∀ (i j : Nat) (v : NMVertex), G.vertices[i]? = some v →
      ((∃ x ∈ (toBipartiteMatchingGraph G).edges, x.v_source = i ∧ x.v_target = j) ↔
        (j < G.vertices.length ∧ j ≠ i ∧
          ∀ e ∈ v.constraints, e.v_target = j → e.cost ≠ UINT_MAX))) ∧
    (∀ x ∈ (toBipartiteMatchingGraph G).edges, x.score ≠ INT_MIN) ∧
    (toBipartiteMatchingGraph G).edges.length +
        (G.vertices.map (fun v => (infiniteEdges v.constraints).length)).sum =
      G.vertices.length * (G.vertices.length - 1) := by
  refine ⟨toBipartiteMatchingGraph_pairs_nodup G hid,
    fun i j v hv => toBipartiteMatchingGraph_pair_iff G hid hself hdup hfin i j v hv, ?_, ?_⟩
  · intro x hx
    obtain ⟨_, _, _, _, h3, h4⟩ := (mem_toBipartiteMatchingGraph G x).1 hx
    rw [h3]
    exact h4
  · rw [toBipartiteMatchingGraph_eq]
    simp only
    rw [length_flatMap_sum]
    apply sum_map_add_const
    intro v hv
    have hcount := candidates_left_out G.vertices.length v (mem_vertices_id_lt G hid hv).1
      (hself v hv) (hdup v hv) (htgt v hv) (hfin v hv)
    simp only [List.length_map]
    omega

/-- Witness of C23 (amended) on the graph of the test `NM2BMConversion`: 5
vertices and 6 infinite-cost constraints, hence 14 edges. -/
theorem toBipartiteMatchingGraph_pairs_witness :
    roundTripGraph.IdsArePositions ∧
    (∀ v ∈ roundTripGraph.vertices, ∀ e ∈ v.constraints, e.v_target ≠ v.id) ∧
    roundTripGraph.DistinctTargets ∧
    (∀ v ∈ roundTripGraph.vertices, ∀ e ∈ v.constraints,
      e.v_target < roundTripGraph.vertices.length) ∧
    (∀ v ∈ roundTripGraph.vertices, ∀ e ∈ v.constraints,
      e.cost ≠ UINT_MAX → e.cost < 2147483648) ∧
    (toBipartiteMatchingGraph roundTripGraph).edges.length = 14 ∧
    (((toBipartiteMatchingGraph roundTripGraph).edges.map
      (fun e => (e.v_source, e.v_target))).Nodup ∧
    (∀ (i j : Nat) (v : NMVertex), roundTripGraph.vertices[i]? = some v →
      ((∃ x ∈ (toBipartiteMatchingGraph roundTripGraph).edges,
          x.v_source = i ∧ x.v_target = j) ↔
        (j < roundTripGraph.vertices.length ∧ j ≠ i ∧
          ∀ e ∈ v.constraints, e.v_target = j → e.cost ≠ UINT_MAX))) ∧
    (∀ x ∈ (toBipartiteMatchingGraph roundTripGraph).edges, x.score ≠ INT_MIN) ∧
    (toBipartiteMatchingGraph roundTripGraph).edges.length +
        (roundTripGraph.vertices.map (fun v => (infiniteEdges v.constraints).length)).sum =
      roundTripGraph.vertices.length * (roundTripGraph.vertices.length - 1)) :=
  ⟨by decide, by decide, by decide, by decide, by decide, by decide,
    toBipartiteMatchingGraph_pairs roundTripGraph (by decide) (by decide) (by decide)
      (by decide) (by decide)⟩

end wpm

namespace wpm

/-! ## Conversion to the constraint graph: the calls of `addDirectedEdge` -/

theorem foldl_if_filter {α β : Type} (p : α → Bool) (f : β → α → β) :
    ∀ (L : List α) (b : β),
      L.foldl (fun b x => if p x = true then f b x else b) b = (L.filter p).foldl f b := by
  intro L
  induction L with
  | nil => intro b; rfl
  | cons x rest ih =>
    intro b
    simp only [List.foldl_cons, List.filter_cons]
    by_cases hp : p x = true
    · simp only [hp, if_true, List.foldl_cons]
      exact ih _
    · simp only [hp, if_false, Bool.false_eq_true]
      exact ih _

/-- One pass of `bmVertexEdgesToNMEdges` makes the calls of `nmEdgeCalls`. -/
theorem bmVertexEdgesToNMEdges_eq (bmgraph : BipartiteMatchingGraph) (cid : Nat) (b : Bool)
    (g : NonMatchingGraph) :
    bmVertexEdgesToNMEdges bmgraph cid b g =
      (nmEdgeCalls bmgraph cid b g.vertices.length).foldl
        (fun g e => g.addDirectedEdge e.v_source e.v_target e.cost) g := by
  unfold bmVertexEdgesToNMEdges nmEdgeCalls NonMatchingGraph.getNumberVertices
  rw [List.foldl_map, ← foldl_if_filter]
  congr 1
  funext g id
  by_cases h1 : id = cid ∨ matchedCosts bmgraph cid b id = 0
  · simp [h1]
  · by_cases h2 : id < cid
    · simp [h1, h2]
    · cases b <;> simp [h1, h2]

theorem foldl_addDirectedEdge_length :
    ∀ (calls : List NMEdge) (g : NonMatchingGraph),
      (calls.foldl (fun g e => g.addDirectedEdge e.v_source e.v_target e.cost)
        g).vertices.length = g.vertices.length := by
  intro calls
  induction calls with
  | nil => intro g; rfl
  | cons e rest ih =>
    intro g
    simp only [List.foldl_cons]
    rw [ih, addDirectedEdge_length]

/-- `toNonMatchingGraph` is the sequence of the calls made for the source half
and then the target half of every clique, by increasing clique id. -/
theorem toNonMatchingGraph_eq (bmgraph : BipartiteMatchingGraph) :
    toNonMatchingGraph bmgraph =
      ((List.range bmgraph.ncliques).flatMap
        (fun cid => nmEdgeCalls bmgraph cid true bmgraph.ncliques ++
          nmEdgeCalls bmgraph cid false bmgraph.ncliques)).foldl
        (fun g e => g.addDirectedEdge e.v_source e.v_target e.cost)
        (NonMatchingGraph.startNewGraph bmgraph.ncliques) := by
  unfold toNonMatchingGraph BipartiteMatchingGraph.getNumberCliques
  have key : ∀ (L : List Nat) (g : NonMatchingGraph), g.vertices.length = bmgraph.ncliques →
      L.foldl
        (fun g cid =>
          bmVertexEdgesToNMEdges bmgraph cid false (bmVertexEdgesToNMEdges bmgraph cid true g))
        g =
      (L.flatMap
        (fun cid => nmEdgeCalls bmgraph cid true bmgraph.ncliques ++
          nmEdgeCalls bmgraph cid false bmgraph.ncliques)).foldl
        (fun g e => g.addDirectedEdge e.v_source e.v_target e.cost) g := by
    intro L
    induction L with
    | nil => intro g _; rfl
    | cons c rest ih =>
      intro g hg
      simp only [List.foldl_cons, List.flatMap_cons, List.foldl_append]
      have h1 : bmVertexEdgesToNMEdges bmgraph c true g =
          (nmEdgeCalls bmgraph c true bmgraph.ncliques).foldl
            (fun g e => g.addDirectedEdge e.v_source e.v_target e.cost) g := by
        rw [bmVertexEdgesToNMEdges_eq, hg]
      have hl1 : (bmVertexEdgesToNMEdges bmgraph c true g).vertices.length =
          bmgraph.ncliques := by
        rw [h1, foldl_addDirectedEdge_length, hg]
      have h2 : bmVertexEdgesToNMEdges bmgraph c false
          (bmVertexEdgesToNMEdges bmgraph c true g) =
          (nmEdgeCalls bmgraph c false bmgraph.ncliques).foldl
            (fun g e => g.addDirectedEdge e.v_source e.v_target e.cost)
            (bmVertexEdgesToNMEdges bmgraph c true g) := by
        rw [bmVertexEdgesToNMEdges_eq, hl1]
      have hl2 : (bmVertexEdgesToNMEdges bmgraph c false
          (bmVertexEdgesToNMEdges bmgraph c true g)).vertices.length = bmgraph.ncliques := by
        rw [h2, foldl_addDirectedEdge_length, hl1]
      rw [ih _ hl2, h2, h1]
  exact key _ _ (by simp [NonMatchingGraph.startNewGraph])

/-- After a sequence of calls of `addDirectedEdge` the vertex at position `i`
holds, after its former edges, the edges of the calls with source `i`, in the
order of the calls. -/
theorem foldl_addDirectedEdge_getElem? (i : Nat) :
    ∀ (calls : List NMEdge) (g : NonMatchingGraph),
      (calls.foldl (fun g e => g.addDirectedEdge e.v_source e.v_target e.cost)
        g).vertices[i]? =
      (g.vertices[i]?).map (fun v =>
        { v with constraints := v.constraints ++
            calls.filter (fun e => decide (e.v_source = i)) }) := by
  intro calls
  induction calls with
  | nil =>
    intro g
    simp only [List.foldl_nil, List.filter_nil, List.append_nil]
    cases hv : g.vertices[i]? with
    | none => rfl
    | some v => rfl
  | cons e rest ih =>
    intro g
    simp only [List.foldl_cons]
    rw [ih]
    simp only [NonMatchingGraph.addDirectedEdge, List.getElem?_modify, List.filter_cons]
    cases hv : g.vertices[i]? with
    | none => simp
    | some v =>
      by_cases hs : e.v_source = i
      · subst hs
        simp
      · simp [hs]

/-- The vertex of `i` in the graph made by `toNonMatchingGraph`: its edges are
the calls with source `i`. -/
theorem toNonMatchingGraph_getElem? (bmgraph : BipartiteMatchingGraph) (i : Nat)
    (hi : i < bmgraph.ncliques) :
    (toNonMatchingGraph bmgraph).vertices.length = bmgraph.ncliques ∧
    (toNonMatchingGraph bmgraph).vertices[i]? =
      some ⟨i, ((List.range bmgraph.ncliques).flatMap
        (fun cid => nmEdgeCalls bmgraph cid true bmgraph.ncliques ++
          nmEdgeCalls bmgraph cid false bmgraph.ncliques)).filter
        (fun e => decide (e.v_source = i))⟩ := by
  rw [toNonMatchingGraph_eq]
  constructor
  · rw [foldl_addDirectedEdge_length]
    simp [NonMatchingGraph.startNewGraph]
  · rw [foldl_addDirectedEdge_getElem?]
    simp [NonMatchingGraph.startNewGraph, List.getElem?_range hi, hi]

end wpm

namespace wpm

/-! ## Conversion to the constraint graph: the edges stored for a vertex -/

theorem mem_nmEdgeCalls_source (bmgraph : BipartiteMatchingGraph) (cid n : Nat) (e : NMEdge) :
    e ∈ nmEdgeCalls bmgraph cid true n ↔
      (e.v_source = cid ∧ e.v_target < n ∧ cid < e.v_target ∧
        e.cost = matchedCosts bmgraph cid true e.v_target ∧ e.cost ≠ 0) := by
  unfold nmEdgeCalls
  simp only [List.mem_map, List.mem_filter, List.mem_range, Bool.and_eq_true,
    Bool.not_eq_true', decide_eq_false_iff_not, not_or, if_true]
  constructor
  · rintro ⟨id, ⟨h1, ⟨h2, h3⟩, h4⟩, rfl⟩
    exact ⟨rfl, h1, Nat.lt_of_le_of_ne (Nat.le_of_not_lt h4) (fun h => h2 h.symm), rfl, h3⟩
  · rintro ⟨h1, h2, h3, h4, h5⟩
    refine ⟨e.v_target, ⟨h2, ⟨by omega, by rw [← h4]; exact h5⟩, by omega⟩, ?_⟩
    cases e
    simp only at h1 h4 ⊢
    rw [h1, h4]

theorem mem_nmEdgeCalls_target (bmgraph : BipartiteMatchingGraph) (cid n : Nat) (e : NMEdge) :
    e ∈ nmEdgeCalls bmgraph cid false n ↔
      (e.v_target = cid ∧ e.v_source < n ∧ cid < e.v_source ∧
        e.cost = matchedCosts bmgraph cid false e.v_source ∧ e.cost ≠ 0) := by
  unfold nmEdgeCalls
  simp only [List.mem_map, List.mem_filter, List.mem_range, Bool.and_eq_true,
    Bool.not_eq_true', decide_eq_false_iff_not, not_or, Bool.false_eq_true, if_false]
  constructor
  · rintro ⟨id, ⟨h1, ⟨h2, h3⟩, h4⟩, rfl⟩
    exact ⟨rfl, h1, Nat.lt_of_le_of_ne (Nat.le_of_not_lt h4) (fun h => h2 h.symm), rfl, h3⟩
  · rintro ⟨h1, h2, h3, h4, h5⟩
    refine ⟨e.v_source, ⟨h2, ⟨by omega, by rw [← h4]; exact h5⟩, by omega⟩, ?_⟩
    cases e
    simp only at h1 h4 ⊢
    rw [h1, h4]

/-- The edges `toNonMatchingGraph` stores for vertex `i`: one for every other
vertex `t` whose pair cost is not 0, with that cost. -/
theorem mem_calls_of_source (bmgraph : BipartiteMatchingGraph) (i : Nat)
    (hi : i < bmgraph.ncliques) (e : NMEdge) :
    e ∈ ((List.range bmgraph.ncliques).flatMap
        (fun cid => nmEdgeCalls bmgraph cid true bmgraph.ncliques ++
          nmEdgeCalls bmgraph cid false bmgraph.ncliques)).filter
        (fun e => decide (e.v_source = i)) ↔
      (e.v_source = i ∧ e.v_target < bmgraph.ncliques ∧ e.v_target ≠ i ∧
        e.cost = pairCost bmgraph i e.v_target ∧ e.cost ≠ 0) := by
  simp only [List.mem_filter, List.mem_flatMap, List.mem_range, List.mem_append,
    decide_eq_true_eq, mem_nmEdgeCalls_source, mem_nmEdgeCalls_target, pairCost]
  constructor
  · rintro ⟨⟨cid, hc, h | h⟩, hs⟩
    · obtain ⟨h1, h2, h3, h4, h5⟩ := h
      have hci : cid = i := by rw [← h1, hs]
      subst hci
      have hlt : ¬ e.v_target < cid := by omega
      rw [if_neg hlt]
      exact ⟨hs, h2, by omega, h4, h5⟩
    · obtain ⟨h1, h2, h3, h4, h5⟩ := h
      subst hs
      have hlt : e.v_target < e.v_source := by omega
      rw [if_pos hlt]
      rw [h1]
      exact ⟨rfl, by omega, by omega, h4, h5⟩
  · rintro ⟨h1, h2, h3, h4, h5⟩
    refine ⟨?_, h1⟩
    subst h1
    by_cases hlt : e.v_target < e.v_source
    · rw [if_pos hlt] at h4
      exact ⟨e.v_target, h2, Or.inr ⟨rfl, hi, hlt, h4, h5⟩⟩
    · rw [if_neg hlt] at h4
      exact ⟨e.v_source, hi, Or.inl ⟨rfl, h2, by omega, h4, h5⟩⟩

/-- The edges `toNonMatchingGraph` stores for vertex `i` are listed by
increasing target. -/
theorem calls_of_source_sorted (bmgraph : BipartiteMatchingGraph) (i : Nat) :
    (((List.range bmgraph.ncliques).flatMap
        (fun cid => nmEdgeCalls bmgraph cid true bmgraph.ncliques ++
          nmEdgeCalls bmgraph cid false bmgraph.ncliques)).filter
        (fun e => decide (e.v_source = i))).Pairwise
      (fun a b => a.v_target < b.v_target) := by
  rw [List.pairwise_filter]
  rw [List.pairwise_flatMap]
  constructor
  · intro cid _
    rw [List.pairwise_append]
    refine ⟨?_, ?_, ?_⟩
    · unfold nmEdgeCalls
      rw [List.pairwise_map]
      apply List.Pairwise.imp _ (List.Pairwise.filter _ (List.pairwise_lt_range _))
      intro a b hab _ _
      simpa using hab
    · unfold nmEdgeCalls
      rw [List.pairwise_map]
      apply List.Pairwise.imp _ (List.Pairwise.filter _ (List.pairwise_lt_range _))
      intro a b hab h1 h2
      simp only [Bool.false_eq_true, if_false] at h1 h2
      omega
    · intro x hx y hy h1 h2
      obtain ⟨a1, _, a3, _, _⟩ := (mem_nmEdgeCalls_source _ _ _ _).1 hx
      obtain ⟨b1, _, b3, _, _⟩ := (mem_nmEdgeCalls_target _ _ _ _).1 hy
      omega
  · apply List.Pairwise.imp _ (List.pairwise_lt_range _)
    intro c1 c2 hc x hx y hy h1 h2
    rcases List.mem_append.1 hx with hx | hx
    · obtain ⟨a1, _, a3, _, _⟩ := (mem_nmEdgeCalls_source _ _ _ _).1 hx
      rcases List.mem_append.1 hy with hy | hy
      · obtain ⟨b1, _, b3, _, _⟩ := (mem_nmEdgeCalls_source _ _ _ _).1 hy
        omega
      · obtain ⟨b1, _, b3, _, _⟩ := (mem_nmEdgeCalls_target _ _ _ _).1 hy
        omega
    · obtain ⟨a1, _, a3, _, _⟩ := (mem_nmEdgeCalls_target _ _ _ _).1 hx
      rcases List.mem_append.1 hy with hy | hy
      · obtain ⟨b1, _, b3, _, _⟩ := (mem_nmEdgeCalls_source _ _ _ _).1 hy
        omega
      · obtain ⟨b1, _, b3, _, _⟩ := (mem_nmEdgeCalls_target _ _ _ _).1 hy
        omega

/-! ## Conversion to the constraint graph: the cost of a pair -/

theorem foldl_upd_key {α β : Type} (key : α → Nat) (val : α → β) :
    ∀ (L : List α) (init : Nat → β),
      (∀ j, j ∉ L.map key → L.foldl (fun f e => upd f (key e) (val e)) init j = init j) ∧
      ((L.map key).Nodup →
        ∀ e ∈ L, L.foldl (fun f e => upd f (key e) (val e)) init (key e) = val e) := by
  intro L
  induction L with
  | nil =>
    intro init
    exact ⟨fun _ _ => rfl, fun _ e he => by cases he⟩
  | cons a rest ih =>
    intro init
    obtain ⟨i1, i2⟩ := ih (upd init (key a) (val a))
    constructor
    · intro j hj
      simp only [List.map_cons, List.mem_cons, not_or] at hj
      simp only [List.foldl_cons]
      rw [i1 j hj.2, upd_apply, if_neg hj.1]
    · intro hnd e he
      simp only [List.map_cons, List.nodup_cons] at hnd
      simp only [List.foldl_cons]
      rcases List.mem_cons.1 he with he | he
      · subst he
        rw [i1 _ hnd.1, upd_apply, if_pos rfl]
      · exact i2 hnd.2 e he

theorem mem_targetEdges {g : BipartiteMatchingGraph} {c : Nat} {e : EdgeRef} :
    e ∈ g.targetEdges c ↔ e ∈ g.edges.enum ∧ e.2.v_target = c := by
  simp [BipartiteMatchingGraph.targetEdges, List.mem_filter]

theorem targetEdges_sources_nodup {g : BipartiteMatchingGraph} (hs : g.SimpleEdges) (c : Nat) :
    ((g.targetEdges c).map (fun e => e.2.v_source)).Nodup := by
  have hnd : (g.targetEdges c).Nodup := by
    unfold BipartiteMatchingGraph.targetEdges
    apply List.Nodup.filter
    have h1 : (g.edges.enum.map Prod.fst).Nodup := by
      rw [List.enum_map_fst]
      exact List.nodup_range _
    exact List.Nodup.of_map _ h1
  rw [List.nodup_map_iff_inj_on hnd]
  intro x hx y hy hxy
  obtain ⟨hx1, hx2⟩ := mem_targetEdges.1 hx
  obtain ⟨hy1, hy2⟩ := mem_targetEdges.1 hy
  exact hs x hx1 y hy1 hxy (by rw [hx2, hy2])

/-- The cost of the pair `i -> t` in a graph with at most one edge per ordered
pair: the converted score of the edge `i -> t`, and the infinite cost when
there is no such edge. -/
theorem pairCost_spec {g : BipartiteMatchingGraph} (hs : g.SimpleEdges) (i t : Nat) :
    (∀ x ∈ g.edges, x.v_source = i → x.v_target = t →
      pairCost g i t = convertBMScoreToNMCost x.score) ∧
    ((∀ x ∈ g.edges, ¬ (x.v_source = i ∧ x.v_target = t)) → pairCost g i t = UINT_MAX) := by
  unfold pairCost matchedCosts
  simp only [if_true, Bool.false_eq_true, if_false]
  constructor
  · intro x hx h1 h2
    obtain ⟨k, hk⟩ := List.mem_iff_getElem?.1 hx
    have hmem : (k, x) ∈ g.edges.enum := List.mk_mem_enum_iff_getElem?.2 hk
    split
    · have := (foldl_upd_key (fun (e : EdgeRef) => e.2.v_source)
        (fun e => convertBMScoreToNMCost e.2.score) (g.targetEdges t)
        (fun _ => UINT_MAX)).2 (targetEdges_sources_nodup hs t) (k, x)
        (mem_targetEdges.2 ⟨hmem, h2⟩)
      simp only at this
      rw [h1] at this
      exact this
    · have := (foldl_upd_key (fun (e : EdgeRef) => e.2.v_target)
        (fun e => convertBMScoreToNMCost e.2.score) (g.sourceEdges i)
        (fun _ => UINT_MAX)).2 (sourceEdges_targets_nodup hs i) (k, x)
        (mem_sourceEdges.2 ⟨hmem, h1⟩)
      simp only at this
      rw [h2] at this
      exact this
  · intro hno
    split
    · apply (foldl_upd_key (fun (e : EdgeRef) => e.2.v_source)
        (fun e => convertBMScoreToNMCost e.2.score) (g.targetEdges t) (fun _ => UINT_MAX)).1
      intro hmem
      obtain ⟨e, he, hes⟩ := List.mem_map.1 hmem
      obtain ⟨h1, h2⟩ := mem_targetEdges.1 he
      exact hno e.2 (mem_edges_of_enum h1) ⟨hes, h2⟩
    · apply (foldl_upd_key (fun (e : EdgeRef) => e.2.v_target)
        (fun e => convertBMScoreToNMCost e.2.score) (g.sourceEdges i) (fun _ => UINT_MAX)).1
      intro hmem
      obtain ⟨e, he, het⟩ := List.mem_map.1 hmem
      obtain ⟨h1, h2⟩ := mem_sourceEdges.1 he
      exact hno e.2 (mem_edges_of_enum h1) ⟨h2, het⟩

/-- The cost made of a score that fits an `int`: infinite for `S_MIN`, `-s` for
the other scores `s <= 0`, and `2^32 - s` for a positive score. -/
theorem convertBMScoreToNMCost_spec (s : Int) (h : inIntRange s = true) :
    (s = INT_MIN → convertBMScoreToNMCost s = UINT_MAX) ∧
    (s ≠ INT_MIN → s ≤ 0 → (convertBMScoreToNMCost s : Int) = -s) ∧
    (0 < s → (convertBMScoreToNMCost s : Int) = 4294967296 - s) ∧
    (convertBMScoreToNMCost s = 0 ↔ s = 0) := by
  simp only [inIntRange, INT_MIN, INT_MAX, Bool.and_eq_true, decide_eq_true_eq] at h
  unfold convertBMScoreToNMCost INT_MIN UINT_MAX
  refine ⟨fun h1 => by rw [if_pos h1], ?_, ?_, ?_⟩
  · intro h1 h2
    rw [if_neg h1]
    have : (-s) % 4294967296 = -s := Int.emod_eq_of_lt (by omega) (by omega)
    rw [this]
    omega
  · intro h1
    rw [if_neg (by omega)]
    have : (-s) % 4294967296 = 4294967296 - s := by
      have h2 : (-s) % 4294967296 = (-s + 4294967296) % 4294967296 := by
        rw [Int.add_emod_self]
      rw [h2]
      have : (-s + 4294967296) % 4294967296 = -s + 4294967296 :=
        Int.emod_eq_of_lt (by omega) (by omega)
      omega
    rw [this]
    omega
  · by_cases h1 : s = -2147483648
    · rw [if_pos h1]
      omega
    · rw [if_neg h1]
      by_cases h2 : s ≤ 0
      · have : (-s) % 4294967296 = -s := Int.emod_eq_of_lt (by omega) (by omega)
        rw [this]
        omega
      · have : (-s) % 4294967296 = 4294967296 - s := by
          have h3 : (-s) % 4294967296 = (-s + 4294967296) % 4294967296 := by
            rw [Int.add_emod_self]
          rw [h3]
          have : (-s + 4294967296) % 4294967296 = -s + 4294967296 :=
            Int.emod_eq_of_lt (by omega) (by omega)
          omega
        rw [this]
        omega

end wpm

namespace wpm

/-! ## Conversion to the constraint graph: the constraints of a vertex -/

theorem toNonMatchingGraph_length (bmgraph : BipartiteMatchingGraph) :
    (toNonMatchingGraph bmgraph).vertices.length = bmgraph.ncliques := by
  rw [toNonMatchingGraph_eq, foldl_addDirectedEdge_length]
  simp [NonMatchingGraph.startNewGraph]

/-- The constraint stored for the pair `i -> j` carries the cost of the pair,
and there is none when that cost is 0. -/
theorem mem_calls_pair (bmgraph : BipartiteMatchingGraph) (i j : Nat)
    (hi : i < bmgraph.ncliques) (hj : j < bmgraph.ncliques) (hij : j ≠ i) (c : Nat) :
    (⟨i, j, c⟩ : NMEdge) ∈ ((List.range bmgraph.ncliques).flatMap
        (fun cid => nmEdgeCalls bmgraph cid true bmgraph.ncliques ++
          nmEdgeCalls bmgraph cid false bmgraph.ncliques)).filter
        (fun e => decide (e.v_source = i)) ↔
      (c = pairCost bmgraph i j ∧ c ≠ 0) := by
  rw [mem_calls_of_source bmgraph i hi]
  constructor
  · rintro ⟨_, _, _, h4, h5⟩
    exact ⟨h4, h5⟩
  · rintro ⟨h4, h5⟩
    exact ⟨rfl, hj, hij, h4, h5⟩

/-- Claim C25, counterexample: the edge `1 -> 0` of score 5 becomes a constraint
of cost 4294967291, not of cost -5, and the edge `0 -> 1` of score 1 becomes a
constraint of infinite cost. -/
theorem positive_score_not_negated :
    positiveScoreGraph.WellFormed ∧ positiveScoreGraph.SimpleEdges ∧
    positiveScoreGraph.ScoresInRange ∧
    (∀ e ∈ positiveScoreGraph.edges, e.v_source ≠ e.v_target) ∧
    (⟨5, 1, 0⟩ : BMEdge) ∈ positiveScoreGraph.edges ∧ (5 : Int) ≠ 0 ∧ (5 : Int) ≠ INT_MIN ∧
    (⟨1, 0, 1⟩ : BMEdge) ∈ positiveScoreGraph.edges ∧ (1 : Int) ≠ 0 ∧ (1 : Int) ≠ INT_MIN ∧
    (toNonMatchingGraph positiveScoreGraph).vertices =
      [⟨0, [⟨0, 1, UINT_MAX⟩]⟩, ⟨1, [⟨1, 0, 4294967291⟩]⟩] ∧
    ¬ (∃ v ∈ (toNonMatchingGraph positiveScoreGraph).vertices,
        ∃ e ∈ v.constraints, e.v_source = 1 ∧ e.v_target = 0 ∧ (e.cost : Int) = -5) := by
  refine ⟨by decide, by decide, by decide, by decide, by decide, by decide, by decide,
    by decide, by decide, by decide, by decide, ?_⟩
  have h : (toNonMatchingGraph positiveScoreGraph).vertices =
      [⟨0, [⟨0, 1, UINT_MAX⟩]⟩, ⟨1, [⟨1, 0, 4294967291⟩]⟩] := by decide
  rw [h]
  rintro ⟨v, hv, e, he, _, _, h3⟩
  have : (0 : Int) ≤ (e.cost : Int) := Int.ofNat_nonneg _
  omega

/-- Claim C25, amended: for an assignment graph of `N` cliques whose edges join
cliques of the graph, with at most one edge per ordered pair and scores that fit
an `int`, `toNonMatchingGraph` gives a graph of `N` vertices in which vertex `i`
has id `i` and constraints listed by strictly increasing target, each towards
another vertex of the graph; for every ordered pair `i != j` it stores no
constraint when the edge `i -> j` has score 0, exactly one constraint, of cost
`-s`, when the edge has a score `s < 0` other than `S_MIN`, of the unsigned
value `2^32 - s` when the edge has a positive score `s`, and of infinite cost
when the edge has score `S_MIN` or when there is no edge `i -> j`. -/
theorem toNonMatchingGraph_spec (bmgraph : BipartiteMatchingGraph)
    (hw : bmgraph.WellFormed) (hs : bmgraph.SimpleEdges) (hr : bmgraph.ScoresInRange) :
    (toNonMatchingGraph bmgraph).vertices.length = bmgraph.ncliques ∧
    ∀ i, i < bmgraph.ncliques →
      ∃ L : List NMEdge, (toNonMatchingGraph bmgraph).vertices[i]? = some ⟨i, L⟩ ∧
        L.Pairwise (fun a b => a.v_target < b.v_target) ∧
        (∀ e ∈ L, e.v_source = i ∧ e.v_target < bmgraph.ncliques ∧ e.v_target ≠ i) ∧
        ∀ j, j < bmgraph.ncliques → j ≠ i →
          (∀ s : Int, (⟨s, i, j⟩ : BMEdge) ∈ bmgraph.edges → s = 0 →
            ∀ e ∈ L, e.v_target ≠ j) ∧
          (∀ s : Int, (⟨s, i, j⟩ : BMEdge) ∈ bmgraph.edges → s < 0 → s ≠ INT_MIN →
            ∀ c : Nat, (⟨i, j, c⟩ : NMEdge) ∈ L ↔ (c : Int) = -s) ∧
          (∀ s : Int, (⟨s, i, j⟩ : BMEdge) ∈ bmgraph.edges → 0 < s →
            ∀ c : Nat, (⟨i, j, c⟩ : NMEdge) ∈ L ↔ (c : Int) = 4294967296 - s) ∧
          (∀ s : Int, (⟨s, i, j⟩ : BMEdge) ∈ bmgraph.edges → s = INT_MIN →
            ∀ c : Nat, (⟨i, j, c⟩ : NMEdge) ∈ L ↔ c = UINT_MAX) ∧
          ((∀ s : Int, (⟨s, i, j⟩ : BMEdge) ∉ bmgraph.edges) →
            ∀ c : Nat, (⟨i, j, c⟩ : NMEdge) ∈ L ↔ c = UINT_MAX) := by
  have _ := hw
  refine ⟨toNonMatchingGraph_length bmgraph, ?_⟩
  · intro i hi
    obtain ⟨_, hget⟩ := toNonMatchingGraph_getElem? bmgraph i hi
    refine ⟨_, hget, calls_of_source_sorted bmgraph i, ?_, ?_⟩
    · intro e he
      obtain ⟨h1, h2, h3, _, _⟩ := (mem_calls_of_source bmgraph i hi e).1 he
      exact ⟨h1, h2, h3⟩
    · intro j hj hij
      have hcost : ∀ s : Int, (⟨s, i, j⟩ : BMEdge) ∈ bmgraph.edges →
          pairCost bmgraph i j = convertBMScoreToNMCost s :=
        fun s hmem => (pairCost_spec hs i j).1 _ hmem rfl rfl
      refine ⟨?_, ?_, ?_, ?_, ?_⟩
      · intro s hmem h0 e he hej
        obtain ⟨_, _, _, h4, h5⟩ := (mem_calls_of_source bmgraph i hi e).1 he
        rw [hej, hcost s hmem, ((convertBMScoreToNMCost_spec s (hr _ hmem)).2.2.2).2 h0] at h4
        exact h5 h4
      · intro s hmem hneg hmin c
        rw [mem_calls_pair bmgraph i j hi hj hij, hcost s hmem]
        have h := (convertBMScoreToNMCost_spec s (hr _ hmem)).2.1 hmin (le_of_lt hneg)
        constructor
        · rintro ⟨h1, _⟩
          rw [h1]
          exact h
        · intro hc
          have : c = convertBMScoreToNMCost s := by omega
          exact ⟨this, by omega⟩
      · intro s hmem hpos c
        rw [mem_calls_pair bmgraph i j hi hj hij, hcost s hmem]
        have h := (convertBMScoreToNMCost_spec s (hr _ hmem)).2.2.1 hpos
        have hrange := hr _ hmem
        simp only [inIntRange, INT_MIN, INT_MAX, Bool.and_eq_true, decide_eq_true_eq] at hrange
        constructor
        · rintro ⟨h1, _⟩
          rw [h1]
          exact h
        · intro hc
          have : c = convertBMScoreToNMCost s := by omega
          exact ⟨this, by omega⟩
      · intro s hmem hmin c
        rw [mem_calls_pair bmgraph i j hi hj hij, hcost s hmem,
          (convertBMScoreToNMCost_spec s (hr _ hmem)).1 hmin]
        constructor
        · rintro ⟨h1, _⟩
          exact h1
        · intro hc
          exact ⟨hc, by rw [hc]; decide⟩
      · intro hno c
        have hnone : pairCost bmgraph i j = UINT_MAX := by
          apply (pairCost_spec hs i j).2
          rintro x hx ⟨h1, h2⟩
          apply hno x.score
          cases x
          simp only at h1 h2
          rw [← h1, ← h2]
          exact hx
        rw [mem_calls_pair bmgraph i j hi hj hij, hnone]
        constructor
        · rintro ⟨h1, _⟩
          exact h1
        · intro hc
          exact ⟨hc, by rw [hc]; decide⟩

theorem toNonMatchingGraph_spec_witness :
    conversionTestGraph.WellFormed ∧ conversionTestGraph.SimpleEdges ∧
    conversionTestGraph.ScoresInRange ∧
    (toNonMatchingGraph conversionTestGraph).vertices =
      [⟨0, [⟨0, 2, UINT_MAX⟩, ⟨0, 3, 1⟩, ⟨0, 4, UINT_MAX⟩]⟩,
        ⟨1, [⟨1, 2, 1⟩, ⟨1, 3, UINT_MAX⟩]⟩,
        ⟨2, [⟨2, 0, UINT_MAX⟩, ⟨2, 4, 1⟩]⟩,
        ⟨3, [⟨3, 0, 1⟩, ⟨3, 1, UINT_MAX⟩]⟩,
        ⟨4, [⟨4, 0, UINT_MAX⟩, ⟨4, 1, 1⟩]⟩] ∧
    ((toNonMatchingGraph conversionTestGraph).vertices.length = conversionTestGraph.ncliques ∧
    ∀ i, i < conversionTestGraph.ncliques →
      ∃ L : List NMEdge, (toNonMatchingGraph conversionTestGraph).vertices[i]? = some ⟨i, L⟩ ∧
        L.Pairwise (fun a b => a.v_target < b.v_target) ∧
        (∀ e ∈ L, e.v_source = i ∧ e.v_target < conversionTestGraph.ncliques ∧ e.v_target ≠ i) ∧
        ∀ j, j < conversionTestGraph.ncliques → j ≠ i →
          (∀ s : Int, (⟨s, i, j⟩ : BMEdge) ∈ conversionTestGraph.edges → s = 0 →
            ∀ e ∈ L, e.v_target ≠ j) ∧
          (∀ s : Int, (⟨s, i, j⟩ : BMEdge) ∈ conversionTestGraph.edges → s < 0 → s ≠ INT_MIN →
            ∀ c : Nat, (⟨i, j, c⟩ : NMEdge) ∈ L ↔ (c : Int) = -s) ∧
          (∀ s : Int, (⟨s, i, j⟩ : BMEdge) ∈ conversionTestGraph.edges → 0 < s →
            ∀ c : Nat, (⟨i, j, c⟩ : NMEdge) ∈ L ↔ (c : Int) = 4294967296 - s) ∧
          (∀ s : Int, (⟨s, i, j⟩ : BMEdge) ∈ conversionTestGraph.edges → s = INT_MIN →
            ∀ c : Nat, (⟨i, j, c⟩ : NMEdge) ∈ L ↔ c = UINT_MAX) ∧
          ((∀ s : Int, (⟨s, i, j⟩ : BMEdge) ∉ conversionTestGraph.edges) →
            ∀ c : Nat, (⟨i, j, c⟩ : NMEdge) ∈ L ↔ c = UINT_MAX)) :=
  ⟨by decide, by decide, by decide, by decide,
    toNonMatchingGraph_spec conversionTestGraph (by decide) (by decide) (by decide)⟩

end wpm

namespace wpm

/-! ## Conversion round trip -/

/-- The cost `toNonMatchingGraph` reads for the pair `i -> t` in the converted
graph: the cost of the constraint of vertex `i` towards `t` when there is one,
and 0 otherwise. -/
theorem pairCost_toBipartiteMatchingGraph (G : NonMatchingGraph) (hid : G.IdsArePositions)
    (hdup : G.DistinctTargets)
    (hcost : ∀ v ∈ G.vertices, ∀ e ∈ v.constraints,
      e.cost = UINT_MAX ∨ (1 ≤ e.cost ∧ e.cost ≤ 2147483647))
    (i t : Nat) (v : NMVertex) (hv : G.vertices[i]? = some v)
    (ht : t < G.vertices.length) (hti : t ≠ i) :
    (∀ e ∈ v.constraints, e.v_target = t →
      pairCost (toBipartiteMatchingGraph G) i t = e.cost) ∧
    ((∀ e ∈ v.constraints, e.v_target ≠ t) →
      pairCost (toBipartiteMatchingGraph G) i t = 0) := by
  have hvm : v ∈ G.vertices := List.getElem?_mem hv
  have hvid : v.id = i := idsArePositions_getElem? G hid i v hv
  obtain ⟨p1, p2⟩ := pairCost_spec (toBipartiteMatchingGraph_simpleEdges G hid) i t
  obtain ⟨s1, s2⟩ := scoreMatchingCandidates_eq v (hdup v hvm) t
  -- the vertex is the only one with id `i`
  have honly : ∀ w ∈ G.vertices, w.id = i → w = v := by
    intro w hw hwi
    obtain ⟨_, h2⟩ := mem_vertices_id_lt G hid hw
    rw [hwi, hv] at h2
    exact (Option.some.inj h2).symm
  constructor
  · intro e he het
    rcases hcost v hvm e he with hc | ⟨hc1, hc2⟩
    · rw [hc]
      apply p2
      rintro x hx ⟨hxs, hxt⟩
      obtain ⟨w, hw, h1, _, _, h4⟩ := (mem_toBipartiteMatchingGraph G x).1 hx
      have hwv := honly w hw (by rw [← h1, hxs])
      rw [hwv, hxt, s1 e he het, hc, convertNMCostToBMScore_max] at h4
      exact h4 rfl
    · have hsc : scoreMatchingCandidates v t = -(e.cost : Int) := by
        rw [s1 e he het, convertNMCostToBMScore_small e.cost (by omega)]
      have hmem : (⟨-(e.cost : Int), i, t⟩ : BMEdge) ∈ (toBipartiteMatchingGraph G).edges := by
        rw [mem_toBipartiteMatchingGraph]
        refine ⟨v, hvm, hvid.symm, ht, hsc.symm, ?_⟩
        rw [hsc]
        unfold INT_MIN
        omega
      rw [p1 _ hmem rfl rfl]
      exact convertBMScoreToNMCost_neg e.cost hc2
  · intro hno
    have hsc : scoreMatchingCandidates v t = 0 := by
      rw [s2 hno, hvid, if_neg hti]
    have hmem : (⟨0, i, t⟩ : BMEdge) ∈ (toBipartiteMatchingGraph G).edges := by
      rw [mem_toBipartiteMatchingGraph]
      refine ⟨v, hvm, hvid.symm, ht, hsc.symm, ?_⟩
      rw [hsc]
      decide
    rw [p1 _ hmem rfl rfl]
    exact (by decide : convertBMScoreToNMCost 0 = 0)

/-- Claim C26: for a constraint graph whose vertex ids are their positions, with
targets below `N`, no self-edge, no two constraints of a vertex towards the same
target and every cost either infinite or in `1..2^31-1`, converting to the
assignment graph and back gives a graph with the same number of vertices in
which vertex `i` has id `i`, its constraints listed by strictly increasing
target, and the same (target, cost) pairs as vertex `i` of the graph. -/
theorem conversion_round_trip (G : NonMatchingGraph) (hid : G.IdsArePositions)
    (htgt : ∀ v ∈ G.vertices, ∀ e ∈ v.constraints, e.v_target < G.vertices.length)
    (hself : ∀ v ∈ G.vertices, ∀ e ∈ v.constraints, e.v_target ≠ v.id)
    (hdup : G.DistinctTargets)
    (hcost : ∀ v ∈ G.vertices, ∀ e ∈ v.constraints,
      e.cost = UINT_MAX ∨ (1 ≤ e.cost ∧ e.cost ≤ 2147483647)) :
    (toNonMatchingGraph (toBipartiteMatchingGraph G)).vertices.length = G.vertices.length ∧
    ∀ (i : Nat) (v : NMVertex), G.vertices[i]? = some v →
      ∃ L : List NMEdge,
        (toNonMatchingGraph (toBipartiteMatchingGraph G)).vertices[i]? = some ⟨i, L⟩ ∧
        (∀ e ∈ L, e.v_source = i) ∧
        L.Pairwise (fun a b => a.v_target < b.v_target) ∧
        (L.map (fun e => (e.v_target, e.cost))).Perm
          (v.constraints.map (fun e => (e.v_target, e.cost))) ∧
        (∀ t c : Nat, (∃ e ∈ L, e.v_target = t ∧ e.cost = c) ↔
          (∃ e ∈ v.constraints, e.v_target = t ∧ e.cost = c)) := by
  have hn : (toBipartiteMatchingGraph G).ncliques = G.vertices.length := by
    rw [toBipartiteMatchingGraph_eq]
  refine ⟨by rw [toNonMatchingGraph_length, hn], ?_⟩
  intro i v hv
  have hi : i < G.vertices.length := (List.getElem?_eq_some_iff.1 hv).1
  have hvm : v ∈ G.vertices := List.getElem?_mem hv
  have hvid : v.id = i := idsArePositions_getElem? G hid i v hv
  have hiB : i < (toBipartiteMatchingGraph G).ncliques := by rw [hn]; exact hi
  obtain ⟨_, hget⟩ := toNonMatchingGraph_getElem? (toBipartiteMatchingGraph G) i hiB
  have hsorted := calls_of_source_sorted (toBipartiteMatchingGraph G) i
  have hmemL := mem_calls_of_source (toBipartiteMatchingGraph G) i hiB
  generalize ((List.range (toBipartiteMatchingGraph G).ncliques).flatMap
      (fun cid => nmEdgeCalls (toBipartiteMatchingGraph G) cid true
          (toBipartiteMatchingGraph G).ncliques ++
        nmEdgeCalls (toBipartiteMatchingGraph G) cid false
          (toBipartiteMatchingGraph G).ncliques)).filter
      (fun e => decide (e.v_source = i)) = L at hget hsorted hmemL
  have hiff : ∀ t c : Nat, (∃ e ∈ L, e.v_target = t ∧ e.cost = c) ↔
      (∃ e ∈ v.constraints, e.v_target = t ∧ e.cost = c) := by
    intro t c
    constructor
    · rintro ⟨e, he, rfl, rfl⟩
      obtain ⟨_, h2, h3, h4, h5⟩ := (hmemL e).1 he
      rw [hn] at h2
      obtain ⟨q1, q2⟩ := pairCost_toBipartiteMatchingGraph G hid hdup hcost i e.v_target v
        hv h2 h3
      by_cases hex : ∃ x ∈ v.constraints, x.v_target = e.v_target
      · obtain ⟨x, hx, hxt⟩ := hex
        exact ⟨x, hx, hxt, by rw [h4, q1 x hx hxt]⟩
      · exfalso
        apply h5
        rw [h4]
        apply q2
        intro x hx hxt
        exact hex ⟨x, hx, hxt⟩
    · rintro ⟨x, hx, rfl, rfl⟩
      have h2 := htgt v hvm x hx
      have h3 : x.v_target ≠ i := by
        rw [← hvid]
        exact hself v hvm x hx
      obtain ⟨q1, _⟩ := pairCost_toBipartiteMatchingGraph G hid hdup hcost i x.v_target v
        hv h2 h3
      refine ⟨⟨i, x.v_target, x.cost⟩, (hmemL _).2 ⟨rfl, by rw [hn]; exact h2, h3, ?_, ?_⟩,
        rfl, rfl⟩
      · exact (q1 x hx rfl).symm
      · show x.cost ≠ 0
        rcases hcost v hvm x hx with hc | hc
        · rw [hc]
          decide
        · omega
  refine ⟨L, hget, fun e he => ((hmemL e).1 he).1, hsorted, ?_, hiff⟩
  have hnd1 : (L.map (fun e => (e.v_target, e.cost))).Nodup := by
    unfold List.Nodup
    rw [List.pairwise_map]
    apply List.Pairwise.imp _ hsorted
    intro a b hab heq
    have : a.v_target = b.v_target := congrArg Prod.fst heq
    omega
  have hnd2 : (v.constraints.map (fun e => (e.v_target, e.cost))).Nodup := by
    apply List.Nodup.of_map Prod.fst
    rw [List.map_map]
    exact hdup v hvm
  rw [List.perm_ext_iff_of_nodup hnd1 hnd2]
  rintro ⟨t, c⟩
  simp only [List.mem_map, Prod.mk.injEq]
  exact hiff t c

theorem conversion_round_trip_witness :
    roundTripGraph.IdsArePositions ∧
    (∀ v ∈ roundTripGraph.vertices, ∀ e ∈ v.constraints,
      e.v_target < roundTripGraph.vertices.length) ∧
    (∀ v ∈ roundTripGraph.vertices, ∀ e ∈ v.constraints, e.v_target ≠ v.id) ∧
    roundTripGraph.DistinctTargets ∧
    (∀ v ∈ roundTripGraph.vertices, ∀ e ∈ v.constraints,
      e.cost = UINT_MAX ∨ (1 ≤ e.cost ∧ e.cost ≤ 2147483647)) ∧
    (toNonMatchingGraph (toBipartiteMatchingGraph roundTripGraph)).vertices =
      [⟨0, [⟨0, 2, UINT_MAX⟩, ⟨0, 3, 1⟩, ⟨0, 4, UINT_MAX⟩]⟩,
        ⟨1, [⟨1, 2, 1⟩, ⟨1, 3, UINT_MAX⟩]⟩,
        ⟨2, [⟨2, 0, UINT_MAX⟩, ⟨2, 4, 1⟩]⟩,
        ⟨3, [⟨3, 0, 1⟩, ⟨3, 1, UINT_MAX⟩]⟩,
        ⟨4, [⟨4, 0, UINT_MAX⟩, ⟨4, 1, 1⟩]⟩] ∧
    ((toNonMatchingGraph (toBipartiteMatchingGraph roundTripGraph)).vertices.length =
        roundTripGraph.vertices.length ∧
      ∀ (i : Nat) (v : NMVertex), roundTripGraph.vertices[i]? = some v →
        ∃ L : List NMEdge,
          (toNonMatchingGraph (toBipartiteMatchingGraph roundTripGraph)).vertices[i]? =
            some ⟨i, L⟩ ∧
          (∀ e ∈ L, e.v_source = i) ∧
          L.Pairwise (fun a b => a.v_target < b.v_target) ∧
          (L.map (fun e => (e.v_target, e.cost))).Perm
            (v.constraints.map (fun e => (e.v_target, e.cost))) ∧
          (∀ t c : Nat, (∃ e ∈ L, e.v_target = t ∧ e.cost = c) ↔
            (∃ e ∈ v.constraints, e.v_target = t ∧ e.cost = c))) :=
  ⟨by decide, by decide, by decide, by decide, by decide, by decide,
    conversion_round_trip roundTripGraph (by decide) (by decide) (by decide) (by decide)
      (by decide)⟩

end wpm

namespace wpm

/-! ## Assignment-graph text: reading back what `serialize` writes -/

theorem foldl_addDirectedEdge_eq :
    ∀ (es : List BMEdge) (g : BipartiteMatchingGraph),
      es.foldl (fun g e => g.addDirectedEdge e.v_source e.v_target e.score) g =
        ⟨g.ncliques, g.edges ++ es⟩ := by
  intro es
  induction es with
  | nil => intro g; simp
  | cons e rest ih =>
    intro g
    rw [List.foldl_cons, ih]
    cases e
    simp [BipartiteMatchingGraph.addDirectedEdge]

/-- The graph built by adding the edges of `es` in order has `N` cliques and the
edge list `es`. -/
theorem buildGraph_eq (N : Nat) (es : List BMEdge) : buildGraph N es = ⟨N, es⟩ := by
  unfold buildGraph
  rw [foldl_addDirectedEdge_eq]
  simp [BipartiteMatchingGraph.startNewGraph]

/-- The extraction of an `int` on a text that does not start with a sign. -/
theorem extractInt_nosign (d : Char) (tl : List Char) (good : Bool)
    (hplus : d ≠ '+') (hminus : d ≠ '-') :
    IStream.extractInt ⟨d :: tl, good⟩ =
      if ((d :: tl).takeWhile Char.isDigit).isEmpty then
        (0, ⟨(d :: tl).dropWhile Char.isDigit, false⟩)
      else if IStream.digitsValue ((d :: tl).takeWhile Char.isDigit) > 2147483647 then
        (INT_MAX, ⟨(d :: tl).dropWhile Char.isDigit, false⟩)
      else
        ((IStream.digitsValue ((d :: tl).takeWhile Char.isDigit) : Int),
          ⟨(d :: tl).dropWhile Char.isDigit, !((d :: tl).dropWhile Char.isDigit).isEmpty⟩) := by
  unfold IStream.extractInt
  simp [hplus, hminus]

/-- The extraction of an `int` on a text that starts with a minus sign. -/
theorem extractInt_minus (tl : List Char) (good : Bool) :
    IStream.extractInt ⟨'-' :: tl, good⟩ =
      if (tl.takeWhile Char.isDigit).isEmpty then
        (0, ⟨tl.dropWhile Char.isDigit, false⟩)
      else if IStream.digitsValue (tl.takeWhile Char.isDigit) > 2147483648 then
        (INT_MIN, ⟨tl.dropWhile Char.isDigit, false⟩)
      else
        (-(IStream.digitsValue (tl.takeWhile Char.isDigit) : Int),
          ⟨tl.dropWhile Char.isDigit, !(tl.dropWhile Char.isDigit).isEmpty⟩) := by
  unfold IStream.extractInt
  simp

/-- A printed number followed by a character that is no digit: the run of digits
and what follows it. -/
theorem repr_takeWhile (n : Nat) (c : Char) (r : List Char) (hc : c.isDigit = false) :
    ((Nat.repr n).toList ++ c :: r).takeWhile Char.isDigit = (Nat.repr n).toList ∧
    ((Nat.repr n).toList ++ c :: r).dropWhile Char.isDigit = c :: r ∧
    (Nat.repr n).toList ≠ [] ∧ IStream.digitsValue (Nat.repr n).toList = n ∧
    ∀ d ∈ (Nat.repr n).toList, d.isDigit = true := by
  obtain ⟨pre, h1, h2, h3, h4⟩ := repr_spec n
  rw [h1]
  refine ⟨?_, ?_, h2, h4, h3⟩
  · rw [List.takeWhile_append_of_pos h3]
    simp [List.takeWhile_cons, hc]
  · rw [List.dropWhile_append_of_pos h3]
    simp [List.dropWhile_cons, hc]

/-- Reading back a printed `int` that is followed by a character that is no
digit. -/
theorem extractInt_repr (s : Int) (hs : inIntRange s = true) (c : Char) (r : List Char)
    (hc : c.isDigit = false) (good : Bool) :
    IStream.extractInt ⟨(Int.repr s).toList ++ c :: r, good⟩ = (s, ⟨c :: r, true⟩) := by
  simp only [inIntRange, INT_MIN, INT_MAX, Bool.and_eq_true, decide_eq_true_eq] at hs
  cases s with
  | ofNat m =>
    have hrepr : Int.repr (Int.ofNat m) = Nat.repr m := rfl
    rw [hrepr]
    obtain ⟨t1, t2, t3, t4, t5⟩ := repr_takeWhile m c r hc
    obtain ⟨d, tl, hd⟩ : ∃ d tl, (Nat.repr m).toList = d :: tl := by
      cases hp : (Nat.repr m).toList with
      | nil => exact absurd hp t3
      | cons d tl => exact ⟨d, tl, rfl⟩
    have hdig : d.isDigit = true := t5 d (by rw [hd]; exact List.mem_cons_self _ _)
    have hplus : d ≠ '+' := by
      intro h
      rw [h] at hdig
      exact absurd hdig (by decide)
    have hminus : d ≠ '-' := by
      intro h
      rw [h] at hdig
      exact absurd hdig (by decide)
    have hbuf : (Nat.repr m).toList ++ c :: r = d :: (tl ++ c :: r) := by
      rw [hd]
      rfl
    rw [hbuf, extractInt_nosign d _ good hplus hminus, ← hbuf, t1, t2, t4, hd]
    have hm : ¬ m > 2147483647 := by
      have : (Int.ofNat m) = (m : Int) := rfl
      omega
    simp [hm]
  | negSucc m =>
    have hrepr : (Int.repr (Int.negSucc m)).toList = '-' :: (Nat.repr (m + 1)).toList := rfl
    obtain ⟨t1, t2, t3, t4, t5⟩ := repr_takeWhile (m + 1) c r hc
    obtain ⟨d, tl, hd⟩ : ∃ d tl, (Nat.repr (m + 1)).toList = d :: tl := by
      cases hp : (Nat.repr (m + 1)).toList with
      | nil => exact absurd hp t3
      | cons d tl => exact ⟨d, tl, rfl⟩
    rw [hrepr, List.cons_append, extractInt_minus, t1, t2, t4, hd]
    have hm : ¬ m + 1 > 2147483648 := by
      have : Int.negSucc m = -((m : Int) + 1) := Int.negSucc_eq m
      omega
    simp only [List.isEmpty_cons, Bool.false_eq_true, if_false, hm]
    simp [Int.negSucc_eq]

theorem serializeEdge_toList (e : BMEdge) :
    (BipartiteMatchingGraph.serializeEdge e).toList = encodeEdge e := by
  unfold BipartiteMatchingGraph.serializeEdge encodeEdge
  simp [String.toList, String.data_append]

theorem encodeEdge_append (e : BMEdge) (X : List Char) :
    encodeEdge e ++ X =
      'e' :: ' ' :: ((Nat.repr e.v_source).toList ++ ' ' :: ((Nat.repr e.v_target).toList ++
        ' ' :: ((Int.repr e.score).toList ++ '\n' :: X))) := by
  simp [encodeEdge]

theorem bm_serialize_toList (g : BipartiteMatchingGraph) :
    (BipartiteMatchingGraph.serialize g).toList =
      'n' :: 'c' :: ' ' :: ((Nat.repr g.ncliques).toList ++
        '\n' :: 'n' :: 'e' :: ' ' :: ((Nat.repr g.edges.length).toList ++
          '\n' :: (g.edges.map encodeEdge).flatten)) := by
  unfold BipartiteMatchingGraph.serialize
  simp only [String.toList, String.data_append]
  have h := join_toList (g.edges.map BipartiteMatchingGraph.serializeEdge)
  simp only [String.toList, List.map_map] at h
  rw [h]
  have hfun : (String.toList ∘ BipartiteMatchingGraph.serializeEdge) = encodeEdge := by
    funext e
    exact serializeEdge_toList e
  rw [hfun]
  simp

end wpm

namespace wpm

/-- The function `Edge::deserialize` reads back the line written for an edge
between two cliques of the graph. -/
theorem deserializeEdge_encoded (N : Nat) (hN : N ≤ UINT_MAX) (e : BMEdge)
    (hsrc : e.v_source < N) (htgt : e.v_target < N) (hsc : inIntRange e.score = true)
    (rest : List Char) :
    BipartiteMatchingGraph.deserializeEdge N ⟨encodeEdge e ++ rest, true⟩ =
      Parsed.accept e ⟨rest, true⟩ := by
  have e1 := extractUnsigned_repr e.v_source (by omega) ' '
    ((Nat.repr e.v_target).toList ++ ' ' :: ((Int.repr e.score).toList ++ '\n' :: rest))
    (by decide) true
  have e2 := extractUnsigned_repr e.v_target (by omega) ' '
    ((Int.repr e.score).toList ++ '\n' :: rest) (by decide) true
  have e3 := extractInt_repr e.score hsc '\n' rest (by decide) true
  have h1 : ¬ e.v_source ≥ N := by omega
  have h2 : ¬ e.v_target ≥ N := by omega
  rw [encodeEdge_append]
  unfold BipartiteMatchingGraph.deserializeEdge
  simp only [read_two, storeChars, List.map_cons, List.map_nil, List.length_cons,
    List.length_nil, List.drop, List.append_nil, e1, read_one, List.head?_cons,
    Option.getD_some, e2, e3]
  simp only [ne_eq, not_true_eq_false, or_self, if_false, h1, h2]

/-- The loop of `deserialize` reads back the lines written for the edges `es`. -/
theorem deserializeEdges_encoded (N : Nat) (hN : N ≤ UINT_MAX) :
    ∀ (es : List BMEdge) (acc : List BMEdge) (rest : List Char),
      (∀ e ∈ es, e.v_source < N ∧ e.v_target < N ∧ inIntRange e.score = true) →
      BipartiteMatchingGraph.deserializeEdges N es.length acc
          ⟨(es.map encodeEdge).flatten ++ rest, true⟩ =
        Parsed.accept (acc ++ es) ⟨rest, true⟩ := by
  intro es
  induction es with
  | nil =>
    intro acc rest _
    simp [BipartiteMatchingGraph.deserializeEdges]
  | cons e es ih =>
    intro acc rest h
    obtain ⟨h1, h2, h3⟩ := h e (List.mem_cons_self _ _)
    simp only [List.map_cons, List.flatten_cons, List.length_cons, List.append_assoc]
    unfold BipartiteMatchingGraph.deserializeEdges
    rw [deserializeEdge_encoded N hN e h1 h2 h3]
    simp only
    rw [ih (acc ++ [e]) rest (fun x hx => h x (List.mem_cons_of_mem _ hx))]
    simp

/-- Deserialising the text written for a graph whose numbers of cliques and of
edges are `unsigned int` values, whose edges join cliques of the graph and
whose scores are `int` values gives the graph back. -/
theorem bm_deserialize_serialize (g : BipartiteMatchingGraph) (hN : g.ncliques ≤ UINT_MAX)
    (hE : g.edges.length ≤ UINT_MAX) (hw : g.WellFormed) (hr : g.ScoresInRange) :
    BipartiteMatchingGraph.deserialize ⟨(BipartiteMatchingGraph.serialize g).toList, true⟩ =
      Parsed.accept g ⟨[], true⟩ := by
  have hes := deserializeEdges_encoded g.ncliques hN g.edges [] []
    (fun e he => ⟨(hw e he).1, (hw e he).2, hr e he⟩)
  rw [List.append_nil, List.nil_append] at hes
  have e1 := extractUnsigned_repr g.ncliques hN '\n'
    ('n' :: 'e' :: ' ' :: ((Nat.repr g.edges.length).toList ++
      '\n' :: (g.edges.map encodeEdge).flatten)) (by decide) true
  have e2 := extractUnsigned_repr g.edges.length hE '\n'
    ((g.edges.map encodeEdge).flatten) (by decide) true
  rw [bm_serialize_toList]
  unfold BipartiteMatchingGraph.deserialize
  simp only [read_three, storeChars, List.map_cons, List.map_nil, List.length_cons,
    List.length_nil, List.drop, List.append_nil, e1, read_one, List.head?_cons,
    Option.getD_some, e2]
  simp only [ne_eq, not_true_eq_false, or_self, if_false, hes]

end wpm

namespace wpm

/-! ## Assignment-graph round trip -/

/-- Reading a printed number above `UINT_MAX` into an `unsigned int` fails. -/
theorem extractUnsigned_repr_overflow (n : Nat) (hn : UINT_MAX < n) (c : Char) (r : List Char)
    (hc : c.isDigit = false) (good : Bool) :
    IStream.extractUnsigned ⟨(Nat.repr n).toList ++ c :: r, good⟩ =
      (UINT_MAX, ⟨c :: r, false⟩) := by
  obtain ⟨t1, t2, t3, t4, t5⟩ := repr_takeWhile n c r hc
  obtain ⟨d, tl, hd⟩ : ∃ d tl, (Nat.repr n).toList = d :: tl := by
    cases hp : (Nat.repr n).toList with
    | nil => exact absurd hp t3
    | cons d tl => exact ⟨d, tl, rfl⟩
  have hdig : d.isDigit = true := t5 d (by rw [hd]; exact List.mem_cons_self _ _)
  have hplus : d ≠ '+' := by
    intro h
    rw [h] at hdig
    exact absurd hdig (by decide)
  have hminus : d ≠ '-' := by
    intro h
    rw [h] at hdig
    exact absurd hdig (by decide)
  have hbuf : (Nat.repr n).toList ++ c :: r = d :: (tl ++ c :: r) := by
    rw [hd]
    rfl
  rw [hbuf, extractUnsigned_nosign d _ good hplus hminus, ← hbuf, t1, t2, t4, hd]
  simp [hn]

theorem read_failed (buf : List Char) (k : Nat) :
    IStream.read ⟨buf, false⟩ k = ([], ⟨buf, false⟩) := by
  simp [IStream.read]

/-- The text written for a graph with more than `UINT_MAX` edges is rejected:
the number of edges does not fit the `unsigned int` it is read into. -/
theorem bm_deserialize_many_edges (g : BipartiteMatchingGraph) (hN : g.ncliques ≤ UINT_MAX)
    (hE : UINT_MAX < g.edges.length) :
    BipartiteMatchingGraph.deserialize ⟨(BipartiteMatchingGraph.serialize g).toList, true⟩ =
      Parsed.reject := by
  have e1 := extractUnsigned_repr g.ncliques hN '\n'
    ('n' :: 'e' :: ' ' :: ((Nat.repr g.edges.length).toList ++
      '\n' :: (g.edges.map encodeEdge).flatten)) (by decide) true
  have e2 := extractUnsigned_repr_overflow g.edges.length hE '\n'
    ((g.edges.map encodeEdge).flatten) (by decide) true
  rw [bm_serialize_toList]
  unfold BipartiteMatchingGraph.deserialize
  simp only [read_three, storeChars, List.map_cons, List.map_nil, List.length_cons,
    List.length_nil, List.drop, List.append_nil, e1, read_one, List.head?_cons,
    Option.getD_some, e2, read_failed, List.head?_nil, Option.getD_none]
  simp

/-- Claim C22, counterexample: the graph of 2 cliques built by adding the edge
`0 -> 1` of score 0 `2^32` times is written with the line `ne 4294967296`, and
deserialising that text fails. -/
theorem many_edges_not_read_back :
    manyEdges.length = 4294967296 ∧
    (∀ e ∈ manyEdges, e.v_source < 2 ∧ e.v_target < 2 ∧ e.v_source ≠ e.v_target ∧
      inIntRange e.score = true) ∧
    (buildGraph 2 manyEdges).ncliques = 2 ∧ (buildGraph 2 manyEdges).edges = manyEdges ∧
    BipartiteMatchingGraph.deserialize
        ⟨(BipartiteMatchingGraph.serialize (buildGraph 2 manyEdges)).toList, true⟩ =
      Parsed.reject := by
  have hlen : manyEdges.length = 4294967296 := by
    unfold manyEdges
    rw [List.length_replicate]
  refine ⟨hlen, ?_, by rw [buildGraph_eq], by rw [buildGraph_eq], ?_⟩
  · intro e he
    have : e = ⟨0, 0, 1⟩ := List.eq_of_mem_replicate he
    rw [this]
    decide
  · apply bm_deserialize_many_edges
    · rw [buildGraph_eq]
      decide
    · rw [buildGraph_eq]
      show UINT_MAX < manyEdges.length
      rw [hlen]
      decide

/-- Claim C22, amended: for a graph built by `startNewGraph(N)` and one
`addDirectedEdge` per edge of `es`, in order, with `N` and the number of edges
`unsigned int` values, clique ids below `N` and `int` scores, the text written
by `serialize` is the two header lines followed by the lines of the edges of
`es` in that order; deserialising it succeeds, consumes the whole text, and
gives a graph with `N` cliques and the edge list `es`, whose serialisation is
the same text. -/
theorem bm_serialize_deserialize_built (N : Nat) (es : List BMEdge) (hN : N ≤ UINT_MAX)
    (hE : es.length ≤ UINT_MAX)
    (hes : ∀ e ∈ es, e.v_source < N ∧ e.v_target < N ∧ inIntRange e.score = true) :
    BipartiteMatchingGraph.serialize (buildGraph N es) =
      "nc " ++ Nat.repr N ++ "\n" ++ "ne " ++ Nat.repr es.length ++ "\n" ++
        String.join (es.map BipartiteMatchingGraph.serializeEdge) ∧
    ∃ G : BipartiteMatchingGraph,
      BipartiteMatchingGraph.deserialize
          ⟨(BipartiteMatchingGraph.serialize (buildGraph N es)).toList, true⟩ =
        Parsed.accept G ⟨[], true⟩ ∧
      G.ncliques = N ∧ G.edges = es ∧
      BipartiteMatchingGraph.serialize G =
        BipartiteMatchingGraph.serialize (buildGraph N es) := by
  rw [buildGraph_eq]
  refine ⟨rfl, ⟨N, es⟩, ?_, rfl, rfl, rfl⟩
  exact bm_deserialize_serialize ⟨N, es⟩ hN hE (fun e he => ⟨(hes e he).1, (hes e he).2.1⟩)
    (fun e he => (hes e he).2.2)

theorem bm_serialize_deserialize_built_witness :
    5 ≤ UINT_MAX ∧ conversionTestGraph.edges.length ≤ UINT_MAX ∧
    (∀ e ∈ conversionTestGraph.edges,
      e.v_source < 5 ∧ e.v_target < 5 ∧ inIntRange e.score = true) ∧
    buildGraph 5 conversionTestGraph.edges = conversionTestGraph ∧
    (BipartiteMatchingGraph.serialize (buildGraph 5 conversionTestGraph.edges) =
      "nc " ++ Nat.repr 5 ++ "\n" ++ "ne " ++ Nat.repr conversionTestGraph.edges.length ++
        "\n" ++ String.join (conversionTestGraph.edges.map
          BipartiteMatchingGraph.serializeEdge) ∧
    ∃ G : BipartiteMatchingGraph,
      BipartiteMatchingGraph.deserialize
          ⟨(BipartiteMatchingGraph.serialize
            (buildGraph 5 conversionTestGraph.edges)).toList, true⟩ =
        Parsed.accept G ⟨[], true⟩ ∧
      G.ncliques = 5 ∧ G.edges = conversionTestGraph.edges ∧
      BipartiteMatchingGraph.serialize G =
        BipartiteMatchingGraph.serialize (buildGraph 5 conversionTestGraph.edges)) :=
  ⟨by decide, by decide, by decide, by decide,
    bm_serialize_deserialize_built 5 conversionTestGraph.edges (by decide) (by decide)
      (by decide)⟩

end wpm

namespace wpm

/-! ## Parallel edges: the solver can return a matching that is not optimal -/

/-- Claim C39, failing input: the text with two edges from clique 0 to clique 2
is accepted by `deserialize`; on its graph the solver returns a perfect
matching of total score 5 when the roots are picked in the order 2, 1, 0 (also
for the clique orders `[1, 2, 0]` and `[2, 0, 1]`), and one of score 8 for the
three other clique orders, although the perfect matching `0 -> 2` (score 8),
`2 -> 1`, `1 -> 0` has total score 8. -/
theorem parallel_edges_not_optimal :
    BipartiteMatchingGraph.deserialize
        ⟨"nc 3\nne 5\ne 0 1 10\ne 0 2 8\ne 0 2 5\ne 2 1 0\ne 1 0 0\n".toList, true⟩ =
      Parsed.accept parallelEdgesGraph ⟨[], true⟩ ∧
    parallelEdgesGraph.WellFormed ∧ ¬ parallelEdgesGraph.SimpleEdges ∧
    IsPerfectMatching parallelEdgesGraph [(1, ⟨8, 0, 2⟩), (3, ⟨0, 2, 1⟩), (4, ⟨0, 1, 0⟩)] ∧
    totalScore [(1, ⟨8, 0, 2⟩), (3, ⟨0, 2, 1⟩), (4, ⟨0, 1, 0⟩)] = 8 ∧
    findRandomPerfectMatching parallelEdgesGraph (fun _ => [2, 1, 0]) 10 =
      Outcome.done (some [(3, ⟨0, 2, 1⟩), (4, ⟨0, 1, 0⟩), (2, ⟨5, 0, 2⟩)]) ∧
    totalScore [(3, ⟨0, 2, 1⟩), (4, ⟨0, 1, 0⟩), (2, ⟨5, 0, 2⟩)] = 5 ∧
    rootOrders3.map (fun p => returnedScore parallelEdgesGraph p 10) =
      [some 8, some 8, some 8, some 5, some 5, some 5] := by
  refine ⟨by rfl, by decide, by decide, ?_, by decide, by rfl, by decide, by decide⟩
  exact
    { edges_mem := by decide
      sources := by decide
      targets := by decide }

end wpm

namespace wpm

/-! ## Evolution: where the stored edges come from -/

theorem mem_resetFirstSpec_ends {target N : Nat} {L : List NMEdge} {e : NMEdge}
    (h : e ∈ resetFirstSpec target N L) :
    ∃ e0 ∈ L, e.v_target = e0.v_target ∧ e.v_source = e0.v_source := by
  induction L with
  | nil => cases h
  | cons a rest ih =>
    unfold resetFirstSpec at h
    split at h
    · rcases List.mem_cons.1 h with h | h
      · exact ⟨a, List.mem_cons_self _ _, by rw [h], by rw [h]⟩
      · exact ⟨e, List.mem_cons_of_mem _ h, rfl, rfl⟩
    · rcases List.mem_cons.1 h with h | h
      · exact ⟨a, List.mem_cons_self _ _, by rw [h], by rw [h]⟩
      · obtain ⟨e0, h0, h1, h2⟩ := ih h
        exact ⟨e0, List.mem_cons_of_mem _ h0, h1, h2⟩

theorem mem_evolveSpec_ends {N i target : Nat} {L : List NMEdge} {e : NMEdge}
    (h : e ∈ evolveSpec N i target L) :
    (e.v_source = i ∧ e.v_target = target ∧ e.cost = N) ∨
      ∃ e0 ∈ L, e.v_target = e0.v_target ∧ e.v_source = e0.v_source := by
  have hdecay : ∀ x ∈ decaySpec L, ∃ e0 ∈ L, x.v_target = e0.v_target ∧
      x.v_source = e0.v_source := by
    intro x hx
    rcases mem_decaySpec hx with ⟨_, h1⟩ | ⟨e0, h0, _, _, _, h4, h5⟩
    · exact ⟨x, h1, rfl, rfl⟩
    · exact ⟨e0, h0, h4, h5⟩
  unfold evolveSpec at h
  split at h
  · right
    obtain ⟨x, hx, h1, h2⟩ := mem_resetFirstSpec_ends h
    obtain ⟨e0, h0, h3, h4⟩ := hdecay x hx
    exact ⟨e0, h0, by rw [h1, h3], by rw [h2, h4]⟩
  · rcases List.mem_append.1 h with h | h
    · right
      exact hdecay e h
    · left
      rw [List.mem_singleton.1 h]
      exact ⟨rfl, rfl, rfl⟩

/-- An edge stored for a vertex after the evolution is the edge to the matched
vertex, of cost `N`, or has the ends of an edge stored before. -/
theorem mem_vertexEvolve_ends {N : Nat} {matching : List Nat} {avoid : Bool} {v : NMVertex}
    {e : NMEdge} (h : e ∈ (vertexEvolve N matching avoid v).constraints) :
    (e.v_source = v.id ∧ e.v_target = matching.getD v.id 0 ∧ e.cost = N) ∨
      ∃ e0 ∈ v.constraints, e.v_target = e0.v_target ∧ e.v_source = e0.v_source := by
  rcases vertexEvolve_constraints N matching avoid v with hc | hc
  · rw [hc] at h
    exact mem_evolveSpec_ends h
  · rw [hc] at h
    exact mem_evolveSpec_ends (List.mem_filter.1 h).1

/-- Claim C32: for a constraint graph whose vertex ids are their positions,
without self-edge and without two edges of a vertex to the same target, and a
matching that is a permutation of the vertices without fixed point,
`updateConstraints` with either value of the flag gives a graph with the same
number of vertices, ids at their positions, no self-edge and no two edges of a
vertex to the same target. -/
theorem updateConstraints_preserves_model (G : NonMatchingGraph) (matching : List Nat)
    (avoid : Bool) (hid : G.IdsArePositions)
    (hself : ∀ v ∈ G.vertices, ∀ e ∈ v.constraints, e.v_target ≠ v.id)
    (hdup : G.DistinctTargets)
    (hperm : matching.Perm (List.range G.vertices.length))
    (hfix : ∀ i, i < G.vertices.length → matching.getD i 0 ≠ i) :
    (G.updateConstraints matching avoid).vertices.length = G.vertices.length ∧
    (G.updateConstraints matching avoid).IdsArePositions ∧
    (∀ v ∈ (G.updateConstraints matching avoid).vertices, ∀ e ∈ v.constraints,
      e.v_target ≠ v.id) ∧
    (G.updateConstraints matching avoid).DistinctTargets := by
  have _ := hperm
  refine ⟨updateConstraints_length G matching avoid hid,
    updateConstraints_ids G matching avoid hid, ?_,
    updateConstraints_distinct G matching avoid hid hdup⟩
  intro v hv e he
  obtain ⟨w, hw, rfl⟩ := mem_updateConstraints hid hv
  rw [vertexEvolve_id]
  rcases mem_vertexEvolve_ends he with ⟨_, h2, _⟩ | ⟨e0, h0, h1, _⟩
  · rw [h2]
    exact hfix w.id (mem_vertices_id_lt G hid hw).1
  · rw [h1]
    exact hself w hw e0 h0

theorem updateConstraints_preserves_model_witness :
    evolveExample.IdsArePositions ∧
    (∀ v ∈ evolveExample.vertices, ∀ e ∈ v.constraints, e.v_target ≠ v.id) ∧
    evolveExample.DistinctTargets ∧
    [2, 0, 1].Perm (List.range evolveExample.vertices.length) ∧
    (∀ i, i < evolveExample.vertices.length → [2, 0, 1].getD i 0 ≠ i) ∧
    (evolveExample.updateConstraints [2, 0, 1] true).vertices =
      [⟨0, [⟨0, 1, UINT_MAX⟩, ⟨0, 2, 3⟩]⟩, ⟨1, [⟨1, 0, 3⟩]⟩, ⟨2, [⟨2, 1, 3⟩]⟩] ∧
    ((evolveExample.updateConstraints [2, 0, 1] true).vertices.length =
        evolveExample.vertices.length ∧
      (evolveExample.updateConstraints [2, 0, 1] true).IdsArePositions ∧
      (∀ v ∈ (evolveExample.updateConstraints [2, 0, 1] true).vertices, ∀ e ∈ v.constraints,
        e.v_target ≠ v.id) ∧
      (evolveExample.updateConstraints [2, 0, 1] true).DistinctTargets) :=
  ⟨by decide, by decide, by decide, by decide, by decide, by decide,
    updateConstraints_preserves_model evolveExample [2, 0, 1] true (by decide) (by decide)
      (by decide) (by decide) (by decide)⟩

end wpm

namespace wpm

/-! ## The facade accepts its own output -/

/-- The evolution keeps the graph in the stored form, when the matching names
vertices of the graph. -/
theorem updateConstraints_stored (G : NonMatchingGraph) (h : G.Stored)
    (hN : G.vertices.length ≤ UINT_MAX) (matching : List Nat) (avoid : Bool)
    (hM : ∀ i, i < G.vertices.length → matching.getD i 0 < G.vertices.length) :
    (G.updateConstraints matching avoid).Stored where
  ids := updateConstraints_ids G matching avoid h.ids
  sources := by
    intro v hv e he
    obtain ⟨w, hw, rfl⟩ := mem_updateConstraints h.ids hv
    rw [vertexEvolve_id]
    rcases mem_vertexEvolve_ends he with ⟨h1, _, _⟩ | ⟨e0, h0, _, h2⟩
    · exact h1
    · rw [h2]
      exact h.sources w hw e0 h0
  targets := by
    intro v hv e he
    rw [updateConstraints_length G matching avoid h.ids]
    obtain ⟨w, hw, rfl⟩ := mem_updateConstraints h.ids hv
    rcases mem_vertexEvolve_ends he with ⟨_, h2, _⟩ | ⟨e0, h0, h1, _⟩
    · rw [h2]
      exact hM w.id (mem_vertices_id_lt G h.ids hw).1
    · rw [h1]
      exact h.targets w hw e0 h0
  costs := by
    intro v hv e he
    obtain ⟨w, hw, rfl⟩ := mem_updateConstraints h.ids hv
    rcases mem_vertexEvolve he with h1 | ⟨h1, _⟩ | ⟨e0, h0, _, _, h3⟩
    · rw [h1]
      exact hN
    · rw [h1]
    · have := h.costs w hw e0 h0
      omega

/-- What a call of the facade that returns `Success` did: the text was accepted,
the matching is a permutation of the vertices, and the text returned is the
serialisation of the evolved graph. -/
theorem findBestPerfectMatching_success {graph_str : String} {orders : Nat → List Nat}
    {fuel : Nat} {M : List Nat} {out : String}
    (hrun : findBestPerfectMatching graph_str orders fuel =
      Outcome.done (ResultCode.ResCode_Success, M, out)) :
    ∃ G rest, NonMatchingGraph.deserialize ⟨graph_str.toList, true⟩ = Parsed.accept G rest ∧
      M.Perm (List.range G.vertices.length) ∧
      out = (G.updateConstraints M true).serialize := by
  unfold findBestPerfectMatching at hrun
  split at hrun
  · cases hrun
  · simp at hrun
  · rename_i G rest hparse
    have hid := deserialize_ids hparse
    simp only at hrun
    split at hrun
    · cases hrun
    · cases hrun
    · cases hrun
    · simp at hrun
    · rename_i bm hsolve
      split at hrun
      · simp at hrun
      · simp only [Outcome.done.injEq, Prod.mk.injEq, true_and] at hrun
        obtain ⟨hM, hout⟩ := hrun
        obtain ⟨hperm, _⟩ := solved_perm hid hsolve
        rw [hM] at hperm
        rw [hM] at hout
        exact ⟨G, rest, hparse, hperm, hout.symm⟩

theorem getD_lt_of_perm_range {M : List Nat} {n : Nat} (h : M.Perm (List.range n)) (i : Nat)
    (hi : i < n) : M.getD i 0 < n := by
  have hlen : M.length = n := by rw [h.length_eq, List.length_range]
  have hi2 : i < M.length := by omega
  have hmem : M.getD i 0 ∈ M := by
    rw [List.getD_eq_getElem _ _ hi2]
    exact List.getElem_mem _
  exact List.mem_range.1 (h.subset hmem)

/-- Claim C40: when `findBestPerfectMatching` returns `Success` on a text, the
text it returns is accepted by `deserialize`, which consumes it entirely; the
graph read has as many vertices as the graph of the input text, its
serialisation is the returned text again, and a next call on the returned text
does not return `InvalidGraph`. -/
theorem findBestPerfectMatching_output_accepted (graph_str : String) (orders : Nat → List Nat)
    (fuel : Nat) (M : List Nat) (out : String)
    (hrun : findBestPerfectMatching graph_str orders fuel =
      Outcome.done (ResultCode.ResCode_Success, M, out)) :
    ∃ G rest G1,
      NonMatchingGraph.deserialize ⟨graph_str.toList, true⟩ = Parsed.accept G rest ∧
      NonMatchingGraph.deserialize ⟨out.toList, true⟩ = Parsed.accept G1 ⟨[], true⟩ ∧
      G1.vertices.length = G.vertices.length ∧
      NonMatchingGraph.serialize G1 = out ∧
      ∀ (orders2 : Nat → List Nat) (fuel2 : Nat) (M2 : List Nat) (out2 : String),
        findBestPerfectMatching out orders2 fuel2 ≠
          Outcome.done (ResultCode.ResCode_InvalidGraph, M2, out2) := by
  obtain ⟨G, rest, hparse, hperm, hout⟩ := findBestPerfectMatching_success hrun
  obtain ⟨hst, hN⟩ := deserialize_stored hparse
  have hst1 := updateConstraints_stored G hst hN M true (getD_lt_of_perm_range hperm)
  have hlen := updateConstraints_length G M true hst.ids
  have hback := deserialize_serialize_stored (G.updateConstraints M true) hst1
    (by rw [hlen]; exact hN)
  rw [← hout] at hback
  refine ⟨G, rest, G.updateConstraints M true, hparse, hback, hlen, hout.symm, ?_⟩
  intro orders2 fuel2 M2 out2 h2
  unfold findBestPerfectMatching at h2
  rw [hback] at h2
  simp only at h2
  split at h2
  · cases h2
  · cases h2
  · cases h2
  · simp at h2
  · split at h2
    · simp at h2
    · simp at h2

theorem findBestPerfectMatching_output_accepted_witness :
    findBestPerfectMatching "nv 3\nv 0 1(4294967295)\nv 1\nv 2\n" (fun _ => [0, 1, 2]) 10 =
      Outcome.done (ResultCode.ResCode_Success, [2, 0, 1],
        "nv 3\nv 0 1(4294967295) 2(3)\nv 1 0(3)\nv 2 1(3)\n") ∧
    ∃ G rest G1,
      NonMatchingGraph.deserialize ⟨"nv 3\nv 0 1(4294967295)\nv 1\nv 2\n".toList, true⟩ =
        Parsed.accept G rest ∧
      NonMatchingGraph.deserialize
          ⟨"nv 3\nv 0 1(4294967295) 2(3)\nv 1 0(3)\nv 2 1(3)\n".toList, true⟩ =
        Parsed.accept G1 ⟨[], true⟩ ∧
      G1.vertices.length = G.vertices.length ∧
      NonMatchingGraph.serialize G1 = "nv 3\nv 0 1(4294967295) 2(3)\nv 1 0(3)\nv 2 1(3)\n" ∧
      ∀ (orders2 : Nat → List Nat) (fuel2 : Nat) (M2 : List Nat) (out2 : String),
        findBestPerfectMatching "nv 3\nv 0 1(4294967295) 2(3)\nv 1 0(3)\nv 2 1(3)\n"
            orders2 fuel2 ≠
          Outcome.done (ResultCode.ResCode_InvalidGraph, M2, out2) :=
  ⟨by rfl,
    findBestPerfectMatching_output_accepted "nv 3\nv 0 1(4294967295)\nv 1\nv 2\n"
      (fun _ => [0, 1, 2]) 10 [2, 0, 1] "nv 3\nv 0 1(4294967295) 2(3)\nv 1 0(3)\nv 2 1(3)\n"
      (by rfl)⟩

end wpm

namespace wpm

/-! ## Memory horizon: the cost of one edge through successive evolutions -/

theorem costsTo_cons (j : Nat) (e : NMEdge) (L : List NMEdge) :
    costsTo j (e :: L) = if e.v_target = j then e.cost :: costsTo j L else costsTo j L := by
  unfold costsTo
  by_cases h : e.v_target = j
  · simp [List.filter_cons, h]
  · simp [List.filter_cons, h]

theorem costsTo_append (j : Nat) (L1 L2 : List NMEdge) :
    costsTo j (L1 ++ L2) = costsTo j L1 ++ costsTo j L2 := by
  simp [costsTo]

/-- The decay acts on the costs of the edges to `j`: costs up to 1 disappear,
the infinite cost stays, the other costs lose 1. -/
theorem costsTo_decaySpec (j : Nat) (L : List NMEdge) :
    costsTo j (decaySpec L) =
      ((costsTo j L).filter (fun c => decide (1 < c))).map
        (fun c => if c = UINT_MAX then c else c - 1) := by
  induction L with
  | nil => rfl
  | cons e rest ih =>
    have hd : decaySpec (e :: rest) =
        if 1 < e.cost then
          (if e.cost = UINT_MAX then e else { e with cost := e.cost - 1 }) :: decaySpec rest
        else decaySpec rest := by
      unfold decaySpec
      by_cases h : 1 < e.cost
      · simp [List.filter_cons, h]
      · simp [List.filter_cons, h]
    rw [hd]
    by_cases h1 : 1 < e.cost
    · rw [if_pos h1, costsTo_cons, costsTo_cons, ih]
      by_cases h2 : e.cost = UINT_MAX
      · rw [if_pos h2]
        have h4 : 1 < UINT_MAX := by decide
        by_cases h3 : e.v_target = j
        · simp [h3, h2, h4, List.filter_cons]
        · simp [h3]
      · rw [if_neg h2]
        by_cases h3 : e.v_target = j
        · simp [h3, h1, h2, List.filter_cons]
        · simp [h3]
    · rw [if_neg h1, costsTo_cons, ih]
      by_cases h3 : e.v_target = j
      · simp [h3, h1, List.filter_cons]
      · simp [h3]

theorem costsTo_resetFirstSpec_ne (j target N : Nat) (hne : target ≠ j) (L : List NMEdge) :
    costsTo j (resetFirstSpec target N L) = costsTo j L := by
  induction L with
  | nil => rfl
  | cons e rest ih =>
    unfold resetFirstSpec
    split
    · rename_i h
      have hj : ¬ e.v_target = j := by rw [h]; exact hne
      rw [costsTo_cons, costsTo_cons]
      simp [hj]
    · rw [costsTo_cons, costsTo_cons, ih]

theorem costsTo_resetFirstSpec_eq (j N : Nat) (L : List NMEdge) :
    costsTo j (resetFirstSpec j N L) =
      match costsTo j L with
      | [] => []
      | _ :: cs => N :: cs := by
  induction L with
  | nil => rfl
  | cons e rest ih =>
    unfold resetFirstSpec
    split
    · rename_i h
      rw [costsTo_cons, costsTo_cons]
      simp [h]
    · rename_i h
      rw [costsTo_cons, costsTo_cons, ih]
      simp [h]

theorem costsTo_eq_nil_iff (j : Nat) (L : List NMEdge) :
    costsTo j L = [] ↔ L.any (fun e => decide (e.v_target = j)) = false := by
  induction L with
  | nil => simp [costsTo]
  | cons e rest ih =>
    rw [costsTo_cons]
    by_cases h : e.v_target = j
    · simp [h]
    · simp [h, ih]

/-- The edges to `j` after the evolution of a vertex matched to another vertex:
only the decay acted on them. -/
theorem costsTo_evolveSpec_ne (N i j target : Nat) (hne : target ≠ j) (L : List NMEdge) :
    costsTo j (evolveSpec N i target L) = costsTo j (decaySpec L) := by
  unfold evolveSpec
  split
  · exact costsTo_resetFirstSpec_ne j target N hne _
  · rw [costsTo_append, costsTo_cons]
    simp [hne, costsTo]

/-- The edges to `j` after the evolution of a vertex matched to `j`, when it
stored at most one edge to `j`: one edge, of cost `N`. -/
theorem costsTo_evolveSpec_eq (N i j : Nat) (L : List NMEdge)
    (h : (costsTo j L).length ≤ 1) : costsTo j (evolveSpec N i j L) = [N] := by
  have hd := costsTo_decaySpec j L
  have hlen : (costsTo j (decaySpec L)).length ≤ 1 := by
    rw [hd, List.length_map]
    exact le_trans (List.length_filter_le _ _) h
  unfold evolveSpec
  split
  · rename_i hany
    rw [costsTo_resetFirstSpec_eq]
    cases hc : costsTo j (decaySpec L) with
    | nil =>
      rw [(costsTo_eq_nil_iff j _).1 hc] at hany
      cases hany
    | cons c cs =>
      rw [hc] at hlen
      cases cs with
      | nil => rfl
      | cons c2 cs2 =>
        simp only [List.length_cons] at hlen
        omega
  · rename_i hany
    have hnil : costsTo j (decaySpec L) = [] :=
      (costsTo_eq_nil_iff j _).2 (by simpa using hany)
    rw [costsTo_append, hnil, costsTo_cons]
    simp [costsTo]

theorem evolveMany_cons (G : NonMatchingGraph) (M : List Nat) (Ms : List (List Nat)) :
    evolveMany G (M :: Ms) = evolveMany (G.updateConstraints M false) Ms := rfl

/-- One further call whose matching does not map `i` to `j`: the costs of the
edges `i -> j` decay. -/
theorem costsTo_updateConstraints_ne (G : NonMatchingGraph) (hid : G.IdsArePositions)
    (M : List Nat) (i j : Nat) (v : NMVertex) (hv : G.vertices[i]? = some v)
    (hM : M.getD i 0 ≠ j) :
    ∃ w, (G.updateConstraints M false).vertices[i]? = some w ∧
      costsTo j w.constraints =
        ((costsTo j v.constraints).filter (fun c => decide (1 < c))).map
          (fun c => if c = UINT_MAX then c else c - 1) := by
  have hvid : v.id = i := idsArePositions_getElem? G hid i v hv
  refine ⟨vertexEvolve G.vertices.length M false v, ?_, ?_⟩
  · rw [updateConstraints_getElem? G M false hid i, hv]
    rfl
  · rw [vertexEvolve_false]
    simp only
    rw [hvid, costsTo_evolveSpec_ne _ _ _ _ hM, costsTo_decaySpec]

/-- A call whose matching maps `i` to `j`, on a graph that stores at most one
edge `i -> j`: afterwards the graph stores one edge `i -> j`, of cost `N`. -/
theorem costsTo_updateConstraints_eq (G : NonMatchingGraph) (hid : G.IdsArePositions)
    (M : List Nat) (i j : Nat) (v : NMVertex) (hv : G.vertices[i]? = some v)
    (hM : M.getD i 0 = j) (hone : (costsTo j v.constraints).length ≤ 1) :
    ∃ w, (G.updateConstraints M false).vertices[i]? = some w ∧
      costsTo j w.constraints = [G.vertices.length] := by
  have hvid : v.id = i := idsArePositions_getElem? G hid i v hv
  refine ⟨vertexEvolve G.vertices.length M false v, ?_, ?_⟩
  · rw [updateConstraints_getElem? G M false hid i, hv]
    rfl
  · rw [vertexEvolve_false]
    simp only
    rw [hvid, hM]
    exact costsTo_evolveSpec_eq _ _ _ _ hone

/-- The cost `c` of the only edge `i -> j` (`c = 0`: no edge) through further
calls that do not map `i` to `j`, for costs below the infinite cost. -/
theorem horizon_decay (N i j : Nat) (hN : N < UINT_MAX) :
    ∀ (Ms : List (List Nat)) (G : NonMatchingGraph) (c : Nat), G.IdsArePositions →
      G.vertices.length = N → (∀ M ∈ Ms, M.getD i 0 ≠ j) → c ≤ N →
      (∃ v, G.vertices[i]? = some v ∧ costsTo j v.constraints = if c = 0 then [] else [c]) →
      ∃ w, (evolveMany G Ms).vertices[i]? = some w ∧
        costsTo j w.constraints = if Ms.length < c then [c - Ms.length] else [] := by
  intro Ms
  induction Ms with
  | nil =>
    intro G c _ _ _ _ h
    obtain ⟨v, hv, hc⟩ := h
    refine ⟨v, hv, ?_⟩
    rw [hc]
    by_cases h0 : c = 0
    · simp [h0]
    · have : 0 < c := Nat.pos_of_ne_zero h0
      simp [h0, this]
  | cons M Ms ih =>
    intro G c hid hlen hMs hc h
    obtain ⟨v, hv, hcost⟩ := h
    obtain ⟨w, hw, hcw⟩ := costsTo_updateConstraints_ne G hid M i j v hv
      (hMs M (List.mem_cons_self _ _))
    rw [evolveMany_cons]
    have hstep : costsTo j w.constraints = if c - 1 = 0 then [] else [c - 1] := by
      rw [hcw, hcost]
      by_cases h0 : c = 0
      · simp [h0]
      · by_cases h1 : c = 1
        · simp [h1]
        · have h2 : 1 < c := by omega
          have h3 : ¬ c = UINT_MAX := by omega
          have h4 : ¬ c - 1 = 0 := by omega
          simp [h0, h2, h3, h4, List.filter_cons]
    obtain ⟨w2, hw2, hc2⟩ := ih (G.updateConstraints M false) (c - 1)
      (updateConstraints_ids G M false hid)
      (by rw [updateConstraints_length G M false hid, hlen])
      (fun M2 hM2 => hMs M2 (List.mem_cons_of_mem _ hM2)) (by omega) ⟨w, hw, hstep⟩
    refine ⟨w2, hw2, ?_⟩
    rw [hc2]
    simp only [List.length_cons]
    by_cases h5 : Ms.length < c - 1
    · have h6 : Ms.length + 1 < c := by omega
      rw [if_pos h5, if_pos h6]
      congr 1
      omega
    · have h6 : ¬ Ms.length + 1 < c := by omega
      rw [if_neg h5, if_neg h6]

/-- Claim C31, amended: on a graph of `N < 4294967295` vertices whose ids are
their positions and which stores at most one edge `i -> j`, after a call
`updateConstraints(M0, false)` that maps `i` to `j` and `k` further calls
`updateConstraints(M, false)` whose matchings do not map `i` to `j`, the graph
stores exactly one edge `i -> j`, of cost `N - k`, when `k < N`, and no edge
`i -> j` when `k >= N`. -/
theorem memory_horizon (G : NonMatchingGraph) (hid : G.IdsArePositions)
    (hN : G.vertices.length < UINT_MAX) (i j : Nat) (v : NMVertex)
    (hv : G.vertices[i]? = some v) (hone : (costsTo j v.constraints).length ≤ 1)
    (M0 : List Nat) (hM0 : M0.getD i 0 = j) (Ms : List (List Nat))
    (hMs : ∀ M ∈ Ms, M.getD i 0 ≠ j) :
    ∃ w, (evolveMany (G.updateConstraints M0 false) Ms).vertices[i]? = some w ∧
      costsTo j w.constraints =
        if Ms.length < G.vertices.length then [G.vertices.length - Ms.length] else [] := by
  obtain ⟨w0, hw0, hc0⟩ := costsTo_updateConstraints_eq G hid M0 i j v hv hM0 hone
  have hi : i < G.vertices.length := (List.getElem?_eq_some_iff.1 hv).1
  apply horizon_decay G.vertices.length i j hN Ms (G.updateConstraints M0 false)
    G.vertices.length (updateConstraints_ids G M0 false hid)
    (updateConstraints_length G M0 false hid) hMs (le_refl _)
  refine ⟨w0, hw0, ?_⟩
  rw [hc0, if_neg (by omega)]

theorem memory_horizon_witness :
    evolveExample.IdsArePositions ∧ evolveExample.vertices.length < UINT_MAX ∧
    evolveExample.vertices[1]? = some ⟨1, [⟨1, 0, 3⟩, ⟨1, 2, 2⟩]⟩ ∧
    (costsTo 2 [⟨1, 0, 3⟩, ⟨1, 2, 2⟩]).length ≤ 1 ∧ [1, 2, 0].getD 1 0 = 2 ∧
    (∀ M ∈ [[2, 0, 1], [2, 0, 1]], M.getD 1 0 ≠ 2) ∧
    (evolveMany (evolveExample.updateConstraints [1, 2, 0] false)
        [[2, 0, 1], [2, 0, 1]]).vertices[1]? = some ⟨1, [⟨1, 0, 3⟩, ⟨1, 2, 1⟩]⟩ ∧
    ∃ w, (evolveMany (evolveExample.updateConstraints [1, 2, 0] false)
        [[2, 0, 1], [2, 0, 1]]).vertices[1]? = some w ∧
      costsTo 2 w.constraints =
        if [[2, 0, 1], [2, 0, 1]].length < evolveExample.vertices.length then
          [evolveExample.vertices.length - [[2, 0, 1], [2, 0, 1]].length]
        else [] :=
  ⟨by decide, by decide, by decide, by decide, by decide, by decide, by decide,
    memory_horizon evolveExample (by decide) (by decide) 1 2 ⟨1, [⟨1, 0, 3⟩, ⟨1, 2, 2⟩]⟩
      (by decide) (by decide) [1, 2, 0] (by decide) [[2, 0, 1], [2, 0, 1]] (by decide)⟩

end wpm

namespace wpm

/-! ## Memory horizon: a graph of `UINT_MAX` vertices -/

theorem shiftMatching_getD (n k : Nat) (hk : k < n) : (shiftMatching n k).getD 0 0 = k := by
  unfold shiftMatching
  rw [List.getD_eq_getElem?_getD, List.getElem?_map, List.getElem?_range (by omega)]
  simp [Nat.mod_eq_of_lt hk]

theorem shiftMatching_length (n k : Nat) : (shiftMatching n k).length = n := by
  simp [shiftMatching]

/-- On the graph of `n = UINT_MAX` vertices without edge, the call that maps 0
to 1 stores the edge `0 -> 1` with the cost `n`, and a further call that maps 0
to 2 leaves that cost as it is. -/
theorem horizon_infinite (n : Nat) (hn : n = UINT_MAX) :
    (NonMatchingGraph.startNewGraph n).IdsArePositions ∧
    (NonMatchingGraph.startNewGraph n).vertices.length = n ∧
    ∃ w0 w1,
      ((NonMatchingGraph.startNewGraph n).updateConstraints (shiftMatching n 1)
        false).vertices[0]? = some w0 ∧
      costsTo 1 w0.constraints = [n] ∧
      (evolveMany ((NonMatchingGraph.startNewGraph n).updateConstraints (shiftMatching n 1)
        false) [shiftMatching n 2]).vertices[0]? = some w1 ∧
      costsTo 1 w1.constraints = [n] := by
  have hn2 : 2 < n := by
    rw [hn]
    decide
  have hid := (stored_startNewGraph n).ids
  have hlen : (NonMatchingGraph.startNewGraph n).vertices.length = n := by
    simp [NonMatchingGraph.startNewGraph]
  have hv : (NonMatchingGraph.startNewGraph n).vertices[0]? = some ⟨0, []⟩ := by
    simp only [NonMatchingGraph.startNewGraph, List.getElem?_map]
    rw [List.getElem?_range (by omega)]
    rfl
  obtain ⟨w0, hw0, hc0⟩ := costsTo_updateConstraints_eq (NonMatchingGraph.startNewGraph n) hid
    (shiftMatching n 1) 0 1 ⟨0, []⟩ hv (shiftMatching_getD n 1 (by omega))
    (by simp [costsTo])
  rw [hlen] at hc0
  obtain ⟨w1, hw1, hc1⟩ := costsTo_updateConstraints_ne
    ((NonMatchingGraph.startNewGraph n).updateConstraints (shiftMatching n 1) false)
    (updateConstraints_ids _ _ false hid) (shiftMatching n 2) 0 1 w0 hw0
    (by rw [shiftMatching_getD n 2 hn2]; decide)
  refine ⟨hid, hlen, w0, w1, hw0, hc0, hw1, ?_⟩
  rw [hc1, hc0]
  have h1 : 1 < n := by omega
  rw [List.filter_cons, if_pos (by simpa using h1), List.filter_nil, List.map_cons,
    List.map_nil, if_pos hn]

/-- Claim C31, counterexample: on the graph of `N = 4294967295` vertices without
edge, `updateConstraints` with the matching `i -> i + 1` gives the edge `0 -> 1`
the cost `N`, which is the infinite cost; after one further call, with the
matching `i -> i + 2`, the edge `0 -> 1` still has the cost `N`, not `N - 1`. -/
theorem memory_horizon_infinite :
    (NonMatchingGraph.startNewGraph UINT_MAX).IdsArePositions ∧
    (NonMatchingGraph.startNewGraph UINT_MAX).vertices.length = UINT_MAX ∧
    (shiftMatching UINT_MAX 1).length = UINT_MAX ∧
    (shiftMatching UINT_MAX 2).length = UINT_MAX ∧
    (shiftMatching UINT_MAX 1).getD 0 0 = 1 ∧ (shiftMatching UINT_MAX 2).getD 0 0 ≠ 1 ∧
    (∃ w0 w1,
      ((NonMatchingGraph.startNewGraph UINT_MAX).updateConstraints (shiftMatching UINT_MAX 1)
        false).vertices[0]? = some w0 ∧
      costsTo 1 w0.constraints = [UINT_MAX] ∧
      (evolveMany ((NonMatchingGraph.startNewGraph UINT_MAX).updateConstraints
        (shiftMatching UINT_MAX 1) false) [shiftMatching UINT_MAX 2]).vertices[0]? = some w1 ∧
      costsTo 1 w1.constraints = [UINT_MAX]) ∧
    [UINT_MAX] ≠ [UINT_MAX - 1] := by
  obtain ⟨h1, h2, h3⟩ := horizon_infinite UINT_MAX rfl
  refine ⟨h1, h2, shiftMatching_length _ _, shiftMatching_length _ _,
    shiftMatching_getD _ 1 (by decide), ?_, h3, by decide⟩
  rw [shiftMatching_getD _ 2 (by decide)]
  decide

end wpm

namespace wpm

/-! ## Invariants at the states of a run -/

/-- Between the rounds the matching is a matching of the graph, the labeling is
feasible and the edges of the matching are tight. -/
theorem roundStart_inv {g : BipartiteMatchingGraph} (hg : g.WellFormed) (hs : g.SimpleEdges)
    {m : Matching} {l : VertexLabeling} (h : RoundStart g m l) :
    MatchingInv g m ∧ LabelOK g m l := by
  induction h with
  | first => exact ⟨matchingInv_empty g, labelOK_init hg⟩
  | next order fuel m l m1 l1 _ hrun ih =>
    obtain ⟨hm, hl⟩ := ih
    exact ⟨(augmentMatching_inv hm order fuel l l1 hrun).1,
      augmentMatching_label hg hs hm order fuel l l1 hl hrun⟩

/-- More fuel does not change what the first phase returns. -/
theorem phaseA_fuel_mono (g : BipartiteMatchingGraph) (m : Matching) (l : VertexLabeling) :
    ∀ (fuel : Nat) (st st1 : Search),
      findAugmentingPathAroundCandidatesSourceVertices g m l fuel st = some st1 →
      ∀ fuel2, fuel ≤ fuel2 →
        findAugmentingPathAroundCandidatesSourceVertices g m l fuel2 st = some st1 := by
  intro fuel
  induction fuel with
  | zero =>
    intro st st1 h fuel2 _
    unfold findAugmentingPathAroundCandidatesSourceVertices at h
    by_cases hc : (st.fault || st.atree.isAugmentingPathFound) = true
    · rw [if_pos hc] at h
      cases fuel2 with
      | zero =>
        unfold findAugmentingPathAroundCandidatesSourceVertices
        rw [if_pos hc]
        exact h
      | succ f2 =>
        unfold findAugmentingPathAroundCandidatesSourceVertices
        rw [if_pos hc]
        exact h
    · rw [if_neg hc] at h
      cases hq : st.queue with
      | nil =>
        rw [hq] at h
        cases fuel2 with
        | zero =>
          unfold findAugmentingPathAroundCandidatesSourceVertices
          rw [if_neg hc, hq]
          exact h
        | succ f2 =>
          unfold findAugmentingPathAroundCandidatesSourceVertices
          rw [if_neg hc, hq]
          exact h
      | cons s rest =>
        rw [hq] at h
        cases h
  | succ f ih =>
    intro st st1 h fuel2 hle
    obtain ⟨f2, rfl⟩ : ∃ f2, fuel2 = f2 + 1 := ⟨fuel2 - 1, by omega⟩
    unfold findAugmentingPathAroundCandidatesSourceVertices at h ⊢
    by_cases hc : (st.fault || st.atree.isAugmentingPathFound) = true
    · rw [if_pos hc] at h ⊢
      exact h
    · rw [if_neg hc] at h ⊢
      cases hq : st.queue with
      | nil =>
        rw [hq] at h
        exact h
      | cons s rest =>
        rw [hq] at h
        exact ih _ _ h f2 (by omega)

/-- The invariants of the search at the head of the loop and at the calls of
`updateLabelingAndSlack`; at the calls the queue is empty and no path end is
recorded. -/
theorem reached_inv {g : BipartiteMatchingGraph} (hg : g.WellFormed) (hs : g.SimpleEdges)
    {m : Matching} {p : SearchPhase} {l : VertexLabeling} {st : Search}
    (h : Reached g m p l st) :
    MatchingInv g m ∧
    ∃ rank, SearchInv g m st rank ∧ LabelInv g m l st ∧ SlackNonzero st (fun _ _ => True) ∧
      st.atree.root_exposed_source_vertex < g.ncliques ∧
      (p = SearchPhase.updateCall →
        st.queue = [] ∧ st.atree.end_exposed_target_vertex = none) := by
  induction h with
  | enter l order root hrs _ ho hroot =>
    obtain ⟨hm, hl⟩ := roundStart_inv hg hs hrs
    obtain ⟨hmem, hexp⟩ := findExposedSourceVertex_exposed hm hroot
    refine ⟨hm, fun _ => 0, searchInv_init hm root hexp l, labelInv_init hs hl root,
      slackNonzero_init hm root hexp l, ho root hmem, ?_⟩
    intro hp
    cases hp
  | search l st fuel st1 _ hf ho hnf hA hf1 ho1 hnf1 ih =>
    obtain ⟨hm, rank, hsi, hli, hnz, hroot, _⟩ := ih
    obtain ⟨st2, hA2, hgr, hnz2, hstop⟩ := phaseA_prog hg hm l
      (max fuel (st.queue.length + (g.ncliques - countT st.atree g.ncliques))) st rank hsi
      hli hnz (Nat.le_max_right _ _)
    have hA3 := phaseA_fuel_mono g m l fuel st st1 hA
      (max fuel (st.queue.length + (g.ncliques - countT st.atree g.ncliques)))
      (Nat.le_max_left _ _)
    rw [hA3] at hA2
    have heq : st1 = st2 := Option.some.inj hA2
    subst heq
    obtain ⟨rank1, hsi1⟩ := phaseA_inv hm l fuel st st1 rank hsi hA
    have hli1 := phaseA_label l fuel st st1 hli hA
    have hend1 : st1.atree.end_exposed_target_vertex = none :=
      end_none_of_not_found (by rw [hnf1]; decide)
    refine ⟨hm, rank1, hsi1, hli1, hnz2, by rw [hgr.root_eq]; exact hroot, ?_⟩
    intro _
    rcases hstop with h | h
    · exact absurd hend1 h
    · exact ⟨h, hend1⟩
  | update l st1 _ hso hd hlo ih =>
    obtain ⟨hm, rank1, hs1, hlb1, hnz1, hroot1, hq⟩ := ih
    obtain ⟨hq1, hend1⟩ := hq rfl
    have hlo2 : (l.update g.ncliques (st1.slack.minCostSlack st1.atree g.ncliques)
        st1.atree).2 = false := hlo
    have hB : SearchInv g m
        { queue := st1.queue, atree := st1.atree,
          slack := (st1.slack.simplifyMinCostSlack st1.atree g.ncliques).2.1,
          overflow := st1.overflow, fault := st1.fault } rank1 :=
      { tree := hs1.tree
        queue_S := hs1.queue_S
        slack := simplifyMinCostSlack_refs hs1.slack st1.atree g.ncliques
        no_fault := hs1.no_fault
        path_end := hs1.path_end
        end_not_T := hs1.end_not_T }
    have hLB := LabelInv.update_step hg hm hs1 hlb1 hend1 hlo2
    have hnzB : SlackNonzero
        { queue := st1.queue, atree := st1.atree,
          slack := (st1.slack.simplifyMinCostSlack st1.atree g.ncliques).2.1,
          overflow := st1.overflow, fault := st1.fault } (fun t _ => t ∈ ([] : List Nat)) :=
      fun _ _ _ _ _ _ _ _ hsel => by cases hsel
    obtain ⟨j1, j2, _⟩ := phaseB_prog hg hm
      (l.update g.ncliques (st1.slack.simplifyMinCostSlack st1.atree g.ncliques).1 st1.atree).1
      (List.range g.ncliques) [] _ rank1 hB hLB hnzB
    obtain ⟨rank2, hs2⟩ := phaseB_inv hm
      (l.update g.ncliques (st1.slack.simplifyMinCostSlack st1.atree g.ncliques).1 st1.atree).1
      (List.range g.ncliques) _ rank1 hB
    have hlb2 := phaseB_label hm
      (l.update g.ncliques (st1.slack.simplifyMinCostSlack st1.atree g.ncliques).1 st1.atree).1
      (List.range g.ncliques) _ rank1 hB hLB
    refine ⟨hm, rank2, hs2, hlb2, ?_, ?_, ?_⟩
    · intro hend0 t s0 e3 hT hsrc hedge hq2 _
      obtain ⟨_, e4, h4, h4g, _, h4t⟩ := hs2.slack.some_src t s0 hsrc
      apply j2 hend0 t s0 e3 hT hsrc hedge hq2
      simp only [List.nil_append, List.mem_range]
      rw [← h4t]
      exact (wellFormed_of_mem hg h4g).2
    · have := j1.root_eq
      simp only at this
      rw [this]
      exact hroot1
    · intro hp
      cases hp

end wpm

namespace wpm

/-! ## Feasible labeling, tight matching, positive `delta` -/

theorem exists_enum_of_mem {g : BipartiteMatchingGraph} {e : BMEdge} (he : e ∈ g.edges) :
    ∃ k, (k, e) ∈ g.edges.enum := by
  obtain ⟨k, hk⟩ := List.mem_iff_getElem?.1 he
  exact ⟨k, List.mk_mem_enum_iff_getElem?.2 hk⟩

theorem LabelOK.feasible_edge {g : BipartiteMatchingGraph} {m : Matching} {l : VertexLabeling}
    (h : LabelOK g m l) {e : BMEdge} (he : e ∈ g.edges) :
    e.score ≤ l.ls e.v_source + l.lt e.v_target := by
  obtain ⟨k, hk⟩ := exists_enum_of_mem he
  exact h.feasible (k, e) hk

/-- At a call of `updateLabelingAndSlack` the value of `delta` is positive. -/
theorem updateCall_delta_pos {g : BipartiteMatchingGraph} (hg : g.WellFormed)
    (hs : g.SimpleEdges) {m : Matching} {l : VertexLabeling} {st1 : Search}
    (h : Reached g m SearchPhase.updateCall l st1) :
    0 < (st1.slack.simplifyMinCostSlack st1.atree g.ncliques).1 := by
  obtain ⟨_, rank, hs1, hlb1, hnz1, _, hq⟩ := reached_inv hg hs h
  obtain ⟨hq1, hend1⟩ := hq rfl
  have hne := minCostSlack_ne_zero hs1 hnz1 hend1 hq1
  have hge := minCostSlack_nonneg hs1 hlb1
  rw [simplify_delta]
  omega

/-- The labeling and the search state after a call of `updateLabelingAndSlack`
that did not overflow and the second phase are those of the next head of the
loop. -/
theorem reached_after_update {g : BipartiteMatchingGraph} (hg : g.WellFormed)
    (hs : g.SimpleEdges) {m : Matching} {l : VertexLabeling} {st1 : Search}
    (h : Reached g m SearchPhase.updateCall l st1)
    (hso : (st1.slack.simplifyMinCostSlack st1.atree g.ncliques).2.2 = false)
    (hlo : (l.update g.ncliques (st1.slack.simplifyMinCostSlack st1.atree g.ncliques).1
      st1.atree).2 = false) :
    Reached g m SearchPhase.loopHead
      (l.update g.ncliques (st1.slack.simplifyMinCostSlack st1.atree g.ncliques).1
        st1.atree).1
      (findAugmentingPathFromNewReachableTargetVertices g m
        (l.update g.ncliques (st1.slack.simplifyMinCostSlack st1.atree g.ncliques).1
          st1.atree).1
        (List.range g.ncliques)
        { queue := st1.queue, atree := st1.atree
          slack := (st1.slack.simplifyMinCostSlack st1.atree g.ncliques).2.1
          overflow := st1.overflow, fault := st1.fault }) :=
  Reached.update l st1 h hso (ne_of_gt (updateCall_delta_pos hg hs h)) hlo

/-- The search loop never reports that `delta` is 0. -/
theorem searchLoop_never_none {g : BipartiteMatchingGraph} (hg : g.WellFormed)
    (hs : g.SimpleEdges) {m : Matching} :
    ∀ (fuel : Nat) (l : VertexLabeling) (st : Search) (l1 : VertexLabeling),
      Reached g m SearchPhase.loopHead l st →
      searchLoop g m fuel l st ≠ Outcome.done (none, l1) := by
  intro fuel
  induction fuel with
  | zero =>
    intro l st l1 _ h
    simp [searchLoop] at h
  | succ f ih =>
    intro l st l1 hr h
    obtain ⟨hm, rank, hsi, _, _, _, _⟩ := reached_inv hg hs hr
    simp only [searchLoop] at h
    by_cases hov : st.overflow = true
    · rw [Search.check_overflow _ hsi.no_fault hov] at h
      cases h
    rw [Search.check_pass _ hsi.no_fault hov] at h
    by_cases hfound : st.atree.isAugmentingPathFound = true
    · rw [if_pos hfound] at h
      simp at h
    rw [if_neg hfound] at h
    cases hA : findAugmentingPathAroundCandidatesSourceVertices g m l f st with
    | none =>
      simp only [hA] at h
      cases h
    | some st1 =>
      simp only [hA] at h
      obtain ⟨rank1, hs1⟩ := phaseA_inv hm l f st st1 rank hsi hA
      by_cases hov1 : st1.overflow = true
      · rw [Search.check_overflow _ hs1.no_fault hov1] at h
        cases h
      rw [Search.check_pass _ hs1.no_fault hov1] at h
      by_cases hfound1 : st1.atree.isAugmentingPathFound = true
      · rw [if_pos hfound1] at h
        simp at h
      rw [if_neg hfound1] at h
      have hr1 : Reached g m SearchPhase.updateCall l st1 :=
        Reached.search l st f st1 hr hsi.no_fault (by simpa using hov) (by simpa using hfound)
          hA hs1.no_fault (by simpa using hov1) (by simpa using hfound1)
      have hdpos := updateCall_delta_pos hg hs hr1
      by_cases hso : (st1.slack.simplifyMinCostSlack st1.atree g.ncliques).2.2 = true
      · rw [if_pos hso] at h
        cases h
      rw [if_neg hso] at h
      have hdz : ¬ ((st1.slack.simplifyMinCostSlack st1.atree g.ncliques).1 == 0) = true := by
        simp only [beq_iff_eq]
        omega
      rw [if_neg hdz] at h
      by_cases hlo : (l.update g.ncliques (st1.slack.simplifyMinCostSlack st1.atree g.ncliques).1
          st1.atree).2 = true
      · rw [if_pos hlo] at h
        cases h
      rw [if_neg hlo] at h
      have hr2 := reached_after_update hg hs hr1 (by simpa using hso) (by simpa using hlo)
      obtain ⟨_, rank2, hs2, _, _, _, _⟩ := reached_inv hg hs hr2
      by_cases hov2 : (findAugmentingPathFromNewReachableTargetVertices g m
          (l.update g.ncliques (st1.slack.simplifyMinCostSlack st1.atree g.ncliques).1
            st1.atree).1
          (List.range g.ncliques)
          { queue := st1.queue, atree := st1.atree,
            slack := (st1.slack.simplifyMinCostSlack st1.atree g.ncliques).2.1,
            overflow := st1.overflow, fault := st1.fault }).overflow = true
      · rw [Search.check_overflow _ hs2.no_fault hov2] at h
        cases h
      rw [Search.check_pass _ hs2.no_fault hov2] at h
      by_cases hfound2 : (findAugmentingPathFromNewReachableTargetVertices g m
          (l.update g.ncliques (st1.slack.simplifyMinCostSlack st1.atree g.ncliques).1
            st1.atree).1
          (List.range g.ncliques)
          { queue := st1.queue, atree := st1.atree,
            slack := (st1.slack.simplifyMinCostSlack st1.atree g.ncliques).2.1,
            overflow := st1.overflow, fault := st1.fault }).atree.isAugmentingPathFound = true
      · rw [if_pos hfound2] at h
        simp at h
      rw [if_neg hfound2] at h
      exact ih _ _ l1 hr2 h

/-- The state of the third round on the graph of the test
`FindHighestWeightMatch` at its call of `updateLabelingAndSlack`. -/
theorem thirdRoundUpdate_reached :
    Reached highestWeightGraph twoRounds.1 SearchPhase.updateCall twoRounds.2
      thirdRoundUpdate :=
  Reached.search twoRounds.2 (initialSearch highestWeightGraph 2 twoRounds.2) 10 _
    (Reached.enter twoRounds.2 [0, 1, 2] 2
      (RoundStart.next [0, 1, 2] 10 _ _ _ _
        (RoundStart.next [0, 1, 2] 10 _ _ _ _ RoundStart.first (by rfl)) (by rfl))
      (by decide) (by decide) (by rfl))
    (by rfl) (by rfl) (by rfl) (by rfl) (by rfl) (by rfl) (by rfl)

theorem twoRounds_start : RoundStart highestWeightGraph twoRounds.1 twoRounds.2 :=
  RoundStart.next [0, 1, 2] 10 _ _ _ _
    (RoundStart.next [0, 1, 2] 10 _ _ _ _ RoundStart.first (by rfl)) (by rfl)

/-- Claim C37: on a graph whose edges join cliques of the graph, with at most
one edge per ordered pair, before the first round and after every round of
`augmentMatching` that returned true (a round in which an `int` computation
overflows returns nothing), every edge of the matching is an edge of the graph
with `l(s) + l(t) = w(s,t)` under the labeling at that time. -/
theorem matched_edges_tight (g : BipartiteMatchingGraph) (hg : g.WellFormed)
    (hs : g.SimpleEdges) (m : Matching) (l : VertexLabeling) (h : RoundStart g m l) :
    ∀ e ∈ m.edges, e ∈ g.edges.enum ∧ l.ls e.2.v_source + l.lt e.2.v_target = e.2.score := by
  obtain ⟨hm, hl⟩ := roundStart_inv hg hs h
  intro e he
  exact ⟨hm.mem_edges he, hl.matched_tight e.2.v_source e ((hm.edges_iff e).1 he)⟩

theorem matched_edges_tight_witness :
    highestWeightGraph.WellFormed ∧ highestWeightGraph.SimpleEdges ∧
    RoundStart highestWeightGraph twoRounds.1 twoRounds.2 ∧
    twoRounds.1.edges = [(0, ⟨-5, 0, 1⟩), (2, ⟨0, 1, 0⟩)] ∧
    ∀ e ∈ twoRounds.1.edges, e ∈ highestWeightGraph.edges.enum ∧
      twoRounds.2.ls e.2.v_source + twoRounds.2.lt e.2.v_target = e.2.score :=
  ⟨by decide, by decide, twoRounds_start, by decide,
    matched_edges_tight highestWeightGraph (by decide) (by decide) twoRounds.1 twoRounds.2
      twoRounds_start⟩

/-- Claim C33: on a graph whose edges join cliques of the graph, with at most
one edge per ordered pair, the initial labeling gives every source half the
value of `_getVertexMaxEdgeScore` on its edges and every target half 0, and
satisfies `l(s) + l(t) >= w(s,t)` for every edge; the inequality holds for every
edge between the rounds, at every head of the loop of `augmentMatching` and at
every call of `updateLabelingAndSlack`, and it holds for the labeling that a
call of `updateLabelingAndSlack` produces without overflow. -/
theorem labeling_stays_feasible (g : BipartiteMatchingGraph) (hg : g.WellFormed)
    (hs : g.SimpleEdges) :
    (∀ c, c < g.ncliques →
      (VertexLabeling.setToTriviallyFeasibleVertexLabeling g).ls c =
        VertexLabeling.getVertexMaxEdgeScore (g.sourceEdges c) ∧
      (VertexLabeling.setToTriviallyFeasibleVertexLabeling g).lt c = 0) ∧
    (∀ e ∈ g.edges,
      e.score ≤ (VertexLabeling.setToTriviallyFeasibleVertexLabeling g).ls e.v_source +
        (VertexLabeling.setToTriviallyFeasibleVertexLabeling g).lt e.v_target) ∧
    (∀ (m : Matching) (l : VertexLabeling), RoundStart g m l →
      ∀ e ∈ g.edges, e.score ≤ l.ls e.v_source + l.lt e.v_target) ∧
    (∀ (m : Matching) (p : SearchPhase) (l : VertexLabeling) (st : Search),
      Reached g m p l st → ∀ e ∈ g.edges, e.score ≤ l.ls e.v_source + l.lt e.v_target) ∧
    (∀ (m : Matching) (l : VertexLabeling) (st1 : Search),
      Reached g m SearchPhase.updateCall l st1 →
      (st1.slack.simplifyMinCostSlack st1.atree g.ncliques).2.2 = false →
      (l.update g.ncliques (st1.slack.simplifyMinCostSlack st1.atree g.ncliques).1
        st1.atree).2 = false →
      ∀ e ∈ g.edges,
        e.score ≤
          (l.update g.ncliques (st1.slack.simplifyMinCostSlack st1.atree g.ncliques).1
            st1.atree).1.ls e.v_source +
          (l.update g.ncliques (st1.slack.simplifyMinCostSlack st1.atree g.ncliques).1
            st1.atree).1.lt e.v_target) := by
  refine ⟨?_, ?_, ?_, ?_, ?_⟩
  · intro c hc
    obtain ⟨h1, h2⟩ := setToTriviallyFeasibleVertexLabeling_spec g c
    rw [if_pos hc] at h1
    exact ⟨h1, h2⟩
  · intro e he
    exact (labelOK_init hg).feasible_edge he
  · intro m l h e he
    exact (roundStart_inv hg hs h).2.feasible_edge he
  · intro m p l st h e he
    obtain ⟨_, _, _, hli, _⟩ := reached_inv hg hs h
    exact hli.ok.feasible_edge he
  · intro m l st1 h hso hlo e he
    obtain ⟨_, _, _, hli, _⟩ := reached_inv hg hs (reached_after_update hg hs h hso hlo)
    exact hli.ok.feasible_edge he

theorem labeling_stays_feasible_witness :
    highestWeightGraph.WellFormed ∧ highestWeightGraph.SimpleEdges ∧
    Reached highestWeightGraph twoRounds.1 SearchPhase.updateCall twoRounds.2
      thirdRoundUpdate ∧
    ((∀ c, c < highestWeightGraph.ncliques →
      (VertexLabeling.setToTriviallyFeasibleVertexLabeling highestWeightGraph).ls c =
        VertexLabeling.getVertexMaxEdgeScore (highestWeightGraph.sourceEdges c) ∧
      (VertexLabeling.setToTriviallyFeasibleVertexLabeling highestWeightGraph).lt c = 0) ∧
    (∀ e ∈ highestWeightGraph.edges,
      e.score ≤
        (VertexLabeling.setToTriviallyFeasibleVertexLabeling highestWeightGraph).ls e.v_source +
        (VertexLabeling.setToTriviallyFeasibleVertexLabeling highestWeightGraph).lt
          e.v_target) ∧
    (∀ (m : Matching) (l : VertexLabeling), RoundStart highestWeightGraph m l →
      ∀ e ∈ highestWeightGraph.edges, e.score ≤ l.ls e.v_source + l.lt e.v_target) ∧
    (∀ (m : Matching) (p : SearchPhase) (l : VertexLabeling) (st : Search),
      Reached highestWeightGraph m p l st →
      ∀ e ∈ highestWeightGraph.edges, e.score ≤ l.ls e.v_source + l.lt e.v_target) ∧
    (∀ (m : Matching) (l : VertexLabeling) (st1 : Search),
      Reached highestWeightGraph m SearchPhase.updateCall l st1 →
      (st1.slack.simplifyMinCostSlack st1.atree highestWeightGraph.ncliques).2.2 = false →
      (l.update highestWeightGraph.ncliques
        (st1.slack.simplifyMinCostSlack st1.atree highestWeightGraph.ncliques).1
        st1.atree).2 = false →
      ∀ e ∈ highestWeightGraph.edges,
        e.score ≤
          (l.update highestWeightGraph.ncliques
            (st1.slack.simplifyMinCostSlack st1.atree highestWeightGraph.ncliques).1
            st1.atree).1.ls e.v_source +
          (l.update highestWeightGraph.ncliques
            (st1.slack.simplifyMinCostSlack st1.atree highestWeightGraph.ncliques).1
            st1.atree).1.lt e.v_target)) :=
  ⟨by decide, by decide, thirdRoundUpdate_reached,
    labeling_stays_feasible highestWeightGraph (by decide) (by decide)⟩

/-- Claim C38: on a graph whose edges join cliques of the graph, with at most
one edge per ordered pair, at every call of `updateLabelingAndSlack` the value
of `delta` is positive; the loop of `augmentMatching` never ends through the
test `delta == 0`, and `augmentMatching` returns false only through its first
test, when the matching already has `N` edges. -/
theorem delta_positive (g : BipartiteMatchingGraph) (hg : g.WellFormed) (hs : g.SimpleEdges) :
    (∀ (m : Matching) (l : VertexLabeling) (st1 : Search),
      Reached g m SearchPhase.updateCall l st1 →
      0 < (st1.slack.simplifyMinCostSlack st1.atree g.ncliques).1) ∧
    (∀ (m : Matching) (l : VertexLabeling) (st : Search) (fuel : Nat) (l1 : VertexLabeling),
      Reached g m SearchPhase.loopHead l st →
      searchLoop g m fuel l st ≠ Outcome.done (none, l1)) ∧
    (∀ (m : Matching) (l : VertexLabeling) (order : List Nat) (fuel : Nat) (m1 : Matching)
      (l1 : VertexLabeling), RoundStart g m l → (∀ c ∈ order, c < g.ncliques) →
      augmentMatching g order fuel m l = Outcome.done (false, m1, l1) →
      m.getNumberEdges = g.ncliques) := by
  refine ⟨fun m l st1 h => updateCall_delta_pos hg hs h,
    fun m l st fuel l1 h => searchLoop_never_none hg hs fuel l st l1 h, ?_⟩
  intro m l order fuel m1 l1 hrs ho hrun
  by_contra hne
  unfold augmentMatching at hrun
  rw [if_neg hne] at hrun
  cases hroot : findExposedSourceVertex order m with
  | none =>
    simp only [hroot] at hrun
    cases hrun
  | some root =>
    simp only [hroot] at hrun
    have hr : Reached g m SearchPhase.loopHead l (initialSearch g root l) :=
      Reached.enter l order root hrs hne ho hroot
    have hnn : ∀ l2, searchLoop g m fuel l (initialSearch g root l) ≠ Outcome.done (none, l2) :=
      fun l2 => searchLoop_never_none hg hs fuel l (initialSearch g root l) l2 hr
    unfold initialSearch at hnn
    split at hrun
    · cases hrun
    · cases hrun
    · cases hrun
    · rename_i l2 heq
      exact hnn l2 heq
    · rename_i atree l2 heq
      split at hrun
      · cases hrun
      · cases hrun
      · cases hrun
      · simp at hrun

theorem delta_positive_witness :
    highestWeightGraph.WellFormed ∧ highestWeightGraph.SimpleEdges ∧
    Reached highestWeightGraph twoRounds.1 SearchPhase.updateCall twoRounds.2
      thirdRoundUpdate ∧
    (thirdRoundUpdate.slack.simplifyMinCostSlack thirdRoundUpdate.atree 3).1 = 5 ∧
    ((∀ (m : Matching) (l : VertexLabeling) (st1 : Search),
      Reached highestWeightGraph m SearchPhase.updateCall l st1 →
      0 < (st1.slack.simplifyMinCostSlack st1.atree highestWeightGraph.ncliques).1) ∧
    (∀ (m : Matching) (l : VertexLabeling) (st : Search) (fuel : Nat) (l1 : VertexLabeling),
      Reached highestWeightGraph m SearchPhase.loopHead l st →
      searchLoop highestWeightGraph m fuel l st ≠ Outcome.done (none, l1)) ∧
    (∀ (m : Matching) (l : VertexLabeling) (order : List Nat) (fuel : Nat) (m1 : Matching)
      (l1 : VertexLabeling), RoundStart highestWeightGraph m l →
      (∀ c ∈ order, c < highestWeightGraph.ncliques) →
      augmentMatching highestWeightGraph order fuel m l = Outcome.done (false, m1, l1) →
      m.getNumberEdges = highestWeightGraph.ncliques)) :=
  ⟨by decide, by decide, thirdRoundUpdate_reached, by decide,
    delta_positive highestWeightGraph (by decide) (by decide)⟩

end wpm

namespace wpm

/-! ## The labeling update lowers the sum of the labels -/

end wpm

namespace wpm

/-! ## The augmentation step -/

/-- Between the rounds the arrays of the matching describe a matching of the
graph. -/
theorem roundStart_matchingInv {g : BipartiteMatchingGraph} {m : Matching}
    {l : VertexLabeling} (h : RoundStart g m l) : MatchingInv g m := by
  induction h with
  | first => exact matchingInv_empty g
  | next order fuel m l m1 l1 _ hrun ih =>
    exact (augmentMatching_inv ih order fuel l l1 hrun).1

/-- The search keeps the root of the tree. -/
theorem searchLoop_root {g : BipartiteMatchingGraph} {m : Matching} :
    ∀ (fuel : Nat) (l : VertexLabeling) (st : Search) (a : AlternatingTree)
      (l1 : VertexLabeling), searchLoop g m fuel l st = Outcome.done (some a, l1) →
      a.root_exposed_source_vertex = st.atree.root_exposed_source_vertex := by
  intro fuel
  induction fuel with
  | zero =>
    intro l st a l1 h
    simp [searchLoop] at h
  | succ n ih =>
    intro l st a l1 h
    simp only [searchLoop] at h
    have h1 := Search.check_done h
    split at h1
    · simp only [Outcome.done.injEq, Prod.mk.injEq, Option.some.injEq] at h1
      rw [← h1.1]
    · split at h1
      · cases h1
      · rename_i st1 hA
        have hr1 := phaseA_root g m l n st st1 hA
        have h2 := Search.check_done h1
        split at h2
        · simp only [Outcome.done.injEq, Prod.mk.injEq, Option.some.injEq] at h2
          rw [← h2.1, hr1]
        · split at h2
          · cases h2
          · split at h2
            · simp at h2
            · split at h2
              · cases h2
              · have h3 := Search.check_done h2
                have hr2 := phaseB_root g m
                  (l.update g.ncliques (st1.slack.simplifyMinCostSlack st1.atree g.ncliques).1
                    st1.atree).1 (List.range g.ncliques)
                  { queue := st1.queue, atree := st1.atree,
                    slack := (st1.slack.simplifyMinCostSlack st1.atree g.ncliques).2.1,
                    overflow := st1.overflow, fault := st1.fault }
                split at h3
                · simp only [Outcome.done.injEq, Prod.mk.injEq, Option.some.injEq] at h3
                  rw [← h3.1, hr2, hr1]
                · rw [ih _ _ a l1 h3, hr2, hr1]

/-- The removals of `applyAugmentingPath` keep the matched edges that are not
removed. -/
theorem foldl_removeEdgePtr_keep {g : BipartiteMatchingGraph} :
    ∀ (R : List (Option EdgeRef)) (m : Matching), MatchingInv g m →
      (∀ r ∈ R, ∃ e2, r = some e2 ∧ m.source_edges e2.2.v_source = some e2) → R.Nodup →
      (∀ s e, m.source_edges s = some e → some e ∉ R →
        (R.foldl Matching.removeEdgePtr m).source_edges s = some e) ∧
      (∀ t e, m.target_edges t = some e → some e ∉ R →
        (R.foldl Matching.removeEdgePtr m).target_edges t = some e) := by
  intro R
  induction R with
  | nil =>
    intro m _ _ _
    exact ⟨fun s e h _ => h, fun t e h _ => h⟩
  | cons r rest ih =>
    intro m hm hR hnd
    obtain ⟨e2, rfl, he2⟩ := hR r (List.mem_cons_self _ _)
    have hnd2 := List.nodup_cons.1 hnd
    have ht2 : m.target_edges e2.2.v_target = some e2 := (hm.src_edge _ _ he2).2.2
    have hm1 : MatchingInv g (m.removeEdge e2) := hm.removeEdge e2 he2
    have heq := hm.removeEdge_eq e2 he2
    have hsrc1 : ∀ s, (m.removeEdge e2).source_edges s =
        if s = e2.2.v_source then none else m.source_edges s := by
      intro s; rw [heq]; rfl
    have htgt1 : ∀ t, (m.removeEdge e2).target_edges t =
        if t = e2.2.v_target then none else m.target_edges t := by
      intro t; rw [heq]; rfl
    have hR1 : ∀ r ∈ rest, ∃ e3, r = some e3 ∧
        (m.removeEdge e2).source_edges e3.2.v_source = some e3 := by
      intro r hr
      obtain ⟨e3, rfl, he3⟩ := hR r (List.mem_cons_of_mem _ hr)
      refine ⟨e3, rfl, ?_⟩
      rw [hsrc1]
      have hne : e3.2.v_source ≠ e2.2.v_source := by
        intro hc
        rw [hc, he2] at he3
        cases he3
        exact hnd2.1 hr
      simp [hne, he3]
    obtain ⟨i1, i2⟩ := ih (m.removeEdge e2) hm1 hR1 hnd2.2
    simp only [List.foldl_cons, Matching.removeEdgePtr]
    constructor
    · intro s e hs hnot
      have hne2 : e ≠ e2 := by
        intro hc
        rw [hc] at hnot
        exact hnot (List.mem_cons_self _ _)
      apply i1 s e
      · rw [hsrc1]
        have : s ≠ e2.2.v_source := by
          intro hc
          rw [hc, he2] at hs
          exact hne2 (Option.some.inj hs).symm
        rw [if_neg this]
        exact hs
      · exact fun hc => hnot (List.mem_cons_of_mem _ hc)
    · intro t e ht hnot
      have hne2 : e ≠ e2 := by
        intro hc
        rw [hc] at hnot
        exact hnot (List.mem_cons_self _ _)
      apply i2 t e
      · rw [htgt1]
        have : t ≠ e2.2.v_target := by
          intro hc
          rw [hc, ht2] at ht
          exact hne2 (Option.some.inj ht).symm
        rw [if_neg this]
        exact ht
      · exact fun hc => hnot (List.mem_cons_of_mem _ hc)

/-- After the additions of `applyAugmentingPath`, a source or target that was
matched, or that is an end of an added edge, is matched. -/
theorem foldl_addEdge_matched :
    ∀ (A : List EdgeRef) (m : Matching),
      (∀ s, ((m.source_edges s).isSome = true ∨ ∃ x ∈ A, x.2.v_source = s) →
        ((A.foldl Matching.addEdge m).source_edges s).isSome = true) ∧
      (∀ t, ((m.target_edges t).isSome = true ∨ ∃ x ∈ A, x.2.v_target = t) →
        ((A.foldl Matching.addEdge m).target_edges t).isSome = true) := by
  intro A
  induction A with
  | nil =>
    intro m
    constructor
    · intro s h
      rcases h with h | ⟨x, hx, _⟩
      · exact h
      · cases hx
    · intro t h
      rcases h with h | ⟨x, hx, _⟩
      · exact h
      · cases hx
  | cons a rest ih =>
    intro m
    obtain ⟨i1, i2⟩ := ih (m.addEdge a)
    simp only [List.foldl_cons]
    constructor
    · intro s h
      apply i1
      by_cases hs : s = a.2.v_source
      · left
        simp [Matching.addEdge, upd_apply, hs]
      · rcases h with h | ⟨x, hx, hxs⟩
        · left
          simp only [Matching.addEdge, upd_apply, hs, if_false]
          exact h
        · rcases List.mem_cons.1 hx with hx | hx
          · rw [hx] at hxs
            exact absurd hxs.symm hs
          · exact Or.inr ⟨x, hx, hxs⟩
    · intro t h
      apply i2
      by_cases ht : t = a.2.v_target
      · left
        simp [Matching.addEdge, upd_apply, ht]
      · rcases h with h | ⟨x, hx, hxt⟩
        · left
          simp only [Matching.addEdge, upd_apply, ht, if_false]
          exact h
        · rcases List.mem_cons.1 hx with hx | hx
          · rw [hx] at hxt
            exact absurd hxt.symm ht
          · exact Or.inr ⟨x, hx, hxt⟩

/-- Along an augmenting path, an added edge enters the target the walk starts
from, an added edge leaves the root, and both ends of every removed edge are
ends of added edges. -/
theorem augPath_cover {g : BipartiteMatchingGraph} {m : Matching} {a : AlternatingTree}
    {rank : Nat → Nat} (hm : MatchingInv g m) (ht : TreeInv g m a rank) :
    ∀ (t : Nat) (A : List EdgeRef) (R : List (Option EdgeRef)), AugPath a t A R →
      ∀ (s : Nat) (e : EdgeRef), a.target_prev t = some s → a.target_prev_edge t = some e →
        a.set_S s = true → e.2.v_source = s → e.2.v_target = t →
        (∃ x ∈ A, x.2.v_target = t) ∧
        (∃ x ∈ A, x.2.v_source = a.root_exposed_source_vertex) ∧
        (∀ r ∈ R, ∃ e2, r = some e2 ∧ (∃ x ∈ A, x.2.v_source = e2.2.v_source) ∧
          (∃ y ∈ A, y.2.v_target = e2.2.v_target)) := by
  intro t A R hp
  induction hp with
  | last t e s he hs hprev =>
    intro s1 e1 hs1 he1 hS hsrc hdst
    rw [hs] at hs1
    rw [he] at he1
    cases hs1
    cases he1
    have hroot : s = a.root_exposed_source_vertex := by
      by_contra hne
      obtain ⟨e2, _, h2, _⟩ := ht.S_inv s hS hne
      rw [hprev] at h2
      cases h2
    refine ⟨⟨e, List.mem_singleton.2 rfl, hdst⟩, ⟨e, List.mem_singleton.2 rfl, ?_⟩, ?_⟩
    · rw [hsrc, hroot]
    · intro r hr
      cases hr
  | step t e s t2 A R he hs hprev _ ih =>
    intro s1 e1 hs1 he1 hS hsrc hdst
    rw [hs] at hs1
    rw [he] at he1
    cases hs1
    cases he1
    have hne : s ≠ a.root_exposed_source_vertex := by
      intro hc
      rw [hc, ht.root_prev] at hprev
      cases hprev
    obtain ⟨e2, hse2, hprev2, hpe2, hT2⟩ := ht.S_inv s hS hne
    rw [hprev] at hprev2
    cases hprev2
    obtain ⟨s2, e3, e4, h1, h2, h3, _, h5, h6, _, _, _⟩ := ht.T_inv _ hT2
    have he2src : e2.2.v_source = s := (hm.src_edge _ _ hse2).2.1
    obtain ⟨⟨y, hy, hyt⟩, ⟨z, hz, hzr⟩, i3⟩ := ih s2 e3 h1 h2 h3 h5 h6
    rw [hpe2]
    refine ⟨⟨e, List.mem_cons_self _ _, hdst⟩, ⟨z, List.mem_cons_of_mem _ hz, hzr⟩, ?_⟩
    intro r hr
    rcases List.mem_cons.1 hr with hr | hr
    · refine ⟨e2, hr, ⟨e, List.mem_cons_self _ _, by rw [hsrc, he2src]⟩,
        ⟨y, List.mem_cons_of_mem _ hy, hyt⟩⟩
    · obtain ⟨e5, h51, ⟨x1, hx1, hx1s⟩, ⟨y1, hy1, hy1t⟩⟩ := i3 r hr
      exact ⟨e5, h51, ⟨x1, List.mem_cons_of_mem _ hx1, hx1s⟩,
        ⟨y1, List.mem_cons_of_mem _ hy1, hy1t⟩⟩

theorem countP_range_lt (p : Nat → Bool) (n s : Nat) (hs : s < n) (hp : p s = false) :
    (List.range n).countP p + 1 ≤ n := by
  have hle : (List.range n).countP p ≤ (List.range n).length := List.countP_le_length _
  have hne : (List.range n).countP p ≠ (List.range n).length := by
    intro hc
    have := (List.countP_eq_length (p := p)).1 hc s (List.mem_range.2 hs)
    rw [hp] at this
    cases this
  rw [List.length_range] at hle hne
  omega

theorem MatchingInv.isSource_mem {g : BipartiteMatchingGraph} {m : Matching}
    (h : MatchingInv g m) (s : Nat) :
    m.isSource s = true ↔ ∃ e ∈ m.edges, e.2.v_source = s := by
  rw [h.isSource_iff]
  constructor
  · rintro ⟨e, he⟩
    have hsrc := (h.src_edge s e he).2.1
    exact ⟨e, (h.edges_iff e).2 (by rw [hsrc]; exact he), hsrc⟩
  · rintro ⟨e, he, hs⟩
    exact ⟨e, by rw [← hs]; exact (h.edges_iff e).1 he⟩

theorem MatchingInv.isTarget_mem {g : BipartiteMatchingGraph} {m : Matching}
    (h : MatchingInv g m) (t : Nat) :
    m.isTarget t = true ↔ ∃ e ∈ m.edges, e.2.v_target = t := by
  rw [h.isTarget_iff]
  constructor
  · rintro ⟨e, he⟩
    obtain ⟨_, h2, h3⟩ := h.tgt_edge t e he
    exact ⟨e, (h.edges_iff e).2 h3, h2⟩
  · rintro ⟨e, he, ht⟩
    exact ⟨e, by rw [← ht]; exact (h.src_edge _ e ((h.edges_iff e).1 he)).2.2⟩

/-- Applying the augmenting path of a search state that records a path end:
with fuel for `N` steps the walk returns, and the new matching has one edge
more, keeps every matched source and target matched, and matches the root and
the path end. -/
theorem applyAugmentingPath_covers {g : BipartiteMatchingGraph} (hg : g.WellFormed)
    {m : Matching} (hm : MatchingInv g m) {st : Search} {rank : Nat → Nat}
    (hst : SearchInv g m st rank) (t : Nat)
    (hend : st.atree.end_exposed_target_vertex = some t) (fuel : Nat)
    (hfuel : g.ncliques ≤ fuel) :
    ∃ m1, st.atree.applyAugmentingPath fuel m = Outcome.done m1 ∧ MatchingInv g m1 ∧
      m1.edges.length = m.edges.length + 1 ∧
      (∀ s, m.isSource s = true → m1.isSource s = true) ∧
      (∀ t2, m.isTarget t2 = true → m1.isTarget t2 = true) ∧
      m.isSource st.atree.root_exposed_source_vertex = false ∧
      m1.isSource st.atree.root_exposed_source_vertex = true ∧
      m.isTarget t = false ∧ m1.isTarget t = true := by
  obtain ⟨hexp, s, e, p1, p2, p3, p4, p5, p6⟩ := hst.path_end t hend
  have hsN : s < g.ncliques := by
    have := (wellFormed_of_mem hg p4).1
    rw [p5] at this
    exact this
  have hcount := countP_range_lt (fun x => st.atree.set_S x && decide (rank x < rank s))
    g.ncliques s hsN (by simp)
  obtain ⟨r, hc⟩ := collectPath_total hg hm hst.tree (g.ncliques - 1) t [] [] s e p1 p2 p3
    (by omega) fuel (by omega)
  obtain ⟨A, R⟩ := r
  have happ : st.atree.applyAugmentingPath fuel m =
      Outcome.done (A.foldl Matching.addEdge (R.foldl Matching.removeEdgePtr m)) := by
    unfold AlternatingTree.applyAugmentingPath
    simp only [hend, hc]
  obtain ⟨hm1, hlen, _⟩ := applyAugmentingPath_spec hm hst fuel happ
  obtain ⟨A2, R2, hA, hR, hp⟩ := collectPath_augPath st.atree fuel t [] [] A R hc
  simp only [List.nil_append] at hA hR
  subst hA
  subst hR
  obtain ⟨i1, i2, _, _, _⟩ :=
    augPath_spec hm hst.tree t A R hp s e p1 p2 p3 p4 p5 p6 (Or.inl hexp)
  obtain ⟨⟨x0, hx0, hx0t⟩, ⟨z0, hz0, hz0r⟩, hcov⟩ :=
    augPath_cover hm hst.tree t A R hp s e p1 p2 p3 p5 p6
  obtain ⟨k1, k2⟩ := foldl_removeEdgePtr_keep R m hm
    (fun r hr => by
      obtain ⟨e2, h1, h2, _⟩ := i1 r hr
      exact ⟨e2, h1, h2⟩) i2
  obtain ⟨a1, a2⟩ := foldl_addEdge_matched A (R.foldl Matching.removeEdgePtr m)
  have hsome : ∀ {o : Option EdgeRef}, o.isSome = true → ∃ e, o = some e :=
    fun h => Option.isSome_iff_exists.1 h
  refine ⟨_, happ, hm1, hlen, ?_, ?_, ?_, ?_, ?_, ?_⟩
  · intro s0 hs0
    obtain ⟨e0, he0⟩ := (hm.isSource_iff s0).1 hs0
    apply (hm1.isSource_iff s0).2
    apply hsome
    apply a1
    by_cases hr : some e0 ∈ R
    · obtain ⟨e2, h1, ⟨x, hx, hxs⟩, _⟩ := hcov _ hr
      cases h1
      right
      exact ⟨x, hx, by rw [hxs]; exact (hm.src_edge s0 e0 he0).2.1⟩
    · left
      rw [k1 s0 e0 he0 hr]
      rfl
  · intro t0 ht0
    obtain ⟨e0, he0⟩ := (hm.isTarget_iff t0).1 ht0
    apply (hm1.isTarget_iff t0).2
    apply hsome
    apply a2
    by_cases hr : some e0 ∈ R
    · obtain ⟨e2, h1, _, ⟨y, hy, hyt⟩⟩ := hcov _ hr
      cases h1
      right
      exact ⟨y, hy, by rw [hyt]; exact (hm.tgt_edge t0 e0 he0).2.1⟩
    · left
      rw [k2 t0 e0 he0 hr]
      rfl
  · cases hc2 : m.isSource st.atree.root_exposed_source_vertex with
    | false => rfl
    | true =>
      obtain ⟨e0, he0⟩ := (hm.isSource_iff _).1 hc2
      rw [hst.tree.root_exposed] at he0
      cases he0
  · apply (hm1.isSource_iff _).2
    apply hsome
    apply a1
    exact Or.inr ⟨z0, hz0, hz0r⟩
  · cases hc2 : m.isTarget t with
    | false => rfl
    | true =>
      obtain ⟨e0, he0⟩ := (hm.isTarget_iff _).1 hc2
      rw [hexp] at he0
      cases he0
  · apply (hm1.isTarget_iff _).2
    apply hsome
    apply a2
    exact Or.inr ⟨x0, hx0, hx0t⟩

/-- Claim C36: on a graph whose edges join cliques of the graph, when the loop
of a round of `augmentMatching` ends with an augmenting path, the tree records
a path end and has the root of the round; `applyAugmentingPath` returns for
every fuel of at least `N` steps of its walk; the new matching consists of edges
of the graph with pairwise different sources and pairwise different targets,
has one edge more than before, matches every source and every target that was
matched, and matches the root and the path end, which were not matched. -/
theorem augmentation_step (g : BipartiteMatchingGraph) (hg : g.WellFormed) (m : Matching)
    (l : VertexLabeling) (hrs : RoundStart g m l) (order : List Nat) (root : Nat)
    (hroot : findExposedSourceVertex order m = some root) (fuel : Nat) (a : AlternatingTree)
    (l1 : VertexLabeling)
    (hsearch : searchLoop g m fuel l (initialSearch g root l) = Outcome.done (some a, l1))
    (fuel2 : Nat) (hfuel : g.ncliques ≤ fuel2) :
    ∃ t_end m1, a.end_exposed_target_vertex = some t_end ∧
      a.root_exposed_source_vertex = root ∧
      a.applyAugmentingPath fuel2 m = Outcome.done m1 ∧
      (∀ e ∈ m1.edges, e ∈ g.edges.enum) ∧
      (m1.edges.map (fun e => e.2.v_source)).Nodup ∧
      (m1.edges.map (fun e => e.2.v_target)).Nodup ∧
      (∀ s, m1.isSource s = true ↔ ∃ e ∈ m1.edges, e.2.v_source = s) ∧
      (∀ t, m1.isTarget t = true ↔ ∃ e ∈ m1.edges, e.2.v_target = t) ∧
      m1.edges.length = m.edges.length + 1 ∧
      (∀ s, m.isSource s = true → m1.isSource s = true) ∧
      (∀ t, m.isTarget t = true → m1.isTarget t = true) ∧
      m.isSource root = false ∧ m1.isSource root = true ∧
      m.isTarget t_end = false ∧ m1.isTarget t_end = true := by
  have hm := roundStart_matchingInv hrs
  obtain ⟨_, hexp⟩ := findExposedSourceVertex_exposed hm hroot
  have hinit := searchInv_init hm root hexp l
  obtain ⟨st2, rank2, hst2, hat⟩ := searchLoop_inv hm fuel l (initialSearch g root l)
    (fun _ => 0) a l1 hinit hsearch
  have hfound := searchLoop_found fuel l (initialSearch g root l) a l1 hsearch
  have hr := searchLoop_root fuel l (initialSearch g root l) a l1 hsearch
  have hr2 : a.root_exposed_source_vertex = root := by
    rw [hr]
    rfl
  obtain ⟨t, ht⟩ : ∃ t, a.end_exposed_target_vertex = some t :=
    Option.isSome_iff_exists.1 hfound
  subst hat
  obtain ⟨m1, h1, h2, h3, h4, h5, h6, h7, h8, h9⟩ :=
    applyAugmentingPath_covers hg hm hst2 t ht fuel2 hfuel
  rw [hr2] at h6 h7
  exact ⟨t, m1, ht, hr2, h1, fun e he => h2.mem_edges he, h2.sources_nodup, h2.targets_nodup,
    h2.isSource_mem, h2.isTarget_mem, h3, h4, h5, h6, h7, h8, h9⟩

theorem augmentation_step_witness :
    highestWeightGraph.WellFormed ∧ RoundStart highestWeightGraph twoRounds.1 twoRounds.2 ∧
    findExposedSourceVertex [0, 1, 2] twoRounds.1 = some 2 ∧
    searchLoop highestWeightGraph twoRounds.1 10 twoRounds.2
      (initialSearch highestWeightGraph 2 twoRounds.2) =
      Outcome.done (some (foundTree highestWeightGraph twoRounds.1 10 twoRounds.2
        (initialSearch highestWeightGraph 2 twoRounds.2)).1,
        (foundTree highestWeightGraph twoRounds.1 10 twoRounds.2
          (initialSearch highestWeightGraph 2 twoRounds.2)).2) ∧
    highestWeightGraph.ncliques ≤ 3 ∧
    ∃ t_end m1,
      (foundTree highestWeightGraph twoRounds.1 10 twoRounds.2
        (initialSearch highestWeightGraph 2 twoRounds.2)).1.end_exposed_target_vertex =
        some t_end ∧
      (foundTree highestWeightGraph twoRounds.1 10 twoRounds.2
        (initialSearch highestWeightGraph 2 twoRounds.2)).1.root_exposed_source_vertex = 2 ∧
      (foundTree highestWeightGraph twoRounds.1 10 twoRounds.2
        (initialSearch highestWeightGraph 2 twoRounds.2)).1.applyAugmentingPath 3 twoRounds.1 =
        Outcome.done m1 ∧
      (∀ e ∈ m1.edges, e ∈ highestWeightGraph.edges.enum) ∧
      (m1.edges.map (fun e => e.2.v_source)).Nodup ∧
      (m1.edges.map (fun e => e.2.v_target)).Nodup ∧
      (∀ s, m1.isSource s = true ↔ ∃ e ∈ m1.edges, e.2.v_source = s) ∧
      (∀ t, m1.isTarget t = true ↔ ∃ e ∈ m1.edges, e.2.v_target = t) ∧
      m1.edges.length = twoRounds.1.edges.length + 1 ∧
      (∀ s, twoRounds.1.isSource s = true → m1.isSource s = true) ∧
      (∀ t, twoRounds.1.isTarget t = true → m1.isTarget t = true) ∧
      twoRounds.1.isSource 2 = false ∧ m1.isSource 2 = true ∧
      twoRounds.1.isTarget t_end = false ∧ m1.isTarget t_end = true :=
  ⟨by decide, RoundStart.next [0, 1, 2] 10 _ _ _ _
      (RoundStart.next [0, 1, 2] 10 _ _ _ _ RoundStart.first (by rfl)) (by rfl),
    by rfl, by rfl, by decide,
    augmentation_step highestWeightGraph (by decide) twoRounds.1 twoRounds.2
      (RoundStart.next [0, 1, 2] 10 _ _ _ _
        (RoundStart.next [0, 1, 2] 10 _ _ _ _ RoundStart.first (by rfl)) (by rfl))
      [0, 1, 2] 2 (by rfl) 10 _ _ (by rfl) 3 (by decide)⟩

end wpm

namespace wpm

/-! ## The slack array -/

theorem foldl_slackPaired (f : SlackArray × Bool → EdgeRef → SlackArray × Bool)
    (hf : ∀ acc e, SlackPaired acc.1 → SlackPaired (f acc e).1) :
    ∀ (es : List EdgeRef) (acc : SlackArray × Bool), SlackPaired acc.1 →
      SlackPaired (es.foldl f acc).1 := by
  intro es
  induction es with
  | nil => intro acc h; exact h
  | cons e rest ih =>
    intro acc h
    rw [List.foldl_cons]
    exact ih _ (hf acc e h)

theorem slackPaired_record (sa : SlackArray) (h : SlackPaired sa) (x : Int) (s : Nat)
    (e : EdgeRef) :
    SlackPaired { min_slack := upd sa.min_slack e.2.v_target x
                  source_cid := upd sa.source_cid e.2.v_target (some s)
                  edge_cid := upd sa.edge_cid e.2.v_target (some e) } := by
  intro t ht
  simp only [upd_apply] at ht ⊢
  by_cases hc : t = e.2.v_target
  · rw [if_pos hc] at ht
    cases ht
  · rw [if_neg hc] at ht
    rw [if_neg hc]
    exact h t ht

theorem init_slackPaired (root : Nat) (es : List EdgeRef) (l : VertexLabeling) :
    SlackPaired (SlackArray.init root es l).1 := by
  unfold SlackArray.init
  apply foldl_slackPaired
  · intro acc e h
    exact slackPaired_record acc.1 h _ root e
  · intro t _
    rfl

theorem updateWithNewSourceVertex_slackPaired (sa : SlackArray) (h : SlackPaired sa) (s : Nat)
    (es : List EdgeRef) (l : VertexLabeling) :
    SlackPaired (sa.updateWithNewSourceVertex s es l).1 := by
  unfold SlackArray.updateWithNewSourceVertex
  apply foldl_slackPaired
  · intro acc e h2
    split
    · exact slackPaired_record acc.1 h2 _ s e
    · exact h2
  · exact h

theorem simplifyMinCostSlack_slackPaired (sa : SlackArray) (h : SlackPaired sa)
    (a : AlternatingTree) (n : Nat) : SlackPaired (sa.simplifyMinCostSlack a n).2.1 := h

theorem scanSourceEdges_slackPaired (g : BipartiteMatchingGraph) (m : Matching)
    (l : VertexLabeling) (s : Nat) :
    ∀ (es : List EdgeRef) (st : Search), SlackPaired st.slack →
      SlackPaired (scanSourceEdges g m l s es st).slack := by
  intro es
  induction es with
  | nil => intro st h; exact h
  | cons e rest ih =>
    intro st h
    simp only [scanSourceEdges]
    split
    · split
      · exact h
      · split
        · exact h
        · apply ih
          exact updateWithNewSourceVertex_slackPaired st.slack h _ _ l
    · exact ih _ h

theorem phaseA_slackPaired (g : BipartiteMatchingGraph) (m : Matching) (l : VertexLabeling) :
    ∀ (fuel : Nat) (st st2 : Search),
      findAugmentingPathAroundCandidatesSourceVertices g m l fuel st = some st2 →
      SlackPaired st.slack → SlackPaired st2.slack := by
  intro fuel
  induction fuel with
  | zero =>
    intro st st2 hr h
    simp only [findAugmentingPathAroundCandidatesSourceVertices] at hr
    split at hr
    · cases hr
      exact h
    · split at hr
      · cases hr
        exact h
      · cases hr
  | succ n ih =>
    intro st st2 hr h
    simp only [findAugmentingPathAroundCandidatesSourceVertices] at hr
    split at hr
    · cases hr
      exact h
    · split at hr
      · cases hr
        exact h
      · exact ih _ st2 hr (scanSourceEdges_slackPaired g m l _ _ _ h)

theorem phaseB_slackPaired (g : BipartiteMatchingGraph) (m : Matching) (l : VertexLabeling) :
    ∀ (cs : List Nat) (st : Search), SlackPaired st.slack →
      SlackPaired (findAugmentingPathFromNewReachableTargetVertices g m l cs st).slack := by
  intro cs
  induction cs with
  | nil => intro st h; exact h
  | cons c rest ih =>
    intro st h
    simp only [findAugmentingPathFromNewReachableTargetVertices]
    split
    · exact h
    · split
      · split
        · exact h
        · split
          · exact h
          · split
            · apply ih
              exact updateWithNewSourceVertex_slackPaired st.slack h _ _ l
            · exact ih _ h
      · exact ih _ h

/-- At the head of the loop and at the calls of `updateLabelingAndSlack`, an
entry of the slack array without witness source has no witness edge. -/
theorem reached_slackPaired {g : BipartiteMatchingGraph} {m : Matching} {p : SearchPhase}
    {l : VertexLabeling} {st : Search} (h : Reached g m p l st) : SlackPaired st.slack := by
  induction h with
  | enter l order root _ _ _ _ => exact init_slackPaired root _ l
  | search l st fuel st1 _ _ _ _ hA _ _ _ ih => exact phaseA_slackPaired g m l fuel st st1 hA ih
  | update l st1 _ _ _ _ ih =>
    apply phaseB_slackPaired
    exact simplifyMinCostSlack_slackPaired st1.slack ih st1.atree g.ncliques

/-- Claim C34, failing input: on `staleSlackGraph`, whose edges join cliques of
the graph with at most one edge per ordered pair and which has the perfect
matching `0 -> 2`, `1 -> 0`, `2 -> 1`, the third round with the clique order
`[0, 1, 2]` calls `updateLabelingAndSlack` a second time with an empty queue;
target 2 is not in `T`, the edge from source 0 of `S` to target 2 is the only
edge into target 2 and has slack `2147483642` under the labeling of that moment,
and the slack array holds `2147483647` for target 2, with no witness source and
no witness edge. The constructor of `SlackArray` does record an edge of slack
`INT_MAX` (the first round, root 0); `updateWithNewSourceVertex` did not when
source 0 joined `S`. At that call `simplifyMinCostSlack` finds no candidate and
gives `delta = INT_MAX`, and the run ends with an `int` overflow. -/
theorem slack_entry_not_minimum :
    staleSlackGraph.WellFormed ∧ staleSlackGraph.SimpleEdges ∧
    Reached staleSlackGraph staleRounds.1 SearchPhase.updateCall staleLabeling
      staleSecondUpdate ∧
    staleSecondUpdate.queue = [] ∧
    staleSecondUpdate.atree.set_T 2 = false ∧
    (1, (⟨-2147483647, 0, 2⟩ : BMEdge)) ∈ staleSlackGraph.edges.enum ∧
    staleSecondUpdate.atree.set_S 0 = true ∧
    (∀ e ∈ staleSlackGraph.edges.enum, e.2.v_target = 2 →
      staleSecondUpdate.atree.set_S e.2.v_source = true ∧
      staleLabeling.ls e.2.v_source + staleLabeling.lt 2 - e.2.score = 2147483642) ∧
    staleSecondUpdate.slack.min_slack 2 = 2147483647 ∧
    staleSecondUpdate.slack.source_cid 2 = none ∧
    staleSecondUpdate.slack.edge_cid 2 = none ∧
    (initialSearch staleSlackGraph 0
      (VertexLabeling.setToTriviallyFeasibleVertexLabeling staleSlackGraph)).slack.min_slack 2 =
        2147483647 ∧
    (initialSearch staleSlackGraph 0
      (VertexLabeling.setToTriviallyFeasibleVertexLabeling staleSlackGraph)).slack.source_cid 2 =
        some 0 ∧
    (staleSecondUpdate.slack.simplifyMinCostSlack staleSecondUpdate.atree
      staleSlackGraph.ncliques).1 = INT_MAX ∧
    IsPerfectMatching staleSlackGraph
      [(1, ⟨-2147483647, 0, 2⟩), (2, ⟨0, 1, 0⟩), (3, ⟨0, 2, 1⟩)] ∧
    findRandomPerfectMatching staleSlackGraph (fun _ => [0, 1, 2]) 10 = Outcome.overflow :=
  ⟨by decide, by decide,
    Reached.search _ _ 10 _
      (Reached.update staleRounds.2 staleFirstUpdate
        (Reached.search staleRounds.2 (initialSearch staleSlackGraph 2 staleRounds.2) 10 _
          (Reached.enter staleRounds.2 [0, 1, 2] 2
            (RoundStart.next [0, 1, 2] 10 _ _ _ _
              (RoundStart.next [0, 1, 2] 10 _ _ _ _ RoundStart.first (by rfl)) (by rfl))
            (by decide) (by decide) (by rfl))
          (by rfl) (by rfl) (by rfl) (by rfl) (by rfl) (by rfl) (by rfl))
        (by rfl) (by decide) (by rfl))
      (by rfl) (by rfl) (by rfl) (by rfl) (by rfl) (by rfl) (by rfl),
    by decide, by decide, by decide, by decide, by decide, by decide, by decide, by decide,
    by decide, by decide, by decide,
    { edges_mem := by decide
      sources := by decide
      targets := by decide },
    by rfl⟩

/-- What the slack array does hold on a graph whose edges join cliques of the
graph, with at most one edge per ordered pair, at every head of the loop of
`augmentMatching` and at every call of `updateLabelingAndSlack`, for a target
`t` not in `T`: if some edge from a source in `S` to `t` has a slack
`l(s) + l(t) - w(s,t)` below `INT_MAX - l(x)` for every target `x` in `T`, then
the slack array records a witness source in `S` and a witness edge of the graph
from that source to `t`, `slack[t]` is the slack of the witness edge, and no
edge from `S` to `t` has a smaller slack; and if no edge from `S` enters `t`,
the entry has neither witness source nor witness edge and holds `INT_MAX`. -/
theorem slack_array_invariant (g : BipartiteMatchingGraph) (hg : g.WellFormed)
    (hs : g.SimpleEdges) (m : Matching) (p : SearchPhase) (l : VertexLabeling) (st : Search)
    (h : Reached g m p l st) (t : Nat) (ht : st.atree.set_T t = false) :
    ((∃ e ∈ g.edges.enum, e.2.v_target = t ∧ st.atree.set_S e.2.v_source = true ∧
        ∀ x, x < g.ncliques → st.atree.set_T x = true →
          l.ls e.2.v_source + l.lt t - e.2.score < INT_MAX - l.lt x) →
      ∃ s e, st.slack.source_cid t = some s ∧ st.slack.edge_cid t = some e ∧
        e ∈ g.edges.enum ∧ e.2.v_source = s ∧ e.2.v_target = t ∧
        st.atree.set_S s = true ∧
        st.slack.min_slack t = l.ls s + l.lt t - e.2.score ∧
        ∀ e2 ∈ g.edges.enum, e2.2.v_target = t → st.atree.set_S e2.2.v_source = true →
          st.slack.min_slack t ≤ l.ls e2.2.v_source + l.lt t - e2.2.score) ∧
    ((∀ e ∈ g.edges.enum, e.2.v_target = t → st.atree.set_S e.2.v_source = false) →
      st.slack.source_cid t = none ∧ st.slack.edge_cid t = none ∧
        st.slack.min_slack t = INT_MAX) := by
  obtain ⟨hm, rank, hsi, hli, _, _, _⟩ := reached_inv hg hs h
  have hpair := reached_slackPaired h
  constructor
  · rintro ⟨e, he, het, heS, hsmall⟩
    have hle : st.slack.min_slack t ≤ l.ls e.2.v_source + l.lt t - e.2.score := by
      have h1 := hli.slack_min e he heS (by rw [het]; exact ht)
      rw [het] at h1
      rcases h1 with h1 | ⟨x, hx, hxT, hbig⟩
      · exact h1
      · have := hsmall x hx hxT
        omega
    have hsrc : ∃ s, st.slack.source_cid t = some s := by
      cases hc : st.slack.source_cid t with
      | some s => exact ⟨s, rfl⟩
      | none =>
        exfalso
        have hmax := hsi.slack.none_src t hc
        by_cases hroot : e.2.v_source = st.atree.root_exposed_source_vertex
        · have := hli.root_rec e he hroot
          rw [het] at this
          exact this hc
        · obtain ⟨e2, _, _, _, hT2⟩ := hsi.tree.S_inv _ heS hroot
          obtain ⟨_, e3, _, _, _, _, he3, _, he3t, _⟩ := hsi.tree.T_inv _ hT2
          have hlt : e2.2.v_target < g.ncliques := by
            have := (wellFormed_of_mem hg he3).2
            rw [he3t] at this
            exact this
          have h1 := hsmall _ hlt hT2
          have h2 := hli.ok.lt_nonneg e2.2.v_target
          omega
    obtain ⟨s, hsrc⟩ := hsrc
    obtain ⟨hS, ew, hew, hewg, hews, hewt⟩ := hsi.slack.some_src t s hsrc
    have hval := hli.slack_witness t s ew hsrc hew
    refine ⟨s, ew, hsrc, hew, hewg, hews, hewt, hS, hval, ?_⟩
    intro e2 he2 he2t he2S
    have h1 := hli.slack_min e2 he2 he2S (by rw [he2t]; exact ht)
    rw [he2t] at h1
    rcases h1 with h1 | ⟨x, hx, hxT, hbig⟩
    · exact h1
    · have := hsmall x hx hxT
      omega
  · intro hno
    have hnone : st.slack.source_cid t = none := by
      cases hc : st.slack.source_cid t with
      | none => rfl
      | some s =>
        exfalso
        obtain ⟨hS, ew, _, hewg, hews, hewt⟩ := hsi.slack.some_src t s hc
        have := hno ew hewg hewt
        rw [hews, hS] at this
        cases this
    exact ⟨hnone, hpair t hnone, hsi.slack.none_src t hnone⟩

theorem slack_array_invariant_witness :
    staleSlackGraph.WellFormed ∧ staleSlackGraph.SimpleEdges ∧
    Reached staleSlackGraph staleRounds.1 SearchPhase.updateCall staleRounds.2
      staleFirstUpdate ∧
    staleFirstUpdate.atree.set_T 0 = false ∧
    (∃ e ∈ staleSlackGraph.edges.enum, e.2.v_target = 0 ∧
      staleFirstUpdate.atree.set_S e.2.v_source = true ∧
      ∀ x, x < staleSlackGraph.ncliques → staleFirstUpdate.atree.set_T x = true →
        staleRounds.2.ls e.2.v_source + staleRounds.2.lt 0 - e.2.score <
          INT_MAX - staleRounds.2.lt x) ∧
    ∃ s e, staleFirstUpdate.slack.source_cid 0 = some s ∧
      staleFirstUpdate.slack.edge_cid 0 = some e ∧
      e ∈ staleSlackGraph.edges.enum ∧ e.2.v_source = s ∧ e.2.v_target = 0 ∧
      staleFirstUpdate.atree.set_S s = true ∧
      staleFirstUpdate.slack.min_slack 0 =
        staleRounds.2.ls s + staleRounds.2.lt 0 - e.2.score ∧
      ∀ e2 ∈ staleSlackGraph.edges.enum, e2.2.v_target = 0 →
        staleFirstUpdate.atree.set_S e2.2.v_source = true →
        staleFirstUpdate.slack.min_slack 0 ≤
          staleRounds.2.ls e2.2.v_source + staleRounds.2.lt 0 - e2.2.score :=
  ⟨by decide, by decide,
    Reached.search staleRounds.2 (initialSearch staleSlackGraph 2 staleRounds.2) 10 _
      (Reached.enter staleRounds.2 [0, 1, 2] 2
        (RoundStart.next [0, 1, 2] 10 _ _ _ _
          (RoundStart.next [0, 1, 2] 10 _ _ _ _ RoundStart.first (by rfl)) (by rfl))
        (by decide) (by decide) (by rfl))
      (by rfl) (by rfl) (by rfl) (by rfl) (by rfl) (by rfl) (by rfl),
    by decide, by decide,
    (slack_array_invariant staleSlackGraph (by decide) (by decide) staleRounds.1
      SearchPhase.updateCall staleRounds.2 staleFirstUpdate
      (Reached.search staleRounds.2 (initialSearch staleSlackGraph 2 staleRounds.2) 10 _
        (Reached.enter staleRounds.2 [0, 1, 2] 2
          (RoundStart.next [0, 1, 2] 10 _ _ _ _
            (RoundStart.next [0, 1, 2] 10 _ _ _ _ RoundStart.first (by rfl)) (by rfl))
          (by decide) (by decide) (by rfl))
        (by rfl) (by rfl) (by rfl) (by rfl) (by rfl) (by rfl) (by rfl))
      0 (by decide)).1 (by decide)⟩

end wpm

namespace wpm

/-! ## Completeness on graphs with bounded scores -/

/-- Scores between `-C` and 0 with `(2 N + 2) C` at most `INT_MAX` fit an
`int`. -/
theorem scoresInRange_of_within {g : BipartiteMatchingGraph} {C : Int}
    (hC : g.ScoresWithin C) (hN : (2 * (g.ncliques : Int) + 2) * C ≤ INT_MAX) :
    g.ScoresInRange := by
  intro e he
  obtain ⟨c1, c2⟩ := hC e he
  have e2 : (2 * (g.ncliques : Int) + 2) * C = 2 * ((g.ncliques : Int) * C) + 2 * C := by
    ring
  have hC0 : 0 ≤ C := by omega
  have hNC : 0 ≤ (g.ncliques : Int) * C := mul_nonneg (Int.ofNat_nonneg _) hC0
  rw [e2] at hN
  unfold INT_MAX at hN
  simp only [inIntRange, INT_MIN, INT_MAX, Bool.and_eq_true, decide_eq_true_eq]
  omega

/-- The first rounds of `findPerfectMatching` return: while cliques are left to
match, the rounds end with an overflow or with a matching. -/
theorem augmentRounds_total_le {g : BipartiteMatchingGraph} (hg : g.WellFormed)
    (hs : g.SimpleEdges) (hr : g.ScoresInRange) (orders : Nat → List Nat)
    (ho : ∀ i, (orders i).Perm (List.range g.ncliques)) (fuel : Nat)
    (hfuel : 2 * g.ncliques + 4 ≤ fuel) :
    ∀ (k i : Nat) (m : Matching) (l : VertexLabeling), MatchingInv g m → LabelOK g m l →
      m.edges.length + k ≤ g.ncliques →
      augmentRounds g orders fuel k i m l = Outcome.overflow ∨
        ∃ m1, augmentRounds g orders fuel k i m l = Outcome.done (some m1) := by
  intro k
  induction k with
  | zero =>
    intro i m l _ _ _
    exact Or.inr ⟨m, rfl⟩
  | succ k ih =>
    intro i m l hm hl hlen
    simp only [augmentRounds]
    rcases augmentMatching_total hg hs hr hm hl (by omega) (orders i) (ho i) fuel hfuel with
      h | ⟨m1, l1, h⟩
    · left
      rw [h]
    · obtain ⟨h1, h2⟩ := augmentMatching_inv hm (orders i) fuel l l1 h
      have h3 := augmentMatching_label hg hs hm (orders i) fuel l l1 hl h
      rw [h]
      exact ih (i + 1) m1 l1 h1 h3 (by omega)

/-- Claim C18, amended: the only check of `NonMatchingGraph::deserialize` on a
constraint token is that its target id is below the vertex count. Every graph
it accepts holds its vertices at the positions of their ids, and every stored
edge leaves the vertex that stores it and has a target id below `N`; the target
may be the storing vertex itself. -/
theorem deserialize_checks_target_range (is rest : IStream) (G : NonMatchingGraph)
    (h : NonMatchingGraph.deserialize is = Parsed.accept G rest) :
    G.IdsArePositions ∧
    ∀ v ∈ G.vertices, ∀ e ∈ v.constraints,
      e.v_source = v.id ∧ e.v_target < G.vertices.length := by
  obtain ⟨hst, _⟩ := deserialize_stored h
  exact ⟨hst.ids, fun v hv e he => ⟨hst.sources v hv e he, hst.targets v hv e he⟩⟩

/-- Witness of the amended C18 on the text `nv 2`, `v 0 0(1)`, `v 1`, whose
graph stores the edge `0 -> 0`. -/
theorem deserialize_checks_target_range_witness :
    NonMatchingGraph.deserialize ⟨"nv 2\nv 0 0(1)\nv 1\n".toList, true⟩ =
      Parsed.accept ⟨[⟨0, [⟨0, 0, 1⟩]⟩, ⟨1, []⟩]⟩ ⟨[], true⟩ ∧
    (NonMatchingGraph.mk [⟨0, [⟨0, 0, 1⟩]⟩, ⟨1, []⟩]).IdsArePositions ∧
    ∀ v ∈ (NonMatchingGraph.mk [⟨0, [⟨0, 0, 1⟩]⟩, ⟨1, []⟩]).vertices, ∀ e ∈ v.constraints,
      e.v_source = v.id ∧
        e.v_target < (NonMatchingGraph.mk [⟨0, [⟨0, 0, 1⟩]⟩, ⟨1, []⟩]).vertices.length :=
  ⟨by rfl,
    deserialize_checks_target_range ⟨"nv 2\nv 0 0(1)\nv 1\n".toList, true⟩ ⟨[], true⟩
      ⟨[⟨0, [⟨0, 0, 1⟩]⟩, ⟨1, []⟩]⟩ (by rfl)⟩

end wpm
